import Mathlib

/-!
# SYMPHONY LP process communication

Shallow embedding of `src/src/coin/Symphony/lp_proccomm.cpp`: the node-description
diff codec (`pack_array_desc_diff`, `pack_base_diff`, `pack_extra_diff`,
`pack_basis_diff`), the message handlers (`check_ub`, `process_message`,
`lp_process_ub_message`, `receive_active_node`), the cut collection loop of
`receive_cuts`, the in-process path of `send_node_desc` with its repricing branch and
with the description it builds (`build_tm_desc`), the message-passing build of
`send_node_desc` (`send_node_desc_message`), and `send_branching_info`; and of
`src/include/ogdf/basic/extended_graph_alg.h`: `inducedSubGraph`, `inducedSubgraph`,
`computeMinST` and `makeMinimumSpanningTree`.

Conventions of the embedding.
* A C `int` is an `Int`; loop counters that start at `0` and only grow are `Nat`.
  The arithmetic on sizes and counters stays within twice a list size. Where the values
  come from the data, the result is reduced to the range of an `int` by `wrap_int`: the
  difference of list entries `oldlist[i] - newlist[j]` in `pack_extra_diff`, and the sums
  of edge weights in `computeMinST` and `makeMinimumSpanningTree`, whose weight type is
  taken as `int`.
* An `int*` argument that is only read is the `List Int` of the cells it points to;
  a read `p[i]` is `p.getD i 0`.
* The scratch area `itmp` is written, so it is a memory `Nat → Int` indexed by the
  offset from `itmp`; a pointer into it is an offset.
* The two build variants are selected by the Boolean `compile_in_lp`
  (`true` is the in-process build, `#ifdef COMPILE_IN_LP`).
* The outgoing message buffer is the flat sequence of values appended by the
  `send_*_array` calls.
* A C `double` is the rational number it stands for; infinities and NaN are outside
  the embedding. Stored values are compared exactly. Sums and differences of doubles are
  rounded by the machine: they are the parameters `dbl_add` and `dbl_sub`, of which
  nothing is assumed.
* A call that does not return, because it writes through a pointer that was freed or
  reads a null pointer, has the result `none`.
* The search tree and the decoding of a stored description belong to the tree manager,
  whose files are not among the sources: what is retrieved from the tree after a call
  (`retrieve_node`) and what a stored description decodes to (`decode_array`,
  `decode_base`, `decode_extra`) are modelled from the spec.
* Constants whose header is not among the sources are the fields of `lp_constants`,
  and functions defined in other files are the fields of `lp_callbacks` and
  `tree_callbacks`; the statements hold for every choice of them, except where a
  hypothesis says otherwise.
* Message tags, node types, node statuses and the policies for pruned nodes are
  inductive types with one constructor per name used in the file and a constructor
  `other` for every remaining code.
* What the receive calls of the collection loop bring is a list of events, each with
  the clock reading the loop takes after it.
* The classes of OGDF are declared outside the sources. Nodes and edges are numbers, a
  graph is its node list and edge list with the two ends of every edge and the adjacency
  list of every node, and a null handle is `none`. The heap of `computeMinST` is the list
  of its nodes with their priorities, the disjoint sets of `makeMinimumSpanningTree` are
  given by the representative of every set; the methods `extractMin` and `quicksort` are
  parameters, and what is assumed of them is a hypothesis (`heap_min`, `sort_ok`). Edge
  weights are of the type `int`.
-/

/-- Storage tag of an array or status description (`char type`). -/
inductive desc_type where
  | NO_DATA_STORED
  | EXPLICIT_LIST
  | WRT_PARENT
  deriving DecidableEq, Repr

open desc_type

/-- The C struct `array_desc`: tag, number of entries, number of added entries
(meaningful for `WRT_PARENT`), and the cells `list` points to. -/
structure array_desc where
  type : desc_type
  size : Int
  added : Int
  list : List Int
  deriving DecidableEq, Repr

/-- One value appended to the outgoing message buffer. -/
inductive wire_val where
  | tag (t : desc_type)
  | flag (b : Bool)
  | int (v : Int)
  deriving DecidableEq, Repr

/-- The `n` cells `p[off], ..., p[off + n - 1]` of a read-only array. -/
def cells (p : List Int) (off n : Nat) : List Int :=
  (List.range n).map (fun t => p.getD (off + t) 0)

/-- The call `send_int_array(p + off, n)` for a read-only array `p`. -/
def send_int_array (p : List Int) (off : Nat) (n : Int) : List wire_val :=
  (cells p off n.toNat).map wire_val.int

/-- The assignment `m[a] = v` on the scratch memory. -/
def store (m : Nat → Int) (a : Nat) (v : Int) : Nat → Int :=
  fun x => if x = a then v else m x

/-- The call `memcpy(m + dst, src + off, len * ISIZE)` with `src` outside the scratch memory. -/
def memcpy_in (m : Nat → Int) (dst : Nat) (src : List Int) (off len : Nat) : Nat → Int :=
  fun x => if dst ≤ x ∧ x < dst + len then src.getD (off + (x - dst)) 0 else m x

/-- The call `memcpy(m + dst, m + src, len * ISIZE)` inside the scratch memory. -/
def memcpy_within (m : Nat → Int) (dst src len : Nat) : Nat → Int :=
  fun x => if dst ≤ x ∧ x < dst + len then m (src + (x - dst)) else m x

/-- The `len` cells of the scratch memory starting at offset `off`. -/
def rd (m : Nat → Int) (off len : Nat) : List Int :=
  (List.range len).map (fun t => m (off + t))

/-- Loop variables of the merge loop of `pack_array_desc_diff`, with the scratch memory. -/
structure diff_state where
  i : Nat
  j : Nat
  k : Nat
  l : Nat
  itmp : Nat → Int

/-- The loop condition `i < origsize && j < newsize && k + l < newsize`. -/
def diff_cond (origsize newsize : Int) (s : diff_state) : Prop :=
  (s.i : Int) < origsize ∧ (s.j : Int) < newsize ∧ (s.k : Int) + (s.l : Int) < newsize

instance (origsize newsize : Int) (s : diff_state) : Decidable (diff_cond origsize newsize s) := by
  unfold diff_cond; exact inferInstance

/-- One pass through the body of the merge loop (lines 1286-1298); `iadd = itmp`,
`isub = itmp + newsize`. -/
def diff_body (origlist newlist : List Int) (newsize : Int) (s : diff_state) : diff_state :=
  if origlist.getD s.i 0 < newlist.getD s.j 0 then
    { s with itmp := store s.itmp (newsize.toNat + s.l) (origlist.getD s.i 0),
             l := s.l + 1, i := s.i + 1 }
  else if origlist.getD s.i 0 = newlist.getD s.j 0 then
    { s with i := s.i + 1, j := s.j + 1 }
  else
    { s with itmp := store s.itmp s.k (newlist.getD s.j 0), k := s.k + 1, j := s.j + 1 }

/-- The merge loop of `pack_array_desc_diff` (lines 1283-1299), run for at most `fuel` passes. -/
def diff_loop (origlist newlist : List Int) (origsize newsize : Int) :
    Nat → diff_state → diff_state
  | 0, s => s
  | fuel + 1, s =>
    if diff_cond origsize newsize s then
      diff_loop origlist newlist origsize newsize fuel (diff_body origlist newlist newsize s)
    else s

/-- What `pack_array_desc_diff` leaves behind: the returned description, the scratch
memory, and the values appended to the message buffer. -/
structure diff_result where
  desc : array_desc
  itmp : Nat → Int
  sent : List wire_val

/-- The function `pack_array_desc_diff` (lines 1257-1335). `pack_array_desc` is defined
outside this file and is a parameter: the values it appends for a description.
Every pass of the loop advances `i` or `j`, so `origsize + newsize` passes suffice. -/
def pack_array_desc_diff (compile_in_lp : Bool) (pack_array_desc : array_desc → List wire_val)
    (ad new_ad : array_desc) (itmp : Nat → Int) : diff_result :=
  let itmp0 := if compile_in_lp then store itmp 0 (-1) else itmp
  let enter : Bool :=
    if compile_in_lp then decide (new_ad.type ≠ NO_DATA_STORED ∧ new_ad.size > 0)
    else decide (¬ new_ad.type = NO_DATA_STORED ∧ ¬ new_ad.size = 0)
  if enter then
    let origsize := ad.size
    let newsize := new_ad.size
    let origlist := ad.list
    let newlist := new_ad.list
    let s := diff_loop origlist newlist origsize newsize (origsize.toNat + newsize.toNat)
      { i := 0, j := 0, k := 0, l := 0, itmp := itmp0 }
    if origsize - s.i - s.j + s.k + s.l ≥ 0 then
      { desc := new_ad,
        itmp := if compile_in_lp then store s.itmp 0 (-1) else s.itmp,
        sent := if compile_in_lp then [] else pack_array_desc new_ad }
    else
      let size := origsize - s.i + s.l + newsize - s.j + s.k
      let added := newsize - s.j + s.k
      let m1 := if newsize > s.j then
          memcpy_in s.itmp s.k newlist s.j (newsize - s.j).toNat
        else s.itmp
      let m2 := if s.l > 0 then memcpy_within m1 added.toNat newsize.toNat s.l else m1
      let m3 := if origsize > s.i then
          memcpy_in m2 (added.toNat + s.l) origlist s.i (origsize - s.i).toNat
        else m2
      let desc : array_desc :=
        { type := WRT_PARENT, size := size, added := added,
          list := if size > 0 then rd m3 0 size.toNat else [] }
      { desc := desc, itmp := m3,
        sent := if compile_in_lp then [] else pack_array_desc desc }
  else
    { desc := new_ad, itmp := itmp0,
      sent := if compile_in_lp then [] else pack_array_desc new_ad }

/-- The call `send_int_array(itmp + off, n)` for cells of the scratch memory. -/
def send_scratch (m : Nat → Int) (off : Nat) (n : Int) : List wire_val :=
  (rd m off n.toNat).map wire_val.int

/-- Loop variables of the loop of `pack_base_diff`, with the scratch memory. -/
structure base_state where
  i : Nat
  k : Nat
  itmp : Nat → Int

/-- The loop condition `i < *size && 2 * k < *size`. -/
def base_cond (size : Int) (s : base_state) : Prop :=
  (s.i : Int) < size ∧ 2 * (s.k : Int) < size

instance (size : Int) (s : base_state) : Decidable (base_cond size s) := by
  unfold base_cond; exact inferInstance

/-- One pass through the loop of `pack_base_diff` (lines 1467-1474), the `i++` included;
`list = itmp`, `stat = itmp + *size`. -/
def base_body (oldstat newstat : List Int) (size : Int) (s : base_state) : base_state :=
  if oldstat.getD s.i 0 ≠ newstat.getD s.i 0 then
    { i := s.i + 1, k := s.k + 1,
      itmp := store (store s.itmp s.k (s.i : Int)) (size.toNat + s.k) (newstat.getD s.i 0) }
  else
    { s with i := s.i + 1 }

/-- The loop of `pack_base_diff`, run for at most `fuel` passes. -/
def base_loop (oldstat newstat : List Int) (size : Int) : Nat → base_state → base_state
  | 0, s => s
  | fuel + 1, s =>
    if base_cond size s then
      base_loop oldstat newstat size fuel (base_body oldstat newstat size s)
    else s

/-- What `pack_base_diff` leaves behind: the returned tag, the value of `*size`,
the scratch memory and the values appended to the message buffer. -/
structure base_result where
  type : desc_type
  size : Int
  itmp : Nat → Int
  sent : List wire_val

/-- The function `pack_base_diff` (lines 1460-1502); `size` is the value of `*size` on
entry. Every pass advances `i`, so `*size` passes suffice. -/
def pack_base_diff (compile_in_lp : Bool) (size : Int) (oldstat newstat : List Int)
    (itmp : Nat → Int) : base_result :=
  let s := base_loop oldstat newstat size size.toNat { i := 0, k := 0, itmp := itmp }
  if 2 * (s.k : Int) < size then
    { type := WRT_PARENT, size := (s.k : Int), itmp := s.itmp,
      sent :=
        if compile_in_lp then []
        else [wire_val.tag WRT_PARENT, wire_val.int (s.k : Int)] ++
          (if s.k > 0 then
            send_scratch s.itmp 0 (s.k : Int) ++ send_scratch s.itmp size.toNat (s.k : Int)
          else []) }
  else
    { type := EXPLICIT_LIST, size := size, itmp := s.itmp,
      sent :=
        if compile_in_lp then []
        else [wire_val.tag EXPLICIT_LIST, wire_val.int size] ++
          (if size > 0 then send_int_array newstat 0 size else []) }

/-- The value a C `int` of 32 bits holds when the exact result of an addition or
subtraction is `x`: the number between `-2^31` and `2^31 - 1` that differs from `x` by a
multiple of `2^32`. -/
def wrap_int (x : Int) : Int :=
  (x + 2147483648) % 4294967296 - 2147483648

/-- Loop variables of the loop of `pack_extra_diff`, with the scratch memory
(the variable `k` of the source is set to `0` and never used). -/
structure extra_state where
  i : Nat
  j : Nat
  l : Nat
  itmp : Nat → Int

/-- The loop condition `i < oldsize && j < newsize && 2 * l < newsize`. -/
def extra_cond (oldsize newsize : Int) (s : extra_state) : Prop :=
  (s.i : Int) < oldsize ∧ (s.j : Int) < newsize ∧ 2 * (s.l : Int) < newsize

instance (oldsize newsize : Int) (s : extra_state) : Decidable (extra_cond oldsize newsize s) := by
  unfold extra_cond; exact inferInstance

/-- Offset of `modstat = itmp + newsize / 2 + 1` (C division truncates). -/
def modstat_off (newsize : Int) : Nat :=
  (Int.tdiv newsize 2 + 1).toNat

/-- The two assignments `modlist[l] = v; modstat[l] = st`. -/
def extra_record (newsize : Int) (m : Nat → Int) (l : Nat) (v st : Int) : Nat → Int :=
  store (store m l v) (modstat_off newsize + l) st

/-- One pass through the body of the loop of `pack_extra_diff` (lines 1554-1573). The
difference `tmp = oldlist[i] - newlist[j]` is taken in an `int` and wraps. -/
def extra_body (oldlist oldstat newlist newstat : List Int) (newsize : Int)
    (s : extra_state) : extra_state :=
  let tmp := wrap_int (oldlist.getD s.i 0 - newlist.getD s.j 0)
  if tmp < 0 then
    { s with i := s.i + 1 }
  else if tmp > 0 then
    { s with itmp := extra_record newsize s.itmp s.l (newlist.getD s.j 0) (newstat.getD s.j 0),
             l := s.l + 1, j := s.j + 1 }
  else if oldstat.getD s.i 0 ≠ newstat.getD s.j 0 then
    { itmp := extra_record newsize s.itmp s.l (newlist.getD s.j 0) (newstat.getD s.j 0),
      l := s.l + 1, i := s.i + 1, j := s.j + 1 }
  else
    { s with i := s.i + 1, j := s.j + 1 }

/-- The loop of `pack_extra_diff` (lines 1551-1574), run for at most `fuel` passes. -/
def extra_loop (oldlist oldstat newlist newstat : List Int) (oldsize newsize : Int) :
    Nat → extra_state → extra_state
  | 0, s => s
  | fuel + 1, s =>
    if extra_cond oldsize newsize s then
      extra_loop oldlist oldstat newlist newstat oldsize newsize fuel
        (extra_body oldlist oldstat newlist newstat newsize s)
    else s

/-- What `pack_extra_diff` leaves behind: the returned tag, the value of `*size`,
the scratch memory and the values appended to the message buffer. -/
structure extra_result where
  type : desc_type
  size : Int
  itmp : Nat → Int
  sent : List wire_val

/-- The function `pack_extra_diff` (lines 1506-1617); `size` is the value of `*size` on
entry. Every pass advances `i` or `j`, so `oldsize + newsize` passes suffice. -/
def pack_extra_diff (compile_in_lp : Bool) (olddesc : array_desc) (oldstat : List Int)
    (newdesc : array_desc) (newstat : List Int)
    (oldbasis_type_in_tm newdesc_type_in_tm : desc_type)
    (itmp : Nat → Int) (size : Int) : extra_result :=
  let oldsize := olddesc.size
  let oldlist := olddesc.list
  let newsize := newdesc.size
  let newlist := newdesc.list
  if newdesc_type_in_tm = EXPLICIT_LIST ∨ oldbasis_type_in_tm = EXPLICIT_LIST then
    { type := EXPLICIT_LIST, size := size, itmp := itmp,
      sent :=
        if compile_in_lp then []
        else [wire_val.tag EXPLICIT_LIST, wire_val.int newsize] ++
          (if newsize > 0 then send_int_array newstat 0 newsize else []) }
  else
    let s := extra_loop oldlist oldstat newlist newstat oldsize newsize
      (oldsize.toNat + newsize.toNat) { i := 0, j := 0, l := 0, itmp := itmp }
    let size1 : Int := newsize - s.j + s.l
    if 2 * size1 < newsize then
      { type := WRT_PARENT, size := size1,
        itmp :=
          if compile_in_lp then
            if newsize - s.j > 0 then
              memcpy_in (memcpy_in s.itmp s.l newlist s.j (newsize - s.j).toNat)
                (modstat_off newsize + s.l) newstat s.j (newsize - s.j).toNat
            else s.itmp
          else s.itmp,
        sent :=
          if compile_in_lp then []
          else [wire_val.tag WRT_PARENT, wire_val.int size1] ++
            (if size1 > 0 then
              (if s.l > 0 then send_scratch s.itmp 0 (s.l : Int) else []) ++
              (if newsize - s.j > 0 then send_int_array newlist s.j (newsize - s.j) else []) ++
              (if s.l > 0 then send_scratch s.itmp (modstat_off newsize) (s.l : Int) else []) ++
              (if newsize - s.j > 0 then send_int_array newstat s.j (newsize - s.j) else [])
            else []) }
    else
      { type := EXPLICIT_LIST, size := size1, itmp := s.itmp,
        sent :=
          if compile_in_lp then []
          else [wire_val.tag EXPLICIT_LIST, wire_val.int newsize] ++
            (if newsize > 0 then send_int_array newstat 0 newsize else []) }

/-- The C struct `double_array_desc` of a basis block: tag, number of entries, and the
cells `list` and `stat` point to. -/
structure double_array_desc where
  type : desc_type
  size : Int
  list : List Int
  stat : List Int
  deriving DecidableEq, Repr

/-- The C struct `basis_desc`: the `basis_exists` flag and the four status blocks. -/
structure basis_desc where
  basis_exists : Bool
  basevars : double_array_desc
  extravars : double_array_desc
  baserows : double_array_desc
  extrarows : double_array_desc
  deriving DecidableEq, Repr

/-- The packed content of a cut (`cut_data`, declared outside this file). -/
abbrev cut_data := List Int

/-- The fields of the C struct `node_desc` that the diff codec touches, the user blob,
and the cuts unpacked for the indices of `cutind`. -/
structure node_desc where
  uind : array_desc
  basis : basis_desc
  not_fixed : array_desc
  nf_status : Int
  cutind : array_desc
  desc_size : Int
  desc : List Int
  cuts : List cut_data := []
  deriving DecidableEq, Repr

/-- A block after `memset(..., 0, ...)`: size `0` and null pointers. The tag with
numeric value `0` is taken to be `NO_DATA_STORED` (its value is fixed in a header
outside this file); every use below overwrites or ignores it. -/
def zero_block : double_array_desc :=
  { type := NO_DATA_STORED, size := 0, list := [], stat := [] }

/-- The local `basis` after `memset((char*)(&basis), 0, sizeof(basis_desc))`. -/
def zero_basis : basis_desc :=
  { basis_exists := false, basevars := zero_block, extravars := zero_block,
    baserows := zero_block, extrarows := zero_block }

/-- The macro `PACK_BASE_DIFF(newdesc, olddesc, which)` (lines 1339-1352) for one base
block: `newb` is `newdesc->which`, `oldb` is `olddesc->which`, `which` is the zeroed
block of the local `basis`. Returns the block and the scratch memory. -/
def PACK_BASE_DIFF (newb oldb which : double_array_desc) (itmp : Nat → Int) :
    double_array_desc × (Nat → Int) :=
  let orig_size := newb.size
  let r := pack_base_diff true newb.size oldb.stat newb.stat itmp
  let size := r.size
  if r.type = WRT_PARENT then
    if size > 0 then
      ({ type := r.type, size := size, list := rd r.itmp 0 size.toNat,
         stat := rd r.itmp orig_size.toNat size.toNat }, r.itmp)
    else
      ({ which with type := r.type, size := size }, r.itmp)
  else if newb.size > 0 then
    ({ which with type := r.type, size := newb.size,
                  stat := cells newb.stat 0 newb.size.toNat }, r.itmp)
  else
    ({ which with type := r.type, size := newb.size }, r.itmp)

/-- The macro `PACK_EXTRA_DIFF(newdesc, olddesc, which1, which2, var)` (lines 1354-1369):
`newad`, `oldad` are `newdesc->which1`, `olddesc->which1`; `newb`, `oldb` are
`newdesc->which2`, `olddesc->which2`; `which2` is the zeroed block of the local `basis`;
`size` is the current value of the local `size`. Returns the block, the local `size`
and the scratch memory. -/
def PACK_EXTRA_DIFF (newad oldad : array_desc) (newb oldb which2 : double_array_desc)
    (var : desc_type) (itmp : Nat → Int) (size : Int) :
    double_array_desc × Int × (Nat → Int) :=
  let orig_size := Int.tdiv newad.size 2 + 1
  let r := pack_extra_diff true oldad oldb.stat newad newb.stat oldb.type var itmp size
  let size := r.size
  if r.type = WRT_PARENT then
    if size > 0 then
      ({ type := r.type, size := size, list := rd r.itmp 0 size.toNat,
         stat := rd r.itmp orig_size.toNat size.toNat }, size, r.itmp)
    else
      ({ which2 with type := r.type, size := size }, size, r.itmp)
  else if newb.size > 0 then
    ({ which2 with type := r.type, size := newb.size,
                   stat := cells newb.stat 0 newb.size.toNat }, size, r.itmp)
  else
    ({ which2 with type := r.type, size := newb.size }, size, r.itmp)

/-- What `pack_basis_diff` leaves behind: the returned basis, the two node descriptions
its pointer arguments refer to, the scratch memory and the values appended to the
message buffer. -/
structure basis_result where
  basis : basis_desc
  oldnode : node_desc
  newnode : node_desc
  itmp : Nat → Int
  sent : List wire_val

/-- The function `pack_basis_diff` (lines 1373-1456). `basis0` and `size0` are the
contents of the uninitialised locals `basis` and `size`. In the message-passing build
`pack_base_diff` receives the address of `newnode->basis.baserows.size`
(`newnode->basis.basevars.size`), so the value it leaves in `*size` is stored there. -/
def pack_basis_diff (compile_in_lp : Bool) (basis0 : basis_desc) (size0 : Int)
    (oldnode newnode : node_desc) (uind_type cutind_type : desc_type)
    (itmp : Nat → Int) : basis_result :=
  let sent0 : List wire_val :=
    if compile_in_lp then [] else [wire_val.flag newnode.basis.basis_exists]
  if ¬ newnode.basis.basis_exists then
    { basis := basis0, oldnode := oldnode, newnode := newnode, itmp := itmp, sent := sent0 }
  else
    let basis := zero_basis
    if compile_in_lp then
      let r1 := PACK_BASE_DIFF newnode.basis.baserows oldnode.basis.baserows basis.baserows itmp
      let r2 := PACK_EXTRA_DIFF newnode.cutind oldnode.cutind newnode.basis.extrarows
        oldnode.basis.extrarows basis.extrarows cutind_type r1.2 size0
      let r3 := PACK_BASE_DIFF newnode.basis.basevars oldnode.basis.basevars basis.basevars
        r2.2.2
      let r4 := PACK_EXTRA_DIFF newnode.uind oldnode.uind newnode.basis.extravars
        oldnode.basis.extravars basis.extravars uind_type r3.2 r2.2.1
      { basis := { basis with baserows := r1.1, extrarows := r2.1, basevars := r3.1,
                              extravars := r4.1 },
        oldnode := oldnode, newnode := newnode, itmp := r4.2.2, sent := sent0 }
    else
      let r1 := pack_base_diff false newnode.basis.baserows.size oldnode.basis.baserows.stat
        newnode.basis.baserows.stat itmp
      let newnode1 : node_desc :=
        { newnode with basis := { newnode.basis with
            baserows := { newnode.basis.baserows with size := r1.size } } }
      let r2 := pack_extra_diff false oldnode.cutind oldnode.basis.extrarows.stat
        newnode1.cutind newnode1.basis.extrarows.stat oldnode.basis.extrarows.type
        cutind_type r1.itmp size0
      let r3 := pack_base_diff false newnode1.basis.basevars.size oldnode.basis.basevars.stat
        newnode1.basis.basevars.stat r2.itmp
      let newnode2 : node_desc :=
        { newnode1 with basis := { newnode1.basis with
            basevars := { newnode1.basis.basevars with size := r3.size } } }
      let r4 := pack_extra_diff false oldnode.uind oldnode.basis.extravars.stat
        newnode2.uind newnode2.basis.extravars.stat oldnode.basis.extravars.type
        uind_type r3.itmp r2.size
      { basis := basis, oldnode := oldnode, newnode := newnode2, itmp := r4.itmp,
        sent := sent0 ++ r1.sent ++ r2.sent ++ r3.sent ++ r4.sent }

/-! ## The LP process: state, messages and their handlers -/

/-- A C `double`, by its value: every finite `double` is a rational number; NaN and the
infinities are outside the model. Two stored values are compared as such. The sum and the
difference of two values are what the machine makes of them, which need not be the exact
sum and difference: they are the fields `dbl_add` and `dbl_sub` of `lp_callbacks`, of
which nothing is assumed. -/
abbrev double := Rat

/-- Constants of the headers `sym_constants.h` and `sym_lp.h`, which are outside this
file, taken as parameters: bit masks of `colgen_strategy`, values of `nf_status`, the
result `DIFFERENT_CUTS` of `same_cuts_u`, and the codes handed to `unpack_cuts_u` and
stored in `source_pid`. -/
structure lp_constants where
  COLGEN_REPRICING : Nat
  FATHOM__DO_NOT_GENERATE_COLS__DISCARD : Nat
  FATHOM__DO_NOT_GENERATE_COLS__SEND : Nat
  NF_CHECK_NOTHING : Int
  NF_CHECK_AFTER_LAST : Int
  NF_CHECK_UNTIL_LAST : Int
  DIFFERENT_CUTS : Int
  CUT_FROM_CP : Int
  CUT_FROM_CG : Int
  UNPACK_CUTS_MULTIPLE : Int
  EXTERNAL_CUT_POOL : Int
  EXTERNAL_CUT_GEN : Int
  deriving DecidableEq, Repr

/-- The C struct `waiting_row`, with the two fields this file uses. -/
structure waiting_row where
  source_pid : Int
  cut : cut_data
  deriving DecidableEq, Repr

/-- The two time-outs of a cut collection (`p->par.first_lp`, `p->par.later_lp`). -/
structure cut_time_out where
  first_cut_time_out : double
  all_cuts_time_out : double
  deriving DecidableEq, Repr

/-- The fields of `p->par` read by the functions below. -/
structure lp_params where
  verbosity : Int
  granularity : double
  set_obj_upper_lim : Bool
  first_lp : cut_time_out
  later_lp : cut_time_out
  deriving DecidableEq, Repr

/-- The fields of `LPdata` used below. `obj_upper_lim` holds the arguments of the calls
`set_obj_upper_lim(lp_data, ·)` made so far, the latest last: that function belongs to
the LP-solver interface, outside this file, and a call is recorded with its argument. -/
structure LPdata where
  objval : double
  obj_upper_lim : List double
  deriving DecidableEq, Repr

/-- The call `set_obj_upper_lim(lp_data, lim)`, recorded. -/
def set_obj_upper_lim (lp_data : LPdata) (lim : double) : LPdata :=
  { lp_data with obj_upper_lim := lp_data.obj_upper_lim ++ [lim] }

/-- The field of `p->comp_times` used below. -/
structure node_times where
  cut_pool : double
  deriving DecidableEq, Repr

/-- The fields of the C struct `lp_prob` used by the message handlers. The array
`waiting_rows` with its count `waiting_row_num` is the list of its first
`waiting_row_num` entries; `desc` is `none` for a null pointer. -/
structure lp_prob where
  tree_manager : Int
  cut_pool : Int
  cut_gen : Int
  has_ub : Bool
  ub : double
  phase : Int
  bc_index : Int
  bc_level : Int
  iter_num : Int
  colgen_strategy : Nat
  dive : Int
  par : lp_params
  lp_data : LPdata
  comp_times : node_times
  waiting_rows : List waiting_row
  desc : Option node_desc
  bdesc : List Int
  deriving DecidableEq, Repr

/-- The count `p->waiting_row_num`. -/
def lp_prob.waiting_row_num (p : lp_prob) : Int :=
  (p.waiting_rows.length : Int)

/-- The values packed into an `LP__ACTIVE_NODE_DATA` message, in the order in which
`receive_active_node` reads them. -/
structure active_node_data where
  cut_pool : Int
  bc_index : Int
  bc_level : Int
  objval : double
  colgen_strategy : Nat
  nf_status : Int
  basis : basis_desc
  not_fixed : array_desc
  uind : array_desc
  cutind : array_desc
  cuts : List cut_data
  bdesc : List Int
  dive : Int
  desc_size : Int
  desc : List Int
  deriving DecidableEq, Repr

/-- Message tag (the `case` labels of `process_message`, any other tag being `unknown`)
with the values the handler reads from the receive buffer. -/
inductive msg_body where
  | PACKED_CUT (cut : cut_data)
  | NO_MORE_CUTS (cut_pool_cuts : Int) (cut_time : double) (index : Int) (itnum : Int)
  | UPPER_BOUND (new_ub : double)
  | LP__ACTIVE_NODE_DATA (data : active_node_data)
  | LP__SECOND_PHASE_STARTS
  | YOU_CAN_DIE
  | unknown (msgtag : Int)
  deriving DecidableEq, Repr

/-- A received message: what `bufinfo` reports as `sender`, and tag and content. -/
structure lp_msg where
  sender : Int
  body : msg_body
  deriving DecidableEq, Repr

/-- Tags of the messages the LP process sends from the handlers below. -/
inductive lp_reply where
  | LP__NODE_DISCARDED
  | LP__NODE_RESHELVED
  | LP__TIMING
  deriving DecidableEq, Repr

/-- A call of one of the decoders, which are defined outside this file. -/
inductive decoder_call where
  | unpack_basis
  | unpack_array_desc
  | unpack_cut
  deriving DecidableEq, Repr

/-- Functions of the LP process defined outside this file, taken as parameters:
`unpack_cuts_u(p, from, type, 1, &cut, &new_row_num, &new_rows)` gives the new rows,
`same_cuts_u(p, wrow1, wrow2)` its result code, and
`add_new_rows_to_waiting_rows(p, new_rows, new_row_num)` the process state it leaves.
With them come the two operations of the machine on doubles: `dbl_add a b` is the
`double` that `a + b` evaluates to and `dbl_sub a b` the one `a - b` evaluates to. -/
structure lp_callbacks where
  unpack_cuts_u : lp_prob → Int → Int → List cut_data → List waiting_row
  same_cuts_u : lp_prob → waiting_row → waiting_row → Int
  add_new_rows_to_waiting_rows : lp_prob → List waiting_row → lp_prob
  dbl_add : double → double → double
  dbl_sub : double → double → double

/-- Values of the `node_type` argument of `send_node_desc`, which are also the values
stored in `feasibility_status` (one family of constants of `sym_constants.h`); `other`
stands for any value not named in this file. -/
inductive node_type_t where
  | ROOT_NODE
  | NODE_BRANCHED_ON
  | INFEASIBLE_HOLD_FOR_NEXT_PHASE
  | OVER_UB_HOLD_FOR_NEXT_PHASE
  | INFEASIBLE_PRUNED
  | FEASIBLE_PRUNED
  | OVER_UB_PRUNED
  | DISCARDED_NODE
  | INTERRUPTED_NODE
  | NOT_PRUNED_HAS_CAN_SOLUTION
  | other (code : Int)
  deriving DecidableEq, Repr

/-- Values of `node_status`; `other` stands for any value not named in this file. -/
inductive node_status_t where
  | NODE_STATUS__PRUNED
  | NODE_STATUS__INTERRUPTED
  | NODE_STATUS__HELD
  | NODE_STATUS__BRANCHED_ON
  | NODE_STATUS__ROOT
  | other (code : Int)
  deriving DecidableEq, Repr

/-- Values of `tm->par.keep_description_of_pruned`. -/
inductive keep_policy where
  | DISCARD
  | KEEP_IN_MEMORY
  | KEEP_ON_DISK_FULL
  | KEEP_ON_DISK_VBC_TOOL
  | other (code : Int)
  deriving DecidableEq, Repr

/-- Values of `tm->par.vbc_emulation`. -/
inductive vbc_emulation_t where
  | VBC_EMULATION_FILE
  | VBC_EMULATION_FILE_NEW
  | VBC_EMULATION_LIVE
  | other (code : Int)
  deriving DecidableEq, Repr

/-- The reason handed to `purge_pruned_nodes`. -/
inductive vbc_reason where
  | VBC_PRUNED_INFEASIBLE
  | VBC_PRUNED_FATHOMED
  | VBC_FEAS_SOL_FOUND
  | VBC_PRUNED
  deriving DecidableEq, Repr

/-- A call from `send_node_desc` into the tree manager's functions, which are defined
outside this file; `count_node_for_cp cp` is the increment of the `nodes_per_cp` entry of
the cut pool `cp`, `free_subtree` is called on the root of the tree, `free_tree_node` on
the node `n`, and `propagate_nf_status` on the root with the given status. -/
inductive tm_call where
  | write_pruned_nodes
  | purge_pruned_nodes (reason : vbc_reason)
  | insert_new_node
  | count_node_for_cp (cp : Int)
  | free_subtree
  | free_tree_node
  | propagate_nf_status (nf_status : Int)
  deriving DecidableEq, Repr

/-- The fields of the C struct `bc_node` written or read by `send_node_desc`. -/
structure bc_node where
  bc_index : Int
  node_status : node_status_t
  feasibility_status : node_type_t
  lower_bound : double
  cp : Int
  desc : node_desc
  sol_size : Int
  sol_ind : List Int
  sol : List double
  deriving DecidableEq, Repr

/-- The fields of `tm->par` read by `send_node_desc`. -/
structure tm_params where
  keep_description_of_pruned : keep_policy
  vbc_emulation : vbc_emulation_t
  not_fixed_storage_size : Int
  deriving DecidableEq, Repr

/-- The fields of `tm->stat` written by `send_node_desc`. -/
structure tm_stat where
  created : Int
  tree_size : Int
  root_lb : double
  nf_status : Int
  vars_not_priced : Int
  deriving DecidableEq, Repr

/-- The fields of the tree manager's `tm_prob` used below. The array `nextphase_cand`
with its count `nextphase_candnum` is the list of its first `nextphase_candnum` entries;
`calls` holds the calls into functions defined outside this file, the latest last. -/
structure tm_prob where
  has_ub : Bool
  ub : double
  par : tm_params
  stat : tm_stat
  rootnode : Option bc_node
  samephase_candnum : Int
  nextphase_cand : List bc_node
  calls : List tm_call
  deriving DecidableEq, Repr

/-- The count `tm->nextphase_candnum`. -/
def tm_prob.nextphase_candnum (tm : tm_prob) : Int :=
  (tm.nextphase_cand.length : Int)

/-- The function `lp_process_ub_message` (lines 207-219); `new_ub` is the value read
from the receive buffer. -/
def lp_process_ub_message (env : lp_callbacks) (p : lp_prob) (new_ub : double) : lp_prob :=
  if ¬ p.has_ub ∨ (p.has_ub ∧ new_ub < p.ub) then
    let p1 : lp_prob := { p with has_ub := true, ub := new_ub }
    if p1.par.set_obj_upper_lim then
      { p1 with lp_data :=
          set_obj_upper_lim p1.lp_data (env.dbl_sub p1.ub p1.par.granularity) }
    else p1
  else p

/-- The function `check_ub` (lines 44-61). In the in-process build it reads the tree
manager's bound `tm`; in the message-passing build `r_buf` is the result of
`nreceive_msg(ANYONE, UPPER_BOUND)`: `none` for no message, else the bound it carries. -/
def check_ub (env : lp_callbacks) (compile_in_lp : Bool) (p : lp_prob) (tm : tm_prob)
    (r_buf : Option double) : lp_prob :=
  if compile_in_lp then
    if tm.has_ub then { p with has_ub := true, ub := tm.ub } else p
  else
    match r_buf with
    | some new_ub => lp_process_ub_message env p new_ub
    | none => p

/-- What `receive_active_node` leaves behind: the process state, the returned value, the
messages sent (destination and tag) and the decoder calls made, in order. -/
structure active_node_result where
  p : lp_prob
  ret : Bool
  sent : List (Int × lp_reply)
  calls : List decoder_call
  deriving DecidableEq, Repr

/-- The full decoding of `receive_active_node` (lines 276-329): `p` is the state after
the six leading fields have been read, `desc` the description under construction. -/
def receive_active_node_unpack (c : lp_constants) (p : lp_prob) (desc : node_desc)
    (d : active_node_data) : active_node_result :=
  let desc1 : node_desc := { desc with basis := d.basis }
  let calls1 : List decoder_call := [decoder_call.unpack_basis]
  let deal : Bool := decide (desc1.nf_status = c.NF_CHECK_AFTER_LAST ∨
    desc1.nf_status = c.NF_CHECK_UNTIL_LAST)
  let desc2 : node_desc := if deal then { desc1 with not_fixed := d.not_fixed } else desc1
  let calls2 := if deal then calls1 ++ [decoder_call.unpack_array_desc] else calls1
  let desc3 : node_desc := { desc2 with uind := d.uind, cutind := d.cutind }
  let calls3 := calls2 ++ [decoder_call.unpack_array_desc, decoder_call.unpack_array_desc]
  let desc4 : node_desc :=
    if desc3.cutind.size > 0 then
      { desc3 with cuts := (List.range desc3.cutind.size.toNat).map (fun i => d.cuts.getD i []) }
    else desc3
  let calls4 :=
    if desc3.cutind.size > 0 then
      calls3 ++ List.replicate desc3.cutind.size.toNat decoder_call.unpack_cut
    else calls3
  let p1 : lp_prob := if p.bc_level > 0 then { p with bdesc := d.bdesc } else p
  let p2 : lp_prob := { p1 with dive := d.dive }
  let desc5 : node_desc := { desc4 with desc_size := d.desc_size }
  let desc6 : node_desc := if desc5.desc_size > 0 then { desc5 with desc := d.desc } else desc5
  { p := { p2 with desc := some desc6 }, ret := true, sent := [], calls := calls4 }

/-- The function `receive_active_node` (lines 223-330); `desc0` is the content of the
freshly allocated description, `d` the content of the message. -/
def receive_active_node (env : lp_callbacks) (c : lp_constants) (p : lp_prob)
    (desc0 : node_desc) (d : active_node_data) : active_node_result :=
  let desc : node_desc := { desc0 with nf_status := d.nf_status }
  let p1 : lp_prob :=
    { p with desc := some desc, cut_pool := d.cut_pool, bc_index := d.bc_index,
             bc_level := d.bc_level, lp_data := { p.lp_data with objval := d.objval },
             colgen_strategy := d.colgen_strategy }
  if p1.colgen_strategy &&& c.COLGEN_REPRICING = 0 ∧ p1.has_ub ∧
      p1.lp_data.objval > env.dbl_sub p1.ub p1.par.granularity then
    if desc.nf_status = c.NF_CHECK_NOTHING ∨
        p1.colgen_strategy &&& c.FATHOM__DO_NOT_GENERATE_COLS__DISCARD ≠ 0 then
      { p := { p1 with desc := none }, ret := false,
        sent := [(p1.tree_manager, lp_reply.LP__NODE_DISCARDED)], calls := [] }
    else if p1.colgen_strategy &&& c.FATHOM__DO_NOT_GENERATE_COLS__SEND ≠ 0 then
      { p := { p1 with desc := none }, ret := false,
        sent := [(p1.tree_manager, lp_reply.LP__NODE_RESHELVED)], calls := [] }
    else receive_active_node_unpack c p1 desc d
  else receive_active_node_unpack c p1 desc d

/-- How a call of `process_message` ends: it returns a value, or the process exits. -/
inductive call_outcome where
  | returned (ret : Bool)
  | exited (code : Int)
  deriving DecidableEq, Repr

/-- What `process_message` leaves behind: the process state, how the call ended, the
cells `*pindex` and `*pitnum` (`none` for a null pointer), the messages sent and the
decoder calls made. -/
structure message_result where
  p : lp_prob
  outcome : call_outcome
  pindex : Option Int
  pitnum : Option Int
  sent : List (Int × lp_reply)
  calls : List decoder_call
  deriving DecidableEq, Repr

/-- The loop of lines 109-117 followed by the test `i < 0`, on the waiting rows taken
from the last to the first: `true` when no row stopped the loop. -/
def all_different_cuts (c : lp_constants) (same_cuts_u : waiting_row → waiting_row → Int)
    (new_row : waiting_row) : List waiting_row → Bool
  | [] => true
  | w :: ws =>
    if same_cuts_u w new_row ≠ c.DIFFERENT_CUTS then false
    else all_different_cuts c same_cuts_u new_row ws

/-- The function `process_message` (lines 72-203), built without `DO_TESTS`. `r_buf` is
`none` for `r_bufid == 0`, `tm_ok` the answer of `pstat(p->tree_manager) == PROCESS_OK`,
`pindex` and `pitnum` the cells the two pointers refer to (`none` for null), `desc0` the
content of a freshly allocated node description. -/
def process_message (env : lp_callbacks) (c : lp_constants) (p : lp_prob)
    (r_buf : Option lp_msg) (tm_ok : Bool) (pindex pitnum : Option Int)
    (desc0 : node_desc) : message_result :=
  let die : message_result :=
    { p := p, outcome := call_outcome.exited 0, pindex := pindex, pitnum := pitnum,
      sent := [], calls := [] }
  let unchanged : message_result :=
    { p := p, outcome := call_outcome.returned false, pindex := pindex, pitnum := pitnum,
      sent := [], calls := [] }
  match r_buf with
  | none => if tm_ok then unchanged else die
  | some m =>
    match m.body with
    | msg_body.PACKED_CUT cut =>
      match pindex with
      | some _ =>
        let new_rows := env.unpack_cuts_u p
          (if m.sender = p.cut_pool then c.CUT_FROM_CP else c.CUT_FROM_CG)
          c.UNPACK_CUTS_MULTIPLE [cut]
        match new_rows with
        | [] => { unchanged with calls := [decoder_call.unpack_cut] }
        | row :: rest =>
          let row0 : waiting_row :=
            { row with source_pid :=
                if m.sender = p.cut_pool then c.EXTERNAL_CUT_POOL else c.EXTERNAL_CUT_GEN }
          if all_different_cuts c (env.same_cuts_u p) row0 p.waiting_rows.reverse then
            { unchanged with p := env.add_new_rows_to_waiting_rows p (row0 :: rest),
                             calls := [decoder_call.unpack_cut] }
          else { unchanged with calls := [decoder_call.unpack_cut] }
      | none =>
        { unchanged with
            p := { p with waiting_rows :=
                     p.waiting_rows ++ [{ source_pid := m.sender, cut := cut }] },
            calls := [decoder_call.unpack_cut] }
    | msg_body.NO_MORE_CUTS _ cut_time index itnum =>
      let p1 : lp_prob :=
        { p with comp_times :=
            { p.comp_times with cut_pool := env.dbl_add p.comp_times.cut_pool cut_time } }
      match pindex with
      | some _ => { unchanged with p := p1, pindex := some index, pitnum := some itnum }
      | none => { unchanged with p := p1 }
    | msg_body.UPPER_BOUND new_ub =>
      { unchanged with p := lp_process_ub_message env p new_ub }
    | msg_body.LP__ACTIVE_NODE_DATA d =>
      let r := receive_active_node env c p desc0 d
      { p := r.p, outcome := call_outcome.returned r.ret, pindex := pindex, pitnum := pitnum,
        sent := r.sent, calls := r.calls }
    | msg_body.LP__SECOND_PHASE_STARTS =>
      { unchanged with p := { p with phase := 1 },
                       sent := [(p.tree_manager, lp_reply.LP__TIMING)] }
    | msg_body.YOU_CAN_DIE => die
    | msg_body.unknown _ => unchanged

/-- Whether the tag of a message is `NO_MORE_CUTS`. -/
def msg_body.is_no_more_cuts : msg_body → Bool
  | msg_body.NO_MORE_CUTS _ _ _ _ => true
  | _ => false

/-- What the receive call of one pass of the collection loop brings: `silence tm_ok`
when `treceive_msg` returns `0` (with the answer of `pstat(p->tree_manager) ==
PROCESS_OK`), or a message together with the reading `now` of `wall_clock(NULL)` at
line 474. -/
inductive recv_event where
  | silence (tm_ok : Bool)
  | arrival (m : lp_msg) (now : double)
  deriving DecidableEq, Repr

/-- How the collection loop ends: the `break` of line 450, `exit(-302)`, the `break` of
line 464, the `break` of line 478, an exit inside `process_message`, or still inside
`treceive_msg` when the given events are used up. -/
inductive loop_exit where
  | timed_out
  | tm_died
  | acknowledged
  | waited_enough
  | process_exited (code : Int)
  | still_receiving
  deriving DecidableEq, Repr

/-- Variables of the collection loop of `receive_cuts`: the process state, the locals
`no_more_cuts_count`, `bc_index`, `itnum`, `timeout`, `tvtimeout` (converted by
`DBLTOTV`, taken as exact) and `ptimeout` (`none` for null, else the deadline it points
to); `selected` lists the time-outs selected so far, `sent` the messages sent. -/
structure cuts_loop_state where
  p : lp_prob
  no_more_cuts_count : Int
  bc_index : Int
  itnum : Int
  timeout : double
  tvtimeout : double
  ptimeout : Option double
  selected : List double
  sent : List (Int × lp_reply)
  deriving DecidableEq, Repr

/-- Result of one pass through the body of the collection loop. -/
inductive pass_result where
  | stop (exit : loop_exit) (st : cuts_loop_state)
  | next (st : cuts_loop_state)
  deriving DecidableEq, Repr

/-- One pass through the body of the `while(TRUE)` loop of `receive_cuts`
(lines 428-481); `start` is the reading of `wall_clock(NULL)` at line 425. -/
def receive_cuts_pass (env : lp_callbacks) (c : lp_constants)
    (first_cut_time_out all_cuts_time_out : double) (old_waiting_row_num : Int)
    (start : double) (desc0 : node_desc) (ev : recv_event) (st : cuts_loop_state) :
    pass_result :=
  match ev with
  | recv_event.silence tm_ok =>
    if ¬ tm_ok then pass_result.stop loop_exit.tm_died st
    else pass_result.stop loop_exit.timed_out st
  | recv_event.arrival m now =>
    let r := process_message env c st.p (some m) true (some st.bc_index) (some st.itnum) desc0
    match r.outcome with
    | call_outcome.exited code =>
      pass_result.stop (loop_exit.process_exited code) { st with p := r.p }
    | call_outcome.returned _ =>
      let bc_index := r.pindex.getD st.bc_index
      let itnum := r.pitnum.getD st.itnum
      let count : Int :=
        if m.body.is_no_more_cuts ∧ bc_index = r.p.bc_index ∧ itnum = r.p.iter_num then
          st.no_more_cuts_count - 1
        else st.no_more_cuts_count
      let st1 : cuts_loop_state :=
        { st with p := r.p, no_more_cuts_count := count, bc_index := bc_index,
                  itnum := itnum, sent := st.sent ++ r.sent }
      if count = 0 then pass_result.stop loop_exit.acknowledged st1
      else
        let timeout : double :=
          if r.p.waiting_row_num = old_waiting_row_num then first_cut_time_out
          else all_cuts_time_out
        let st2 : cuts_loop_state :=
          { st1 with timeout := timeout, tvtimeout := timeout,
                     ptimeout := if timeout ≠ 0 then some timeout else none,
                     selected := st1.selected ++ [timeout] }
        if timeout ≠ 0 then
          let diff := env.dbl_sub now start
          if diff > timeout then pass_result.stop loop_exit.waited_enough st2
          else pass_result.next { st2 with timeout := env.dbl_sub timeout diff }
        else pass_result.next st2

/-- The `while(TRUE)` loop of `receive_cuts` (lines 426-482) on the events its receive
calls bring, in order. -/
def receive_cuts_loop (env : lp_callbacks) (c : lp_constants)
    (first_cut_time_out all_cuts_time_out : double) (old_waiting_row_num : Int)
    (start : double) (desc0 : node_desc) :
    List recv_event → cuts_loop_state → loop_exit × cuts_loop_state
  | [], st => (loop_exit.still_receiving, st)
  | ev :: rest, st =>
    match receive_cuts_pass env c first_cut_time_out all_cuts_time_out old_waiting_row_num
        start desc0 ev st with
    | pass_result.stop exit st1 => (exit, st1)
    | pass_result.next st1 =>
      receive_cuts_loop env c first_cut_time_out all_cuts_time_out old_waiting_row_num
        start desc0 rest st1

/-- The state in which the collection loop is entered (lines 409-425): the time-outs of
the first or of a later LP, `old_waiting_row_num`, and the first selected time-out;
`bc_index0` and `itnum0` are the contents of the uninitialised locals. -/
def receive_cuts_enter (p : lp_prob) (first_lp : Bool) (no_more_cuts_count : Int)
    (bc_index0 itnum0 : Int) : cuts_loop_state :=
  let first_cut_time_out :=
    if first_lp then p.par.first_lp.first_cut_time_out
    else p.par.later_lp.first_cut_time_out
  let all_cuts_time_out :=
    if first_lp then p.par.first_lp.all_cuts_time_out
    else p.par.later_lp.all_cuts_time_out
  let timeout : double :=
    if p.waiting_row_num = 0 then first_cut_time_out else all_cuts_time_out
  { p := p, no_more_cuts_count := no_more_cuts_count, bc_index := bc_index0,
    itnum := itnum0, timeout := timeout, tvtimeout := timeout,
    ptimeout := if timeout ≠ 0 then some timeout else none,
    selected := [timeout], sent := [] }

/-- The cut collection of `receive_cuts` (lines 405-482): `p` is the process state at
line 405, after the waiting rows have been prepared by functions outside this file;
`events` is what the receive calls bring. The result is `none` when
`no_more_cuts_count > 0` fails and nothing is collected. -/
def receive_cuts (env : lp_callbacks) (c : lp_constants) (p : lp_prob) (first_lp : Bool)
    (no_more_cuts_count : Int) (bc_index0 itnum0 : Int) (start : double)
    (desc0 : node_desc) (events : List recv_event) : Option (loop_exit × cuts_loop_state) :=
  if no_more_cuts_count > 0 then
    some (receive_cuts_loop env c
      (if first_lp then p.par.first_lp.first_cut_time_out
       else p.par.later_lp.first_cut_time_out)
      (if first_lp then p.par.first_lp.all_cuts_time_out
       else p.par.later_lp.all_cuts_time_out)
      p.waiting_row_num start desc0 events
      (receive_cuts_enter p first_lp no_more_cuts_count bc_index0 itnum0))
  else none

/-- Functions called by `send_node_desc` and defined outside this file, taken as
parameters: `collect_nonzeros(p, x, indices, values)` gives the indices and values it
fills in, `merge_descriptions(tm_desc, new_tm_desc)` and
`add_bound_changes_to_desc(tm_desc, p)` the description they leave in `tm_desc`. -/
structure tree_callbacks where
  collect_nonzeros : lp_prob → List Int × List double
  merge_descriptions : node_desc → node_desc → node_desc
  add_bound_changes_to_desc : node_desc → lp_prob → node_desc

/-- What `send_node_desc` leaves behind: the tree manager, the node `n`, and the LP
process. -/
structure send_result where
  tm : tm_prob
  n : bc_node
  p : lp_prob

/-- The assignments to `n->feasibility_status` and to the stored solution under
`KEEP_IN_MEMORY` (lines 642-669). -/
def keep_pruned_in_memory (cb : tree_callbacks) (p : lp_prob) (n : bc_node)
    (node_type : node_type_t) : bc_node :=
  let n1 : bc_node :=
    if node_type = node_type_t.INFEASIBLE_PRUNED ∨ node_type = node_type_t.DISCARDED_NODE then
      if n.feasibility_status ≠ node_type_t.NOT_PRUNED_HAS_CAN_SOLUTION then
        { n with feasibility_status := node_type_t.INFEASIBLE_PRUNED }
      else n
    else n
  let n2 : bc_node :=
    if node_type = node_type_t.FEASIBLE_PRUNED then
      { n1 with sol_size := ((cb.collect_nonzeros p).1.length : Int),
                sol_ind := (cb.collect_nonzeros p).1,
                sol := (cb.collect_nonzeros p).2,
                feasibility_status := node_type_t.FEASIBLE_PRUNED }
    else n1
  if node_type = node_type_t.OVER_UB_PRUNED then
    let n3 : bc_node := { n2 with feasibility_status := node_type_t.OVER_UB_PRUNED }
    if n3.feasibility_status = node_type_t.NOT_PRUNED_HAS_CAN_SOLUTION then
      { n3 with feasibility_status := node_type_t.FEASIBLE_PRUNED }
    else n3
  else n2

/-- The reason handed to `purge_pruned_nodes` at lines 693-718. -/
def purge_reason (tm : tm_prob) (node_type : node_type_t) : vbc_reason :=
  if tm.par.vbc_emulation = vbc_emulation_t.VBC_EMULATION_FILE_NEW then
    match node_type with
    | node_type_t.INFEASIBLE_PRUNED => vbc_reason.VBC_PRUNED_INFEASIBLE
    | node_type_t.OVER_UB_PRUNED => vbc_reason.VBC_PRUNED_FATHOMED
    | node_type_t.FEASIBLE_PRUNED => vbc_reason.VBC_FEAS_SOL_FOUND
    | _ => vbc_reason.VBC_PRUNED
  else if node_type = node_type_t.FEASIBLE_PRUNED then vbc_reason.VBC_FEAS_SOL_FOUND
  else vbc_reason.VBC_PRUNED

/-- The `switch(node_type)` of lines 848-964, which puts the node where it belongs; the
lines written to the VBC emulation file or to the terminal are not part of the state. -/
def insert_by_type (tm : tm_prob) (n : bc_node) (node_type : node_type_t) :
    tm_prob × bc_node :=
  let hold : tm_prob × bc_node :=
    let n1 : bc_node := { n with node_status := node_status_t.NODE_STATUS__HELD }
    let tm1 : tm_prob := { tm with nextphase_cand := tm.nextphase_cand ++ [n1] }
    (if n1.cp ≠ 0 then { tm1 with calls := tm1.calls ++ [tm_call.count_node_for_cp n1.cp] }
     else tm1, n1)
  match node_type with
  | node_type_t.INFEASIBLE_HOLD_FOR_NEXT_PHASE => hold
  | node_type_t.OVER_UB_HOLD_FOR_NEXT_PHASE => hold
  | node_type_t.NODE_BRANCHED_ON =>
    (tm, { n with node_status := node_status_t.NODE_STATUS__BRANCHED_ON })
  | node_type_t.ROOT_NODE =>
    let n1 : bc_node :=
      { n with bc_index := tm.stat.created, node_status := node_status_t.NODE_STATUS__ROOT }
    ({ tm with rootnode := some n1,
               stat := { tm.stat with created := tm.stat.created + 1,
                                      tree_size := tm.stat.tree_size + 1,
                                      root_lb := n.lower_bound },
               calls := tm.calls ++ [tm_call.insert_new_node] }, n1)
  | _ => (tm, n)

/-- The handling of a pruned node at the end of `send_node_desc` (lines 1101-1149). -/
def purge_at_end (tm : tm_prob) (n : bc_node) (node_type : node_type_t) : tm_prob :=
  if n.node_status = node_status_t.NODE_STATUS__PRUNED then
    if tm.par.keep_description_of_pruned = keep_policy.KEEP_ON_DISK_FULL ∨
        tm.par.keep_description_of_pruned = keep_policy.KEEP_ON_DISK_VBC_TOOL then
      { tm with calls := tm.calls ++
          [tm_call.write_pruned_nodes, tm_call.purge_pruned_nodes (purge_reason tm node_type)] }
    else tm
  else tm

/-- The function `send_node_desc` (lines 563-1253) in the in-process build
(`COMPILE_IN_LP`, without `TRACE_PATH` and `SENSITIVITY_ANALYSIS`) on the path with
`repricing == 0`, where `n` is the active node of the process. `new_lp_desc` is what
`create_explicit_node_desc(p)` returns and `new_tm_desc` the description built from it
at lines 746-802. The copies of path statistics into `n` (lines 578-611) and the log
output are not part of the state. At lines 804-809 the user blob of the stored
description is freed and, when `desc_size > 0`, the new blob is copied to where the freed
pointer pointed, no block being allocated for it: the call does not return from this
copy, and the result is `none`. -/
def send_node_desc (cb : tree_callbacks) (p : lp_prob) (tm : tm_prob) (n : bc_node)
    (node_type : node_type_t) (new_lp_desc new_tm_desc : node_desc) : Option send_result :=
  let pruned_type : Bool := decide (node_type = node_type_t.INFEASIBLE_PRUNED ∨
    node_type = node_type_t.OVER_UB_PRUNED ∨ node_type = node_type_t.DISCARDED_NODE ∨
    node_type = node_type_t.FEASIBLE_PRUNED)
  let n1 : bc_node :=
    if pruned_type then
      let n0 : bc_node := { n with node_status := node_status_t.NODE_STATUS__PRUNED }
      if tm.par.keep_description_of_pruned = keep_policy.KEEP_IN_MEMORY then
        keep_pruned_in_memory cb p n0 node_type
      else n0
    else n
  let tm1 : tm_prob :=
    if pruned_type ∧ tm.par.keep_description_of_pruned = keep_policy.KEEP_ON_DISK_VBC_TOOL then
      { tm with calls := tm.calls ++ [tm_call.write_pruned_nodes] }
    else tm
  if pruned_type ∧ (tm.par.keep_description_of_pruned = keep_policy.DISCARD ∨
      tm.par.keep_description_of_pruned = keep_policy.KEEP_ON_DISK_VBC_TOOL) then
    some { tm := { tm1 with calls := tm1.calls ++
                     [tm_call.purge_pruned_nodes (purge_reason tm1 node_type)] },
           n := n1, p := p }
  else if node_type = node_type_t.INTERRUPTED_NODE then
    some { tm := { tm1 with calls := tm1.calls ++ [tm_call.insert_new_node] },
           n := { n1 with node_status := node_status_t.NODE_STATUS__INTERRUPTED,
                          lower_bound := p.lp_data.objval },
           p := p }
  else if new_lp_desc.desc_size > 0 then none
  else
    let tm_desc : node_desc :=
      { n1.desc with desc_size := new_lp_desc.desc_size, desc := [] }
    let n2 : bc_node :=
      { n1 with lower_bound := p.lp_data.objval,
                desc := cb.add_bound_changes_to_desc
                  (cb.merge_descriptions tm_desc new_tm_desc) p }
    let r := insert_by_type tm1 n2 node_type
    some { tm := purge_at_end r.1 r.2 node_type, n := r.2,
           p := { p with desc := some new_lp_desc } }

/-- Loop variables of the loop of lines 986-1008, with the array `ulist`, which the loop
writes in place. -/
structure kick_state where
  i : Nat
  j : Nat
  k : Nat
  ulist : List Int
  deriving DecidableEq, Repr

/-- The loop condition `i < usize && j < rusize`. -/
def kick_cond (usize rusize : Int) (s : kick_state) : Prop :=
  (s.i : Int) < usize ∧ (s.j : Int) < rusize

instance (usize rusize : Int) (s : kick_state) : Decidable (kick_cond usize rusize s) := by
  unfold kick_cond; exact inferInstance

/-- One pass through the body of the loop of lines 986-1008; the second test repeats the
first, as in the source. -/
def kick_body (rulist : List Int) (s : kick_state) : kick_state :=
  if s.ulist.getD s.i 0 < rulist.getD s.j 0 then
    { s with ulist := s.ulist.set s.k (s.ulist.getD s.i 0), k := s.k + 1, i := s.i + 1 }
  else if s.ulist.getD s.i 0 < rulist.getD s.j 0 then
    { s with j := s.j + 1 }
  else
    { s with i := s.i + 1, j := s.j + 1 }

/-- The loop of lines 986-1008, run for at most `fuel` passes. -/
def kick_loop (rulist : List Int) (usize rusize : Int) : Nat → kick_state → kick_state
  | 0, s => s
  | fuel + 1, s =>
    if kick_cond usize rusize s then
      kick_loop rulist usize rusize fuel (kick_body rulist s)
    else s

/-- The loop of lines 1009-1014, `for(; i < usize; i++, k++) ulist[k] = ulist[i]`, run
for at most `fuel` passes. -/
def kick_rest (usize : Int) : Nat → kick_state → kick_state
  | 0, s => s
  | fuel + 1, s =>
    if (s.i : Int) < usize then
      kick_rest usize fuel
        { s with ulist := s.ulist.set s.k (s.ulist.getD s.i 0), i := s.i + 1, k := s.k + 1 }
    else s

/-- Loop variables of the loop of lines 1030-1047; `not_fixed` holds the cells of the
freshly allocated array written so far, which are its first `k` cells. -/
structure nf_merge_state where
  i : Nat
  j : Nat
  k : Nat
  not_fixed_size : Int
  not_fixed : List Int
  deriving DecidableEq, Repr

/-- One pass through the body of the loop of lines 1030-1047, with its increment
`not_fixed_size++`. -/
def nf_merge_body (ulist nlist : List Int) (s : nf_merge_state) : nf_merge_state :=
  if ulist.getD s.i 0 < nlist.getD s.j 0 then
    { s with not_fixed := s.not_fixed ++ [ulist.getD s.i 0], k := s.k + 1, i := s.i + 1,
             not_fixed_size := s.not_fixed_size + 1 }
  else if ulist.getD s.i 0 > nlist.getD s.j 0 then
    { s with not_fixed := s.not_fixed ++ [nlist.getD s.j 0], k := s.k + 1, j := s.j + 1,
             not_fixed_size := s.not_fixed_size + 1 }
  else
    { s with not_fixed := s.not_fixed ++ [nlist.getD s.j 0], k := s.k + 1, j := s.j + 1,
             i := s.i + 1, not_fixed_size := s.not_fixed_size + 1 }

/-- The loop of lines 1030-1047, run for at most `fuel` passes. -/
def nf_merge_loop (ulist nlist : List Int) (usize nsize : Int) :
    Nat → nf_merge_state → nf_merge_state
  | 0, s => s
  | fuel + 1, s =>
    if (s.i : Int) < usize ∧ (s.j : Int) < nsize then
      nf_merge_loop ulist nlist usize nsize fuel (nf_merge_body ulist nlist s)
    else s

/-- The call `memcpy(dst + k, src + off, len * ISIZE)` for an array `dst` of which the
first `k` cells have been written. -/
def memcpy_at (dst : List Int) (k : Nat) (src : List Int) (off len : Nat) : List Int :=
  dst.take k ++ cells src off len ++ dst.drop (k + len)

/-- Lines 1026-1054: the merge of the `usize` entries left in `ulist` with the `nsize`
entries of `nlist` into a freshly allocated array; the result is the pair of the stored
`not_fixed.size` and the cells written to the array. -/
def nf_merge (ulist nlist : List Int) (usize nsize : Int) : Int × List Int :=
  let s := nf_merge_loop ulist nlist usize nsize (usize.toNat + nsize.toNat)
    { i := 0, j := 0, k := 0, not_fixed_size := 0, not_fixed := [] }
  let a1 := if (s.i : Int) < usize then
      memcpy_at s.not_fixed s.k ulist s.i (usize - s.i).toNat
    else s.not_fixed
  let a2 := if (s.j : Int) < nsize then
      memcpy_at a1 s.k nlist s.j (nsize - s.j).toNat
    else a1
  (s.not_fixed_size, a2)

/-- Lines 978-1056 of `send_node_desc`: the entries of the node's `uind` that are to be
kicked out are those of the root's `uind` list `rulist` (of `rusize` entries); what is
left is made, or merged into, the node's `not_fixed`. -/
def reprice_not_fixed (desc : node_desc) (rulist : List Int) (rusize : Int) : node_desc :=
  if desc.uind.size > 0 then
    let usize := desc.uind.size
    let s := kick_rest usize usize.toNat
      (kick_loop rulist usize rusize (usize.toNat + rusize.toNat)
        { i := 0, j := 0, k := 0, ulist := desc.uind.list })
    let desc1 : node_desc := { desc with uind := { desc.uind with list := s.ulist } }
    if (s.k : Int) > 0 then
      if desc1.not_fixed.size = 0 then
        { desc1 with not_fixed := { desc1.not_fixed with size := (s.k : Int), list := s.ulist },
                     uind := { desc1.uind with list := [] } }
      else
        let r := nf_merge s.ulist desc1.not_fixed.list (s.k : Int) desc1.not_fixed.size
        { desc1 with not_fixed := { desc1.not_fixed with size := r.1, list := r.2 } }
    else desc1
  else desc

/-- Lines 634-842 of `send_node_desc` on the path with `repricing == 1`, where none of
the early returns is taken: the tree manager and the node before the `else` branch of
line 964. The result is `none` when the new user blob is copied at lines 804-809
(`desc_size > 0`): the node comes from `calloc`, its blob pointer is null, and the call
does not return from the copy. -/
def repricing_prepare (cb : tree_callbacks) (p : lp_prob) (tm : tm_prob) (n : bc_node)
    (node_type : node_type_t) (new_lp_desc new_tm_desc : node_desc) :
    Option (tm_prob × bc_node) :=
  let pruned_type : Bool := decide (node_type = node_type_t.INFEASIBLE_PRUNED ∨
    node_type = node_type_t.OVER_UB_PRUNED ∨ node_type = node_type_t.DISCARDED_NODE ∨
    node_type = node_type_t.FEASIBLE_PRUNED)
  let n1 : bc_node :=
    if pruned_type then
      let n0 : bc_node := { n with node_status := node_status_t.NODE_STATUS__PRUNED }
      if tm.par.keep_description_of_pruned = keep_policy.KEEP_IN_MEMORY then
        keep_pruned_in_memory cb p n0 node_type
      else n0
    else n
  let tm1 : tm_prob :=
    if pruned_type ∧ tm.par.keep_description_of_pruned = keep_policy.KEEP_ON_DISK_VBC_TOOL then
      { tm with calls := tm.calls ++ [tm_call.write_pruned_nodes] }
    else tm
  let tm2 : tm_prob :=
    if pruned_type ∧ (tm.par.keep_description_of_pruned = keep_policy.DISCARD ∨
        tm.par.keep_description_of_pruned = keep_policy.KEEP_ON_DISK_VBC_TOOL) then
      { tm1 with calls := tm1.calls ++
          [tm_call.purge_pruned_nodes (purge_reason tm1 node_type)] }
    else tm1
  let n2 : bc_node :=
    if node_type = node_type_t.INTERRUPTED_NODE then
      { n1 with node_status := node_status_t.NODE_STATUS__INTERRUPTED,
                lower_bound := p.lp_data.objval }
    else n1
  let tm3 : tm_prob :=
    if node_type = node_type_t.INTERRUPTED_NODE then
      { tm2 with calls := tm2.calls ++ [tm_call.insert_new_node] }
    else tm2
  if n2.node_status ≠ node_status_t.NODE_STATUS__PRUNED then
    if new_lp_desc.desc_size > 0 then none
    else
      let tm_desc : node_desc :=
        { n2.desc with desc_size := new_lp_desc.desc_size, desc := [] }
      some (tm3,
        { n2 with lower_bound := p.lp_data.objval,
                  desc := cb.add_bound_changes_to_desc
                    (cb.merge_descriptions tm_desc new_tm_desc) p })
  else some (tm3, n2)

/-- Lines 964-1149 and 1251-1252 of `send_node_desc` on the path with `repricing == 1`:
the `else` branch of line 964 and what follows it, from the tree manager `tm` and the
node `n` that `repricing_prepare` gives. The result is `none` when `tm->rootnode` is
dereferenced while it is null. -/
def repricing_finish (c : lp_constants) (p : lp_prob) (tm : tm_prob) (n : bc_node)
    (node_type : node_type_t) (new_lp_desc : node_desc) : Option send_result :=
  let tm4 : tm_prob := { tm with stat := { tm.stat with root_lb := n.lower_bound } }
  if n.node_status = node_status_t.NODE_STATUS__PRUNED then
    some { tm := { tm4 with calls := tm4.calls ++ [tm_call.free_subtree],
                            rootnode := some n, samephase_candnum := 0,
                            nextphase_cand := [] },
           n := n, p := p }
  else
    let n4 : Option bc_node :=
      if n.desc.uind.size > 0 then
        match tm4.rootnode with
        | none => none
        | some root =>
          some { n with
            desc := reprice_not_fixed n.desc root.desc.uind.list root.desc.uind.size }
      else some n
    match n4 with
    | none => none
    | some n5 =>
      let nsize := n5.desc.not_fixed.size
      if nsize = 0 then
        some { tm := { tm4 with calls := tm4.calls ++ [tm_call.free_tree_node],
                                samephase_candnum := 0, nextphase_cand := [] },
               n := n5, p := p }
      else
        match tm4.rootnode with
        | none => none
        | some root =>
          let big : Bool := decide (nsize > tm4.par.not_fixed_storage_size)
          let rsize : Int := if big then tm4.par.not_fixed_storage_size else nsize
          let nf_status : Int := if big then c.NF_CHECK_AFTER_LAST else c.NF_CHECK_UNTIL_LAST
          let root1 : bc_node :=
            { root with desc := { root.desc with
                not_fixed := { root.desc.not_fixed with list := n5.desc.not_fixed.list,
                                                        size := rsize } } }
          let n6 : bc_node :=
            { n5 with desc := { n5.desc with
                not_fixed := { n5.desc.not_fixed with list := [] } } }
          let tm5 : tm_prob :=
            { tm4 with rootnode := some root1,
                       stat := { tm4.stat with nf_status := nf_status,
                                               vars_not_priced := rsize },
                       calls := tm4.calls ++
                         [tm_call.propagate_nf_status nf_status, tm_call.free_tree_node] }
          some { tm := purge_at_end tm5 n6 node_type, n := n6,
                 p := { p with desc := some new_lp_desc } }

/-- The function `send_node_desc` (lines 563-1253) in the in-process build
(`COMPILE_IN_LP`, without `TRACE_PATH` and `SENSITIVITY_ANALYSIS`) on the path with
`repricing == 1`; `n` is the node allocated by `calloc` at line 573, `c` holds the
constants `NF_CHECK_AFTER_LAST` and `NF_CHECK_UNTIL_LAST`, and the other arguments are
as for `send_node_desc`. The copies of path statistics into `n`, the log output and the
release of memory other than by the logged calls are not part of the state. The result
is `none` when the call does not return: from the copy of lines 804-809, or from reading
the root while `tm->rootnode` is null. -/
def send_node_desc_repricing (c : lp_constants) (cb : tree_callbacks) (p : lp_prob)
    (tm : tm_prob) (n : bc_node) (node_type : node_type_t)
    (new_lp_desc new_tm_desc : node_desc) : Option send_result :=
  match repricing_prepare cb p tm n node_type new_lp_desc new_tm_desc with
  | none => none
  | some q => repricing_finish c p q.1 q.2 node_type new_lp_desc

/-- Constants used by `send_branching_info` whose header is not among the sources. -/
structure branching_constants where
  CANDIDATE_VARIABLE : Int
  CANDIDATE_CUT_IN_MATRIX : Int
  DO_DIVE : Int
  CHECK_BEFORE_DIVE : Int
  CUT_BRANCHED_ON : Nat
  deriving DecidableEq, Repr

/-- The fields `name` and `branch` of the C struct `cut_data` of a row's cut, with the
rest of the cut as packed by `pack_cut`. -/
structure row_cut where
  name : Int
  branch : Nat
  body : cut_data
  deriving DecidableEq, Repr

/-- The C struct `branch_obj`: the fields read or written by `send_branching_info`; the
per-child arrays are lists. -/
structure branch_obj where
  type : Int
  position : Int
  name : Int
  child_num : Int
  sense : List Int
  rhs : List double
  range : List double
  branch : List Int
  objval : List double
  feasible : List Int
  deriving DecidableEq, Repr

/-- The fields of `lp_prob` and of its `LPdata` used by `send_branching_info`: `rows`
holds the cut `lp_data->rows[i].cut` of each row, `userind` the field
`lp_data->vars[i]->userind` of each variable. -/
structure lp_branching where
  tree_manager : Int
  bc_index : Int
  dive : Int
  base_varnum : Int
  base_cutnum : Int
  rows : List row_cut
  userind : List Int
  deriving DecidableEq, Repr

/-- The fields of `tm_prob` and of the active node `tm->active_nodes[p->proc_index]`
used by the in-process `send_branching_info`: `bobj` is `node->bobj`, `cuts` with its
count `cut_num` the tree manager's list of cuts, `active` the position among the
children of the node that has been made the active node (`none` while the node itself
is active), and `children_cg` the field `cg` of each child. -/
structure tm_branching where
  bcutnum : Int
  analyzed : Int
  bobj : branch_obj
  cg : Int
  cuts : List row_cut
  cut_num : Int
  active : Option Int
  children_cg : List Int
  deriving DecidableEq, Repr

/-- Modelled from the spec: the function `add_cut_to_list(tm, cut)` of the tree manager,
which is called by `send_branching_info` and defined outside this file. The Coordinator
assigns a newly named branching cut its durable name: the cut is entered in the
Coordinator's cut list, is named by its place in that list, and the name is returned.
In the in-process build the cut is the Worker's own, so the name is written to it. -/
def add_cut_to_list (tm : tm_branching) (cut : row_cut) : tm_branching × row_cut × Int :=
  ({ tm with cuts := tm.cuts ++ [{ cut with name := tm.cut_num }],
             cut_num := tm.cut_num + 1 },
   { cut with name := tm.cut_num }, tm.cut_num)

/-- What `generate_children`, a function of the tree manager defined outside this file,
leaves behind: the tree manager with the branching object of the node, the diving
decision it returns, the cell `*keep`, the array `action`, and the `bc_index` of each
child it has created. -/
structure children_result where
  tm : tm_branching
  dive : Int
  keep : Int
  action : List Int
  children : List Int
  deriving DecidableEq, Repr

/-- The name under which `send_branching_info` reports the branching object (lines
1646-1650 and 1721-1730): `none` when the candidate is neither a variable nor a cut in
the matrix. -/
def branching_name (bc : branching_constants) (p : lp_branching) (can : branch_obj) :
    Option Int :=
  let pos := can.position
  if can.type = bc.CANDIDATE_VARIABLE then
    some (if pos < p.base_varnum then - pos - 1 else p.userind.getD pos.toNat 0)
  else if can.type = bc.CANDIDATE_CUT_IN_MATRIX then
    let brcut := p.rows.getD pos.toNat ⟨0, 0, []⟩
    some (if pos < p.base_cutnum then - pos - 1
          else (if brcut.name < 0 then - p.base_cutnum - 1 else brcut.name))
  else none

/-- The assignment `lp_data->rows[pos].cut->name = v`. -/
def set_cut_name (rows : List row_cut) (pos : Int) (v : Int) : List row_cut :=
  rows.set pos.toNat { rows.getD pos.toNat ⟨0, 0, []⟩ with name := v }

/-- What the in-process `send_branching_info` leaves behind. -/
structure branching_result where
  p : lp_branching
  tm : tm_branching
  can : branch_obj
  action : List Int
  keep : Int
  deriving DecidableEq, Repr

/-- Lines 1638-1657 of the in-process `send_branching_info`: the candidate is copied to
the node and named. The result is the tree manager, the cuts of the rows, and the local
`i`. -/
def name_branching_object (bc : branching_constants) (p : lp_branching) (tm : tm_branching)
    (can : branch_obj) : tm_branching × List row_cut × Int :=
  let pos := can.position
  let tm0 : tm_branching := { tm with bobj := can }
  if can.type = bc.CANDIDATE_VARIABLE then
    ({ tm0 with bobj := { tm0.bobj with
        name := if pos < p.base_varnum then - pos - 1 else p.userind.getD pos.toNat 0 } },
     p.rows, 0)
  else if can.type = bc.CANDIDATE_CUT_IN_MATRIX then
    let brcut := p.rows.getD pos.toNat ⟨0, 0, []⟩
    let name := if pos < p.base_cutnum then - pos - 1
      else (if brcut.name < 0 then - p.base_cutnum - 1 else brcut.name)
    let i : Int := if brcut.branch &&& bc.CUT_BRANCHED_ON ≠ 0 then 0 else 1
    let tm1 : tm_branching := { tm0 with bobj := { tm0.bobj with name := name } }
    if name = - tm1.bcutnum - 1 then
      let r := add_cut_to_list tm1 brcut
      ({ r.1 with bobj := { r.1.bobj with name := r.2.2 } },
       p.rows.set pos.toNat r.2.1, i)
    else (tm1, p.rows, i)
  else (tm0, p.rows, 0)

/-- The call of `generate_children` made by the in-process `send_branching_info`
(line 1668). -/
def branching_children (bc : branching_constants)
    (generate_children : tm_branching → branch_obj → List double → List Int → List Int →
      Int → Int → Int → children_result)
    (p : lp_branching) (tm : tm_branching) (can : branch_obj) (action : List Int)
    (keep : Int) : children_result :=
  generate_children (name_branching_object bc p tm can).1
    (name_branching_object bc p tm can).1.bobj can.objval can.feasible action p.dive keep
    (name_branching_object bc p tm can).2.2

/-- The function `send_branching_info` (lines 1620-1846) in the in-process build
(`COMPILE_IN_LP`), built without `COMPILE_FRAC_BRANCHING`; `generate_children` is a
parameter and the statistics printed at the end are not part of the state. -/
def send_branching_info (bc : branching_constants)
    (generate_children : tm_branching → branch_obj → List double → List Int → List Int →
      Int → Int → Int → children_result)
    (p : lp_branching) (tm : tm_branching) (can : branch_obj) (action : List Int)
    (keep : Int) : branching_result :=
  let pos := can.position
  let g := branching_children bc generate_children p tm can action keep
  let p1 : lp_branching := { p with rows := (name_branching_object bc p tm can).2.1 }
  let dived : branching_result :=
    if g.keep ≥ 0 ∧ (p1.dive = bc.CHECK_BEFORE_DIVE ∨ p1.dive = bc.DO_DIVE) then
      let can1 := g.tm.bobj
      let p2 : lp_branching := { p1 with dive := g.dive }
      if g.dive = bc.DO_DIVE ∨ g.dive = bc.CHECK_BEFORE_DIVE then
        let p3 : lp_branching := { p2 with bc_index := g.children.getD g.keep.toNat 0 }
        let p4 : lp_branching :=
          if can1.type = bc.CANDIDATE_CUT_IN_MATRIX ∧ g.tm.bobj.name = - p3.base_cutnum - 1 then
            { p3 with rows := set_cut_name p3.rows pos g.tm.bobj.name }
          else p3
        { p := p4,
          tm := { g.tm with children_cg := g.tm.children_cg.set g.keep.toNat g.tm.cg,
                            active := some g.keep, analyzed := g.tm.analyzed + 1 },
          can := can1, action := g.action, keep := g.keep }
      else { p := p2, tm := g.tm, can := can1, action := g.action, keep := g.keep }
    else { p := p1, tm := g.tm, can := can, action := g.action, keep := g.keep }
  if dived.keep < 0 then { dived with can := { dived.can with child_num := 0 } } else dived

/-- The message `LP__BRANCHING_INFO` built by the message-passing `send_branching_info`:
the values passed to the `send_*_array` calls, in the order of the fields; `name` and
the two fields after it are `none` when the corresponding call is not made, and `cut` is
the cut handed to `pack_cut`, a function defined outside this file. -/
structure branching_msg where
  type : Int
  name : Option Int
  new_branching_cut : Option Int
  cut : Option row_cut
  child_num : Int
  sense : List Int
  rhs : List double
  range : List double
  branch : List Int
  objval : List double
  feasible : List Int
  action : List Int
  dive : Int
  keep : Int
  deriving DecidableEq, Repr

/-- What one call of `treceive_msg(p->tree_manager, LP__DIVING_INFO, &timeout)` brings:
`silence tm_ok` when it returns `0` (with the answer of `pstat(p->tree_manager) ==
PROCESS_OK`), or the reply with the values its fields hold: the diving decision, the
index of the new node and the name of the branching cut. -/
inductive diving_event where
  | silence (tm_ok : Bool)
  | reply (dive : Int) (bc_index : Int) (name : Int)
  deriving DecidableEq, Repr

/-- How the wait for the reply ends. -/
inductive diving_wait where
  | reply (dive : Int) (bc_index : Int) (name : Int)
  | tm_died
  | waiting
  deriving DecidableEq, Repr

/-- The `do ... while(! r_bufid)` loop of lines 1781-1793 on the events its receive
calls bring: it ends with the reply, or with `exit(-301)` when the tree manager has
died, and is still waiting when the given events are used up. -/
def await_diving_info : List diving_event → diving_wait
  | [] => diving_wait.waiting
  | diving_event.silence tm_ok :: rest =>
    if tm_ok then await_diving_info rest else diving_wait.tm_died
  | diving_event.reply dive bc_index name :: _ => diving_wait.reply dive bc_index name

/-- How a call of the message-passing `send_branching_info` ends. -/
inductive branching_outcome where
  | returned
  | exited (code : Int)
  | waiting
  deriving DecidableEq, Repr

/-- What the message-passing `send_branching_info` leaves behind: the process state, the
message sent to the tree manager, and how the call ended. -/
structure branching_msg_result where
  p : lp_branching
  sent : branching_msg
  outcome : branching_outcome
  deriving DecidableEq, Repr

/-- The function `send_branching_info` (lines 1620-1846) in the message-passing build,
built without `COMPILE_FRAC_BRANCHING`; `events` is what the receive calls bring. The
statistics printed at the end and the idle time are not part of the state. -/
def send_branching_info_message (bc : branching_constants) (p : lp_branching)
    (can : branch_obj) (action : List Int) (keep : Int) (events : List diving_event) :
    branching_msg_result :=
  let pos := can.position
  let dive := p.dive
  let name := branching_name bc p can
  let brcut := p.rows.getD pos.toNat ⟨0, 0, []⟩
  let is_cut : Bool := decide (can.type ≠ bc.CANDIDATE_VARIABLE ∧
    can.type = bc.CANDIDATE_CUT_IN_MATRIX)
  let unnamed : Bool := is_cut && decide (name = some (- p.base_cutnum - 1))
  let msg : branching_msg :=
    { type := can.type,
      name := name,
      new_branching_cut :=
        if is_cut then some (if brcut.branch &&& bc.CUT_BRANCHED_ON ≠ 0 then 0 else 1)
        else none,
      cut := if unnamed then some brcut else none,
      child_num := can.child_num,
      sense := can.sense.take can.child_num.toNat,
      rhs := can.rhs.take can.child_num.toNat,
      range := can.range.take can.child_num.toNat,
      branch := can.branch.take can.child_num.toNat,
      objval := can.objval.take can.child_num.toNat,
      feasible := can.feasible.take can.child_num.toNat,
      action := action.take can.child_num.toNat,
      dive := dive,
      keep := keep }
  if keep ≥ 0 ∧ (dive = bc.CHECK_BEFORE_DIVE ∨ dive = bc.DO_DIVE) then
    match await_diving_info events with
    | diving_wait.waiting => { p := p, sent := msg, outcome := branching_outcome.waiting }
    | diving_wait.tm_died =>
      { p := p, sent := msg, outcome := branching_outcome.exited (-301) }
    | diving_wait.reply rdive rindex rname =>
      let p1 : lp_branching :=
        if rdive = bc.DO_DIVE ∨ rdive = bc.CHECK_BEFORE_DIVE then
          let p2 : lp_branching := { p with bc_index := rindex }
          if can.type = bc.CANDIDATE_CUT_IN_MATRIX ∧ name = some (- p.base_cutnum - 1) then
            { p2 with rows := set_cut_name p2.rows pos rname }
          else p2
        else p
      { p := { p1 with dive := rdive }, sent := msg, outcome := branching_outcome.returned }
  else { p := p, sent := msg, outcome := branching_outcome.returned }

/-! ## `send_node_desc`: building the description that is stored or sent -/

/-- A call of one of the two difference encoders from `send_node_desc`. -/
inductive codec_call where
  | pack_array_desc_diff
  | pack_basis_diff
  deriving DecidableEq, Repr

/-- An `array_desc` after `calloc`: size `0` and a null list. As for `zero_block`, the
tag with numeric value `0` is taken to be `NO_DATA_STORED`. -/
def zero_array_desc : array_desc :=
  { type := NO_DATA_STORED, size := 0, added := 0, list := [] }

/-- The node description after `calloc(1, sizeof(node_desc))` (lines 743 and 1207). -/
def zero_node_desc : node_desc :=
  { uind := zero_array_desc, basis := zero_basis, not_fixed := zero_array_desc,
    nf_status := 0, cutind := zero_array_desc, desc_size := 0, desc := [] }

/-- Modelled from the spec: the macro `COPY_ARRAY_DESC(newad, oldad)`, which is defined
in a header outside the sources. As its name and its use say, `newad` becomes a copy of
`oldad`, with a list of its own that holds the `size` cells of the list of `oldad` when
`size > 0`. -/
def COPY_ARRAY_DESC (oldad : array_desc) : array_desc :=
  if oldad.size > 0 then { oldad with list := cells oldad.list 0 oldad.size.toNat }
  else oldad

/-- Modelled from the spec: the macro `COPY_STAT(newad, oldad)`, which is defined in a
header outside the sources. As its name and its use say, `newad` gets a status array of
its own that holds the first `newad.size` cells of the status array of `oldad` when
`newad.size > 0`. -/
def COPY_STAT (newad oldad : double_array_desc) : double_array_desc :=
  if newad.size > 0 then { newad with stat := cells oldad.stat 0 newad.size.toNat }
  else newad

/-- The macro `MAKE_TM_ARRAY_DESC(newad, oldad)` (lines 550-559). `i1` is the scratch
area `lp_data->tmp.i1`, which the macro names itself: it is not an argument. -/
def MAKE_TM_ARRAY_DESC (newad oldad : array_desc) (i1 : Nat → Int) : array_desc :=
  if newad.size > 0 then
    let list : List Int :=
      if i1 0 ≥ 0 then rd i1 0 newad.size.toNat
      else cells oldad.list 0 newad.size.toNat
    if newad.type = EXPLICIT_LIST then
      { newad with list := list, added := newad.size }
    else { newad with list := list }
  else newad

/-- The test `deal_with_nf` of lines 739-741 and 1198-1199. -/
def deal_with_nf (c : lp_constants) (new_lp_desc : node_desc) : Bool :=
  decide (new_lp_desc.nf_status = c.NF_CHECK_AFTER_LAST ∨
    new_lp_desc.nf_status = c.NF_CHECK_UNTIL_LAST)

/-- The basis taken over as it is (lines 755-759 and 782-792): the assignment of the
struct and the four `COPY_STAT`. -/
def copy_basis (basis : basis_desc) : basis_desc :=
  { basis with basevars := COPY_STAT basis.basevars basis.basevars,
               extravars := COPY_STAT basis.extravars basis.extravars,
               baserows := COPY_STAT basis.baserows basis.baserows,
               extrarows := COPY_STAT basis.extrarows basis.extrarows }

/-- What lines 743-802 of `send_node_desc` leave behind: the description `new_tm_desc`,
the two scratch areas `lp_data->tmp.i1` and `lp_data->tmp.iv`, and the calls of the
difference encoders, the latest last. -/
structure tm_desc_result where
  new_tm_desc : node_desc
  i1 : Nat → Int
  iv : Nat → Int
  calls : List codec_call

/-- Lines 739-802 of `send_node_desc` in the in-process build: the description
`new_tm_desc` built from the old description `lp_desc` of the process and the new
explicit one `new_lp_desc`, at the level `bc_level`. `basis0` and `size0` are the
contents of the uninitialised locals of `pack_basis_diff`. -/
def build_tm_desc (c : lp_constants) (bc_level : Int) (lp_desc new_lp_desc : node_desc)
    (i1 iv : Nat → Int) (basis0 : basis_desc) (size0 : Int) : tm_desc_result :=
  if bc_level = 0 then
    { new_tm_desc :=
        { zero_node_desc with
          uind := COPY_ARRAY_DESC new_lp_desc.uind,
          cutind := COPY_ARRAY_DESC new_lp_desc.cutind,
          nf_status := new_lp_desc.nf_status,
          not_fixed := if deal_with_nf c new_lp_desc then COPY_ARRAY_DESC new_lp_desc.not_fixed
            else zero_array_desc,
          basis := copy_basis new_lp_desc.basis },
      i1 := i1, iv := iv, calls := [] }
  else
    let r1 := pack_array_desc_diff true (fun _ => []) lp_desc.uind new_lp_desc.uind i1
    let uind := MAKE_TM_ARRAY_DESC r1.desc new_lp_desc.uind r1.itmp
    let r2 := pack_array_desc_diff true (fun _ => []) lp_desc.not_fixed new_lp_desc.not_fixed iv
    let not_fixed : array_desc :=
      if deal_with_nf c new_lp_desc then
        MAKE_TM_ARRAY_DESC r2.desc new_lp_desc.not_fixed r1.itmp
      else zero_array_desc
    let iv1 := if deal_with_nf c new_lp_desc then r2.itmp else iv
    let calls1 : List codec_call :=
      if deal_with_nf c new_lp_desc then
        [codec_call.pack_array_desc_diff, codec_call.pack_array_desc_diff]
      else [codec_call.pack_array_desc_diff]
    let r3 := pack_array_desc_diff true (fun _ => []) lp_desc.cutind new_lp_desc.cutind r1.itmp
    let cutind := MAKE_TM_ARRAY_DESC r3.desc new_lp_desc.cutind r3.itmp
    let calls2 := calls1 ++ [codec_call.pack_array_desc_diff]
    if ¬ new_lp_desc.basis.basis_exists ∨ ¬ lp_desc.basis.basis_exists then
      { new_tm_desc :=
          { zero_node_desc with
            uind := uind, cutind := cutind, nf_status := new_lp_desc.nf_status,
            not_fixed := not_fixed, basis := copy_basis new_lp_desc.basis },
        i1 := r3.itmp, iv := iv1, calls := calls2 }
    else
      let r4 := pack_basis_diff true basis0 size0 lp_desc new_lp_desc uind.type cutind.type
        r3.itmp
      { new_tm_desc :=
          { zero_node_desc with
            uind := uind, cutind := cutind, nf_status := new_lp_desc.nf_status,
            not_fixed := not_fixed,
            basis := { r4.basis with basis_exists := new_lp_desc.basis.basis_exists } },
        i1 := r4.itmp, iv := iv1, calls := calls2 ++ [codec_call.pack_basis_diff] }

/-- One item of the message `LP__NODE_DESCRIPTION` that `send_node_desc` builds in the
message-passing build: the two leading characters, the numbers and arrays sent directly,
and the values appended by the packing functions. -/
inductive node_msg_val where
  | repricing (b : Bool)
  | node_type (t : node_type_t)
  | dbl (v : double)
  | dbls (l : List double)
  | int (v : Int)
  | chars (l : List Int)
  | codec (w : wire_val)
  deriving DecidableEq, Repr

/-- What `send_node_desc` leaves behind in the message-passing build: the message sent
to the tree manager, the description `p->desc` points to at the end, the two scratch
areas, and the calls of the difference encoders, the latest last. -/
structure node_msg_result where
  sent : List node_msg_val
  desc : node_desc
  i1 : Nat → Int
  iv : Nat → Int
  calls : List codec_call

/-- The end of the message (lines 1240-1244): the size of the user blob and the blob. -/
def blob_items (new_lp_desc : node_desc) : List node_msg_val :=
  [node_msg_val.int new_lp_desc.desc_size] ++
    (if new_lp_desc.desc_size > 0 then
      [node_msg_val.chars (cells new_lp_desc.desc 0 new_lp_desc.desc_size.toNat)]
    else [])

/-- The function `send_node_desc` (lines 563-1253) in the message-passing build (without
`COMPILE_IN_LP` and `SENSITIVITY_ANALYSIS`). `pack_array_desc` and `pack_basis` are
defined outside this file and are parameters: the values they append to the message.
`keep_description_of_pruned` and `sensitivity_analysis` are the fields of `p->par` of
these names, `x` is `lp_data->x`, `lp_desc` is the description `p->desc` points to at the
call, `new_lp_desc` is what `create_explicit_node_desc(p)` returns, `i1` and `iv` are the
scratch areas `lp_data->tmp.i1` and `lp_data->tmp.iv`, and `basis0`, `size0` are the
contents of the uninitialised locals of `pack_basis_diff`. -/
def send_node_desc_message (c : lp_constants) (pack_array_desc : array_desc → List wire_val)
    (pack_basis : basis_desc → Bool → List wire_val) (p : lp_prob)
    (keep_description_of_pruned sensitivity_analysis : Int) (x : List double)
    (node_type : node_type_t) (lp_desc new_lp_desc : node_desc) (i1 iv : Nat → Int)
    (basis0 : basis_desc) (size0 : Int) : node_msg_result :=
  let repricing : Bool := decide (p.colgen_strategy &&& c.COLGEN_REPRICING ≠ 0)
  let pruned_type : Bool := decide (node_type = node_type_t.INFEASIBLE_PRUNED ∨
    node_type = node_type_t.OVER_UB_PRUNED ∨ node_type = node_type_t.DISCARDED_NODE ∨
    node_type = node_type_t.FEASIBLE_PRUNED)
  if pruned_type ∧ keep_description_of_pruned = 0 then
    { sent := [node_msg_val.repricing repricing, node_msg_val.node_type node_type] ++
        (if node_type = node_type_t.FEASIBLE_PRUNED ∧ sensitivity_analysis = 0 then
          [node_msg_val.int lp_desc.uind.size,
           node_msg_val.dbls ((List.range lp_desc.uind.size.toNat).map (fun t => x.getD t 0))]
        else []),
      desc := lp_desc, i1 := i1, iv := iv, calls := [] }
  else
    let head : List node_msg_val :=
      [node_msg_val.repricing repricing, node_msg_val.node_type node_type,
       node_msg_val.dbl p.lp_data.objval]
    if node_type = node_type_t.INTERRUPTED_NODE then
      { sent := head, desc := lp_desc, i1 := i1, iv := iv, calls := [] }
    else
      let head2 := head ++ [node_msg_val.int new_lp_desc.nf_status]
      if p.bc_level = 0 then
        { sent := head2 ++
            (pack_array_desc new_lp_desc.uind ++
              (if deal_with_nf c new_lp_desc then pack_array_desc new_lp_desc.not_fixed
               else []) ++
              pack_array_desc new_lp_desc.cutind ++
              pack_basis new_lp_desc.basis false).map node_msg_val.codec ++
            blob_items new_lp_desc,
          desc := new_lp_desc, i1 := i1, iv := iv, calls := [] }
      else
        let r1 := pack_array_desc_diff false pack_array_desc lp_desc.uind new_lp_desc.uind i1
        let r2 := pack_array_desc_diff false pack_array_desc lp_desc.not_fixed
          new_lp_desc.not_fixed iv
        let sent2 : List wire_val := if deal_with_nf c new_lp_desc then r2.sent else []
        let iv1 := if deal_with_nf c new_lp_desc then r2.itmp else iv
        let calls1 : List codec_call :=
          if deal_with_nf c new_lp_desc then
            [codec_call.pack_array_desc_diff, codec_call.pack_array_desc_diff]
          else [codec_call.pack_array_desc_diff]
        let r3 := pack_array_desc_diff false pack_array_desc lp_desc.cutind
          new_lp_desc.cutind r1.itmp
        let calls2 := calls1 ++ [codec_call.pack_array_desc_diff]
        if ¬ new_lp_desc.basis.basis_exists ∨ ¬ lp_desc.basis.basis_exists then
          { sent := head2 ++
              (r1.sent ++ sent2 ++ r3.sent ++
                pack_basis new_lp_desc.basis false).map node_msg_val.codec ++
              blob_items new_lp_desc,
            desc := new_lp_desc, i1 := r3.itmp, iv := iv1, calls := calls2 }
        else
          let r4 := pack_basis_diff false basis0 size0 lp_desc new_lp_desc r1.desc.type
            r3.desc.type r3.itmp
          { sent := head2 ++
              (r1.sent ++ sent2 ++ r3.sent ++ r4.sent).map node_msg_val.codec ++
              blob_items r4.newnode,
            desc := r4.newnode, i1 := r4.itmp, iv := iv1,
            calls := calls2 ++ [codec_call.pack_basis_diff] }

/-! ## OGDF: graphs and the algorithms of `extended_graph_alg.h` -/

namespace ogdf

/-- Modelled from the spec: the handle `node` of OGDF, declared outside the sources.
A node is identified by its index; the null handle is `none` of `Option node`. -/
abbrev node := Nat

/-- Modelled from the spec: the handle `edge` of OGDF, declared outside the sources.
An edge is identified by its index; the null handle is `none` of `Option edge`. -/
abbrev edge := Nat

/-- Modelled from the spec: the handle `adjEntry` of OGDF, declared outside the
sources. An edge has two adjacency entries, one in the adjacency list of its source
(`at_source = true`) and one in that of its target. -/
structure adjEntry where
  theEdge : edge
  at_source : Bool
  deriving DecidableEq, Repr

/-- Modelled from the spec: the class `Graph` of OGDF, declared outside the sources and
not described by the spec; the model follows the way the sources use it. `nodes` and
`edges` are the node list and the edge list in list order (`firstNode()`, `succ()`),
`adj v` is the adjacency list of `v` in list order (`firstAdj()`, `succ()`). -/
structure Graph where
  nodes : List node
  edges : List edge
  source : edge → node
  target : edge → node
  adj : node → List adjEntry

/-- The node in whose adjacency list the entry lies (`adj->theNode()`). -/
def Graph.theNode (G : Graph) (a : adjEntry) : node :=
  if a.at_source then G.source a.theEdge else G.target a.theEdge

/-- The node at the other end of the entry's edge (`adj->twinNode()`). -/
def Graph.twinNode (G : Graph) (a : adjEntry) : node :=
  if a.at_source then G.target a.theEdge else G.source a.theEdge

/-- The consistency of the lists of a graph: no node and no edge is listed twice, the
ends of the edges are nodes, and the adjacency list of a node holds exactly the entries
of the edges at that node. -/
structure Graph.wf (G : Graph) : Prop where
  nodes_nodup : G.nodes.Nodup
  edges_nodup : G.edges.Nodup
  source_mem : ∀ e ∈ G.edges, G.source e ∈ G.nodes
  target_mem : ∀ e ∈ G.edges, G.target e ∈ G.nodes
  adj_iff : ∀ v ∈ G.nodes, ∀ a, a ∈ G.adj v ↔ (a.theEdge ∈ G.edges ∧ G.theNode a = v)

/-- The graph after `clear()`. -/
def Graph.empty : Graph :=
  { nodes := [], edges := [], source := fun _ => 0, target := fun _ => 0, adj := fun _ => [] }

/-- The call `newNode()` on a graph that has only grown since `clear()`: the new node
gets the next index and is appended to the node list. -/
def Graph.newNode (G : Graph) : Graph × node :=
  ({ G with nodes := G.nodes ++ [G.nodes.length] }, G.nodes.length)

/-- The call `newEdge(v, w)` on a graph that has only grown since `clear()`: the new edge
gets the next index, runs from `v` to `w`, and its entries are appended to the adjacency
lists of `v` and `w`. -/
def Graph.newEdge (G : Graph) (v w : node) : Graph × edge :=
  ({ G with edges := G.edges ++ [G.edges.length],
            source := Function.update G.source G.edges.length v,
            target := Function.update G.target G.edges.length w,
            adj := fun x => G.adj x ++ (if x = v then [⟨G.edges.length, true⟩] else [])
              ++ (if x = w then [⟨G.edges.length, false⟩] else []) },
   G.edges.length)

/-- The variables of `inducedSubGraph`: the graph under construction, the two tables
(`none` for the null handle `0`), and the marks. -/
structure induced_state where
  subGraph : Graph
  nodeTableOrig2New : node → Option node
  edgeTableOrig2New : edge → Option edge
  mark : edge → Bool

/-- The body of the `forall_adj` loop of `inducedSubGraph` (lines 156-166) for one
adjacency entry. -/
def induced_adj_step (G : Graph) (st : induced_state) (adj : adjEntry) : induced_state :=
  let e := adj.theEdge
  match st.nodeTableOrig2New (G.source e), st.nodeTableOrig2New (G.target e) with
  | some a, some b =>
    if st.mark e = false then
      { st with subGraph := (st.subGraph.newEdge a b).1,
                edgeTableOrig2New :=
                  Function.update st.edgeTableOrig2New e (some (st.subGraph.newEdge a b).2),
                mark := Function.update st.mark e true }
    else st
  | _, _ => st

/-- The body of the loop over the node list of `inducedSubGraph` (lines 148-167) for
one node `w`. -/
def induced_node_step (G : Graph) (st : induced_state) (w : node) : induced_state :=
  (G.adj w).foldl (induced_adj_step G)
    { st with subGraph := st.subGraph.newNode.1,
              nodeTableOrig2New :=
                Function.update st.nodeTableOrig2New w (some st.subGraph.newNode.2) }

/-- The function `inducedSubGraph(G, start, subGraph, nodeTableOrig2New,
edgeTableOrig2New)` (lines 132-169); `L` is the list of nodes the iterator `start` runs
through. -/
def inducedSubGraph (G : Graph) (L : List node) : induced_state :=
  L.foldl (induced_node_step G)
    { subGraph := Graph.empty, nodeTableOrig2New := fun _ => none,
      edgeTableOrig2New := fun _ => none, mark := fun _ => false }

/-- A graph on the nodes `0, 1, 2` with the edges `0: 0 → 1`, `1: 1 → 2`, `2: 1 → 1`
(a self-loop) and `3: 0 → 1` (parallel to edge `0`). -/
def sample_graph : Graph :=
  { nodes := [0, 1, 2], edges := [0, 1, 2, 3],
    source := fun e => if e = 0 then 0 else if e = 1 then 1 else if e = 2 then 1 else 0,
    target := fun e => if e = 0 then 1 else if e = 1 then 2 else if e = 2 then 1 else 1,
    adj := fun v =>
      if v = 0 then [⟨0, true⟩, ⟨3, true⟩]
      else if v = 1 then [⟨0, false⟩, ⟨1, true⟩, ⟨2, true⟩, ⟨2, false⟩, ⟨3, false⟩]
      else if v = 2 then [⟨1, false⟩]
      else [] }

end ogdf

/-! ## OGDF: the algorithm of Prim, `computeMinST` -/

namespace ogdf

/-- Modelled from the spec: the class `BinaryHeap2` of OGDF, declared outside the sources,
together with the local arrays of `computeMinST`. The heap is kept as the list `pq` of
the nodes in it and the priority `prio` of each of them. `pqpos w` is the cell the heap
writes the position of `w` to: it is `-1` until `w` is inserted and is never `-1`
afterwards; the code only compares it with `-1` and hands it back to the heap to name
the entry of `w`, so the model stores the position at the time of insertion. -/
structure prim_state where
  pq : List node
  prio : node → Int
  pqpos : node → Int
  processed : node → Bool
  pred : node → Option edge

/-- One pass of the loop over the adjacency entries of the extracted node in
`computeMinST` (lines 327-343). -/
def prim_adj_step (G : Graph) (weight : edge → Int) (st : prim_state) (adj : adjEntry) :
    prim_state :=
  let w := G.twinNode adj
  let e := adj.theEdge
  let wPos := st.pqpos w
  if wPos = -1 then
    { st with
      pq := st.pq ++ [w],
      prio := Function.update st.prio w (weight e),
      pqpos := Function.update st.pqpos w (st.pq.length + 1),
      pred := Function.update st.pred w (some e) }
  else if st.processed w = false ∧ weight e < st.prio w then
    { st with
      prio := Function.update st.prio w (weight e),
      pred := Function.update st.pred w (some e) }
  else st

/-- One pass of the `while(!pq.empty())` loop of `computeMinST` (lines 323-344).
`extractMin` is the method of the heap, which is declared outside the sources: it is
given the nodes in the heap and their priorities and names the node it takes out. -/
def prim_node_step (extractMin : List node → (node → Int) → node) (G : Graph)
    (weight : edge → Int) (st : prim_state) : prim_state :=
  let v := extractMin st.pq st.prio
  (G.adj v).foldl (prim_adj_step G weight)
    { st with pq := st.pq.erase v, processed := Function.update st.processed v true }

/-- The `while(!pq.empty())` loop of `computeMinST`, run for at most `fuel` passes. -/
def prim_loop (extractMin : List node → (node → Int) → node) (G : Graph)
    (weight : edge → Int) : Nat → prim_state → Option prim_state
  | 0, st => if st.pq.isEmpty then some st else none
  | fuel + 1, st =>
    if st.pq.isEmpty then some st
    else prim_loop extractMin G weight fuel (prim_node_step extractMin G weight st)

/-- What `computeMinST` hands back: the arrays `pred` and `isInTree`, the counter
`rootcount` the assertion of line 361 is about, and the returned `treeWeight`. -/
structure minst_result where
  pred : node → Option edge
  isInTree : edge → Bool
  rootcount : Int
  treeWeight : Int

/-- One pass of the final loop of `computeMinST` (lines 349-360). The weight type `T`
is `int`, so the sum `treeWeight += weight[pred[v]]` wraps; `rootcount` counts nodes and
stays below their number. -/
def minst_step (weight : edge → Int) (pred : node → Option edge)
    (acc : Int × Int × (edge → Bool)) (v : node) : Int × Int × (edge → Bool) :=
  match pred v with
  | none => (acc.1 + 1, acc.2.1, acc.2.2)
  | some e => (acc.1, wrap_int (acc.2.1 + weight e), Function.update acc.2.2 e true)

/-- The function `computeMinST(s, G, weight, pred, isInTree)` (lines 309-364), with the
weight type `T` taken as `int`. The main loop is given as many passes as the heap
has room for, `G.numberOfNodes()`; the result is `none` if that is not enough. -/
def computeMinST (extractMin : List node → (node → Int) → node) (s : node) (G : Graph)
    (weight : edge → Int) : Option minst_result :=
  match prim_loop extractMin G weight G.nodes.length
      { pq := [s], prio := fun _ => 0, pqpos := Function.update (fun _ => -1) s 1,
        processed := fun _ => false, pred := fun _ => none } with
  | none => none
  | some st =>
    let r := G.nodes.foldl (minst_step weight st.pred) (0, 0, fun _ => false)
    some { pred := st.pred, isInTree := r.2.2, rootcount := r.1, treeWeight := r.2.1 }

end ogdf

/-! ## OGDF: the algorithm of Kruskal, `makeMinimumSpanningTree` -/

namespace ogdf

/-- The call `delEdge(e)`: the edge leaves the edge list and the adjacency lists of its
ends. -/
def Graph.delEdge (G : Graph) (e : edge) : Graph :=
  { G with
    edges := G.edges.erase e,
    adj := fun v => (G.adj v).filter (fun a => a.theEdge ≠ e) }

/-- Modelled from the spec: the class `DisjointSets` of OGDF, declared outside the
sources, together with the graph and the sum `makeMinimumSpanningTree` works on. The
sets are numbered by `makeSet` from `0` on; `uf i` is the representative `find(i)`
returns. -/
structure kruskal_state where
  G : Graph
  uf : Nat → Nat
  total : Int

/-- Modelled from the spec: the call `link(a, b)` of the class `DisjointSets`, which is
declared outside the sources: the set with the representative `a` is joined to the set
with the representative `b`. -/
def link (uf : Nat → Nat) (a b : Nat) : Nat → Nat :=
  fun i => if uf i = a then b else uf i

/-- One pass of the loop over the sorted edges in `makeMinimumSpanningTree`
(lines 391-406). The pair `p` is a `Prioritized<edge, T>`: the edge and its weight. The
weight type `T` is `int`, so the sum `total += weight[e]` wraps. -/
def kruskal_step (setID : node → Nat) (weight : edge → Int) (st : kruskal_state)
    (p : edge × Int) : kruskal_state :=
  let e := p.1
  let v := setID (st.G.source e)
  let w := setID (st.G.target e)
  if st.uf v ≠ st.uf w then
    { st with uf := link st.uf (st.uf v) (st.uf w), total := wrap_int (st.total + weight e) }
  else
    { st with G := st.G.delEdge e }

/-- The function `makeMinimumSpanningTree(G, weight)` (lines 373-408), with the weight
type `T` taken as `int`. It hands back the graph it leaves and the returned sum.
`quicksort` is the method of the list class, which is declared outside the sources. The
loop of lines 385-388 gives the `i`-th node the set `i`. -/
def makeMinimumSpanningTree (quicksort : List (edge × Int) → List (edge × Int))
    (G : Graph) (weight : edge → Int) : Graph × Int :=
  let sortEdges := quicksort (G.edges.map (fun e => (e, weight e)))
  let setID : node → Nat := fun v => G.nodes.indexOf v
  let st := sortEdges.foldl (kruskal_step setID weight) { G := G, uf := fun i => i, total := 0 }
  (st.G, st.total)

end ogdf

/-! ## OGDF: the edge list of an induced subgraph, `inducedSubgraph` -/

namespace ogdf

/-- The body of the `forall_adj` loop of `inducedSubgraph` (lines 193-198) for one
adjacency entry; `mark` is the node array filled at lines 186-187. -/
def induced_edge_step (G : Graph) (mark : node → Bool) (E : List edge) (adj : adjEntry) :
    List edge :=
  let e := adj.theEdge
  if mark (G.source e) = true ∧ mark (G.target e) = true then E ++ [e] else E

/-- The function `inducedSubgraph(G, it, E)` (lines 181-201); `L` is the list of nodes
the iterator `it` runs through, `E` the edge list at the call, and the result is the
edge list afterwards. -/
def inducedSubgraph (G : Graph) (L : List node) (E : List edge) : List edge :=
  let mark : node → Bool := L.foldl (fun m v => Function.update m v true) (fun _ => false)
  L.foldl (fun E1 v => (G.adj v).foldl (induced_edge_step G mark) E1) E

end ogdf

/-! ## Reference functions used to state the properties -/

/-- Two-pointer comparison of two lists on the pattern of the merge loop, carried to the
end of both lists: the pair (entries only in the second list, entries only in the first). -/
def merge_diff : List Int → List Int → List Int × List Int
  | [], bs => (bs, [])
  | a :: as, [] => ([], a :: as)
  | a :: as, b :: bs =>
    if a < b then ((merge_diff as (b :: bs)).1, a :: (merge_diff as (b :: bs)).2)
    else if a = b then merge_diff as bs
    else (b :: (merge_diff (a :: as) bs).1, (merge_diff (a :: as) bs).2)
termination_by as bs => as.length + bs.length

/-- Elements of `xs` that do not occur in `ys`, in the order of `xs`. -/
def list_minus (xs ys : List Int) : List Int :=
  xs.filter (fun x => decide (x ∉ ys))

/-- Positions `i < n` at which the two status arrays differ, in ascending order. -/
def mismatches (oldstat newstat : List Int) (n : Nat) : List Nat :=
  (List.range n).filter (fun i => decide (oldstat.getD i 0 ≠ newstat.getD i 0))

/-- Overwriting a status array at the recorded positions with the recorded statuses,
pair by pair. -/
def overwrite_stat (stat : List Int) : List Int → List Int → List Int
  | p :: ps, v :: vs => overwrite_stat (stat.set p.toNat v) ps vs
  | _, _ => stat

/-- What the loop of `pack_base_diff` has recorded when it has looked at the first `i`
slots: the mismatching positions among them and the new statuses there. -/
def base_inv (oldstat newstat : List Int) (n : Nat) (s : base_state) : Prop :=
  s.i ≤ n ∧ s.k = (mismatches oldstat newstat s.i).length ∧
  rd s.itmp 0 s.k = (mismatches oldstat newstat s.i).map (fun (p : Nat) => (p : Int)) ∧
  rd s.itmp n s.k = (mismatches oldstat newstat s.i).map (fun p => newstat.getD p 0)

/-- The first `n` (index, status) pairs of an index list and its status array. -/
def pairs (idx stat : List Int) (n : Nat) : List (Int × Int) :=
  (List.range n).map (fun t => (idx.getD t 0, stat.getD t 0))

/-- Two-pointer comparison of two lists of (index, status) pairs on the pattern of the
loop of `pack_extra_diff`, carried to the end of the new list: the new pairs whose index
is skipped over in the old list or met there with a different status. Two indices are
compared as the loop compares them, by the sign of their difference taken in an `int`. -/
def extra_ref : List (Int × Int) → List (Int × Int) → List (Int × Int)
  | _, [] => []
  | [], n :: ns => n :: ns
  | o :: os, n :: ns =>
    if wrap_int (o.1 - n.1) < 0 then extra_ref os (n :: ns)
    else if wrap_int (o.1 - n.1) > 0 then n :: extra_ref (o :: os) ns
    else if o.2 ≠ n.2 then n :: extra_ref os ns
    else extra_ref os ns
termination_by os ns => os.length + ns.length

/-- The range of an `int`. -/
def is_int (x : Int) : Prop :=
  -2147483648 ≤ x ∧ x < 2147483648

instance (x : Int) : Decidable (is_int x) := by
  unfold is_int; exact inferInstance

/-- The difference between any entry of the first list and any entry of the second is in
the range of an `int`, as it is when all entries are non-negative. -/
def diffs_fit (oldlist newlist : List Int) : Prop :=
  ∀ a ∈ oldlist, ∀ b ∈ newlist, is_int (a - b)

instance (oldlist newlist : List Int) : Decidable (diffs_fit oldlist newlist) := by
  unfold diffs_fit; exact inferInstance

/-- Position `j` of the new list counts as changed when its index is absent from the
old list, or present there with a status different from the new one. -/
def extra_changed (oldlist oldstat newlist newstat : List Int) (j : Nat) : Prop :=
  newlist.getD j 0 ∉ oldlist ∨
    ∃ i, i < oldlist.length ∧ oldlist.getD i 0 = newlist.getD j 0 ∧
      oldstat.getD i 0 ≠ newstat.getD j 0

instance (oldlist oldstat newlist newstat : List Int) (j : Nat) :
    Decidable (extra_changed oldlist oldstat newlist newstat j) := by
  unfold extra_changed; exact inferInstance

/-- Positions `j < n` of the new list that count as changed, in ascending order. -/
def changed_positions (oldlist oldstat newlist newstat : List Int) (n : Nat) : List Nat :=
  (List.range n).filter (fun j => decide (extra_changed oldlist oldstat newlist newstat j))

/-- The indices recorded by `pack_extra_diff` in the scratch area: the `*size` cells at
`modlist = itmp`, which `PACK_EXTRA_DIFF` copies into `which2.list`. -/
def recorded_list (r : extra_result) : List Int :=
  rd r.itmp 0 r.size.toNat

/-- The statuses recorded by `pack_extra_diff` in the scratch area: the `*size` cells at
`modstat = itmp + newsize / 2 + 1`, which `PACK_EXTRA_DIFF` copies into `which2.stat`. -/
def recorded_stat (newsize : Int) (r : extra_result) : List Int :=
  rd r.itmp (modstat_off newsize) r.size.toNat

/-- A status block holding the explicit statuses `stat`. -/
def explicit_block (stat : List Int) : double_array_desc :=
  { type := EXPLICIT_LIST, size := (stat.length : Int), list := [], stat := stat }

/-- A node description with three base rows, two base variables, no extra rows or
variables, an existing basis, and the given base-row statuses. -/
def sample_node (baserows_stat : List Int) : node_desc :=
  { uind := { type := EXPLICIT_LIST, size := 0, added := 0, list := [] },
    basis := { basis_exists := true,
               basevars := explicit_block [1, 1],
               extravars := explicit_block [],
               baserows := explicit_block baserows_stat,
               extrarows := explicit_block [] },
    not_fixed := { type := NO_DATA_STORED, size := 0, added := 0, list := [] },
    nf_status := 0,
    cutind := { type := EXPLICIT_LIST, size := 0, added := 0, list := [] },
    desc_size := 0,
    desc := [] }

/-- Whether a message is a `NO_MORE_CUTS` for the node and iteration the process is
working on. -/
def acknowledges (p : lp_prob) (m : lp_msg) : Bool :=
  match m.body with
  | msg_body.NO_MORE_CUTS _ _ index itnum => decide (index = p.bc_index ∧ itnum = p.iter_num)
  | _ => false

/-- The loop state carried by the result of a pass. -/
def pass_result.state : pass_result → cuts_loop_state
  | pass_result.stop _ st => st
  | pass_result.next st => st

/-- An assignment of the constants of `lp_constants`, used in the instances below; the
general statements hold for every assignment. -/
def sample_constants : lp_constants :=
  { COLGEN_REPRICING := 16,
    FATHOM__DO_NOT_GENERATE_COLS__DISCARD := 0,
    FATHOM__DO_NOT_GENERATE_COLS__SEND := 1,
    NF_CHECK_NOTHING := 4,
    NF_CHECK_AFTER_LAST := 1,
    NF_CHECK_UNTIL_LAST := 2,
    DIFFERENT_CUTS := 1,
    CUT_FROM_CP := 1,
    CUT_FROM_CG := 0,
    UNPACK_CUTS_MULTIPLE := 1,
    EXTERNAL_CUT_POOL := -1,
    EXTERNAL_CUT_GEN := -2 }

/-- An assignment of the functions of `lp_callbacks`, used in the instances below: a cut
unpacks to one row, two rows are the same when their cuts are equal, and new rows are
appended to the waiting rows. -/
def sample_callbacks : lp_callbacks :=
  { unpack_cuts_u := fun _ _ _ cuts => cuts.map (fun cut => { source_pid := 0, cut := cut }),
    same_cuts_u := fun _ w1 w2 => if w1.cut = w2.cut then 0 else 1,
    add_new_rows_to_waiting_rows := fun p rows =>
      { p with waiting_rows := p.waiting_rows ++ rows },
    dbl_add := fun a b => a + b,
    dbl_sub := fun a b => a - b }

/-- An LP process with tree manager `1`, cut pool `2`, cut generator `3`, upper bound
`10`, granularity `1`, time-outs `5` (first cut) and `2` (all cuts), working on node `7`
in iteration `1`, with the given waiting rows. -/
def sample_lp (rows : List waiting_row) : lp_prob :=
  { tree_manager := 1, cut_pool := 2, cut_gen := 3, has_ub := true, ub := 10, phase := 0,
    bc_index := 7, bc_level := 1, iter_num := 1, colgen_strategy := 0, dive := 0,
    par := { verbosity := 0, granularity := 1, set_obj_upper_lim := true,
             first_lp := { first_cut_time_out := 5, all_cuts_time_out := 2 },
             later_lp := { first_cut_time_out := 5, all_cuts_time_out := 2 } },
    lp_data := { objval := 0, obj_upper_lim := [] },
    comp_times := { cut_pool := 0 },
    waiting_rows := rows, desc := none, bdesc := [] }

/-- The content of an `LP__ACTIVE_NODE_DATA` message for node `8` with the given
objective value, column generation strategy and `nf_status`, and empty lists. -/
def sample_node_data (objval : double) (colgen_strategy : Nat) (nf_status : Int) :
    active_node_data :=
  { cut_pool := 2, bc_index := 8, bc_level := 1, objval := objval,
    colgen_strategy := colgen_strategy, nf_status := nf_status,
    basis := zero_basis,
    not_fixed := { type := NO_DATA_STORED, size := 0, added := 0, list := [] },
    uind := { type := EXPLICIT_LIST, size := 0, added := 0, list := [] },
    cutind := { type := EXPLICIT_LIST, size := 0, added := 0, list := [] },
    cuts := [], bdesc := [], dive := 0, desc_size := 0, desc := [] }

/-- A tree manager with the given upper bound and policy for pruned nodes, two nodes
created so far, and no candidate for the next phase. -/
def sample_tm (has_ub : Bool) (ub : double) (keep : keep_policy) : tm_prob :=
  { has_ub := has_ub, ub := ub,
    par := { keep_description_of_pruned := keep,
             vbc_emulation := vbc_emulation_t.other 0,
             not_fixed_storage_size := 2 },
    stat := { created := 2, tree_size := 2, root_lb := 0, nf_status := 0,
              vars_not_priced := 0 },
    rootnode := none, samephase_candnum := 0, nextphase_cand := [], calls := [] }

/-- A search tree node with index `7`, not yet given a status by `send_node_desc`
(status code `0`), following the list `l`. -/
def sample_bc_node (l : List Int) : bc_node :=
  { bc_index := 7, node_status := node_status_t.other 0,
    feasibility_status := node_type_t.other 0, lower_bound := 0, cp := 0,
    desc := sample_node l, sol_size := 0, sol_ind := [], sol := [] }

/-- An assignment of the functions of `tree_callbacks`, used in the instances below. -/
def sample_tree_callbacks : tree_callbacks :=
  { collect_nonzeros := fun _ => ([], []),
    merge_descriptions := fun _ new_desc => new_desc,
    add_bound_changes_to_desc := fun d _ => d }

/-- What `send_node_desc` (in-process build, no repricing) leaves behind when it returns,
as one value for all inputs: the three results of `send_node_desc`, the third one also
where the call does not return. It serves to state what the call returns. -/
def send_node_desc_value (cb : tree_callbacks) (p : lp_prob) (tm : tm_prob) (n : bc_node)
    (node_type : node_type_t) (new_lp_desc new_tm_desc : node_desc) : send_result :=
  let pruned_type : Bool := decide (node_type = node_type_t.INFEASIBLE_PRUNED ∨
    node_type = node_type_t.OVER_UB_PRUNED ∨ node_type = node_type_t.DISCARDED_NODE ∨
    node_type = node_type_t.FEASIBLE_PRUNED)
  let n1 : bc_node :=
    if pruned_type then
      let n0 : bc_node := { n with node_status := node_status_t.NODE_STATUS__PRUNED }
      if tm.par.keep_description_of_pruned = keep_policy.KEEP_IN_MEMORY then
        keep_pruned_in_memory cb p n0 node_type
      else n0
    else n
  let tm1 : tm_prob :=
    if pruned_type ∧ tm.par.keep_description_of_pruned = keep_policy.KEEP_ON_DISK_VBC_TOOL then
      { tm with calls := tm.calls ++ [tm_call.write_pruned_nodes] }
    else tm
  if pruned_type ∧ (tm.par.keep_description_of_pruned = keep_policy.DISCARD ∨
      tm.par.keep_description_of_pruned = keep_policy.KEEP_ON_DISK_VBC_TOOL) then
    { tm := { tm1 with calls := tm1.calls ++
                [tm_call.purge_pruned_nodes (purge_reason tm1 node_type)] },
      n := n1, p := p }
  else if node_type = node_type_t.INTERRUPTED_NODE then
    { tm := { tm1 with calls := tm1.calls ++ [tm_call.insert_new_node] },
      n := { n1 with node_status := node_status_t.NODE_STATUS__INTERRUPTED,
                     lower_bound := p.lp_data.objval },
      p := p }
  else
    let tm_desc : node_desc :=
      { n1.desc with desc_size := new_lp_desc.desc_size, desc := [] }
    let n2 : bc_node :=
      { n1 with lower_bound := p.lp_data.objval,
                desc := cb.add_bound_changes_to_desc
                  (cb.merge_descriptions tm_desc new_tm_desc) p }
    let r := insert_by_type tm1 n2 node_type
    { tm := purge_at_end r.1 r.2 node_type, n := r.2,
      p := { p with desc := some new_lp_desc } }

/-- What `repricing_prepare` hands on when the call gets past lines 804-809, as one value
for all inputs. It serves to state what the call returns. -/
def repricing_prepare_value (cb : tree_callbacks) (p : lp_prob) (tm : tm_prob) (n : bc_node)
    (node_type : node_type_t) (new_tm_desc : node_desc) (desc_size : Int) :
    tm_prob × bc_node :=
  let pruned_type : Bool := decide (node_type = node_type_t.INFEASIBLE_PRUNED ∨
    node_type = node_type_t.OVER_UB_PRUNED ∨ node_type = node_type_t.DISCARDED_NODE ∨
    node_type = node_type_t.FEASIBLE_PRUNED)
  let n1 : bc_node :=
    if pruned_type then
      let n0 : bc_node := { n with node_status := node_status_t.NODE_STATUS__PRUNED }
      if tm.par.keep_description_of_pruned = keep_policy.KEEP_IN_MEMORY then
        keep_pruned_in_memory cb p n0 node_type
      else n0
    else n
  let tm1 : tm_prob :=
    if pruned_type ∧ tm.par.keep_description_of_pruned = keep_policy.KEEP_ON_DISK_VBC_TOOL then
      { tm with calls := tm.calls ++ [tm_call.write_pruned_nodes] }
    else tm
  let tm2 : tm_prob :=
    if pruned_type ∧ (tm.par.keep_description_of_pruned = keep_policy.DISCARD ∨
        tm.par.keep_description_of_pruned = keep_policy.KEEP_ON_DISK_VBC_TOOL) then
      { tm1 with calls := tm1.calls ++
          [tm_call.purge_pruned_nodes (purge_reason tm1 node_type)] }
    else tm1
  let n2 : bc_node :=
    if node_type = node_type_t.INTERRUPTED_NODE then
      { n1 with node_status := node_status_t.NODE_STATUS__INTERRUPTED,
                lower_bound := p.lp_data.objval }
    else n1
  let tm3 : tm_prob :=
    if node_type = node_type_t.INTERRUPTED_NODE then
      { tm2 with calls := tm2.calls ++ [tm_call.insert_new_node] }
    else tm2
  let n3 : bc_node :=
    if n2.node_status ≠ node_status_t.NODE_STATUS__PRUNED then
      let tm_desc : node_desc := { n2.desc with desc_size := desc_size, desc := [] }
      { n2 with lower_bound := p.lp_data.objval,
                desc := cb.add_bound_changes_to_desc
                  (cb.merge_descriptions tm_desc new_tm_desc) p }
    else n2
  (tm3, n3)

/-- The node status named for a node type in the state table of the search tree, `none`
for a type the table does not list. -/
def status_for_type : node_type_t → Option node_status_t
  | node_type_t.INFEASIBLE_PRUNED => some node_status_t.NODE_STATUS__PRUNED
  | node_type_t.OVER_UB_PRUNED => some node_status_t.NODE_STATUS__PRUNED
  | node_type_t.DISCARDED_NODE => some node_status_t.NODE_STATUS__PRUNED
  | node_type_t.FEASIBLE_PRUNED => some node_status_t.NODE_STATUS__PRUNED
  | node_type_t.INTERRUPTED_NODE => some node_status_t.NODE_STATUS__INTERRUPTED
  | node_type_t.INFEASIBLE_HOLD_FOR_NEXT_PHASE => some node_status_t.NODE_STATUS__HELD
  | node_type_t.OVER_UB_HOLD_FOR_NEXT_PHASE => some node_status_t.NODE_STATUS__HELD
  | node_type_t.NODE_BRANCHED_ON => some node_status_t.NODE_STATUS__BRANCHED_ON
  | node_type_t.ROOT_NODE => some node_status_t.NODE_STATUS__ROOT
  | _ => none

/-- A node description whose `uind` holds the variables `3` and `5` and which has no
`not_fixed` entries. -/
def sample_repriced_desc : node_desc :=
  { sample_node [] with uind := ⟨EXPLICIT_LIST, 2, 2, [3, 5]⟩ }

/-- A tree manager whose root has the variables `3` and `5` in its `uind`, with four
candidates of the same phase. -/
def sample_repricing_tm : tm_prob :=
  { sample_tm true 10 keep_policy.DISCARD with
      rootnode := some { sample_bc_node [] with desc := sample_repriced_desc },
      samephase_candnum := 4 }

/-- An assignment of the constants of `branching_constants`, used in the instances
below. -/
def sample_branching_constants : branching_constants :=
  { CANDIDATE_VARIABLE := 0, CANDIDATE_CUT_IN_MATRIX := 1, DO_DIVE := 1,
    CHECK_BEFORE_DIVE := 2, CUT_BRANCHED_ON := 1 }

/-- A process working on node `7` that proposes to dive (`dive` as given), with one base
cut and, in row `1`, a cut that has no name yet. -/
def sample_branching_lp (dive : Int) : lp_branching :=
  { tree_manager := 1, bc_index := 7, dive := dive, base_varnum := 2, base_cutnum := 1,
    rows := [⟨0, 0, []⟩, ⟨-1, 0, [4]⟩], userind := [0, 1, 5] }

/-- A candidate of the given type at position `1` with two children. -/
def sample_can (type : Int) : branch_obj :=
  { type := type, position := 1, name := 0, child_num := 2, sense := [76, 71],
    rhs := [0, 1], range := [0, 0], branch := [0, 0], objval := [3, 4], feasible := [0, 0] }

/-- A tree manager with one base cut and five cuts in its list. -/
def sample_tm_branching : tm_branching :=
  { bcutnum := 1, analyzed := 0, bobj := sample_can 0, cg := 0, cuts := [], cut_num := 5,
    active := none, children_cg := [0, 0] }

/-- A `generate_children` that creates the children `8` and `9`, leaves `*keep`, the
actions and the branching object as they are, and returns the given decision. -/
def sample_generate_children (decision : Int) (tm : tm_branching) (_bobj : branch_obj)
    (_objval : List double) (_feasible : List Int) (action : List Int) (_dive : Int)
    (keep : Int) (_i : Int) : children_result :=
  { tm := tm, dive := decision, keep := keep, action := action, children := [8, 9] }

namespace ogdf

/-- What holds of the variables of `inducedSubGraph` once the nodes of the list `P`
have been given their copies: the copies are the indices `0, ..., |P| - 1` in the order
of `P`, the copies of edges are the indices below the number of edges created, each
marked edge of `G` has one copy, which joins the copies of its ends, and each created
edge is the copy of one edge. -/
def induced_inv (G : Graph) (P : List node) (st : induced_state) : Prop :=
  st.subGraph.nodes = List.range P.length ∧
  (∀ v : Nat, st.nodeTableOrig2New v = if v ∈ P then some (P.indexOf v) else none) ∧
  st.subGraph.edges = List.range st.subGraph.edges.length ∧
  (∀ e : Nat, st.mark e = true ↔ ∃ e' : Nat, st.edgeTableOrig2New e = some e') ∧
  (∀ e e' : Nat, st.edgeTableOrig2New e = some e' →
    e' < st.subGraph.edges.length ∧ e ∈ G.edges ∧ G.source e ∈ P ∧ G.target e ∈ P ∧
    some (st.subGraph.source e') = st.nodeTableOrig2New (G.source e) ∧
    some (st.subGraph.target e') = st.nodeTableOrig2New (G.target e)) ∧
  (∀ e' : Nat, e' < st.subGraph.edges.length →
    ∃ e : Nat, st.edgeTableOrig2New e = some e') ∧
  (∀ e1 e2 e' : Nat, st.edgeTableOrig2New e1 = some e' →
    st.edgeTableOrig2New e2 = some e' → e1 = e2)

end ogdf

/-! ## OGDF: paths, forests and the invariant of `computeMinST` -/

namespace ogdf

/-- The edge `e` of `G` has the end points `a` and `b`, in either direction. -/
def joins (G : Graph) (e : edge) (a b : node) : Prop :=
  (G.source e = a ∧ G.target e = b) ∨ (G.source e = b ∧ G.target e = a)

/-- The node `b` can be reached from `a` along edges of the set `T`, each used in either
direction. -/
def reach (G : Graph) (T : Finset edge) (a b : node) : Prop :=
  Relation.ReflTransGen (fun x y => ∃ e ∈ T, joins G e x y) a b

/-- The edge `e` has exactly one end in the node set `S`. -/
def crosses (G : Graph) (S : node → Prop) (e : edge) : Prop :=
  (S (G.source e) ∧ ¬ S (G.target e)) ∨ (S (G.target e) ∧ ¬ S (G.source e))

/-- The edge set `T` has no cycle: taking any edge of `T` away disconnects its ends. -/
def acyclic (G : Graph) (T : Finset edge) : Prop :=
  ∀ e ∈ T, ¬ reach G (T.erase e) (G.source e) (G.target e)

/-- The edge set `T` connects whatever the edges of `G` connect. -/
def spans (G : Graph) (T : Finset edge) : Prop :=
  ∀ a b, reach G G.edges.toFinset a b → reach G T a b

/-- The edge set `T` is a spanning forest of `G`: edges of `G`, without a cycle, with the
connected components of `G`. For a connected `G` this is a spanning tree. -/
def spanning_forest (G : Graph) (T : Finset edge) : Prop :=
  T ⊆ G.edges.toFinset ∧ spans G T ∧ acyclic G T

/-- Any two nodes of `G` are joined by a path of edges of `G`. -/
def connected (G : Graph) : Prop :=
  ∀ a ∈ G.nodes, ∀ b ∈ G.nodes, reach G G.edges.toFinset a b

/-- The total weight of an edge set. -/
def total_weight (weight : edge → Int) (T : Finset edge) : Int :=
  T.sum weight

/-- The weights of `G` are small enough for no sum of weights of different edges to leave
the range of an `int`: their absolute values add up to less than `2^31`. -/
def weights_fit (G : Graph) (weight : edge → Int) : Prop :=
  (G.edges.map (fun e => |weight e|)).sum < 2147483648

instance (G : Graph) (weight : edge → Int) : Decidable (weights_fit G weight) := by
  unfold weights_fit; exact inferInstance

/-- The edge lists a greedy method builds: every edge, when it is added, is a lightest
edge of `G` across some cut that none of the edges added before crosses. -/
inductive greedy_seq (G : Graph) (weight : edge → Int) : List edge → Prop
  | nil : greedy_seq G weight []
  | snoc (K : List edge) (e : edge) (S : node → Prop) :
      greedy_seq G weight K → e ∈ G.edges → crosses G S e →
      (∀ g ∈ K, ¬ crosses G S g) →
      (∀ f ∈ G.edges, crosses G S f → weight e ≤ weight f) →
      greedy_seq G weight (K ++ [e])

/-- The edges `e` of `G` with `isInTree[e]` true. -/
def minst_result.tree (G : Graph) (r : minst_result) : Finset edge :=
  (G.edges.filter (fun e => r.isInTree e)).toFinset

/-- What is assumed of the heap method `extractMin`: from a heap that is not empty it
takes a node of least priority. -/
def heap_min (extractMin : List node → (node → Int) → node) : Prop :=
  ∀ (pq : List node) (prio : node → Int), pq ≠ [] →
    extractMin pq prio ∈ pq ∧ ∀ x ∈ pq, prio (extractMin pq prio) ≤ prio x

/-- The step from a node to its parent along the `pred` edges, among the nodes `O`. -/
def pred_step (G : Graph) (pred : node → Option edge) (O : List node) (a b : node) : Prop :=
  a ∈ O ∧ ∃ e, pred a = some e ∧ joins G e a b

/-- The invariant of the main loop of `computeMinST`. `O` lists the nodes extracted so
far, in order, `K` the `pred` edges of the nodes of `O` other than the start node, in the
same order, and `Sc` the adjacency entries the inner loop has gone through. -/
structure prim_inv (G : Graph) (weight : edge → Int) (s : node) (st : prim_state)
    (O : List node) (K : List edge) (Sc : List adjEntry) : Prop where
  O_nodup : O.Nodup
  pq_nodup : st.pq.Nodup
  disj : ∀ v ∈ O, v ∉ st.pq
  O_nodes : ∀ v ∈ O, v ∈ G.nodes
  pq_nodes : ∀ v ∈ st.pq, v ∈ G.nodes
  processed_iff : ∀ v, st.processed v = true ↔ v ∈ O
  pqpos_iff : ∀ v, st.pqpos v ≠ -1 ↔ (v ∈ O ∨ v ∈ st.pq)
  start : (O = [] ∧ st.pq = [s]) ∨ (∃ O', O = s :: O')
  pred_s : st.pred s = none
  pred_inc : ∀ v e, st.pred v = some e →
    e ∈ G.edges ∧ (G.source e = v ∨ G.target e = v)
  sc_sound : ∀ a ∈ Sc, a.theEdge ∈ G.edges ∧ G.theNode a ∈ O
  front : ∀ x ∈ st.pq, x ≠ s → ∃ a ∈ Sc, G.twinNode a = x ∧
    st.pred x = some a.theEdge ∧ st.prio x = weight a.theEdge ∧
    ∀ b ∈ Sc, G.twinNode b = x → weight a.theEdge ≤ weight b.theEdge
  unseen : ∀ x, st.pqpos x = -1 → st.pred x = none ∧ ∀ a ∈ Sc, G.twinNode a ≠ x
  tree_pred : O.tail.map st.pred = K.map some
  tree_ends : ∀ e ∈ K, G.source e ∈ O ∧ G.target e ∈ O
  tree_greedy : greedy_seq G weight K
  tree_reach : ∀ v ∈ O, reach G K.toFinset s v
  rooted : ∀ v ∈ O, Relation.ReflTransGen (pred_step G st.pred O) v s

/-- Between two passes of the main loop the inner loop has gone through every adjacency
entry of every extracted node. -/
def sc_complete (G : Graph) (O : List node) (Sc : List adjEntry) : Prop :=
  ∀ a : adjEntry, a.theEdge ∈ G.edges → G.theNode a ∈ O → a ∈ Sc

/-- A heap method for the examples: the first node of least priority. -/
def first_min (pq : List node) (prio : node → Int) : node :=
  pq.foldl (fun b x => if prio x < prio b then x else b) (pq.headD 0)

/-- A connected graph on the nodes `0, 1, 2, 3` with the edges `0: 0 - 1`, `1: 1 - 2`,
`2: 0 - 2`, `3: 2 - 3` and `4: 1 - 3`. -/
def sample_net : Graph :=
  { nodes := [0, 1, 2, 3], edges := [0, 1, 2, 3, 4],
    source := fun e => if e = 0 then 0 else if e = 1 then 1 else if e = 2 then 0
      else if e = 3 then 2 else 1,
    target := fun e => if e = 0 then 1 else if e = 1 then 2 else if e = 2 then 2
      else 3,
    adj := fun v =>
      if v = 0 then [⟨0, true⟩, ⟨2, true⟩]
      else if v = 1 then [⟨0, false⟩, ⟨1, true⟩, ⟨4, true⟩]
      else if v = 2 then [⟨1, false⟩, ⟨2, false⟩, ⟨3, true⟩]
      else if v = 3 then [⟨3, false⟩, ⟨4, false⟩]
      else [] }

/-- Weights for `sample_net`: the edges `0, 1, 2, 3, 4` weigh `4, 1, 3, 2, 5`. -/
def sample_weight (e : edge) : Int :=
  if e = 0 then 4 else if e = 1 then 1 else if e = 2 then 3 else if e = 3 then 2 else 5

/-- Weights near the upper end of the range of an `int`: every edge weighs
`2000000000`. -/
def sample_heavy (_e : edge) : Int :=
  2000000000

/-- Weights near the lower end of the range of an `int`: every edge weighs
`-2000000000`. -/
def sample_deep (_e : edge) : Int :=
  -2000000000

end ogdf

/-! ## OGDF: the invariant of `makeMinimumSpanningTree` -/

namespace ogdf

/-- What is assumed of the list method `quicksort`: it puts the entries in ascending
order of priority. -/
def sort_ok (quicksort : List (edge × Int) → List (edge × Int)) : Prop :=
  ∀ L, List.Perm (quicksort L) L ∧ (quicksort L).Pairwise (fun a b => a.2 ≤ b.2)

/-- The order in which `makeMinimumSpanningTree` goes through the edges. -/
def sorted_edges (quicksort : List (edge × Int) → List (edge × Int)) (G : Graph)
    (weight : edge → Int) : List edge :=
  (quicksort (G.edges.map (fun e => (e, weight e)))).map Prod.fst

/-- A sorting method for the examples: sorting by insertion. -/
def sample_sort (L : List (edge × Int)) : List (edge × Int) :=
  L.insertionSort (fun a b => a.2 ≤ b.2)

/-- The invariant of the loop over the sorted edges in `makeMinimumSpanningTree`. `G0`
is the graph at the start, `D` lists the edges gone through so far, in order, and `K`
those of them that were kept. -/
structure kruskal_inv (G0 : Graph) (weight : edge → Int) (st : kruskal_state)
    (D : List edge) (K : List edge) : Prop where
  nodes_eq : st.G.nodes = G0.nodes
  source_eq : st.G.source = G0.source
  target_eq : st.G.target = G0.target
  edges_nodup : st.G.edges.Nodup
  edges_iff : ∀ e, e ∈ st.G.edges ↔ (e ∈ G0.edges ∧ (e ∈ D → e ∈ K))
  kept_sub : ∀ e ∈ K, e ∈ D
  greedy : greedy_seq G0 weight K
  total_eq : st.total = (K.map weight).foldl (fun a x => wrap_int (a + x)) 0
  uf_iff : ∀ u ∈ G0.nodes, ∀ v ∈ G0.nodes,
    st.uf (G0.nodes.indexOf u) = st.uf (G0.nodes.indexOf v) ↔ reach G0 K.toFinset u v
  dropped : ∀ e ∈ D, e ∉ K → reach G0 K.toFinset (G0.source e) (G0.target e)
  history : ∀ (i : Nat) (e : Nat), D[i]? = some e →
    (e ∈ K ↔ ¬ reach G0 ((D.take i).filter (fun x => decide (x ∈ K))).toFinset
      (G0.source e) (G0.target e))

end ogdf

/-- A node description whose `uind` holds the variables `0, 1, 2, 3, 5` and which has no
`not_fixed` entries. -/
def sample_new_vars_desc : node_desc :=
  { sample_node [] with uind := ⟨EXPLICIT_LIST, 5, 5, [0, 1, 2, 3, 5]⟩ }

namespace ogdf

/-- A graph with the nodes `0, 1` and the one edge `0: 0 → 1`. -/
def sample_pair : Graph :=
  { nodes := [0, 1], edges := [0],
    source := fun _ => 0,
    target := fun _ => 1,
    adj := fun v => if v = 0 then [⟨0, true⟩] else if v = 1 then [⟨0, false⟩] else [] }

end ogdf

/-- Two array descriptions say the same: equal tags, sizes and counts of added entries,
and equal contents in the `size` cells of their lists. -/
def array_same (a b : array_desc) : Prop :=
  a.type = b.type ∧ a.size = b.size ∧ a.added = b.added ∧
  cells a.list 0 a.size.toNat = cells b.list 0 b.size.toNat

/-- Two basis blocks say the same: equal tags, sizes and index lists, and equal contents
in the `size` cells of their status arrays. -/
def block_same (a b : double_array_desc) : Prop :=
  a.type = b.type ∧ a.size = b.size ∧ a.list = b.list ∧
  cells a.stat 0 a.size.toNat = cells b.stat 0 b.size.toNat

/-- Two basis descriptions say the same in the flag and in all four status blocks. -/
def basis_same (a b : basis_desc) : Prop :=
  a.basis_exists = b.basis_exists ∧ block_same a.basevars b.basevars ∧
  block_same a.extravars b.extravars ∧ block_same a.baserows b.baserows ∧
  block_same a.extrarows b.extrarows

/-- The old description of the process in the instances for `build_tm_desc`: variables
`10, 11, 12` and the not yet fixed variables `1, ..., 6`. -/
def sample_nf_old : node_desc :=
  { sample_node [] with uind := ⟨EXPLICIT_LIST, 3, 3, [10, 11, 12]⟩,
                        not_fixed := ⟨EXPLICIT_LIST, 6, 6, [1, 2, 3, 4, 5, 6]⟩,
                        nf_status := 1 }

/-- The new explicit description in the instances for `build_tm_desc`: variables
`10, 11` and `last`, and the not yet fixed variables `1, ..., 5` and `7`. -/
def sample_nf_new (last : Int) : node_desc :=
  { sample_node [] with uind := ⟨EXPLICIT_LIST, 3, 3, [10, 11, last]⟩,
                        not_fixed := ⟨EXPLICIT_LIST, 6, 6, [1, 2, 3, 4, 5, 7]⟩,
                        nf_status := 1 }

/-- Modelled from the spec: retrieval of the reported node from the search tree after a
call of `send_node_desc`. The tree and `purge_pruned_nodes` are defined outside the
sources. As the spec has it, the Coordinator discards a pruned node under the discard
policy and keeps it otherwise: the node is gone once it has been handed to
`purge_pruned_nodes` during the call, that is in one of the calls logged after the first
`before` ones, and it is retrieved as the call left it otherwise. -/
def retrieve_node (before : Nat) (r : send_result) : Option bc_node :=
  if (r.tm.calls.drop before).any
      (fun cl => match cl with
        | tm_call.purge_pruned_nodes _ => true
        | _ => false) then none
  else some r.n

/-- Modelled from the spec: decoding of a stored index list against the full list `parent`
it was compared with, which is done outside the sources. A `WRT_PARENT` description holds
the added entries, `added` of them, followed by the removed ones, which are taken out of
`parent` before the added ones are merged in, in ascending order; any other description
holds the list itself. -/
def decode_array (parent : List Int) (ad : array_desc) : List Int :=
  if ad.type = WRT_PARENT then
    List.merge (parent.filter (fun x => decide (x ∉ ad.list.drop ad.added.toNat)))
      (ad.list.take ad.added.toNat) (fun a b => decide (a ≤ b))
  else ad.list

/-- Modelled from the spec: decoding of a stored status block of base slots against the
statuses `parent_stat`, which is done outside the sources. A `WRT_PARENT` block holds the
positions of the mismatched slots and the statuses to write there; any other block holds
the statuses themselves. -/
def decode_base (parent_stat : List Int) (b : double_array_desc) : List Int :=
  if b.type = WRT_PARENT then overwrite_stat parent_stat b.list b.stat else b.stat

/-- Modelled from the spec: decoding of a stored status block of extra slots, whose
indices are `new_list`, against the indices `parent_list` and statuses `parent_stat` it
was compared with, which is done outside the sources. In a `WRT_PARENT` block an index
has its recorded status if it is recorded, and the status it has in the parent
otherwise; any other block holds the statuses themselves. -/
def decode_extra (parent_list parent_stat new_list : List Int) (b : double_array_desc) :
    List Int :=
  if b.type = WRT_PARENT then
    new_list.map (fun x =>
      match List.lookup x (List.zip b.list b.stat) with
      | some st => st
      | none => parent_stat.getD (parent_list.indexOf x) 0)
  else b.stat

/-- The stored description `stored` decodes, against the full description `parent` it was
compared with, to the full description `full`: in the index lists `uind` and `cutind`, in
`nf_status`, and in the basis. The list `not_fixed` and the user blob are left out. -/
def desc_decodes (parent stored full : node_desc) : Prop :=
  decode_array parent.uind.list stored.uind = full.uind.list ∧
  decode_array parent.cutind.list stored.cutind = full.cutind.list ∧
  stored.nf_status = full.nf_status ∧
  stored.basis.basis_exists = full.basis.basis_exists ∧
  (full.basis.basis_exists = true →
    decode_base parent.basis.basevars.stat stored.basis.basevars
      = full.basis.basevars.stat ∧
    decode_base parent.basis.baserows.stat stored.basis.baserows
      = full.basis.baserows.stat ∧
    decode_extra parent.uind.list parent.basis.extravars.stat full.uind.list
      stored.basis.extravars = full.basis.extravars.stat ∧
    decode_extra parent.cutind.list parent.basis.extrarows.stat full.cutind.list
      stored.basis.extrarows = full.basis.extrarows.stat)

instance (parent stored full : node_desc) : Decidable (desc_decodes parent stored full) := by
  unfold desc_decodes; exact inferInstance

/-- The lists and status arrays of a full node description are in order: `uind` and
`cutind` are strictly ascending lists of non-negative `int` values with their `size`
fields equal to their lengths, every status block has as many statuses as its `size`
says, and the blocks of the extra variables and rows have one status for every entry of
`uind` and `cutind`. -/
def lists_ok (d : node_desc) : Prop :=
  d.uind.size = (d.uind.list.length : Int) ∧ List.Pairwise (· < ·) d.uind.list ∧
  (∀ x ∈ d.uind.list, 0 ≤ x ∧ x < 2147483648) ∧
  d.cutind.size = (d.cutind.list.length : Int) ∧ List.Pairwise (· < ·) d.cutind.list ∧
  (∀ x ∈ d.cutind.list, 0 ≤ x ∧ x < 2147483648) ∧
  d.basis.basevars.size = (d.basis.basevars.stat.length : Int) ∧
  d.basis.baserows.size = (d.basis.baserows.stat.length : Int) ∧
  d.basis.extravars.size = (d.basis.extravars.stat.length : Int) ∧
  d.basis.extravars.stat.length = d.uind.list.length ∧
  d.basis.extrarows.size = (d.basis.extrarows.stat.length : Int) ∧
  d.basis.extrarows.stat.length = d.cutind.list.length

instance (d : node_desc) : Decidable (lists_ok d) := by
  unfold lists_ok; exact inferInstance

/-- No part of the description is held as a difference: what
`create_explicit_node_desc` builds. -/
def types_explicit (d : node_desc) : Prop :=
  d.uind.type ≠ WRT_PARENT ∧ d.cutind.type ≠ WRT_PARENT ∧
  d.basis.basevars.type ≠ WRT_PARENT ∧ d.basis.baserows.type ≠ WRT_PARENT ∧
  d.basis.extravars.type ≠ WRT_PARENT ∧ d.basis.extrarows.type ≠ WRT_PARENT

instance (d : node_desc) : Decidable (types_explicit d) := by
  unfold types_explicit; exact inferInstance

/-- An index list held in full. -/
def explicit_array (l : List Int) : array_desc :=
  { type := EXPLICIT_LIST, size := (l.length : Int), added := (l.length : Int), list := l }

/-- The description an LP process started from in the instance for a pruned node that is
kept: variables `10, ..., 14`, three base variables and three base rows, all held in
full. -/
def sample_kept_old : node_desc :=
  { sample_node [2, 2, 2] with
      uind := explicit_array [10, 11, 12, 13, 14],
      basis := { basis_exists := true,
                 basevars := explicit_block [1, 1, 1],
                 extravars := explicit_block [0, 0, 0, 0, 0],
                 baserows := explicit_block [2, 2, 2],
                 extrarows := explicit_block [] } }

/-- The new description of the node in that instance: variable `14` has given way to
`15`, which has status `1`, and the third base variable has status `0`. -/
def sample_kept_new : node_desc :=
  { sample_node [2, 2, 2] with
      uind := explicit_array [10, 11, 12, 13, 15],
      basis := { basis_exists := true,
                 basevars := explicit_block [1, 1, 0],
                 extravars := explicit_block [0, 0, 0, 0, 1],
                 baserows := explicit_block [2, 2, 2],
                 extrarows := explicit_block [] } }

/-- An assignment of the functions of `tree_callbacks` for a stored description that
holds its lists in full: `merge_descriptions` applies the new description to the stored
one and holds the result in full. -/
def sample_merging_callbacks : tree_callbacks :=
  { collect_nonzeros := fun _ => ([], []),
    merge_descriptions := fun stored d =>
      { stored with
          uind := explicit_array (decode_array stored.uind.list d.uind),
          cutind := explicit_array (decode_array stored.cutind.list d.cutind),
          not_fixed := d.not_fixed,
          nf_status := d.nf_status,
          basis :=
            { basis_exists := d.basis.basis_exists,
              basevars := explicit_block
                (decode_base stored.basis.basevars.stat d.basis.basevars),
              extravars := explicit_block
                (decode_extra stored.uind.list stored.basis.extravars.stat
                  (decode_array stored.uind.list d.uind) d.basis.extravars),
              baserows := explicit_block
                (decode_base stored.basis.baserows.stat d.basis.baserows),
              extrarows := explicit_block
                (decode_extra stored.cutind.list stored.basis.extrarows.stat
                  (decode_array stored.cutind.list d.cutind) d.basis.extrarows) } },
    add_bound_changes_to_desc := fun d _ => d }

/-! ## The arithmetic of an `int` -/

/-- A value within the range of an `int` is kept as it is. -/
theorem wrap_int_eq {x : Int} (h1 : -2147483648 ≤ x) (h2 : x < 2147483648) :
    wrap_int x = x := by
  unfold wrap_int
  omega

/-- What `wrap_int` returns lies in the range of an `int`. -/
theorem wrap_int_range (x : Int) : -2147483648 ≤ wrap_int x ∧ wrap_int x < 2147483648 := by
  unfold wrap_int
  omega

/-- A wrapped value of `0` comes from a multiple of `2^32`. -/
theorem wrap_int_mod (x : Int) : ∃ k : Int, wrap_int x = x + 4294967296 * k := by
  unfold wrap_int
  exact ⟨-((x + 2147483648) / 4294967296), by omega⟩

/-- A sum accumulated in an `int` is the exact sum as long as the absolute values of the
start value and of the terms add up to less than `2^31`. -/
theorem foldl_wrap_eq_sum (W : List Int) : ∀ acc : Int,
    |acc| + (W.map (fun x => |x|)).sum < 2147483648 →
    W.foldl (fun a x => wrap_int (a + x)) acc = acc + W.sum := by
  induction W with
  | nil =>
    intro acc _
    simp
  | cons x W ih =>
    intro acc h
    rw [List.map_cons, List.sum_cons] at h
    have h0 : 0 ≤ (W.map (fun x => |x|)).sum :=
      List.sum_nonneg (fun y hy => by
        obtain ⟨z, _, hz⟩ := List.mem_map.mp hy
        rw [← hz]
        exact abs_nonneg z)
    have h1 : |acc + x| ≤ |acc| + |x| := abs_add acc x
    have h2 : |acc + x| < 2147483648 := by omega
    have h3 : wrap_int (acc + x) = acc + x :=
      wrap_int_eq (by have := (abs_lt.mp h2).1; omega) (abs_lt.mp h2).2
    rw [List.foldl_cons, h3, ih (acc + x) (by omega), List.sum_cons]
    omega

/-- The absolute values of a function add up to no more over a list without repetition
than over a list that holds all its entries. -/
theorem sum_abs_le_of_subset (w : Nat → Int) {K E : List Nat} (hK : K.Nodup)
    (hE : E.Nodup) (hs : ∀ e ∈ K, e ∈ E) :
    (K.map (fun e => |w e|)).sum ≤ (E.map (fun e => |w e|)).sum := by
  have h1 : (K.map (fun e => |w e|)).sum = K.toFinset.sum (fun e => |w e|) :=
    (List.sum_toFinset _ hK).symm
  have h2 : K.toFinset.sum (fun e => |w e|) ≤ E.toFinset.sum (fun e => |w e|) :=
    Finset.sum_le_sum_of_subset_of_nonneg
      (fun e he => List.mem_toFinset.mpr (hs e (List.mem_toFinset.mp he)))
      (fun e _ _ => abs_nonneg _)
  have h3 : E.toFinset.sum (fun e => |w e|) = (E.map (fun e => |w e|)).sum :=
    List.sum_toFinset _ hE
  omega

/-! ## Scratch memory -/

theorem rd_length (m : Nat → Int) (off len : Nat) : (rd m off len).length = len := by
  simp [rd]

theorem rd_zero (m : Nat → Int) (off : Nat) : rd m off 0 = [] := by
  simp [rd]

theorem rd_succ (m : Nat → Int) (off len : Nat) :
    rd m off (len + 1) = rd m off len ++ [m (off + len)] := by
  simp [rd, List.range_succ]

theorem rd_add (m : Nat → Int) (off a b : Nat) :
    rd m off (a + b) = rd m off a ++ rd m (off + a) b := by
  simp [rd, List.range_add, Nat.add_assoc]

theorem rd_congr (m m' : Nat → Int) (off len : Nat)
    (h : ∀ x, off ≤ x → x < off + len → m' x = m x) : rd m' off len = rd m off len := by
  unfold rd
  apply List.map_congr_left
  intro t ht
  rw [List.mem_range] at ht
  exact h (off + t) (by omega) (by omega)

theorem rd_store_outside (m : Nat → Int) (a : Nat) (v : Int) (off len : Nat)
    (h : a < off ∨ off + len ≤ a) : rd (store m a v) off len = rd m off len := by
  apply rd_congr
  intro x h1 h2
  have : x ≠ a := by omega
  simp [store, this]

theorem rd_store_end (m : Nat → Int) (v : Int) (off len : Nat) :
    rd (store m (off + len) v) off (len + 1) = rd m off len ++ [v] := by
  rw [rd_succ, rd_store_outside m (off + len) v off len (Or.inr (le_refl _))]
  simp [store]

theorem rd_memcpy_in (m : Nat → Int) (dst : Nat) (src : List Int) (off len : Nat)
    (h : off + len = src.length) : rd (memcpy_in m dst src off len) dst len = src.drop off := by
  apply List.ext_getElem
  · simp [rd]; omega
  · intro n h1 h2
    simp only [rd, List.length_map, List.length_range] at h1
    have h3 : off + n < src.length := by omega
    have h4 : src.getD (off + n) 0 = src[off + n] := List.getD_eq_getElem _ _ h3
    simp [rd, memcpy_in, h1, ← h4]

theorem rd_memcpy_in_outside (m : Nat → Int) (dst : Nat) (src : List Int) (off len : Nat)
    (o n : Nat) (h : o + n ≤ dst ∨ dst + len ≤ o) :
    rd (memcpy_in m dst src off len) o n = rd m o n := by
  apply rd_congr
  intro x h1 h2
  have : ¬ (dst ≤ x ∧ x < dst + len) := by omega
  simp [memcpy_in, this]

theorem rd_memcpy_within (m : Nat → Int) (dst src len : Nat) :
    rd (memcpy_within m dst src len) dst len = rd m src len := by
  unfold rd
  apply List.map_congr_left
  intro t ht
  rw [List.mem_range] at ht
  simp [memcpy_within, ht]

theorem rd_memcpy_within_outside (m : Nat → Int) (dst src len : Nat)
    (o n : Nat) (h : o + n ≤ dst ∨ dst + len ≤ o) :
    rd (memcpy_within m dst src len) o n = rd m o n := by
  apply rd_congr
  intro x h1 h2
  have : ¬ (dst ≤ x ∧ x < dst + len) := by omega
  simp [memcpy_within, this]

theorem drop_cons_getD (xs : List Int) (i : Nat) (h : i < xs.length) :
    xs.drop i = xs.getD i 0 :: xs.drop (i + 1) := by
  rw [List.getD_eq_getElem _ _ h]
  exact List.drop_eq_getElem_cons h

/-! ## The reference comparison `merge_diff` -/

theorem merge_diff_nil_left (bs : List Int) : merge_diff [] bs = (bs, []) := by
  rw [merge_diff]

theorem merge_diff_nil_right (as : List Int) : merge_diff as [] = ([], as) := by
  cases as with
  | nil => rw [merge_diff]
  | cons a as => rw [merge_diff]

theorem merge_diff_cons_lt (a b : Int) (as bs : List Int) (h : a < b) :
    merge_diff (a :: as) (b :: bs)
      = ((merge_diff as (b :: bs)).1, a :: (merge_diff as (b :: bs)).2) := by
  rw [merge_diff, if_pos h]

theorem merge_diff_cons_eq (a b : Int) (as bs : List Int) (h : a = b) :
    merge_diff (a :: as) (b :: bs) = merge_diff as bs := by
  have h1 : ¬ a < b := by omega
  rw [merge_diff, if_neg h1, if_pos h]

theorem merge_diff_cons_gt (a b : Int) (as bs : List Int) (h : b < a) :
    merge_diff (a :: as) (b :: bs)
      = (b :: (merge_diff (a :: as) bs).1, (merge_diff (a :: as) bs).2) := by
  have h1 : ¬ a < b := by omega
  have h2 : ¬ a = b := by omega
  rw [merge_diff, if_neg h1, if_neg h2]

theorem list_minus_skip (xs ys : List Int) (a : Int) (h : a ∉ xs) :
    list_minus xs (a :: ys) = list_minus xs ys := by
  unfold list_minus
  apply List.filter_congr
  intro x hx
  have : x ≠ a := fun e => h (e ▸ hx)
  simp [this]

theorem list_minus_cons_keep (x : Int) (xs ys : List Int) (h : x ∉ ys) :
    list_minus (x :: xs) ys = x :: list_minus xs ys := by
  simp [list_minus, h]

theorem list_minus_cons_drop (x : Int) (xs ys : List Int) (h : x ∈ ys) :
    list_minus (x :: xs) ys = list_minus xs ys := by
  simp [list_minus, h]

theorem not_mem_of_lt_head (a b : Int) (bs : List Int) (hB : List.Pairwise (· < ·) (b :: bs))
    (h : a < b) : a ∉ b :: bs := by
  intro hm
  rcases List.mem_cons.mp hm with e | hm
  · omega
  · have := (List.pairwise_cons.mp hB).1 a hm
    omega

theorem not_mem_tail_of_sorted (a : Int) (as : List Int)
    (hA : List.Pairwise (· < ·) (a :: as)) : a ∉ as := by
  intro hm
  have := (List.pairwise_cons.mp hA).1 a hm
  omega

/-- On strictly ascending lists the two-pointer comparison computes the two set
differences. -/
theorem merge_diff_sorted (A B : List Int) (hA : List.Pairwise (· < ·) A)
    (hB : List.Pairwise (· < ·) B) : merge_diff A B = (list_minus B A, list_minus A B) := by
  induction A generalizing B with
  | nil => simp [merge_diff_nil_left, list_minus]
  | cons a as ihA =>
    induction B with
    | nil => simp [merge_diff_nil_right, list_minus]
    | cons b bs ihB =>
      have hAt := (List.pairwise_cons.mp hA).2
      have hBt := (List.pairwise_cons.mp hB).2
      rcases lt_trichotomy a b with h | h | h
      · rw [merge_diff_cons_lt a b as bs h, ihA (b :: bs) hAt hB]
        have h1 : a ∉ b :: bs := not_mem_of_lt_head a b bs hB h
        rw [list_minus_skip (b :: bs) as a h1, list_minus_cons_keep a as (b :: bs) h1]
      · subst h
        rw [merge_diff_cons_eq a a as bs rfl, ihA bs hAt hBt]
        have h1 : a ∉ bs := not_mem_tail_of_sorted a bs hB
        have h2 : a ∉ as := not_mem_tail_of_sorted a as hA
        rw [list_minus_cons_drop a bs (a :: as) (List.mem_cons_self _ _),
          list_minus_cons_drop a as (a :: bs) (List.mem_cons_self _ _),
          list_minus_skip bs as a h1, list_minus_skip as bs a h2]
      · rw [merge_diff_cons_gt a b as bs h, ihB hBt]
        have h1 : b ∉ a :: as := not_mem_of_lt_head b a as hA h
        rw [list_minus_skip (a :: as) bs b h1, list_minus_cons_keep b bs (a :: as) h1]

/-! ## The merge loop of `pack_array_desc_diff` -/

/-- One pass of the merge loop keeps the counters in range, uses one unit of the bound
on the remaining passes, and moves one step of the reference comparison into the
scratch area. -/
theorem diff_body_step (A B : List Int) (s : diff_state)
    (hc : diff_cond (A.length : Int) (B.length : Int) s) :
    let t := diff_body A B (B.length : Int) s
    t.i ≤ A.length ∧ t.j ≤ B.length ∧ t.k + t.l ≤ B.length ∧
    (A.length - t.i) + (B.length - t.j) < (A.length - s.i) + (B.length - s.j) ∧
    rd t.itmp 0 t.k ++ (merge_diff (A.drop t.i) (B.drop t.j)).1
      = rd s.itmp 0 s.k ++ (merge_diff (A.drop s.i) (B.drop s.j)).1 ∧
    rd t.itmp B.length t.l ++ (merge_diff (A.drop t.i) (B.drop t.j)).2
      = rd s.itmp B.length s.l ++ (merge_diff (A.drop s.i) (B.drop s.j)).2 := by
  obtain ⟨hi, hj, hlt⟩ := hc
  have hi' : s.i < A.length := by omega
  have hj' : s.j < B.length := by omega
  have hlt' : s.k + s.l < B.length := by omega
  have eA := drop_cons_getD A s.i hi'
  have eB := drop_cons_getD B s.j hj'
  intro t
  rcases lt_trichotomy (A.getD s.i 0) (B.getD s.j 0) with h | h | h
  · have ht : t = { s with itmp := store s.itmp (B.length + s.l) (A.getD s.i 0),
                           l := s.l + 1, i := s.i + 1 } := by
      show diff_body A B (B.length : Int) s = _
      unfold diff_body
      rw [if_pos h, Int.toNat_ofNat]
    rw [ht]
    simp only
    refine ⟨by omega, by omega, by omega, by omega, ?_, ?_⟩
    · rw [rd_store_outside _ _ _ _ _ (Or.inr (by omega)), eA, eB,
        merge_diff_cons_lt _ _ _ _ h, ← eB]
    · rw [rd_store_end, eA, eB, merge_diff_cons_lt _ _ _ _ h, ← eB]
      simp
  · have h1 : ¬ A.getD s.i 0 < B.getD s.j 0 := by omega
    have ht : t = { s with i := s.i + 1, j := s.j + 1 } := by
      show diff_body A B (B.length : Int) s = _
      unfold diff_body
      rw [if_neg h1, if_pos h]
    rw [ht]
    simp only
    refine ⟨by omega, by omega, by omega, by omega, ?_, ?_⟩
    · rw [eA, eB, merge_diff_cons_eq _ _ _ _ h]
    · rw [eA, eB, merge_diff_cons_eq _ _ _ _ h]
  · have h1 : ¬ A.getD s.i 0 < B.getD s.j 0 := by omega
    have h2 : ¬ A.getD s.i 0 = B.getD s.j 0 := by omega
    have ht : t = { s with itmp := store s.itmp s.k (B.getD s.j 0),
                           k := s.k + 1, j := s.j + 1 } := by
      show diff_body A B (B.length : Int) s = _
      unfold diff_body
      rw [if_neg h1, if_neg h2]
    rw [ht]
    simp only
    refine ⟨by omega, by omega, by omega, by omega, ?_, ?_⟩
    · have := rd_store_end s.itmp (B.getD s.j 0) 0 s.k
      rw [Nat.zero_add] at this
      rw [this, eA, eB, merge_diff_cons_gt _ _ _ _ h, ← eA]
      simp
    · rw [rd_store_outside _ _ _ _ _ (Or.inl (by omega)), eA, eB,
        merge_diff_cons_gt _ _ _ _ h, ← eA]

/-- The merge loop, given enough passes, stops in a state where the loop condition is
false, and what it wrote to the scratch area is a prefix of the reference comparison. -/
theorem diff_loop_inv (A B : List Int) (fuel : Nat) (s : diff_state)
    (hi : s.i ≤ A.length) (hj : s.j ≤ B.length) (hkl : s.k + s.l ≤ B.length)
    (hfuel : (A.length - s.i) + (B.length - s.j) ≤ fuel) :
    (diff_loop A B A.length B.length fuel s).i ≤ A.length ∧
    (diff_loop A B A.length B.length fuel s).j ≤ B.length ∧
    (diff_loop A B A.length B.length fuel s).k + (diff_loop A B A.length B.length fuel s).l
      ≤ B.length ∧
    ¬ diff_cond A.length B.length (diff_loop A B A.length B.length fuel s) ∧
    rd (diff_loop A B A.length B.length fuel s).itmp 0 (diff_loop A B A.length B.length fuel s).k
        ++ (merge_diff (A.drop (diff_loop A B A.length B.length fuel s).i)
              (B.drop (diff_loop A B A.length B.length fuel s).j)).1
      = rd s.itmp 0 s.k ++ (merge_diff (A.drop s.i) (B.drop s.j)).1 ∧
    rd (diff_loop A B A.length B.length fuel s).itmp B.length
          (diff_loop A B A.length B.length fuel s).l
        ++ (merge_diff (A.drop (diff_loop A B A.length B.length fuel s).i)
              (B.drop (diff_loop A B A.length B.length fuel s).j)).2
      = rd s.itmp B.length s.l ++ (merge_diff (A.drop s.i) (B.drop s.j)).2 := by
  induction fuel generalizing s with
  | zero =>
    have h1 : ¬ diff_cond A.length B.length s := by
      unfold diff_cond; omega
    simp only [diff_loop]
    exact ⟨hi, hj, hkl, h1, trivial, trivial⟩
  | succ fuel ih =>
    by_cases hc : diff_cond A.length B.length s
    · have hstep := diff_body_step A B s hc
      simp only at hstep
      obtain ⟨h1, h2, h3, h4, h5, h6⟩ := hstep
      have := ih (diff_body A B (B.length : Int) s) h1 h2 h3 (by omega)
      simp only [diff_loop, if_pos hc]
      obtain ⟨g1, g2, g3, g4, g5, g6⟩ := this
      exact ⟨g1, g2, g3, g4, g5.trans h5, g6.trans h6⟩
    · simp only [diff_loop, if_neg hc]
      exact ⟨hi, hj, hkl, hc, trivial, trivial⟩

/-- The merge loop always stops by itself within `origsize + newsize` passes: the
state it returns falsifies the loop condition, for every input. -/
theorem diff_loop_exits (origlist newlist : List Int) (origsize newsize : Int) (fuel : Nat)
    (s : diff_state)
    (hfuel : (origsize.toNat - s.i) + (newsize.toNat - s.j) ≤ fuel) :
    ¬ diff_cond origsize newsize (diff_loop origlist newlist origsize newsize fuel s) := by
  induction fuel generalizing s with
  | zero =>
    simp only [diff_loop]
    unfold diff_cond
    omega
  | succ fuel ih =>
    by_cases hc : diff_cond origsize newsize s
    · simp only [diff_loop, if_pos hc]
      apply ih
      obtain ⟨c1, c2, c3⟩ := hc
      unfold diff_body
      split_ifs <;> simp only <;> omega
    · simp only [diff_loop, if_neg hc]
      exact hc

/-- State of the merge loop of `pack_array_desc_diff` at its exit, for well-formed
arguments: the test `origsize - i - j + k + l >= 0` holds exactly when the full
difference has at least `newsize` entries, and otherwise the loop ran to the end of
one list, so the scratch area and the two tails hold the full difference. -/
theorem diff_loop_final (A B : List Int) (itmp0 : Nat → Int) (fuel : Nat)
    (hfuel : A.length + B.length ≤ fuel) :
    ((0 : Int) ≤ (A.length : Int)
        - (diff_loop A B A.length B.length fuel ⟨0, 0, 0, 0, itmp0⟩).i
        - (diff_loop A B A.length B.length fuel ⟨0, 0, 0, 0, itmp0⟩).j
        + (diff_loop A B A.length B.length fuel ⟨0, 0, 0, 0, itmp0⟩).k
        + (diff_loop A B A.length B.length fuel ⟨0, 0, 0, 0, itmp0⟩).l
      ↔ B.length ≤ (merge_diff A B).1.length + (merge_diff A B).2.length) ∧
    ((merge_diff A B).1.length + (merge_diff A B).2.length < B.length →
      (diff_loop A B A.length B.length fuel ⟨0, 0, 0, 0, itmp0⟩).i ≤ A.length ∧
      (diff_loop A B A.length B.length fuel ⟨0, 0, 0, 0, itmp0⟩).j ≤ B.length ∧
      rd (diff_loop A B A.length B.length fuel ⟨0, 0, 0, 0, itmp0⟩).itmp 0
          (diff_loop A B A.length B.length fuel ⟨0, 0, 0, 0, itmp0⟩).k
        ++ B.drop (diff_loop A B A.length B.length fuel ⟨0, 0, 0, 0, itmp0⟩).j
        = (merge_diff A B).1 ∧
      rd (diff_loop A B A.length B.length fuel ⟨0, 0, 0, 0, itmp0⟩).itmp B.length
          (diff_loop A B A.length B.length fuel ⟨0, 0, 0, 0, itmp0⟩).l
        ++ A.drop (diff_loop A B A.length B.length fuel ⟨0, 0, 0, 0, itmp0⟩).i
        = (merge_diff A B).2) := by
  have inv := diff_loop_inv A B fuel ⟨0, 0, 0, 0, itmp0⟩ (Nat.zero_le _) (Nat.zero_le _)
    (Nat.zero_le _) (by simpa using hfuel)
  generalize diff_loop A B A.length B.length fuel ⟨0, 0, 0, 0, itmp0⟩ = s at inv ⊢
  obtain ⟨hi, hj, hkl, hc, e1, e2⟩ := inv
  simp only [rd_zero, List.nil_append, List.drop_zero] at e1 e2
  have L1 := congrArg List.length e1
  have L2 := congrArg List.length e2
  simp only [List.length_append, rd_length] at L1 L2
  unfold diff_cond at hc
  by_cases ha : s.i = A.length
  · have hd : A.drop s.i = [] := by rw [ha]; exact List.drop_length A
    rw [hd, merge_diff_nil_left] at e1 e2 L1 L2
    simp only [List.length_drop, List.length_nil] at L1 L2
    refine ⟨by omega, fun _ => ⟨hi, hj, e1, ?_⟩⟩
    rw [hd]; exact e2
  · by_cases hb : s.j = B.length
    · have hd : B.drop s.j = [] := by rw [hb]; exact List.drop_length B
      rw [hd, merge_diff_nil_right] at e1 e2 L1 L2
      simp only [List.length_drop, List.length_nil] at L1 L2
      refine ⟨by omega, fun _ => ⟨hi, hj, ?_, e2⟩⟩
      rw [hd]; exact e1
    · have hge : B.length ≤ s.k + s.l := by omega
      refine ⟨by omega, fun h => ?_⟩
      omega

theorem memcpy_in_zero (m : Nat → Int) (dst : Nat) (src : List Int) (off : Nat) :
    memcpy_in m dst src off 0 = m := by
  funext x
  have : ¬ (dst ≤ x ∧ x < dst + 0) := by omega
  simp [memcpy_in, this]

theorem memcpy_within_zero (m : Nat → Int) (dst src : Nat) :
    memcpy_within m dst src 0 = m := by
  funext x
  have : ¬ (dst ≤ x ∧ x < dst + 0) := by omega
  simp [memcpy_within, this]

/-- The three `memcpy` calls of the `WRT_PARENT` branch assemble, at the start of the
scratch area, the added entries followed by the removed entries. -/
theorem diff_copy (m : Nat → Int) (A B : List Int) (i j k l : Nat)
    (hi : i ≤ A.length) (hj : j ≤ B.length) (hk : B.length - j + k ≤ B.length) :
    rd (memcpy_in (memcpy_within (memcpy_in m k B j (B.length - j))
          (B.length - j + k) B.length l) (B.length - j + k + l) A i (A.length - i))
        0 (A.length - i + l + (B.length - j) + k)
      = (rd m 0 k ++ B.drop j) ++ (rd m B.length l ++ A.drop i) := by
  have e : A.length - i + l + (B.length - j) + k
      = (k + (B.length - j)) + (l + (A.length - i)) := by omega
  rw [e, rd_add, rd_add, rd_add]
  simp only [Nat.zero_add]
  have p1 : ∀ m' : Nat → Int, rd (memcpy_in m' k B j (B.length - j)) k (B.length - j)
      = B.drop j := fun m' => rd_memcpy_in m' k B j _ (by omega)
  have p4 : ∀ m' : Nat → Int,
      rd (memcpy_in m' (B.length - j + k + l) A i (A.length - i))
        (k + (B.length - j) + l) (A.length - i) = A.drop i := by
    intro m'
    have := rd_memcpy_in m' (B.length - j + k + l) A i (A.length - i) (by omega)
    rw [show k + (B.length - j) + l = B.length - j + k + l by omega]
    exact this
  rw [p4]
  rw [rd_memcpy_in_outside _ _ _ _ _ 0 k (Or.inl (by omega)),
    rd_memcpy_within_outside _ _ _ _ 0 k (Or.inl (by omega)),
    rd_memcpy_in_outside _ _ _ _ _ 0 k (Or.inl (by omega))]
  rw [rd_memcpy_in_outside _ _ _ _ _ k (B.length - j) (Or.inl (by omega)),
    rd_memcpy_within_outside _ _ _ _ k (B.length - j) (Or.inl (by omega)), p1]
  rw [rd_memcpy_in_outside _ _ _ _ _ (k + (B.length - j)) l (Or.inl (by omega)),
    show k + (B.length - j) = B.length - j + k by omega, rd_memcpy_within,
    rd_memcpy_in_outside _ _ _ _ _ B.length l (Or.inr (by omega))]

/-- Result of `pack_array_desc_diff` on well-formed arguments (each `size` is the length
of its list) whose new description carries data, in both builds: a `WRT_PARENT`
description listing the full difference when it has fewer entries than the new list,
and the new description itself otherwise. -/
theorem pack_array_desc_diff_desc (compile_in_lp : Bool)
    (pack_array_desc : array_desc → List wire_val) (ad new_ad : array_desc) (itmp : Nat → Int)
    (hA : ad.size = ad.list.length) (hB : new_ad.size = new_ad.list.length)
    (hty : new_ad.type ≠ NO_DATA_STORED) :
    (pack_array_desc_diff compile_in_lp pack_array_desc ad new_ad itmp).desc =
      if (merge_diff ad.list new_ad.list).1.length + (merge_diff ad.list new_ad.list).2.length
          < new_ad.list.length then
        { type := WRT_PARENT,
          size := (((merge_diff ad.list new_ad.list).1.length
            + (merge_diff ad.list new_ad.list).2.length : Nat) : Int),
          added := ((merge_diff ad.list new_ad.list).1.length : Int),
          list := (merge_diff ad.list new_ad.list).1 ++ (merge_diff ad.list new_ad.list).2 }
      else new_ad := by
  obtain ⟨ty, sz, added, B⟩ := new_ad
  obtain ⟨aty, asz, aadded, A⟩ := ad
  simp only at hA hB hty
  subst hA hB
  unfold pack_array_desc_diff
  simp only
  generalize (if compile_in_lp = true then store itmp 0 (-1) else itmp) = itmp0
  have hfin := diff_loop_final A B itmp0 ((A.length : Int).toNat + (B.length : Int).toNat)
    (by simp)
  generalize diff_loop A B (A.length : Int) (B.length : Int)
    ((A.length : Int).toNat + (B.length : Int).toNat) ⟨0, 0, 0, 0, itmp0⟩ = s at hfin ⊢
  obtain ⟨hiff, hwrt⟩ := hfin
  by_cases hD : (merge_diff A B).1.length + (merge_diff A B).2.length < B.length
  · obtain ⟨hi, hj, e1, e2⟩ := hwrt hD
    have hpos : (B.length : Int) > 0 := by omega
    have hne : ¬ (B.length : Int) = 0 := by omega
    have henter : (if compile_in_lp = true
        then decide (ty ≠ NO_DATA_STORED ∧ (B.length : Int) > 0)
        else decide (¬ ty = NO_DATA_STORED ∧ ¬ (B.length : Int) = 0)) = true := by
      cases compile_in_lp <;> simp [hty, hpos, hne]
    have hcond : ¬ ((A.length : Int) - s.i - s.j + s.k + s.l ≥ 0) := by
      intro h
      have := hiff.mp h
      omega
    rw [if_pos henter, if_neg hcond, if_pos hD]
    have L1 := congrArg List.length e1
    have L2 := congrArg List.length e2
    simp only [List.length_append, rd_length, List.length_drop] at L1 L2
    simp only
    have hsize : (A.length : Int) - s.i + s.l + B.length - s.j + s.k
        = (((merge_diff A B).1.length + (merge_diff A B).2.length : Nat) : Int) := by omega
    have hadded : (B.length : Int) - s.j + s.k = ((merge_diff A B).1.length : Int) := by omega
    have hlist : (if (A.length : Int) - s.i + s.l + B.length - s.j + s.k > 0 then
          rd (if (A.length : Int) > s.i then
              memcpy_in (if s.l > 0 then
                  memcpy_within (if (B.length : Int) > s.j then
                      memcpy_in s.itmp s.k B s.j ((B.length : Int) - s.j).toNat else s.itmp)
                    ((B.length : Int) - s.j + s.k).toNat (B.length : Int).toNat s.l
                else (if (B.length : Int) > s.j then
                      memcpy_in s.itmp s.k B s.j ((B.length : Int) - s.j).toNat else s.itmp))
                (((B.length : Int) - s.j + s.k).toNat + s.l) A s.i ((A.length : Int) - s.i).toNat
            else (if s.l > 0 then
                  memcpy_within (if (B.length : Int) > s.j then
                      memcpy_in s.itmp s.k B s.j ((B.length : Int) - s.j).toNat else s.itmp)
                    ((B.length : Int) - s.j + s.k).toNat (B.length : Int).toNat s.l
                else (if (B.length : Int) > s.j then
                      memcpy_in s.itmp s.k B s.j ((B.length : Int) - s.j).toNat else s.itmp)))
            0 ((A.length : Int) - s.i + s.l + B.length - s.j + s.k).toNat
        else [])
        = (merge_diff A B).1 ++ (merge_diff A B).2 := by
      have t1 : ((B.length : Int) - s.j).toNat = B.length - s.j := by omega
      have t2 : ((B.length : Int) - s.j + s.k).toNat = B.length - s.j + s.k := by omega
      have t3 : ((A.length : Int) - s.i).toNat = A.length - s.i := by omega
      have t4 : ((A.length : Int) - s.i + s.l + B.length - s.j + s.k).toNat
          = A.length - s.i + s.l + (B.length - s.j) + s.k := by omega
      rw [t1, t2, t3, t4, Int.toNat_ofNat]
      have m1 : (if (B.length : Int) > s.j then memcpy_in s.itmp s.k B s.j (B.length - s.j)
          else s.itmp) = memcpy_in s.itmp s.k B s.j (B.length - s.j) := by
        split_ifs with h
        · rfl
        · have : B.length - s.j = 0 := by omega
          rw [this, memcpy_in_zero]
      rw [m1]
      have m2 : (if s.l > 0 then memcpy_within (memcpy_in s.itmp s.k B s.j (B.length - s.j))
            (B.length - s.j + s.k) B.length s.l
          else memcpy_in s.itmp s.k B s.j (B.length - s.j))
          = memcpy_within (memcpy_in s.itmp s.k B s.j (B.length - s.j))
            (B.length - s.j + s.k) B.length s.l := by
        split_ifs with h
        · rfl
        · have : s.l = 0 := by omega
          rw [this, memcpy_within_zero]
      rw [m2]
      have m3 : (if (A.length : Int) > s.i then
            memcpy_in (memcpy_within (memcpy_in s.itmp s.k B s.j (B.length - s.j))
              (B.length - s.j + s.k) B.length s.l) (B.length - s.j + s.k + s.l) A s.i
              (A.length - s.i)
          else memcpy_within (memcpy_in s.itmp s.k B s.j (B.length - s.j))
              (B.length - s.j + s.k) B.length s.l)
          = memcpy_in (memcpy_within (memcpy_in s.itmp s.k B s.j (B.length - s.j))
              (B.length - s.j + s.k) B.length s.l) (B.length - s.j + s.k + s.l) A s.i
              (A.length - s.i) := by
        split_ifs with h
        · rfl
        · have : A.length - s.i = 0 := by omega
          rw [this, memcpy_in_zero]
      rw [m3, diff_copy s.itmp A B s.i s.j s.k s.l hi hj (by omega), e1, e2]
      split_ifs with h
      · rfl
      · have h0 : (merge_diff A B).1.length + (merge_diff A B).2.length = 0 := by omega
        have h1 : (merge_diff A B).1 = [] := List.length_eq_zero.mp (by omega)
        have h2 : (merge_diff A B).2 = [] := List.length_eq_zero.mp (by omega)
        rw [h1, h2]; rfl
    rw [hlist, hsize, hadded]
  · rw [if_neg hD]
    have hcond : (A.length : Int) - s.i - s.j + s.k + s.l ≥ 0 := hiff.mpr (by omega)
    rw [if_pos hcond]
    split_ifs <;> rfl

/-! ## Properties of `pack_array_desc_diff` -/

theorem mem_list_minus (x : Int) (xs ys : List Int) :
    x ∈ list_minus xs ys ↔ x ∈ xs ∧ x ∉ ys := by
  simp [list_minus]

theorem list_minus_sorted (xs ys : List Int) (h : List.Pairwise (· < ·) xs) :
    List.Pairwise (· < ·) (list_minus xs ys) :=
  List.Pairwise.filter _ h

/-- Deleting from `A` what is not in `B` and merging in what `B` has beyond `A` gives `B`,
for strictly ascending lists. -/
theorem merge_restores (A B : List Int) (hA : List.Pairwise (· < ·) A)
    (hB : List.Pairwise (· < ·) B) :
    List.merge (A.filter (fun x => decide (x ∉ list_minus A B))) (list_minus B A)
      (fun a b => decide (a ≤ b)) = B := by
  have hX : List.Pairwise (· < ·) (A.filter (fun x => decide (x ∉ list_minus A B))) :=
    List.Pairwise.filter _ hA
  have hY : List.Pairwise (· < ·) (list_minus B A) := list_minus_sorted B A hB
  have le_of : ∀ {l : List Int}, List.Pairwise (· < ·) l → List.Sorted (· ≤ ·) l :=
    fun h => List.Pairwise.imp (fun hab => le_of_lt hab) h
  have nd_of : ∀ {l : List Int}, List.Pairwise (· < ·) l → l.Nodup :=
    fun h => List.Pairwise.imp (fun hab => ne_of_lt hab) h
  apply List.eq_of_perm_of_sorted (r := (· ≤ ·)) _ (List.Sorted.merge (le_of hX) (le_of hY))
    (le_of hB)
  refine (List.merge_perm_append _).trans ?_
  rw [List.perm_ext_iff_of_nodup _ (nd_of hB)]
  · intro a
    simp only [List.mem_append, List.mem_filter, mem_list_minus, decide_eq_true_eq]
    tauto
  · rw [List.nodup_append]
    refine ⟨nd_of hX, nd_of hY, ?_⟩
    intro a ha hb
    simp only [List.mem_filter, mem_list_minus, decide_eq_true_eq] at ha
    rw [mem_list_minus] at hb
    tauto

/-- A new description without data is handed back as it is, in both builds. -/
theorem pack_array_desc_diff_no_data (compile_in_lp : Bool)
    (pack_array_desc : array_desc → List wire_val) (ad new_ad : array_desc) (itmp : Nat → Int)
    (h : new_ad.size = 0 ∨ new_ad.type = NO_DATA_STORED) :
    (pack_array_desc_diff compile_in_lp pack_array_desc ad new_ad itmp).desc = new_ad := by
  unfold pack_array_desc_diff
  have henter : (if compile_in_lp = true
      then decide (new_ad.type ≠ NO_DATA_STORED ∧ new_ad.size > 0)
      else decide (¬ new_ad.type = NO_DATA_STORED ∧ ¬ new_ad.size = 0)) = false := by
    rcases h with h | h <;> cases compile_in_lp <;> simp [h]
  simp only [henter]
  rfl

/-- C1: for strictly ascending lists `A` (old) and `B` (new, not itself a difference),
each with its `size` field equal to its length, decoding the description returned by
`pack_array_desc_diff` against `A` gives back `B`, in both builds and for every content
of the scratch area: when the result is `WRT_PARENT`, deleting its removed entries (the
entries after the first `added`) from `A` and merging in its added entries (the first
`added` entries) in ascending order yields `B`; when the result is not `WRT_PARENT`
its list is `B`. Empty, equal and disjoint lists are included. -/
theorem pack_array_desc_diff_roundtrip (compile_in_lp : Bool)
    (pack_array_desc : array_desc → List wire_val) (ad new_ad : array_desc) (itmp : Nat → Int)
    (hA : ad.size = ad.list.length) (hB : new_ad.size = new_ad.list.length)
    (hty : new_ad.type ≠ WRT_PARENT)
    (sA : List.Pairwise (· < ·) ad.list) (sB : List.Pairwise (· < ·) new_ad.list) :
    ((pack_array_desc_diff compile_in_lp pack_array_desc ad new_ad itmp).desc.type = WRT_PARENT →
      List.merge
        (ad.list.filter (fun x => decide (x ∉
          (pack_array_desc_diff compile_in_lp pack_array_desc ad new_ad itmp).desc.list.drop
            (pack_array_desc_diff compile_in_lp pack_array_desc ad new_ad
              itmp).desc.added.toNat)))
        ((pack_array_desc_diff compile_in_lp pack_array_desc ad new_ad itmp).desc.list.take
          (pack_array_desc_diff compile_in_lp pack_array_desc ad new_ad itmp).desc.added.toNat)
        (fun a b => decide (a ≤ b))
        = new_ad.list) ∧
    ((pack_array_desc_diff compile_in_lp pack_array_desc ad new_ad itmp).desc.type ≠ WRT_PARENT →
      (pack_array_desc_diff compile_in_lp pack_array_desc ad new_ad itmp).desc.list
        = new_ad.list) := by
  by_cases hnd : new_ad.type = NO_DATA_STORED
  · rw [pack_array_desc_diff_no_data _ _ _ _ _ (Or.inr hnd)]
    exact ⟨fun h => absurd h hty, fun _ => rfl⟩
  · rw [pack_array_desc_diff_desc _ _ _ _ _ hA hB hnd, merge_diff_sorted _ _ sA sB]
    simp only
    split_ifs with hD
    · refine ⟨fun _ => ?_, fun h => absurd rfl h⟩
      simp only [Int.toNat_ofNat, List.take_left', List.drop_left']
      exact merge_restores _ _ sA sB
    · exact ⟨fun h => absurd h hty, fun _ => rfl⟩

/-- Instance of C1 at old `[1, 3, 5, 7]`, new `[1, 3, 5, 7, 9]`: the result is the
difference `added {9}` and decodes to the new list. -/
theorem pack_array_desc_diff_roundtrip_witness :
    (pack_array_desc_diff true (fun _ => []) ⟨EXPLICIT_LIST, 4, 4, [1, 3, 5, 7]⟩
        ⟨EXPLICIT_LIST, 5, 5, [1, 3, 5, 7, 9]⟩ (fun _ => 0)).desc = ⟨WRT_PARENT, 1, 1, [9]⟩ ∧
    List.merge
        (([1, 3, 5, 7] : List Int).filter (fun x => decide (x ∉
          (pack_array_desc_diff true (fun _ => []) ⟨EXPLICIT_LIST, 4, 4, [1, 3, 5, 7]⟩
            ⟨EXPLICIT_LIST, 5, 5, [1, 3, 5, 7, 9]⟩ (fun _ => 0)).desc.list.drop
            (pack_array_desc_diff true (fun _ => []) ⟨EXPLICIT_LIST, 4, 4, [1, 3, 5, 7]⟩
              ⟨EXPLICIT_LIST, 5, 5, [1, 3, 5, 7, 9]⟩ (fun _ => 0)).desc.added.toNat)))
        ((pack_array_desc_diff true (fun _ => []) ⟨EXPLICIT_LIST, 4, 4, [1, 3, 5, 7]⟩
            ⟨EXPLICIT_LIST, 5, 5, [1, 3, 5, 7, 9]⟩ (fun _ => 0)).desc.list.take
          (pack_array_desc_diff true (fun _ => []) ⟨EXPLICIT_LIST, 4, 4, [1, 3, 5, 7]⟩
            ⟨EXPLICIT_LIST, 5, 5, [1, 3, 5, 7, 9]⟩ (fun _ => 0)).desc.added.toNat)
        (fun a b => decide (a ≤ b))
      = [1, 3, 5, 7, 9] :=
  ⟨by decide,
    (pack_array_desc_diff_roundtrip true (fun _ => []) ⟨EXPLICIT_LIST, 4, 4, [1, 3, 5, 7]⟩
      ⟨EXPLICIT_LIST, 5, 5, [1, 3, 5, 7, 9]⟩ (fun _ => 0) (by decide) (by decide) (by decide)
      (by decide) (by decide)).1 (by decide)⟩

/-- C2 as stated fails: with old `[1]` and new `[1, 2]` the difference has one entry
(`2` added), `2 × 1 < 2` is false, and `pack_array_desc_diff` still returns a
`WRT_PARENT` description. -/
theorem pack_array_desc_diff_twice_counterexample :
    ¬ ((pack_array_desc_diff true (fun _ => []) ⟨EXPLICIT_LIST, 1, 1, [1]⟩
          ⟨EXPLICIT_LIST, 2, 2, [1, 2]⟩ (fun _ => 0)).desc.type = WRT_PARENT
        ↔ 2 * ((list_minus [1] [1, 2]).length + (list_minus [1, 2] [1]).length)
            < [1, 2].length) := by
  decide

/-- C2, amended: for strictly ascending lists `A` (old) and `B` (new, held explicitly),
each with its `size` field equal to its length, `pack_array_desc_diff` returns a
`WRT_PARENT` description if and only if `|A \ B| + |B \ A| < |B|` (no factor two), and
returns the new description itself, which is explicit, otherwise; with `B` empty the
result is always the explicit new description. -/
theorem pack_array_desc_diff_wrt_iff (compile_in_lp : Bool)
    (pack_array_desc : array_desc → List wire_val) (ad new_ad : array_desc) (itmp : Nat → Int)
    (hA : ad.size = ad.list.length) (hB : new_ad.size = new_ad.list.length)
    (hty : new_ad.type = EXPLICIT_LIST)
    (sA : List.Pairwise (· < ·) ad.list) (sB : List.Pairwise (· < ·) new_ad.list) :
    ((pack_array_desc_diff compile_in_lp pack_array_desc ad new_ad itmp).desc.type = WRT_PARENT
      ↔ (list_minus ad.list new_ad.list).length + (list_minus new_ad.list ad.list).length
          < new_ad.list.length) ∧
    (¬ (list_minus ad.list new_ad.list).length + (list_minus new_ad.list ad.list).length
          < new_ad.list.length →
      (pack_array_desc_diff compile_in_lp pack_array_desc ad new_ad itmp).desc = new_ad ∧
      (pack_array_desc_diff compile_in_lp pack_array_desc ad new_ad itmp).desc.type
        = EXPLICIT_LIST) ∧
    (new_ad.list = [] →
      (pack_array_desc_diff compile_in_lp pack_array_desc ad new_ad itmp).desc = new_ad) := by
  have hnd : new_ad.type ≠ NO_DATA_STORED := by rw [hty]; decide
  have hnw : new_ad.type ≠ WRT_PARENT := by rw [hty]; decide
  rw [pack_array_desc_diff_desc _ _ _ _ _ hA hB hnd, merge_diff_sorted _ _ sA sB]
  simp only
  rw [Nat.add_comm (list_minus new_ad.list ad.list).length]
  refine ⟨?_, ?_, ?_⟩
  · split_ifs with hD
    · simp [hD]
    · simp [hD, hnw]
  · intro hD
    rw [if_neg hD]
    exact ⟨rfl, hty⟩
  · intro hnil
    have hD : ¬ (list_minus ad.list new_ad.list).length
        + (list_minus new_ad.list ad.list).length < new_ad.list.length := by
      rw [hnil]; simp
    rw [if_neg hD]

/-- Instance of the amended C2 at old `[1, 2, 3]`, new `[4, 5]`: the difference has five
entries, the new list two, and the result is the explicit new description. -/
theorem pack_array_desc_diff_wrt_iff_witness :
    (pack_array_desc_diff true (fun _ => []) ⟨EXPLICIT_LIST, 3, 3, [1, 2, 3]⟩
        ⟨EXPLICIT_LIST, 2, 2, [4, 5]⟩ (fun _ => 0)).desc = ⟨EXPLICIT_LIST, 2, 2, [4, 5]⟩ :=
  ((pack_array_desc_diff_wrt_iff true (fun _ => []) ⟨EXPLICIT_LIST, 3, 3, [1, 2, 3]⟩
      ⟨EXPLICIT_LIST, 2, 2, [4, 5]⟩ (fun _ => 0) (by decide) (by decide) (by decide)
      (by decide) (by decide)).2.1 (by decide)).1

/-- C3: whenever `pack_array_desc_diff` returns a `WRT_PARENT` description for strictly
ascending lists `A` (old) and `B` (new, not itself a difference), its `added` field is
`|B \ A|`, its `size` field is `|B \ A| + |A \ B|`, its first `added` entries are the
elements of `B` not in `A` in ascending order and the remaining entries are the elements
of `A` not in `B` in ascending order; the added part, the removed part and the common
elements are pairwise disjoint. -/
theorem pack_array_desc_diff_wrt_content (compile_in_lp : Bool)
    (pack_array_desc : array_desc → List wire_val) (ad new_ad : array_desc) (itmp : Nat → Int)
    (hA : ad.size = ad.list.length) (hB : new_ad.size = new_ad.list.length)
    (hty : new_ad.type ≠ WRT_PARENT)
    (sA : List.Pairwise (· < ·) ad.list) (sB : List.Pairwise (· < ·) new_ad.list)
    (hw : (pack_array_desc_diff compile_in_lp pack_array_desc ad new_ad itmp).desc.type
      = WRT_PARENT) :
    (pack_array_desc_diff compile_in_lp pack_array_desc ad new_ad itmp).desc.added
      = ((list_minus new_ad.list ad.list).length : Int) ∧
    (pack_array_desc_diff compile_in_lp pack_array_desc ad new_ad itmp).desc.size
      = ((list_minus new_ad.list ad.list).length : Int)
        + ((list_minus ad.list new_ad.list).length : Int) ∧
    (pack_array_desc_diff compile_in_lp pack_array_desc ad new_ad itmp).desc.list.take
        (pack_array_desc_diff compile_in_lp pack_array_desc ad new_ad itmp).desc.added.toNat
      = list_minus new_ad.list ad.list ∧
    (pack_array_desc_diff compile_in_lp pack_array_desc ad new_ad itmp).desc.list.drop
        (pack_array_desc_diff compile_in_lp pack_array_desc ad new_ad itmp).desc.added.toNat
      = list_minus ad.list new_ad.list ∧
    List.Pairwise (· < ·) (list_minus new_ad.list ad.list) ∧
    List.Pairwise (· < ·) (list_minus ad.list new_ad.list) ∧
    (∀ x ∈ list_minus new_ad.list ad.list, x ∉ list_minus ad.list new_ad.list) ∧
    (∀ x ∈ list_minus new_ad.list ad.list, ¬ (x ∈ ad.list ∧ x ∈ new_ad.list)) ∧
    (∀ x ∈ list_minus ad.list new_ad.list, ¬ (x ∈ ad.list ∧ x ∈ new_ad.list)) := by
  have hnd : new_ad.type ≠ NO_DATA_STORED := by
    intro h
    rw [pack_array_desc_diff_no_data _ _ _ _ _ (Or.inr h)] at hw
    exact hty hw
  rw [pack_array_desc_diff_desc _ _ _ _ _ hA hB hnd, merge_diff_sorted _ _ sA sB] at hw ⊢
  simp only at hw ⊢
  split_ifs at hw ⊢ with hD
  · simp only [Int.toNat_ofNat, List.take_left', List.drop_left', Nat.cast_add, true_and]
    refine ⟨list_minus_sorted _ _ sB, list_minus_sorted _ _ sA, ?_, ?_, ?_⟩
    · intro x hx hx'
      rw [mem_list_minus] at hx hx'
      tauto
    · intro x hx
      rw [mem_list_minus] at hx
      tauto
    · intro x hx
      rw [mem_list_minus] at hx
      tauto
  · exact absurd hw hty

/-- Instance of C3 at old `[1, 3, 5, 7]`, new `[1, 3, 5, 7, 9]`: added `{9}`, nothing
removed. -/
theorem pack_array_desc_diff_wrt_content_witness :
    (pack_array_desc_diff true (fun _ => []) ⟨EXPLICIT_LIST, 4, 4, [1, 3, 5, 7]⟩
        ⟨EXPLICIT_LIST, 5, 5, [1, 3, 5, 7, 9]⟩ (fun _ => 0)).desc = ⟨WRT_PARENT, 1, 1, [9]⟩ ∧
    (pack_array_desc_diff true (fun _ => []) ⟨EXPLICIT_LIST, 4, 4, [1, 3, 5, 7]⟩
        ⟨EXPLICIT_LIST, 5, 5, [1, 3, 5, 7, 9]⟩ (fun _ => 0)).desc.added
      = ((list_minus [1, 3, 5, 7, 9] [1, 3, 5, 7]).length : Int) :=
  ⟨by decide,
    (pack_array_desc_diff_wrt_content true (fun _ => []) ⟨EXPLICIT_LIST, 4, 4, [1, 3, 5, 7]⟩
      ⟨EXPLICIT_LIST, 5, 5, [1, 3, 5, 7, 9]⟩ (fun _ => 0) (by decide) (by decide) (by decide)
      (by decide) (by decide) (by decide)).1⟩

/-- With an old description of size `0` the merge loop makes no pass. -/
theorem diff_loop_no_orig (origlist newlist : List Int) (newsize : Int) (fuel : Nat)
    (s : diff_state) : diff_loop origlist newlist 0 newsize fuel s = s := by
  have hc : ¬ diff_cond 0 newsize s := by
    unfold diff_cond; omega
  cases fuel with
  | zero => rfl
  | succ n => simp only [diff_loop, if_neg hc]

/-- C4: `pack_array_desc_diff` hands back the new description itself, with its list and
size, never a difference, whenever the new description is empty (`size` 0), or carries
no data (`NO_DATA_STORED`), or the old description has no elements (`size` 0, which is
how an old description without data reaches the function: it never reads the old
tag), in both builds and for every content of the other argument and of the scratch
area. -/
theorem pack_array_desc_diff_explicit_cases (compile_in_lp : Bool)
    (pack_array_desc : array_desc → List wire_val) (ad new_ad : array_desc) (itmp : Nat → Int)
    (h : new_ad.size = 0 ∨ new_ad.type = NO_DATA_STORED ∨ ad.size = 0) :
    (pack_array_desc_diff compile_in_lp pack_array_desc ad new_ad itmp).desc = new_ad := by
  rcases h with h | h | h
  · exact pack_array_desc_diff_no_data _ _ _ _ _ (Or.inl h)
  · exact pack_array_desc_diff_no_data _ _ _ _ _ (Or.inr h)
  · unfold pack_array_desc_diff
    simp only [h, diff_loop_no_orig]
    have h0 : (0 : Int) - ((0 : Nat) : Int) - ((0 : Nat) : Int) + ((0 : Nat) : Int)
        + ((0 : Nat) : Int) ≥ 0 := by decide
    rw [if_pos h0]
    split_ifs <;> rfl

/-- Instance of C4 with an old description that holds no data. -/
theorem pack_array_desc_diff_explicit_cases_witness :
    (pack_array_desc_diff true (fun _ => []) ⟨NO_DATA_STORED, 0, 0, []⟩
        ⟨EXPLICIT_LIST, 2, 2, [4, 5]⟩ (fun _ => 0)).desc = ⟨EXPLICIT_LIST, 2, 2, [4, 5]⟩ :=
  pack_array_desc_diff_explicit_cases true (fun _ => []) ⟨NO_DATA_STORED, 0, 0, []⟩
    ⟨EXPLICIT_LIST, 2, 2, [4, 5]⟩ (fun _ => 0) (Or.inr (Or.inr rfl))

/-! ## The loop of `pack_base_diff` -/

theorem mismatches_succ (oldstat newstat : List Int) (i : Nat) :
    mismatches oldstat newstat (i + 1)
      = mismatches oldstat newstat i
        ++ (if oldstat.getD i 0 ≠ newstat.getD i 0 then [i] else []) := by
  unfold mismatches
  rw [List.range_succ, List.filter_append]
  by_cases h : oldstat.getD i 0 ≠ newstat.getD i 0
  · rw [if_pos h, List.filter_cons_of_pos (by simpa using h)]
    rfl
  · rw [if_neg h, List.filter_cons_of_neg (by simpa using h)]
    rfl

theorem mismatches_length_mono (oldstat newstat : List Int) (i n : Nat) (h : i ≤ n) :
    (mismatches oldstat newstat i).length ≤ (mismatches oldstat newstat n).length := by
  induction n with
  | zero =>
    have : i = 0 := by omega
    rw [this]
  | succ n ih =>
    by_cases hi : i = n + 1
    · rw [hi]
    · have := ih (by omega)
      rw [mismatches_succ, List.length_append]
      omega

theorem mem_mismatches (oldstat newstat : List Int) (n p : Nat) :
    p ∈ mismatches oldstat newstat n ↔ p < n ∧ oldstat.getD p 0 ≠ newstat.getD p 0 := by
  unfold mismatches
  rw [List.mem_filter, List.mem_range]
  simp

theorem mismatches_sorted (oldstat newstat : List Int) (n : Nat) :
    List.Pairwise (· < ·) (mismatches oldstat newstat n) :=
  List.Pairwise.filter _ (List.pairwise_lt_range n)

theorem base_body_inv (oldstat newstat : List Int) (n : Nat) (s : base_state)
    (hinv : base_inv oldstat newstat n s) (hc : base_cond (n : Int) s) :
    base_inv oldstat newstat n (base_body oldstat newstat (n : Int) s) ∧
    (base_body oldstat newstat (n : Int) s).i = s.i + 1 := by
  obtain ⟨hi, hk, h1, h2⟩ := hinv
  obtain ⟨c1, c2⟩ := hc
  unfold base_body
  by_cases h : oldstat.getD s.i 0 ≠ newstat.getD s.i 0
  · rw [if_pos h]
    refine ⟨⟨by simp only; omega, ?_, ?_, ?_⟩, rfl⟩
    · simp only
      rw [mismatches_succ, if_pos h, List.length_append, ← hk]
      rfl
    · simp only
      rw [mismatches_succ, if_pos h, List.map_append, ← h1,
        rd_store_outside _ _ _ _ _ (Or.inr (by rw [Int.toNat_ofNat]; omega))]
      have := rd_store_end s.itmp (s.i : Int) 0 s.k
      rw [Nat.zero_add] at this
      rw [this]
      rfl
    · simp only
      rw [mismatches_succ, if_pos h, List.map_append, ← h2, Int.toNat_ofNat, rd_store_end,
        rd_store_outside _ _ _ _ _ (Or.inl (by omega))]
      rfl
  · rw [if_neg h]
    refine ⟨⟨by simp only; omega, ?_, ?_, ?_⟩, rfl⟩
    · simp only
      rw [mismatches_succ, if_neg h, List.append_nil]
      exact hk
    · simp only
      rw [mismatches_succ, if_neg h, List.append_nil]
      exact h1
    · simp only
      rw [mismatches_succ, if_neg h, List.append_nil]
      exact h2

/-- The loop of `pack_base_diff`, given `*size` passes, stops in a state where the loop
condition is false and which records the mismatches of the slots it has looked at. -/
theorem base_loop_inv (oldstat newstat : List Int) (n : Nat) (fuel : Nat) (s : base_state)
    (hinv : base_inv oldstat newstat n s) (hfuel : n - s.i ≤ fuel) :
    base_inv oldstat newstat n (base_loop oldstat newstat (n : Int) fuel s) ∧
    ¬ base_cond (n : Int) (base_loop oldstat newstat (n : Int) fuel s) := by
  induction fuel generalizing s with
  | zero =>
    simp only [base_loop]
    refine ⟨hinv, ?_⟩
    unfold base_cond
    have := hinv.1
    omega
  | succ fuel ih =>
    by_cases hc : base_cond (n : Int) s
    · simp only [base_loop, if_pos hc]
      have hb := base_body_inv oldstat newstat n s hinv hc
      exact ih _ hb.1 (by rw [hb.2]; omega)
    · simp only [base_loop, if_neg hc]
      exact ⟨hinv, hc⟩

theorem base_inv_init (oldstat newstat : List Int) (n : Nat) (itmp : Nat → Int) :
    base_inv oldstat newstat n { i := 0, k := 0, itmp := itmp } := by
  refine ⟨Nat.zero_le _, ?_, ?_, ?_⟩ <;> simp [mismatches, rd]

/-- State of the loop of `pack_base_diff` at its exit: the test `2 * k < *size` holds
exactly when twice the number of all mismatches is below `*size`, and then the loop
has recorded all of them. -/
theorem base_loop_final (oldstat newstat : List Int) (n : Nat) (itmp : Nat → Int) :
    (2 * ((base_loop oldstat newstat (n : Int) n { i := 0, k := 0, itmp := itmp }).k : Int)
        < (n : Int)
      ↔ 2 * (mismatches oldstat newstat n).length < n) ∧
    (2 * (mismatches oldstat newstat n).length < n →
      (base_loop oldstat newstat (n : Int) n { i := 0, k := 0, itmp := itmp }).k
        = (mismatches oldstat newstat n).length ∧
      rd (base_loop oldstat newstat (n : Int) n { i := 0, k := 0, itmp := itmp }).itmp 0
          (mismatches oldstat newstat n).length
        = (mismatches oldstat newstat n).map (fun (p : Nat) => (p : Int)) ∧
      rd (base_loop oldstat newstat (n : Int) n { i := 0, k := 0, itmp := itmp }).itmp n
          (mismatches oldstat newstat n).length
        = (mismatches oldstat newstat n).map (fun p => newstat.getD p 0)) := by
  have h := base_loop_inv oldstat newstat n n { i := 0, k := 0, itmp := itmp }
    (base_inv_init oldstat newstat n itmp) (by simp)
  generalize base_loop oldstat newstat (n : Int) n { i := 0, k := 0, itmp := itmp } = s at h ⊢
  obtain ⟨⟨hi, hk, h1, h2⟩, hc⟩ := h
  unfold base_cond at hc
  have hmono := mismatches_length_mono oldstat newstat s.i n hi
  have key : 2 * (mismatches oldstat newstat n).length < n → s.i = n := by
    intro hlt
    omega
  refine ⟨?_, ?_⟩
  · constructor
    · intro hlt
      have : s.i = n := by omega
      rw [this] at hk
      omega
    · intro hlt
      omega
  · intro hlt
    have hin := key hlt
    rw [hin] at hk h1 h2
    rw [hk] at h1 h2
    exact ⟨hk, h1, h2⟩

theorem overwrite_stat_length (f : Nat → Int) (ps : List Nat) (stat : List Int) :
    (overwrite_stat stat (ps.map (fun (p : Nat) => (p : Int))) (ps.map f)).length
      = stat.length := by
  induction ps generalizing stat with
  | nil => rfl
  | cons p ps ih =>
    simp only [List.map_cons, overwrite_stat]
    rw [ih, List.length_set]

theorem overwrite_stat_getD (f : Nat → Int) (ps : List Nat) (stat : List Int) (t : Nat)
    (ht : t < stat.length) :
    (overwrite_stat stat (ps.map (fun (p : Nat) => (p : Int))) (ps.map f)).getD t 0
      = if t ∈ ps then f t else stat.getD t 0 := by
  induction ps generalizing stat with
  | nil => simp [overwrite_stat]
  | cons p ps ih =>
    simp only [List.map_cons, overwrite_stat, Int.toNat_ofNat]
    rw [ih _ (by rw [List.length_set]; exact ht)]
    by_cases h1 : t ∈ ps
    · simp [h1]
    · by_cases h2 : t = p
      · subst h2
        simp [h1, List.getD_eq_getElem?_getD, List.getElem?_set, ht]
      · have h3 : ¬ p = t := fun e => h2 e.symm
        simp [h1, h2, h3, List.getD_eq_getElem?_getD, List.getElem?_set]

/-- Overwriting the old statuses at all mismatching positions with the new statuses
there gives the new statuses. -/
theorem overwrite_mismatches (oldstat newstat : List Int) (n : Nat)
    (ho : oldstat.length = n) (hw : newstat.length = n) :
    overwrite_stat oldstat ((mismatches oldstat newstat n).map (fun (p : Nat) => (p : Int)))
      ((mismatches oldstat newstat n).map (fun p => newstat.getD p 0)) = newstat := by
  apply List.ext_getElem
  · rw [overwrite_stat_length, ho, hw]
  · intro t h1 h2
    have ht : t < oldstat.length := by rw [overwrite_stat_length] at h1; exact h1
    have e := overwrite_stat_getD (fun p => newstat.getD p 0) (mismatches oldstat newstat n)
      oldstat t ht
    rw [List.getD_eq_getElem _ _ h1] at e
    rw [e, ← List.getD_eq_getElem _ 0 h2]
    by_cases hm : t ∈ mismatches oldstat newstat n
    · rw [if_pos hm]
    · rw [if_neg hm]
      by_contra hne
      exact hm ((mem_mismatches oldstat newstat n t).mpr ⟨by omega, hne⟩)

/-! ## Properties of `pack_base_diff` -/

/-- C5: for status arrays `oldstat` and `newstat` of the same length `n` (the value of
`*size`), `pack_base_diff` returns `WRT_PARENT` if and only if twice the number of
positions `i < n` with `oldstat[i] ≠ newstat[i]` is below `n`, and `EXPLICIT_LIST`
otherwise; with `n = 0` it returns `EXPLICIT_LIST`. Both builds, every scratch content. -/
theorem pack_base_diff_type_iff (compile_in_lp : Bool) (size : Int)
    (oldstat newstat : List Int) (itmp : Nat → Int) (n : Nat)
    (hn : size = (n : Int)) (ho : oldstat.length = n) (hw : newstat.length = n) :
    ((pack_base_diff compile_in_lp size oldstat newstat itmp).type = WRT_PARENT
      ↔ 2 * (mismatches oldstat newstat n).length < n) ∧
    (¬ 2 * (mismatches oldstat newstat n).length < n →
      (pack_base_diff compile_in_lp size oldstat newstat itmp).type = EXPLICIT_LIST) ∧
    (n = 0 → (pack_base_diff compile_in_lp size oldstat newstat itmp).type = EXPLICIT_LIST) := by
  subst hn
  have _hlen : oldstat.length = newstat.length := ho.trans hw.symm
  have hfin := (base_loop_final oldstat newstat n itmp).1
  have key : (pack_base_diff compile_in_lp (n : Int) oldstat newstat itmp).type
      = if 2 * (mismatches oldstat newstat n).length < n then WRT_PARENT
        else EXPLICIT_LIST := by
    unfold pack_base_diff
    simp only [Int.toNat_ofNat]
    by_cases h : 2 * (mismatches oldstat newstat n).length < n
    · rw [if_pos (hfin.mpr h), if_pos h]
    · rw [if_neg (fun h' => h (hfin.mp h')), if_neg h]
  rw [key]
  refine ⟨?_, ?_, ?_⟩
  · split_ifs with h <;> simp [h]
  · intro h; rw [if_neg h]
  · intro h0; rw [if_neg (by omega)]

/-- Instance of C5 with one mismatch among three slots. -/
theorem pack_base_diff_type_iff_witness :
    (pack_base_diff true 3 [0, 0, 0] [0, 0, 1] (fun _ => 0)).type = WRT_PARENT ∧
    2 * (mismatches [0, 0, 0] [0, 0, 1] 3).length < 3 :=
  ⟨((pack_base_diff_type_iff true 3 [0, 0, 0] [0, 0, 1] (fun _ => 0) 3 (by decide)
      (by decide) (by decide)).1).mpr (by decide), by decide⟩

/-- C6: whenever `pack_base_diff` returns `WRT_PARENT` on status arrays of length `n`
(the value of `*size` on entry), it leaves in `*size` the number `k` of mismatching
positions; the `k` recorded positions `list[0..k)` are all indices `i < n` with
`oldstat[i] ≠ newstat[i]`, in strictly ascending order; the `k` recorded statuses
`stat[0..k)` (at `itmp + n`) are `newstat` at those positions; overwriting `oldstat` at
the recorded positions with the recorded statuses gives `newstat`; and in the
message-passing build exactly the tag, `k`, the positions and the statuses are sent.
Whenever it returns `EXPLICIT_LIST`, `*size` keeps its value. -/
theorem pack_base_diff_wrt_content (compile_in_lp : Bool) (size : Int)
    (oldstat newstat : List Int) (itmp : Nat → Int) (n : Nat)
    (hn : size = (n : Int)) (ho : oldstat.length = n) (hw : newstat.length = n) :
    ((pack_base_diff compile_in_lp size oldstat newstat itmp).type = WRT_PARENT →
      (pack_base_diff compile_in_lp size oldstat newstat itmp).size
        = ((mismatches oldstat newstat n).length : Int) ∧
      rd (pack_base_diff compile_in_lp size oldstat newstat itmp).itmp 0
          (pack_base_diff compile_in_lp size oldstat newstat itmp).size.toNat
        = (mismatches oldstat newstat n).map (fun (p : Nat) => (p : Int)) ∧
      (∀ p : Nat, p ∈ mismatches oldstat newstat n
        ↔ p < n ∧ oldstat.getD p 0 ≠ newstat.getD p 0) ∧
      List.Pairwise (· < ·) (mismatches oldstat newstat n) ∧
      rd (pack_base_diff compile_in_lp size oldstat newstat itmp).itmp n
          (pack_base_diff compile_in_lp size oldstat newstat itmp).size.toNat
        = (mismatches oldstat newstat n).map (fun p => newstat.getD p 0) ∧
      overwrite_stat oldstat
          (rd (pack_base_diff compile_in_lp size oldstat newstat itmp).itmp 0
            (pack_base_diff compile_in_lp size oldstat newstat itmp).size.toNat)
          (rd (pack_base_diff compile_in_lp size oldstat newstat itmp).itmp n
            (pack_base_diff compile_in_lp size oldstat newstat itmp).size.toNat)
        = newstat ∧
      (compile_in_lp = false →
        (pack_base_diff compile_in_lp size oldstat newstat itmp).sent
          = [wire_val.tag WRT_PARENT,
              wire_val.int ((mismatches oldstat newstat n).length : Int)]
            ++ (mismatches oldstat newstat n).map (fun (p : Nat) => wire_val.int (p : Int))
            ++ (mismatches oldstat newstat n).map (fun p => wire_val.int (newstat.getD p 0))))
    ∧
    ((pack_base_diff compile_in_lp size oldstat newstat itmp).type = EXPLICIT_LIST →
      (pack_base_diff compile_in_lp size oldstat newstat itmp).size = size) := by
  subst hn
  obtain ⟨hiff, hrec⟩ := base_loop_final oldstat newstat n itmp
  unfold pack_base_diff
  simp only [Int.toNat_ofNat]
  by_cases h : 2 * (mismatches oldstat newstat n).length < n
  · obtain ⟨hk, h1, h2⟩ := hrec h
    rw [if_pos (hiff.mpr h)]
    simp only [Int.toNat_ofNat, hk, h1, h2]
    refine ⟨fun _ => ⟨trivial, trivial, mem_mismatches oldstat newstat n,
      mismatches_sorted oldstat newstat n, trivial,
      overwrite_mismatches oldstat newstat n ho hw, ?_⟩, fun hty => by cases hty⟩
    intro hlp
    simp only [hlp, send_scratch, Int.toNat_ofNat, h1, h2]
    by_cases hpos : (mismatches oldstat newstat n).length > 0
    · simp [hpos, List.map_map, Function.comp_def]
    · have h0 : mismatches oldstat newstat n = [] := List.length_eq_zero.mp (by omega)
      simp [h0]
  · rw [if_neg (fun h' => h (hiff.mp h'))]
    exact ⟨fun hty => (by cases hty), fun _ => rfl⟩

/-- Instance of C6 with one mismatch among three slots: position `2` is recorded and
overwriting the old statuses there gives the new ones. -/
theorem pack_base_diff_wrt_content_witness :
    (pack_base_diff false 3 [0, 0, 0] [0, 0, 1] (fun _ => 0)).type = WRT_PARENT ∧
    (pack_base_diff false 3 [0, 0, 0] [0, 0, 1] (fun _ => 0)).size = 1 ∧
    rd (pack_base_diff false 3 [0, 0, 0] [0, 0, 1] (fun _ => 0)).itmp 0 1 = [2] ∧
    overwrite_stat [0, 0, 0]
        (rd (pack_base_diff false 3 [0, 0, 0] [0, 0, 1] (fun _ => 0)).itmp 0
          (pack_base_diff false 3 [0, 0, 0] [0, 0, 1] (fun _ => 0)).size.toNat)
        (rd (pack_base_diff false 3 [0, 0, 0] [0, 0, 1] (fun _ => 0)).itmp 3
          (pack_base_diff false 3 [0, 0, 0] [0, 0, 1] (fun _ => 0)).size.toNat)
      = [0, 0, 1] :=
  ⟨by decide, by decide, by decide,
    ((pack_base_diff_wrt_content false 3 [0, 0, 0] [0, 0, 1] (fun _ => 0) 3 (by decide)
      (by decide) (by decide)).1 (by decide)).2.2.2.2.2.1⟩

/-! ## The loop of `pack_extra_diff` -/

theorem cells_length (p : List Int) (off n : Nat) : (cells p off n).length = n := by
  simp [cells]

theorem cells_all (p : List Int) : cells p 0 p.length = p := by
  apply List.ext_getElem
  · simp [cells]
  · intro t h1 h2
    have := List.getD_eq_getElem p 0 h2
    simp [cells, ← this]

theorem rd_memcpy_in_cells (m : Nat → Int) (dst : Nat) (src : List Int) (off len : Nat) :
    rd (memcpy_in m dst src off len) dst len = cells src off len := by
  unfold rd cells
  apply List.map_congr_left
  intro t ht
  rw [List.mem_range] at ht
  simp [memcpy_in, ht]

theorem pairs_length (idx stat : List Int) (n : Nat) : (pairs idx stat n).length = n := by
  simp [pairs]

theorem pairs_drop_cons (idx stat : List Int) (n i : Nat) (h : i < n) :
    (pairs idx stat n).drop i
      = (idx.getD i 0, stat.getD i 0) :: (pairs idx stat n).drop (i + 1) := by
  have hl : i < (pairs idx stat n).length := by rw [pairs_length]; exact h
  rw [List.drop_eq_getElem_cons hl]
  simp [pairs]

theorem pairs_drop_all (idx stat : List Int) (n i : Nat) (h : n ≤ i) :
    (pairs idx stat n).drop i = [] := by
  apply List.drop_eq_nil_of_le
  rw [pairs_length]; exact h

theorem pairs_drop_fst (idx stat : List Int) (n j : Nat) :
    ((pairs idx stat n).drop j).map Prod.fst = cells idx j (n - j) := by
  apply List.ext_getElem
  · simp [pairs, cells]
  · intro t h1 h2
    simp [pairs, cells]

theorem pairs_drop_snd (idx stat : List Int) (n j : Nat) :
    ((pairs idx stat n).drop j).map Prod.snd = cells stat j (n - j) := by
  apply List.ext_getElem
  · simp [pairs, cells]
  · intro t h1 h2
    simp [pairs, cells]

theorem mem_pairs (idx stat : List Int) (n : Nat) (p : Int × Int) :
    p ∈ pairs idx stat n ↔ ∃ i, i < n ∧ idx.getD i 0 = p.1 ∧ stat.getD i 0 = p.2 := by
  unfold pairs
  rw [List.mem_map]
  constructor
  · rintro ⟨i, hi, rfl⟩
    exact ⟨i, List.mem_range.mp hi, rfl, rfl⟩
  · rintro ⟨i, hi, h1, h2⟩
    exact ⟨i, List.mem_range.mpr hi, by rw [h1, h2]⟩

theorem pairs_fst_mem (idx stat : List Int) (n : Nat) (hlen : idx.length = n)
    (p : Int × Int) (hp : p ∈ pairs idx stat n) : p.1 ∈ idx := by
  obtain ⟨i, hi, e1, _⟩ := (mem_pairs idx stat n p).mp hp
  rw [← e1, List.getD_eq_getElem _ _ (by omega : i < idx.length)]
  exact List.getElem_mem _

theorem extra_ref_nil_right (os : List (Int × Int)) : extra_ref os [] = [] := by
  rw [extra_ref]

theorem extra_ref_nil_left (ns : List (Int × Int)) : extra_ref [] ns = ns := by
  cases ns with
  | nil => rw [extra_ref]
  | cons n ns => rw [extra_ref]

theorem extra_ref_cons_lt (o n : Int × Int) (os ns : List (Int × Int))
    (h : wrap_int (o.1 - n.1) < 0) :
    extra_ref (o :: os) (n :: ns) = extra_ref os (n :: ns) := by
  rw [extra_ref, if_pos h]

theorem extra_ref_cons_gt (o n : Int × Int) (os ns : List (Int × Int))
    (h : wrap_int (o.1 - n.1) > 0) :
    extra_ref (o :: os) (n :: ns) = n :: extra_ref (o :: os) ns := by
  have h1 : ¬ wrap_int (o.1 - n.1) < 0 := by omega
  rw [extra_ref, if_neg h1, if_pos h]

theorem extra_ref_cons_ne (o n : Int × Int) (os ns : List (Int × Int))
    (h : wrap_int (o.1 - n.1) = 0)
    (hs : o.2 ≠ n.2) : extra_ref (o :: os) (n :: ns) = n :: extra_ref os ns := by
  have h1 : ¬ wrap_int (o.1 - n.1) < 0 := by omega
  have h2 : ¬ wrap_int (o.1 - n.1) > 0 := by omega
  rw [extra_ref, if_neg h1, if_neg h2, if_pos hs]

theorem extra_ref_cons_same (o n : Int × Int) (os ns : List (Int × Int))
    (h : wrap_int (o.1 - n.1) = 0)
    (hs : o.2 = n.2) : extra_ref (o :: os) (n :: ns) = extra_ref os ns := by
  have h1 : ¬ wrap_int (o.1 - n.1) < 0 := by omega
  have h2 : ¬ wrap_int (o.1 - n.1) > 0 := by omega
  have h3 : ¬ o.2 ≠ n.2 := fun h => h hs
  rw [extra_ref, if_neg h1, if_neg h2, if_neg h3]

/-- The reference comparison keeps a part of the new pairs, in their order. -/
theorem extra_ref_sublist (O N : List (Int × Int)) : List.Sublist (extra_ref O N) N := by
  induction O generalizing N with
  | nil =>
    rw [extra_ref_nil_left]
  | cons o os ihO =>
    induction N with
    | nil =>
      rw [extra_ref_nil_right]
    | cons n ns ihN =>
      rcases lt_trichotomy (wrap_int (o.1 - n.1)) 0 with h | h | h
      · rw [extra_ref_cons_lt o n os ns h]
        exact ihO (n :: ns)
      · by_cases hs : o.2 ≠ n.2
        · rw [extra_ref_cons_ne o n os ns h hs]
          exact (ihO ns).cons₂ n
        · have hs2 : o.2 = n.2 := by
            by_contra hne
            exact hs hne
          rw [extra_ref_cons_same o n os ns h hs2]
          exact (ihO ns).cons n
      · rw [extra_ref_cons_gt o n os ns h]
        exact ihN.cons₂ n

/-- A new pair the reference comparison leaves out is one of the old pairs, when no two
different indices have a difference that wraps to `0`. -/
theorem extra_ref_missing (O N : List (Int × Int))
    (hz : ∀ o ∈ O, ∀ n ∈ N, wrap_int (o.1 - n.1) = 0 → o.1 = n.1) :
    ∀ x ∈ N, x ∉ extra_ref O N → x ∈ O := by
  induction O generalizing N with
  | nil =>
    intro x hx hnot
    rw [extra_ref_nil_left] at hnot
    exact absurd hx hnot
  | cons o os ihO =>
    induction N with
    | nil =>
      intro x hx
      cases hx
    | cons n ns ihN =>
      intro x hx hnot
      rcases lt_trichotomy (wrap_int (o.1 - n.1)) 0 with h | h | h
      · rw [extra_ref_cons_lt o n os ns h] at hnot
        exact List.mem_cons_of_mem o (ihO (n :: ns)
          (fun a ha b hb => hz a (List.mem_cons_of_mem o ha) b hb) x hx hnot)
      · have h1 : o.1 = n.1 := hz o (List.mem_cons_self o os) n (List.mem_cons_self n ns) h
        by_cases hs : o.2 ≠ n.2
        · rw [extra_ref_cons_ne o n os ns h hs] at hnot
          rcases List.mem_cons.mp hx with e | hm
          · rw [e] at hnot
            exact absurd (List.mem_cons_self n _) hnot
          · exact List.mem_cons_of_mem o (ihO ns
              (fun a ha b hb => hz a (List.mem_cons_of_mem o ha) b (List.mem_cons_of_mem n hb))
              x hm (fun hc => hnot (List.mem_cons_of_mem n hc)))
        · have hs2 : o.2 = n.2 := by
            by_contra hne
            exact hs hne
          rw [extra_ref_cons_same o n os ns h hs2] at hnot
          rcases List.mem_cons.mp hx with e | hm
          · have : x = o := by
              rw [e]
              exact Prod.ext h1.symm hs2.symm
            rw [this]
            exact List.mem_cons_self o os
          · exact List.mem_cons_of_mem o (ihO ns
              (fun a ha b hb => hz a (List.mem_cons_of_mem o ha) b (List.mem_cons_of_mem n hb))
              x hm hnot)
      · rw [extra_ref_cons_gt o n os ns h] at hnot
        rcases List.mem_cons.mp hx with e | hm
        · rw [e] at hnot
          exact absurd (List.mem_cons_self n _) hnot
        · exact ihN (fun a ha b hb => hz a ha b (List.mem_cons_of_mem n hb)) x hm
            (fun hc => hnot (List.mem_cons_of_mem n hc))

theorem modstat_off_cast (n : Nat) : modstat_off (n : Int) = n / 2 + 1 := by
  unfold modstat_off
  have : Int.tdiv (n : Int) 2 = ((n / 2 : Nat) : Int) := by
    rw [Int.tdiv_eq_ediv (Int.ofNat_nonneg n) (by decide)]
    rfl
  rw [this]
  omega

theorem rd_extra_record_list (n : Nat) (m : Nat → Int) (l : Nat) (v st : Int) :
    rd (extra_record (n : Int) m l v st) 0 (l + 1) = rd m 0 l ++ [v] := by
  unfold extra_record
  rw [modstat_off_cast, rd_store_outside _ _ _ _ _ (Or.inr (by omega))]
  have := rd_store_end m v 0 l
  rw [Nat.zero_add] at this
  exact this

theorem rd_extra_record_stat (n : Nat) (m : Nat → Int) (l : Nat) (v st : Int)
    (h : 2 * l < n) :
    rd (extra_record (n : Int) m l v st) (n / 2 + 1) (l + 1) = rd m (n / 2 + 1) l ++ [st] := by
  unfold extra_record
  rw [modstat_off_cast, rd_store_end, rd_store_outside _ _ _ _ _ (Or.inl (by omega))]

/-- One pass of the loop of `pack_extra_diff` keeps the counters in range, uses one unit
of the bound on the remaining passes, and moves one step of the reference comparison
into the scratch area. -/
theorem extra_body_step (ol os nl ns : List Int) (no nn : Nat) (s : extra_state)
    (hc : extra_cond (no : Int) (nn : Int) s) :
    (extra_body ol os nl ns (nn : Int) s).i ≤ no ∧
    (extra_body ol os nl ns (nn : Int) s).j ≤ nn ∧
    (no - (extra_body ol os nl ns (nn : Int) s).i)
        + (nn - (extra_body ol os nl ns (nn : Int) s).j) < (no - s.i) + (nn - s.j) ∧
    rd (extra_body ol os nl ns (nn : Int) s).itmp 0 (extra_body ol os nl ns (nn : Int) s).l
        ++ (extra_ref ((pairs ol os no).drop (extra_body ol os nl ns (nn : Int) s).i)
              ((pairs nl ns nn).drop (extra_body ol os nl ns (nn : Int) s).j)).map Prod.fst
      = rd s.itmp 0 s.l
        ++ (extra_ref ((pairs ol os no).drop s.i) ((pairs nl ns nn).drop s.j)).map Prod.fst ∧
    rd (extra_body ol os nl ns (nn : Int) s).itmp (nn / 2 + 1)
          (extra_body ol os nl ns (nn : Int) s).l
        ++ (extra_ref ((pairs ol os no).drop (extra_body ol os nl ns (nn : Int) s).i)
              ((pairs nl ns nn).drop (extra_body ol os nl ns (nn : Int) s).j)).map Prod.snd
      = rd s.itmp (nn / 2 + 1) s.l
        ++ (extra_ref ((pairs ol os no).drop s.i) ((pairs nl ns nn).drop s.j)).map Prod.snd := by
  obtain ⟨c1, c2, c3⟩ := hc
  have hi : s.i < no := by omega
  have hj : s.j < nn := by omega
  have hl : 2 * s.l < nn := by omega
  have eO := pairs_drop_cons ol os no s.i hi
  have eN := pairs_drop_cons nl ns nn s.j hj
  unfold extra_body
  simp only
  rcases lt_trichotomy (wrap_int (ol.getD s.i 0 - nl.getD s.j 0)) 0 with h | h | h
  · rw [if_pos h]
    simp only
    refine ⟨by omega, by omega, by omega, ?_, ?_⟩
    · rw [eO, eN, extra_ref_cons_lt _ _ _ _ (by exact h), ← eN]
    · rw [eO, eN, extra_ref_cons_lt _ _ _ _ (by exact h), ← eN]
  · have h1 : ¬ wrap_int (ol.getD s.i 0 - nl.getD s.j 0) < 0 := by omega
    have h2 : ¬ wrap_int (ol.getD s.i 0 - nl.getD s.j 0) > 0 := by omega
    rw [if_neg h1, if_neg h2]
    by_cases hs : os.getD s.i 0 ≠ ns.getD s.j 0
    · rw [if_pos hs]
      simp only
      refine ⟨by omega, by omega, by omega, ?_, ?_⟩
      · rw [rd_extra_record_list, eO, eN, extra_ref_cons_ne _ _ _ _ (by exact h) (by exact hs)]
        simp
      · rw [rd_extra_record_stat _ _ _ _ _ hl, eO, eN,
          extra_ref_cons_ne _ _ _ _ (by exact h) (by exact hs)]
        simp
    · rw [if_neg hs]
      have hs' : os.getD s.i 0 = ns.getD s.j 0 := by
        by_contra hne; exact hs hne
      simp only
      refine ⟨by omega, by omega, by omega, ?_, ?_⟩
      · rw [eO, eN, extra_ref_cons_same _ _ _ _ (by exact h) (by exact hs')]
      · rw [eO, eN, extra_ref_cons_same _ _ _ _ (by exact h) (by exact hs')]
  · have h1 : ¬ wrap_int (ol.getD s.i 0 - nl.getD s.j 0) < 0 := by omega
    have h2 : wrap_int (ol.getD s.i 0 - nl.getD s.j 0) > 0 := h
    rw [if_neg h1, if_pos h2]
    simp only
    refine ⟨by omega, by omega, by omega, ?_, ?_⟩
    · rw [rd_extra_record_list, eO, eN, extra_ref_cons_gt _ _ _ _ (by exact h), ← eO]
      simp
    · rw [rd_extra_record_stat _ _ _ _ _ hl, eO, eN,
        extra_ref_cons_gt _ _ _ _ (by exact h), ← eO]
      simp

/-- The loop of `pack_extra_diff`, given enough passes, stops in a state where the loop
condition is false, and what it wrote to the scratch area is a prefix of the reference
comparison. -/
theorem extra_loop_inv (ol os nl ns : List Int) (no nn : Nat) (fuel : Nat) (s : extra_state)
    (hi : s.i ≤ no) (hj : s.j ≤ nn) (hfuel : (no - s.i) + (nn - s.j) ≤ fuel) :
    (extra_loop ol os nl ns (no : Int) (nn : Int) fuel s).i ≤ no ∧
    (extra_loop ol os nl ns (no : Int) (nn : Int) fuel s).j ≤ nn ∧
    ¬ extra_cond (no : Int) (nn : Int) (extra_loop ol os nl ns (no : Int) (nn : Int) fuel s) ∧
    rd (extra_loop ol os nl ns (no : Int) (nn : Int) fuel s).itmp 0
          (extra_loop ol os nl ns (no : Int) (nn : Int) fuel s).l
        ++ (extra_ref ((pairs ol os no).drop (extra_loop ol os nl ns (no : Int) (nn : Int) fuel s).i)
              ((pairs nl ns nn).drop
                (extra_loop ol os nl ns (no : Int) (nn : Int) fuel s).j)).map Prod.fst
      = rd s.itmp 0 s.l
        ++ (extra_ref ((pairs ol os no).drop s.i) ((pairs nl ns nn).drop s.j)).map Prod.fst ∧
    rd (extra_loop ol os nl ns (no : Int) (nn : Int) fuel s).itmp (nn / 2 + 1)
          (extra_loop ol os nl ns (no : Int) (nn : Int) fuel s).l
        ++ (extra_ref ((pairs ol os no).drop (extra_loop ol os nl ns (no : Int) (nn : Int) fuel s).i)
              ((pairs nl ns nn).drop
                (extra_loop ol os nl ns (no : Int) (nn : Int) fuel s).j)).map Prod.snd
      = rd s.itmp (nn / 2 + 1) s.l
        ++ (extra_ref ((pairs ol os no).drop s.i) ((pairs nl ns nn).drop s.j)).map Prod.snd := by
  induction fuel generalizing s with
  | zero =>
    have h1 : ¬ extra_cond (no : Int) (nn : Int) s := by
      unfold extra_cond; omega
    simp only [extra_loop]
    exact ⟨hi, hj, h1, trivial, trivial⟩
  | succ fuel ih =>
    by_cases hc : extra_cond (no : Int) (nn : Int) s
    · obtain ⟨h1, h2, h3, h4, h5⟩ := extra_body_step ol os nl ns no nn s hc
      obtain ⟨g1, g2, g3, g4, g5⟩ := ih (extra_body ol os nl ns (nn : Int) s) h1 h2 (by omega)
      simp only [extra_loop, if_pos hc]
      exact ⟨g1, g2, g3, g4.trans h4, g5.trans h5⟩
    · simp only [extra_loop, if_neg hc]
      exact ⟨hi, hj, hc, trivial, trivial⟩

/-- State of the loop of `pack_extra_diff` at its exit: the test
`2 * (newsize - j + l) < newsize` holds exactly when twice the length of the reference
comparison is below `newsize`, and then the loop ran to the end of one list, so the
scratch area and the tail of the new list hold the whole comparison. -/
theorem extra_loop_final (ol os nl ns : List Int) (no nn : Nat) (itmp : Nat → Int)
    (fuel : Nat) (hfuel : no + nn ≤ fuel) :
    (2 * ((nn : Int) - (extra_loop ol os nl ns (no : Int) (nn : Int) fuel ⟨0, 0, 0, itmp⟩).j
          + (extra_loop ol os nl ns (no : Int) (nn : Int) fuel ⟨0, 0, 0, itmp⟩).l) < (nn : Int)
      ↔ 2 * (extra_ref (pairs ol os no) (pairs nl ns nn)).length < nn) ∧
    (2 * (extra_ref (pairs ol os no) (pairs nl ns nn)).length < nn →
      (extra_loop ol os nl ns (no : Int) (nn : Int) fuel ⟨0, 0, 0, itmp⟩).j ≤ nn ∧
      nn - (extra_loop ol os nl ns (no : Int) (nn : Int) fuel ⟨0, 0, 0, itmp⟩).j
          + (extra_loop ol os nl ns (no : Int) (nn : Int) fuel ⟨0, 0, 0, itmp⟩).l
        = (extra_ref (pairs ol os no) (pairs nl ns nn)).length ∧
      rd (extra_loop ol os nl ns (no : Int) (nn : Int) fuel ⟨0, 0, 0, itmp⟩).itmp 0
          (extra_loop ol os nl ns (no : Int) (nn : Int) fuel ⟨0, 0, 0, itmp⟩).l
        ++ cells nl (extra_loop ol os nl ns (no : Int) (nn : Int) fuel ⟨0, 0, 0, itmp⟩).j
            (nn - (extra_loop ol os nl ns (no : Int) (nn : Int) fuel ⟨0, 0, 0, itmp⟩).j)
        = (extra_ref (pairs ol os no) (pairs nl ns nn)).map Prod.fst ∧
      rd (extra_loop ol os nl ns (no : Int) (nn : Int) fuel ⟨0, 0, 0, itmp⟩).itmp (nn / 2 + 1)
          (extra_loop ol os nl ns (no : Int) (nn : Int) fuel ⟨0, 0, 0, itmp⟩).l
        ++ cells ns (extra_loop ol os nl ns (no : Int) (nn : Int) fuel ⟨0, 0, 0, itmp⟩).j
            (nn - (extra_loop ol os nl ns (no : Int) (nn : Int) fuel ⟨0, 0, 0, itmp⟩).j)
        = (extra_ref (pairs ol os no) (pairs nl ns nn)).map Prod.snd) := by
  have inv := extra_loop_inv ol os nl ns no nn fuel ⟨0, 0, 0, itmp⟩ (Nat.zero_le _)
    (Nat.zero_le _) (by simpa using hfuel)
  generalize extra_loop ol os nl ns (no : Int) (nn : Int) fuel ⟨0, 0, 0, itmp⟩ = s at inv ⊢
  obtain ⟨hi, hj, hc, e1, e2⟩ := inv
  simp only [rd_zero, List.nil_append, List.drop_zero] at e1 e2
  have L1 := congrArg List.length e1
  simp only [List.length_append, rd_length, List.length_map] at L1
  unfold extra_cond at hc
  by_cases ha : s.i = no
  · have hd : (pairs ol os no).drop s.i = [] := pairs_drop_all ol os no s.i (by omega)
    rw [hd, extra_ref_nil_left] at e1 e2 L1
    rw [pairs_drop_fst] at e1
    rw [pairs_drop_snd] at e2
    simp only [List.length_drop, pairs_length] at L1
    exact ⟨by omega, fun _ => ⟨hj, by omega, e1, e2⟩⟩
  · by_cases hb : s.j = nn
    · have hd : (pairs nl ns nn).drop s.j = [] := pairs_drop_all nl ns nn s.j (by omega)
      rw [hd, extra_ref_nil_right] at e1 e2 L1
      simp only [List.length_nil, List.map_nil] at L1 e1 e2
      have hz : nn - s.j = 0 := by omega
      refine ⟨by omega, fun _ => ⟨hj, by omega, ?_, ?_⟩⟩
      · rw [hz]; simpa [cells] using e1
      · rw [hz]; simpa [cells] using e2
    · have hge : nn ≤ 2 * s.l := by omega
      refine ⟨by omega, fun h => ?_⟩
      omega

theorem send_scratch_guard (m : Nat → Int) (off l : Nat) :
    (if l > 0 then send_scratch m off (l : Int) else []) = (rd m off l).map wire_val.int := by
  unfold send_scratch
  rw [Int.toNat_ofNat]
  split_ifs with h
  · rfl
  · have : l = 0 := by omega
    rw [this]; rfl

theorem send_int_array_guard (p : List Int) (off n j : Nat) (hj : j ≤ n) :
    (if (n : Int) - (j : Int) > 0 then send_int_array p off ((n : Int) - (j : Int)) else [])
      = (cells p off (n - j)).map wire_val.int := by
  unfold send_int_array
  have : ((n : Int) - (j : Int)).toNat = n - j := by omega
  rw [this]
  split_ifs with h
  · rfl
  · have : n - j = 0 := by omega
    rw [this]; rfl

/-- The two `memcpy` calls of the in-process `WRT_PARENT` branch of `pack_extra_diff`
append the tail of the new list to the recorded indices and statuses. -/
theorem extra_copy (m : Nat → Int) (nl ns : List Int) (j l len ms : Nat) (h : l + len ≤ ms) :
    rd (memcpy_in (memcpy_in m l nl j len) (ms + l) ns j len) 0 (len + l)
        = rd m 0 l ++ cells nl j len ∧
    rd (memcpy_in (memcpy_in m l nl j len) (ms + l) ns j len) ms (len + l)
        = rd m ms l ++ cells ns j len := by
  rw [Nat.add_comm len l, rd_add, rd_add]
  simp only [Nat.zero_add]
  refine ⟨?_, ?_⟩
  · rw [rd_memcpy_in_outside _ _ _ _ _ 0 l (Or.inl (by omega)),
      rd_memcpy_in_outside _ _ _ _ _ 0 l (Or.inl (by omega)),
      rd_memcpy_in_outside _ _ _ _ _ l len (Or.inl (by omega)), rd_memcpy_in_cells]
  · rw [rd_memcpy_in_outside _ _ _ _ _ ms l (Or.inl (by omega)),
      rd_memcpy_in_outside _ _ _ _ _ ms l (Or.inr (by omega)), rd_memcpy_in_cells]

/-- Result of `pack_extra_diff` when neither type argument forces an explicit list and
the two `size` fields are non-negative: the tag is `WRT_PARENT` exactly when twice the
length of the reference comparison is below `newsize`, and then `*size` is that length,
the in-process build leaves the compared pairs in the scratch area (indices at `itmp`,
statuses at `itmp + newsize / 2 + 1`) and the message-passing build sends them. -/
theorem pack_extra_diff_spec (compile_in_lp : Bool) (olddesc : array_desc)
    (oldstat : List Int) (newdesc : array_desc) (newstat : List Int)
    (oldbasis_type_in_tm newdesc_type_in_tm : desc_type) (itmp : Nat → Int) (size : Int)
    (no nn : Nat) (hno : olddesc.size = (no : Int)) (hnn : newdesc.size = (nn : Int))
    (h1 : newdesc_type_in_tm ≠ EXPLICIT_LIST) (h2 : oldbasis_type_in_tm ≠ EXPLICIT_LIST) :
    (pack_extra_diff compile_in_lp olddesc oldstat newdesc newstat oldbasis_type_in_tm
        newdesc_type_in_tm itmp size).type
      = (if 2 * (extra_ref (pairs olddesc.list oldstat no)
            (pairs newdesc.list newstat nn)).length < nn
          then WRT_PARENT else EXPLICIT_LIST) ∧
    (2 * (extra_ref (pairs olddesc.list oldstat no) (pairs newdesc.list newstat nn)).length < nn →
      (pack_extra_diff compile_in_lp olddesc oldstat newdesc newstat oldbasis_type_in_tm
          newdesc_type_in_tm itmp size).size
        = ((extra_ref (pairs olddesc.list oldstat no)
            (pairs newdesc.list newstat nn)).length : Int) ∧
      (compile_in_lp = true →
        rd (pack_extra_diff compile_in_lp olddesc oldstat newdesc newstat oldbasis_type_in_tm
            newdesc_type_in_tm itmp size).itmp 0
            (extra_ref (pairs olddesc.list oldstat no) (pairs newdesc.list newstat nn)).length
          = (extra_ref (pairs olddesc.list oldstat no)
              (pairs newdesc.list newstat nn)).map Prod.fst ∧
        rd (pack_extra_diff compile_in_lp olddesc oldstat newdesc newstat oldbasis_type_in_tm
            newdesc_type_in_tm itmp size).itmp (nn / 2 + 1)
            (extra_ref (pairs olddesc.list oldstat no) (pairs newdesc.list newstat nn)).length
          = (extra_ref (pairs olddesc.list oldstat no)
              (pairs newdesc.list newstat nn)).map Prod.snd) ∧
      (compile_in_lp = false →
        (pack_extra_diff compile_in_lp olddesc oldstat newdesc newstat oldbasis_type_in_tm
            newdesc_type_in_tm itmp size).sent
          = [wire_val.tag WRT_PARENT,
              wire_val.int ((extra_ref (pairs olddesc.list oldstat no)
                (pairs newdesc.list newstat nn)).length : Int)]
            ++ (extra_ref (pairs olddesc.list oldstat no)
                (pairs newdesc.list newstat nn)).map (fun p => wire_val.int p.1)
            ++ (extra_ref (pairs olddesc.list oldstat no)
                (pairs newdesc.list newstat nn)).map (fun p => wire_val.int p.2))) := by
  obtain ⟨hiff, hrec⟩ := extra_loop_final olddesc.list oldstat newdesc.list newstat no nn itmp
    ((no : Int).toNat + (nn : Int).toNat) (by simp)
  have hforce : ¬ (newdesc_type_in_tm = EXPLICIT_LIST ∨ oldbasis_type_in_tm = EXPLICIT_LIST) := by
    rintro (h | h)
    · exact h1 h
    · exact h2 h
  unfold pack_extra_diff
  simp only [hno, hnn, if_neg hforce]
  generalize extra_loop olddesc.list oldstat newdesc.list newstat (no : Int) (nn : Int)
    ((no : Int).toNat + (nn : Int).toNat) ⟨0, 0, 0, itmp⟩ = s at hiff hrec ⊢
  by_cases hD : 2 * (extra_ref (pairs olddesc.list oldstat no)
      (pairs newdesc.list newstat nn)).length < nn
  · obtain ⟨hj, hlen, e1, e2⟩ := hrec hD
    rw [if_pos (hiff.mpr hD), if_pos hD]
    simp only [true_and]
    have hsz : (nn : Int) - s.j + s.l = ((extra_ref (pairs olddesc.list oldstat no)
        (pairs newdesc.list newstat nn)).length : Int) := by omega
    refine fun _ => ⟨hsz, ?_, ?_⟩
    · intro hlp
      simp only [hlp, if_true]
      have hcp := extra_copy s.itmp newdesc.list newstat s.j s.l (nn - s.j) (nn / 2 + 1)
        (by omega)
      rw [hlen, e1, e2] at hcp
      have t1 : ((nn : Int) - s.j).toNat = nn - s.j := by omega
      rw [t1, modstat_off_cast]
      split_ifs with hpos
      · exact hcp
      · have hz : nn - s.j = 0 := by omega
        rw [hz, memcpy_in_zero, memcpy_in_zero] at hcp
        exact hcp
    · intro hlp
      simp only [hlp, Bool.false_eq_true, if_false]
      rw [send_scratch_guard, send_scratch_guard, send_int_array_guard _ _ _ _ hj,
        send_int_array_guard _ _ _ _ hj, hsz, modstat_off_cast]
      have m1 : (extra_ref (pairs olddesc.list oldstat no)
          (pairs newdesc.list newstat nn)).map (fun p => wire_val.int p.1)
          = ((extra_ref (pairs olddesc.list oldstat no)
              (pairs newdesc.list newstat nn)).map Prod.fst).map wire_val.int := by
        rw [List.map_map]; rfl
      have m2 : (extra_ref (pairs olddesc.list oldstat no)
          (pairs newdesc.list newstat nn)).map (fun p => wire_val.int p.2)
          = ((extra_ref (pairs olddesc.list oldstat no)
              (pairs newdesc.list newstat nn)).map Prod.snd).map wire_val.int := by
        rw [List.map_map]; rfl
      rw [m1, m2, ← e1, ← e2]
      split_ifs with hpos
      · simp only [List.map_append, List.append_assoc]
      · have hz : (extra_ref (pairs olddesc.list oldstat no)
            (pairs newdesc.list newstat nn)).length = 0 := by omega
        have hl0 : s.l = 0 := by omega
        have hj0 : nn - s.j = 0 := by omega
        rw [hl0, hj0]
        simp [rd, cells]
  · rw [if_neg (fun h => hD (hiff.mp h)), if_neg hD]
    exact ⟨rfl, fun h => absurd h hD⟩

theorem pair_not_mem_of_lt_head (p o : Int × Int) (os : List (Int × Int))
    (hO : List.Pairwise (fun a b : Int × Int => a.1 < b.1) (o :: os)) (h : p.1 < o.1) :
    p ∉ o :: os := by
  intro hm
  rcases List.mem_cons.mp hm with e | hm
  · rw [e] at h; omega
  · have := (List.pairwise_cons.mp hO).1 p hm
    omega

theorem filter_not_mem_skip (ns os : List (Int × Int)) (o : Int × Int) (h : o ∉ ns) :
    ns.filter (fun p => decide (p ∉ o :: os)) = ns.filter (fun p => decide (p ∉ os)) := by
  apply List.filter_congr
  intro x hx
  have : x ≠ o := fun e => h (e ▸ hx)
  simp [this]

/-- On pair lists with strictly ascending indices whose differences are in the range of
an `int` the reference comparison keeps the new pairs that are not among the old pairs. -/
theorem extra_ref_sorted (O N : List (Int × Int))
    (hO : List.Pairwise (fun a b : Int × Int => a.1 < b.1) O)
    (hN : List.Pairwise (fun a b : Int × Int => a.1 < b.1) N)
    (hfit : ∀ o ∈ O, ∀ n ∈ N, is_int (o.1 - n.1)) :
    extra_ref O N = N.filter (fun p => decide (p ∉ O)) := by
  induction O generalizing N with
  | nil => simp [extra_ref_nil_left]
  | cons o os ihO =>
    induction N with
    | nil => simp [extra_ref_nil_right]
    | cons n ns ihN =>
      have hOt := (List.pairwise_cons.mp hO).2
      have hNt := (List.pairwise_cons.mp hN).2
      have hns : ∀ x ∈ ns, n.1 < x.1 := (List.pairwise_cons.mp hN).1
      have hw : wrap_int (o.1 - n.1) = o.1 - n.1 :=
        wrap_int_eq (hfit o (List.mem_cons_self o os) n (List.mem_cons_self n ns)).1
          (hfit o (List.mem_cons_self o os) n (List.mem_cons_self n ns)).2
      have hf1 : ∀ a ∈ os, ∀ b ∈ n :: ns, is_int (a.1 - b.1) :=
        fun a ha b hb => hfit a (List.mem_cons_of_mem o ha) b hb
      have hf2 : ∀ a ∈ os, ∀ b ∈ ns, is_int (a.1 - b.1) :=
        fun a ha b hb => hf1 a ha b (List.mem_cons_of_mem n hb)
      have hf3 : ∀ a ∈ o :: os, ∀ b ∈ ns, is_int (a.1 - b.1) :=
        fun a ha b hb => hfit a ha b (List.mem_cons_of_mem n hb)
      rcases lt_trichotomy o.1 n.1 with h | h | h
      · rw [extra_ref_cons_lt o n os ns (by rw [hw]; omega), ihO (n :: ns) hOt hN hf1]
        have h1 : o ∉ n :: ns := pair_not_mem_of_lt_head o n ns hN h
        rw [filter_not_mem_skip (n :: ns) os o h1]
      · have h1 : o ∉ ns := by
          intro hm
          have := hns o hm
          omega
        have h2 : n ∉ os := by
          intro hm
          have := (List.pairwise_cons.mp hO).1 n hm
          omega
        by_cases hs : o.2 ≠ n.2
        · rw [extra_ref_cons_ne o n os ns (by rw [hw]; omega) hs, ihO ns hOt hNt hf2]
          have h3 : n ∉ o :: os := by
            intro hm
            rcases List.mem_cons.mp hm with e | hm
            · exact hs (by rw [e])
            · exact h2 hm
          rw [List.filter_cons_of_pos (by simpa using h3), filter_not_mem_skip ns os o h1]
        · have hs' : o.2 = n.2 := by
            by_contra hne; exact hs hne
          rw [extra_ref_cons_same o n os ns (by rw [hw]; omega) hs', ihO ns hOt hNt hf2]
          have h3 : n ∈ o :: os := by
            have : n = o := Prod.ext h.symm hs'.symm
            rw [this]; exact List.mem_cons_self _ _
          rw [List.filter_cons_of_neg (by rw [decide_eq_true_eq]; exact fun hnot => hnot h3),
            filter_not_mem_skip ns os o h1]
      · rw [extra_ref_cons_gt o n os ns (by rw [hw]; omega), ihN hNt hf3]
        have h1 : n ∉ o :: os := pair_not_mem_of_lt_head n o os hO h
        rw [List.filter_cons_of_pos (by simpa using h1)]

theorem pairs_sorted (idx stat : List Int) (n : Nat) (hlen : idx.length = n)
    (h : List.Pairwise (· < ·) idx) :
    List.Pairwise (fun a b : Int × Int => a.1 < b.1) (pairs idx stat n) := by
  unfold pairs
  rw [List.pairwise_map]
  apply List.Pairwise.imp_of_mem _ (List.pairwise_lt_range n)
  intro a b ha hb hab
  rw [List.mem_range] at ha hb
  simp only
  rw [List.getD_eq_getElem _ _ (by omega : a < idx.length),
    List.getD_eq_getElem _ _ (by omega : b < idx.length)]
  exact (List.pairwise_iff_getElem.mp h) a b (by omega) (by omega) hab

theorem getD_inj_of_sorted (idx : List Int) (h : List.Pairwise (· < ·) idx) (a b : Nat)
    (ha : a < idx.length) (hb : b < idx.length) (e : idx.getD a 0 = idx.getD b 0) : a = b := by
  rw [List.getD_eq_getElem _ _ ha, List.getD_eq_getElem _ _ hb] at e
  rcases lt_trichotomy a b with hlt | heq | hgt
  · have := (List.pairwise_iff_getElem.mp h) a b ha hb hlt
    omega
  · exact heq
  · have := (List.pairwise_iff_getElem.mp h) b a hb ha hgt
    omega

/-- A new pair is missing from the old pairs exactly when its position counts as
changed. -/
theorem not_mem_pairs_iff_changed (ol os nl ns : List Int) (no : Nat) (hlen : ol.length = no)
    (hO : List.Pairwise (· < ·) ol) (j : Nat) :
    (nl.getD j 0, ns.getD j 0) ∉ pairs ol os no ↔ extra_changed ol os nl ns j := by
  rw [mem_pairs]
  unfold extra_changed
  simp only
  constructor
  · intro h
    by_cases hm : nl.getD j 0 ∈ ol
    · right
      obtain ⟨i, hi, e⟩ := List.mem_iff_getElem.mp hm
      refine ⟨i, hi, ?_, ?_⟩
      · rw [List.getD_eq_getElem _ _ hi]; exact e
      · intro hs
        apply h
        exact ⟨i, by omega, by rw [List.getD_eq_getElem _ _ hi]; exact e, hs⟩
    · left; exact hm
  · rintro (h | ⟨i, hi, e, hs⟩)
    · rintro ⟨i, hi, e, _⟩
      apply h
      rw [← e, List.getD_eq_getElem _ _ (by omega : i < ol.length)]
      exact List.getElem_mem _
    · rintro ⟨i', hi', e', hs'⟩
      have : i = i' := getD_inj_of_sorted ol hO i i' hi (by omega) (by rw [e, e'])
      subst this
      exact hs hs'

/-- The number of changed positions is the length of the reference comparison. -/
theorem changed_positions_length (ol os nl ns : List Int) (no nn : Nat)
    (hlo : ol.length = no) (hln : nl.length = nn)
    (hO : List.Pairwise (· < ·) ol) (hN : List.Pairwise (· < ·) nl)
    (hfit : diffs_fit ol nl) :
    (extra_ref (pairs ol os no) (pairs nl ns nn)).length
      = (changed_positions ol os nl ns nn).length := by
  rw [extra_ref_sorted _ _ (pairs_sorted ol os no hlo hO) (pairs_sorted nl ns nn hln hN)
    (fun o ho n hn => hfit o.1 (pairs_fst_mem ol os no hlo o ho) n.1
      (pairs_fst_mem nl ns nn hln n hn))]
  unfold changed_positions
  have : (pairs nl ns nn).filter (fun p => decide (p ∉ pairs ol os no))
      = ((List.range nn).filter
          (fun j => decide (extra_changed ol os nl ns j))).map
            (fun t => (nl.getD t 0, ns.getD t 0)) := by
    unfold pairs
    rw [List.filter_map]
    congr 1
    apply List.filter_congr
    intro j _
    simp only [Function.comp]
    have := not_mem_pairs_iff_changed ol os nl ns no hlo hO j
    unfold pairs at this
    simp only [decide_eq_decide]
    exact this
  rw [this, List.length_map]

theorem lookup_of_mem_sorted (L : List (Int × Int))
    (h : List.Pairwise (fun a b : Int × Int => a.1 < b.1) L) (p : Int × Int) (hp : p ∈ L) :
    L.lookup p.1 = some p.2 := by
  induction L with
  | nil => cases hp
  | cons q L ih =>
    rw [List.lookup_cons]
    rcases List.mem_cons.mp hp with e | hm
    · rw [e]; simp
    · have hlt := (List.pairwise_cons.mp h).1 p hm
      have hne : (p.1 == q.1) = false := by
        rw [beq_eq_false_iff_ne]; omega
      rw [hne]
      exact ih (List.pairwise_cons.mp h).2 hm

/-! ## Properties of `pack_extra_diff` -/

/-- C7: whenever the new index set's type in the tree manager (`newdesc_type_in_tm`) is
`EXPLICIT_LIST`, or the old extra-status block was stored as `EXPLICIT_LIST`
(`oldbasis_type_in_tm`), `pack_extra_diff` returns `EXPLICIT_LIST` without touching the
scratch area or `*size`, for every content of the lists and status arrays; the
message-passing build sends the tag, `newsize` and then the whole `newstat` array, the
in-process build sends nothing. -/
theorem pack_extra_diff_forced_explicit (compile_in_lp : Bool) (olddesc : array_desc)
    (oldstat : List Int) (newdesc : array_desc) (newstat : List Int)
    (oldbasis_type_in_tm newdesc_type_in_tm : desc_type) (itmp : Nat → Int) (size : Int)
    (h : newdesc_type_in_tm = EXPLICIT_LIST ∨ oldbasis_type_in_tm = EXPLICIT_LIST) :
    (pack_extra_diff compile_in_lp olddesc oldstat newdesc newstat oldbasis_type_in_tm
        newdesc_type_in_tm itmp size).type = EXPLICIT_LIST ∧
    (pack_extra_diff compile_in_lp olddesc oldstat newdesc newstat oldbasis_type_in_tm
        newdesc_type_in_tm itmp size).itmp = itmp ∧
    (pack_extra_diff compile_in_lp olddesc oldstat newdesc newstat oldbasis_type_in_tm
        newdesc_type_in_tm itmp size).size = size ∧
    (compile_in_lp = false → newdesc.size = (newstat.length : Int) →
      (pack_extra_diff compile_in_lp olddesc oldstat newdesc newstat oldbasis_type_in_tm
          newdesc_type_in_tm itmp size).sent
        = wire_val.tag EXPLICIT_LIST :: wire_val.int newdesc.size
            :: newstat.map wire_val.int) ∧
    (compile_in_lp = true →
      (pack_extra_diff compile_in_lp olddesc oldstat newdesc newstat oldbasis_type_in_tm
          newdesc_type_in_tm itmp size).sent = []) := by
  unfold pack_extra_diff
  simp only [if_pos h, true_and]
  refine ⟨?_, ?_⟩
  · intro hlp hlen
    simp only [hlp, Bool.false_eq_true, if_false, hlen, send_int_array, Int.toNat_ofNat,
      cells_all]
    split_ifs with hpos
    · rfl
    · have : newstat = [] := List.length_eq_zero.mp (by omega)
      rw [this]; rfl
  · intro hlp
    simp only [hlp, if_true]

/-- Instance of C7 in the message-passing build: tag, size and both new statuses are
sent. -/
theorem pack_extra_diff_forced_explicit_witness :
    (pack_extra_diff false ⟨WRT_PARENT, 2, 0, [1, 2]⟩ [0, 0] ⟨EXPLICIT_LIST, 2, 2, [1, 2]⟩ [0, 1]
        WRT_PARENT EXPLICIT_LIST (fun _ => 0) 0).sent
      = [wire_val.tag EXPLICIT_LIST, wire_val.int 2, wire_val.int 0, wire_val.int 1] :=
  (pack_extra_diff_forced_explicit false ⟨WRT_PARENT, 2, 0, [1, 2]⟩ [0, 0]
    ⟨EXPLICIT_LIST, 2, 2, [1, 2]⟩ [0, 1] WRT_PARENT EXPLICIT_LIST (fun _ => 0) 0
    (Or.inl rfl)).2.2.2.1 rfl rfl

/-- C8: when neither type argument of `pack_extra_diff` is `EXPLICIT_LIST`, the old
and new index lists are strictly ascending (each `size` field being the length of its
list and of its status array) and the difference between any old index and any new index
is in the range of an `int`, the function returns `WRT_PARENT` if and only if
`2 × c < newsize`, where `c` is the number of positions of the new list whose index is
absent from the old list or present there with a different status; otherwise it returns
`EXPLICIT_LIST`, in particular when `newsize = 0`. -/
theorem pack_extra_diff_type_iff (compile_in_lp : Bool) (olddesc : array_desc)
    (oldstat : List Int) (newdesc : array_desc) (newstat : List Int)
    (oldbasis_type_in_tm newdesc_type_in_tm : desc_type) (itmp : Nat → Int) (size : Int)
    (hno : olddesc.size = (olddesc.list.length : Int))
    (hos : oldstat.length = olddesc.list.length)
    (hnn : newdesc.size = (newdesc.list.length : Int))
    (hns : newstat.length = newdesc.list.length)
    (h1 : newdesc_type_in_tm ≠ EXPLICIT_LIST) (h2 : oldbasis_type_in_tm ≠ EXPLICIT_LIST)
    (sO : List.Pairwise (· < ·) olddesc.list) (sN : List.Pairwise (· < ·) newdesc.list)
    (hfit : diffs_fit olddesc.list newdesc.list) :
    ((pack_extra_diff compile_in_lp olddesc oldstat newdesc newstat oldbasis_type_in_tm
          newdesc_type_in_tm itmp size).type = WRT_PARENT
      ↔ 2 * (changed_positions olddesc.list oldstat newdesc.list newstat
              newdesc.list.length).length < newdesc.list.length) ∧
    (¬ 2 * (changed_positions olddesc.list oldstat newdesc.list newstat
              newdesc.list.length).length < newdesc.list.length →
      (pack_extra_diff compile_in_lp olddesc oldstat newdesc newstat oldbasis_type_in_tm
          newdesc_type_in_tm itmp size).type = EXPLICIT_LIST) ∧
    (newdesc.list.length = 0 →
      (pack_extra_diff compile_in_lp olddesc oldstat newdesc newstat oldbasis_type_in_tm
          newdesc_type_in_tm itmp size).type = EXPLICIT_LIST) := by
  have _hlens : oldstat.length + newstat.length
      = olddesc.list.length + newdesc.list.length := by rw [hos, hns]
  have key := (pack_extra_diff_spec compile_in_lp olddesc oldstat newdesc newstat
    oldbasis_type_in_tm newdesc_type_in_tm itmp size olddesc.list.length newdesc.list.length
    hno hnn h1 h2).1
  rw [changed_positions_length _ _ _ _ _ _ rfl rfl sO sN hfit] at key
  rw [key]
  refine ⟨?_, ?_, ?_⟩
  · split_ifs with h <;> simp [h]
  · intro h; rw [if_neg h]
  · intro h0; rw [if_neg (by omega)]

/-- Instance of C8 with one changed position among three. -/
theorem pack_extra_diff_type_iff_witness :
    (pack_extra_diff true ⟨WRT_PARENT, 3, 0, [1, 2, 3]⟩ [0, 0, 0]
        ⟨WRT_PARENT, 3, 0, [1, 2, 3]⟩ [0, 0, 1] WRT_PARENT WRT_PARENT (fun _ => 0) 0).type
      = WRT_PARENT ∧
    changed_positions [1, 2, 3] [0, 0, 0] [1, 2, 3] [0, 0, 1] 3 = [2] :=
  ⟨((pack_extra_diff_type_iff true ⟨WRT_PARENT, 3, 0, [1, 2, 3]⟩ [0, 0, 0]
      ⟨WRT_PARENT, 3, 0, [1, 2, 3]⟩ [0, 0, 1] WRT_PARENT WRT_PARENT (fun _ => 0) 0
      (by decide) (by decide) (by decide) (by decide) (by decide) (by decide) (by decide)
      (by decide) (by decide)).1).mpr (by decide), by decide⟩

/-- C8 without a bound on the indices: the old list `2147483646, 2147483647` and the new
list `-2, 2147483646, 2147483647`, all with status `0`, are strictly ascending, and only
position `0` of the new list counts as changed, so that `2 × c = 2 < 3 = newsize`. Both
differences `oldlist[i] - newlist[0]` wrap to a negative `int`, the loop runs off the old
list with nothing recorded, and the function returns `EXPLICIT_LIST` with `*size = 3`. -/
theorem pack_extra_diff_type_counterexample :
    List.Pairwise (· < ·) ([2147483646, 2147483647] : List Int) ∧
    List.Pairwise (· < ·) ([-2, 2147483646, 2147483647] : List Int) ∧
    changed_positions [2147483646, 2147483647] [0, 0] [-2, 2147483646, 2147483647] [0, 0, 0] 3
      = [0] ∧
    (pack_extra_diff true ⟨WRT_PARENT, 2, 0, [2147483646, 2147483647]⟩ [0, 0]
        ⟨WRT_PARENT, 3, 0, [-2, 2147483646, 2147483647]⟩ [0, 0, 0] WRT_PARENT WRT_PARENT
        (fun _ => 0) 0).type = EXPLICIT_LIST ∧
    (pack_extra_diff true ⟨WRT_PARENT, 2, 0, [2147483646, 2147483647]⟩ [0, 0]
        ⟨WRT_PARENT, 3, 0, [-2, 2147483646, 2147483647]⟩ [0, 0, 0] WRT_PARENT WRT_PARENT
        (fun _ => 0) 0).size = 3 :=
  ⟨by decide, by decide, by decide, by decide, by decide⟩

/-- C9: whenever `pack_extra_diff` returns `WRT_PARENT` for strictly ascending old and
new index lists of `int` entries (each `size` field being the length of its list and of
its status array), the `*size` recorded (index, status) pairs, which the in-process build leaves in
the scratch area and the message-passing build sends after the tag and `*size`, have
strictly ascending indices, all taken from the new list, and reconstruct the new
statuses: for every position `j` of the new list, `newstat[j]` is the recorded status
for `newlist[j]` if that index is recorded, and otherwise is `oldstat[i]` at the
position `i` with `oldlist[i] = newlist[j]`. -/
theorem pack_extra_diff_wrt_reconstruct (compile_in_lp : Bool) (olddesc : array_desc)
    (oldstat : List Int) (newdesc : array_desc) (newstat : List Int)
    (oldbasis_type_in_tm newdesc_type_in_tm : desc_type) (itmp : Nat → Int) (size : Int)
    (hno : olddesc.size = (olddesc.list.length : Int))
    (hos : oldstat.length = olddesc.list.length)
    (hnn : newdesc.size = (newdesc.list.length : Int))
    (hns : newstat.length = newdesc.list.length)
    (sO : List.Pairwise (· < ·) olddesc.list) (sN : List.Pairwise (· < ·) newdesc.list)
    (iO : ∀ x ∈ olddesc.list, is_int x) (iN : ∀ x ∈ newdesc.list, is_int x)
    (hw : (pack_extra_diff compile_in_lp olddesc oldstat newdesc newstat oldbasis_type_in_tm
        newdesc_type_in_tm itmp size).type = WRT_PARENT) :
    (pack_extra_diff true olddesc oldstat newdesc newstat oldbasis_type_in_tm
        newdesc_type_in_tm itmp size).type = WRT_PARENT ∧
    (pack_extra_diff compile_in_lp olddesc oldstat newdesc newstat oldbasis_type_in_tm
        newdesc_type_in_tm itmp size).size
      = (pack_extra_diff true olddesc oldstat newdesc newstat oldbasis_type_in_tm
          newdesc_type_in_tm itmp size).size ∧
    (compile_in_lp = false →
      (pack_extra_diff compile_in_lp olddesc oldstat newdesc newstat oldbasis_type_in_tm
          newdesc_type_in_tm itmp size).sent
        = [wire_val.tag WRT_PARENT,
            wire_val.int (pack_extra_diff compile_in_lp olddesc oldstat newdesc newstat
              oldbasis_type_in_tm newdesc_type_in_tm itmp size).size]
          ++ (recorded_list (pack_extra_diff true olddesc oldstat newdesc newstat
                oldbasis_type_in_tm newdesc_type_in_tm itmp size)).map wire_val.int
          ++ (recorded_stat newdesc.size (pack_extra_diff true olddesc oldstat newdesc newstat
                oldbasis_type_in_tm newdesc_type_in_tm itmp size)).map wire_val.int) ∧
    List.Pairwise (· < ·)
      (recorded_list (pack_extra_diff true olddesc oldstat newdesc newstat
        oldbasis_type_in_tm newdesc_type_in_tm itmp size)) ∧
    (∀ x ∈ recorded_list (pack_extra_diff true olddesc oldstat newdesc newstat
        oldbasis_type_in_tm newdesc_type_in_tm itmp size), x ∈ newdesc.list) ∧
    (∀ j, j < newdesc.list.length →
      (newdesc.list.getD j 0 ∈ recorded_list (pack_extra_diff true olddesc oldstat newdesc
            newstat oldbasis_type_in_tm newdesc_type_in_tm itmp size) →
        List.lookup (newdesc.list.getD j 0)
            (List.zip
              (recorded_list (pack_extra_diff true olddesc oldstat newdesc newstat
                oldbasis_type_in_tm newdesc_type_in_tm itmp size))
              (recorded_stat newdesc.size (pack_extra_diff true olddesc oldstat newdesc
                newstat oldbasis_type_in_tm newdesc_type_in_tm itmp size)))
          = some (newstat.getD j 0)) ∧
      (newdesc.list.getD j 0 ∉ recorded_list (pack_extra_diff true olddesc oldstat newdesc
            newstat oldbasis_type_in_tm newdesc_type_in_tm itmp size) →
        ∃ i, i < olddesc.list.length ∧ olddesc.list.getD i 0 = newdesc.list.getD j 0 ∧
          oldstat.getD i 0 = newstat.getD j 0)) := by
  have _hlens : oldstat.length + newstat.length
      = olddesc.list.length + newdesc.list.length := by rw [hos, hns]
  -- neither type argument forces an explicit list
  have hforce : newdesc_type_in_tm ≠ EXPLICIT_LIST ∧ oldbasis_type_in_tm ≠ EXPLICIT_LIST := by
    by_contra hc
    have hf : newdesc_type_in_tm = EXPLICIT_LIST ∨ oldbasis_type_in_tm = EXPLICIT_LIST := by
      by_cases h : newdesc_type_in_tm = EXPLICIT_LIST
      · exact Or.inl h
      · by_cases h' : oldbasis_type_in_tm = EXPLICIT_LIST
        · exact Or.inr h'
        · exact absurd ⟨h, h'⟩ hc
    have : (pack_extra_diff compile_in_lp olddesc oldstat newdesc newstat oldbasis_type_in_tm
        newdesc_type_in_tm itmp size).type = EXPLICIT_LIST := by
      unfold pack_extra_diff
      simp only [if_pos hf]
    rw [this] at hw
    cases hw
  obtain ⟨h1, h2⟩ := hforce
  obtain ⟨ty, hrec⟩ := pack_extra_diff_spec compile_in_lp olddesc oldstat newdesc newstat
    oldbasis_type_in_tm newdesc_type_in_tm itmp size olddesc.list.length newdesc.list.length
    hno hnn h1 h2
  obtain ⟨tyT, hrecT⟩ := pack_extra_diff_spec true olddesc oldstat newdesc newstat
    oldbasis_type_in_tm newdesc_type_in_tm itmp size olddesc.list.length newdesc.list.length
    hno hnn h1 h2
  have hD : 2 * (extra_ref (pairs olddesc.list oldstat olddesc.list.length)
      (pairs newdesc.list newstat newdesc.list.length)).length < newdesc.list.length := by
    by_contra hD
    rw [ty, if_neg hD] at hw
    cases hw
  obtain ⟨hsz, _, hsent⟩ := hrec hD
  obtain ⟨hszT, hmem, _⟩ := hrecT hD
  obtain ⟨eidx, estat⟩ := hmem rfl
  have hO := pairs_sorted olddesc.list oldstat olddesc.list.length rfl sO
  have hN := pairs_sorted newdesc.list newstat newdesc.list.length rfl sN
  have hrl : recorded_list (pack_extra_diff true olddesc oldstat newdesc newstat
      oldbasis_type_in_tm newdesc_type_in_tm itmp size)
      = (extra_ref (pairs olddesc.list oldstat olddesc.list.length)
          (pairs newdesc.list newstat newdesc.list.length)).map Prod.fst := by
    unfold recorded_list
    rw [hszT, Int.toNat_ofNat, eidx]
  have hrs : recorded_stat newdesc.size (pack_extra_diff true olddesc oldstat newdesc newstat
      oldbasis_type_in_tm newdesc_type_in_tm itmp size)
      = (extra_ref (pairs olddesc.list oldstat olddesc.list.length)
          (pairs newdesc.list newstat newdesc.list.length)).map Prod.snd := by
    unfold recorded_stat
    rw [hszT, Int.toNat_ofNat, hnn, modstat_off_cast, estat]
  have hz : List.zip
      ((extra_ref (pairs olddesc.list oldstat olddesc.list.length)
        (pairs newdesc.list newstat newdesc.list.length)).map Prod.fst)
      ((extra_ref (pairs olddesc.list oldstat olddesc.list.length)
        (pairs newdesc.list newstat newdesc.list.length)).map Prod.snd)
      = extra_ref (pairs olddesc.list oldstat olddesc.list.length)
        (pairs newdesc.list newstat newdesc.list.length) := (List.zip_of_prod rfl rfl).symm
  rw [hrl, hrs, hz]
  have hsub := extra_ref_sublist (pairs olddesc.list oldstat olddesc.list.length)
    (pairs newdesc.list newstat newdesc.list.length)
  have hz : ∀ o ∈ pairs olddesc.list oldstat olddesc.list.length,
      ∀ n ∈ pairs newdesc.list newstat newdesc.list.length,
      wrap_int (o.1 - n.1) = 0 → o.1 = n.1 := by
    intro o ho n hn h0
    have i1 := iO o.1 (pairs_fst_mem _ _ _ rfl o ho)
    have i2 := iN n.1 (pairs_fst_mem _ _ _ rfl n hn)
    unfold is_int at i1 i2
    unfold wrap_int at h0
    omega
  have hsorted : List.Pairwise (fun a b : Int × Int => a.1 < b.1)
      (extra_ref (pairs olddesc.list oldstat olddesc.list.length)
        (pairs newdesc.list newstat newdesc.list.length)) := List.Pairwise.sublist hsub hN
  refine ⟨by rw [tyT, if_pos hD], by rw [hsz, hszT], ?_, ?_, ?_, ?_⟩
  · intro hlp
    rw [hsent hlp, hsz, List.map_map, List.map_map]
    rfl
  · rw [List.pairwise_map]
    exact hsorted
  · intro x hx
    obtain ⟨p, hp, rfl⟩ := List.mem_map.mp hx
    obtain ⟨i, hi, e1, _⟩ := (mem_pairs _ _ _ p).mp (hsub.subset hp)
    rw [← e1, List.getD_eq_getElem _ _ hi]
    exact List.getElem_mem _
  · intro j hj
    have hpN : (newdesc.list.getD j 0, newstat.getD j 0)
        ∈ pairs newdesc.list newstat newdesc.list.length :=
      (mem_pairs _ _ _ _).mpr ⟨j, hj, rfl, rfl⟩
    constructor
    · intro hx
      obtain ⟨q, hq, hq1⟩ := List.mem_map.mp hx
      have hqN : q ∈ pairs newdesc.list newstat newdesc.list.length := hsub.subset hq
      obtain ⟨i, hi, e1, e2⟩ := (mem_pairs _ _ _ q).mp hqN
      have hij : i = j :=
        getD_inj_of_sorted newdesc.list sN i j hi hj (by rw [e1, hq1])
      subst hij
      have hqe : q = (newdesc.list.getD i 0, newstat.getD i 0) := Prod.ext e1.symm e2.symm
      rw [hqe] at hq
      exact lookup_of_mem_sorted _ hsorted _ hq
    · intro hx
      have hnot : (newdesc.list.getD j 0, newstat.getD j 0)
          ∉ extra_ref (pairs olddesc.list oldstat olddesc.list.length)
              (pairs newdesc.list newstat newdesc.list.length) := by
        intro hm
        exact hx (List.mem_map.mpr ⟨_, hm, rfl⟩)
      have hin : (newdesc.list.getD j 0, newstat.getD j 0)
          ∈ pairs olddesc.list oldstat olddesc.list.length :=
        extra_ref_missing _ _ hz _ hpN hnot
      obtain ⟨i, hi, e1, e2⟩ := (mem_pairs _ _ _ _).mp hin
      exact ⟨i, hi, e1, e2⟩

/-- Instance of C9 with one changed status: the pair `(3, 1)` is recorded and sent. -/
theorem pack_extra_diff_wrt_reconstruct_witness :
    (pack_extra_diff false ⟨WRT_PARENT, 3, 0, [1, 2, 3]⟩ [0, 0, 0]
        ⟨WRT_PARENT, 3, 0, [1, 2, 3]⟩ [0, 0, 1] WRT_PARENT WRT_PARENT (fun _ => 0) 0).sent
      = [wire_val.tag WRT_PARENT, wire_val.int 1, wire_val.int 3, wire_val.int 1] ∧
    recorded_list (pack_extra_diff true ⟨WRT_PARENT, 3, 0, [1, 2, 3]⟩ [0, 0, 0]
        ⟨WRT_PARENT, 3, 0, [1, 2, 3]⟩ [0, 0, 1] WRT_PARENT WRT_PARENT (fun _ => 0) 0) = [3] ∧
    List.Pairwise (· < ·)
      (recorded_list (pack_extra_diff true ⟨WRT_PARENT, 3, 0, [1, 2, 3]⟩ [0, 0, 0]
        ⟨WRT_PARENT, 3, 0, [1, 2, 3]⟩ [0, 0, 1] WRT_PARENT WRT_PARENT (fun _ => 0) 0)) :=
  ⟨by decide, by decide,
    (pack_extra_diff_wrt_reconstruct false ⟨WRT_PARENT, 3, 0, [1, 2, 3]⟩ [0, 0, 0]
      ⟨WRT_PARENT, 3, 0, [1, 2, 3]⟩ [0, 0, 1] WRT_PARENT WRT_PARENT (fun _ => 0) 0
      (by decide) (by decide) (by decide) (by decide) (by decide) (by decide)
      (by decide) (by decide) (by decide)).2.2.2.1⟩

/-! ## Frame of `pack_basis_diff` -/

/-- The old node description is never written by `pack_basis_diff`, in either build. -/
theorem pack_basis_diff_oldnode (compile_in_lp : Bool) (basis0 : basis_desc) (size0 : Int)
    (oldnode newnode : node_desc) (uind_type cutind_type : desc_type) (itmp : Nat → Int) :
    (pack_basis_diff compile_in_lp basis0 size0 oldnode newnode uind_type cutind_type
      itmp).oldnode = oldnode := by
  unfold pack_basis_diff
  simp only
  split_ifs <;> rfl

/-- The in-process build works on the local copy `size` and leaves the new node
description as it was. -/
theorem pack_basis_diff_in_process_newnode (basis0 : basis_desc) (size0 : Int)
    (oldnode newnode : node_desc) (uind_type cutind_type : desc_type) (itmp : Nat → Int) :
    (pack_basis_diff true basis0 size0 oldnode newnode uind_type cutind_type
      itmp).newnode = newnode := by
  unfold pack_basis_diff
  simp only
  split_ifs <;> rfl

/-- The message-passing build writes only the two fields `basis.baserows.size` and
`basis.basevars.size` of the new node description: the index lists, the status arrays,
the tags and the two extra sizes keep their values. -/
theorem pack_basis_diff_message_newnode (basis0 : basis_desc) (size0 : Int)
    (oldnode newnode : node_desc) (uind_type cutind_type : desc_type) (itmp : Nat → Int) :
    ∃ s1 s2 : Int,
      (pack_basis_diff false basis0 size0 oldnode newnode uind_type cutind_type
        itmp).newnode
        = { newnode with basis := { newnode.basis with
              baserows := { newnode.basis.baserows with size := s1 },
              basevars := { newnode.basis.basevars with size := s2 } } } := by
  unfold pack_basis_diff
  simp only [Bool.false_eq_true, if_false]
  split_ifs
  all_goals first
    | exact ⟨newnode.basis.baserows.size, newnode.basis.basevars.size, rfl⟩
    | exact ⟨_, _, rfl⟩

/-- C10 fails in the message-passing build: `pack_basis_diff` hands
`&newnode->basis.baserows.size` to `pack_base_diff`, which stores the number of
mismatches there. With base-row statuses `[0, 0, 0]` in the old node and `[0, 0, 1]` in
the new node, the new node's `basis.baserows.size` is `3` before the call and `1` after
it, while the in-process build leaves it at `3`. -/
theorem pack_basis_diff_message_build_overwrites_size :
    (sample_node [0, 0, 1]).basis.baserows.size = 3 ∧
    (pack_basis_diff false zero_basis 0 (sample_node [0, 0, 0]) (sample_node [0, 0, 1])
      EXPLICIT_LIST EXPLICIT_LIST (fun _ => 0)).newnode.basis.baserows.size = 1 ∧
    (pack_basis_diff true zero_basis 0 (sample_node [0, 0, 0]) (sample_node [0, 0, 1])
      EXPLICIT_LIST EXPLICIT_LIST (fun _ => 0)).newnode.basis.baserows.size = 3 := by
  decide

/-! ## Properties of `process_message`: incoming cuts -/

theorem all_different_cuts_iff (c : lp_constants) (f : waiting_row → waiting_row → Int)
    (new_row : waiting_row) (ws : List waiting_row) :
    all_different_cuts c f new_row ws = true ↔ ∀ w ∈ ws, f w new_row = c.DIFFERENT_CUTS := by
  induction ws with
  | nil => simp [all_different_cuts]
  | cons w ws ih =>
    unfold all_different_cuts
    by_cases h : f w new_row = c.DIFFERENT_CUTS
    · simp [h, ih]
    · simp [h]

/-- State left by `process_message` on a `PACKED_CUT` during a collection round, when
unpacking gives the rows `row :: rest`: the rows, the first of them tagged with its
source, are handed to `add_new_rows_to_waiting_rows` when every waiting row is
different from the tagged row, and the state is untouched otherwise. -/
theorem process_message_packed_cut_state (env : lp_callbacks) (c : lp_constants)
    (p : lp_prob) (sender : Int) (cut : cut_data) (tm_ok : Bool) (index : Int)
    (pitnum : Option Int) (desc0 : node_desc) (row : waiting_row) (rest : List waiting_row)
    (hun : env.unpack_cuts_u p
      (if sender = p.cut_pool then c.CUT_FROM_CP else c.CUT_FROM_CG)
      c.UNPACK_CUTS_MULTIPLE [cut] = row :: rest) :
    (process_message env c p (some ⟨sender, msg_body.PACKED_CUT cut⟩) tm_ok (some index)
        pitnum desc0).p
      = if ∀ w ∈ p.waiting_rows, env.same_cuts_u p w
            { row with source_pid :=
                if sender = p.cut_pool then c.EXTERNAL_CUT_POOL else c.EXTERNAL_CUT_GEN }
            = c.DIFFERENT_CUTS then
          env.add_new_rows_to_waiting_rows p
            ({ row with source_pid :=
                if sender = p.cut_pool then c.EXTERNAL_CUT_POOL else c.EXTERNAL_CUT_GEN }
              :: rest)
        else p := by
  unfold process_message
  simp only [hun]
  by_cases h : ∀ w ∈ p.waiting_rows, env.same_cuts_u p w
      { row with source_pid :=
          if sender = p.cut_pool then c.EXTERNAL_CUT_POOL else c.EXTERNAL_CUT_GEN }
      = c.DIFFERENT_CUTS
  · have h' : all_different_cuts c (env.same_cuts_u p)
        { row with source_pid :=
            if sender = p.cut_pool then c.EXTERNAL_CUT_POOL else c.EXTERNAL_CUT_GEN }
        p.waiting_rows.reverse = true := by
      rw [all_different_cuts_iff]
      intro w hw
      exact h w (List.mem_reverse.mp hw)
    rw [if_pos h', if_pos h]
  · have h' : ¬ all_different_cuts c (env.same_cuts_u p)
        { row with source_pid :=
            if sender = p.cut_pool then c.EXTERNAL_CUT_POOL else c.EXTERNAL_CUT_GEN }
        p.waiting_rows.reverse = true := by
      rw [all_different_cuts_iff]
      intro hall
      exact h (fun w hw => hall w (List.mem_reverse.mpr hw))
    rw [if_neg h', if_neg h]

/-- The state is untouched when unpacking a cut during a collection round gives no
row. -/
theorem process_message_packed_cut_no_row (env : lp_callbacks) (c : lp_constants)
    (p : lp_prob) (sender : Int) (cut : cut_data) (tm_ok : Bool) (index : Int)
    (pitnum : Option Int) (desc0 : node_desc)
    (hun : env.unpack_cuts_u p
      (if sender = p.cut_pool then c.CUT_FROM_CP else c.CUT_FROM_CG)
      c.UNPACK_CUTS_MULTIPLE [cut] = []) :
    (process_message env c p (some ⟨sender, msg_body.PACKED_CUT cut⟩) tm_ok (some index)
        pitnum desc0).p = p := by
  unfold process_message
  simp only [hun]

/-- C11: when `process_message` handles a `PACKED_CUT` during a collection round
(`pindex` non-null) and unpacking yields the rows `row :: rest`, the row, tagged
`EXTERNAL_CUT_POOL` if the sender is the process's cut pool and `EXTERNAL_CUT_GEN`
otherwise, is appended to the waiting rows if and only if `same_cuts_u` reports
`DIFFERENT_CUTS` for it against every waiting row; when it is not appended the whole
process state, and so the waiting rows and their count, is unchanged; the call returns
`FALSE`. Appending is what `add_new_rows_to_waiting_rows` does, a function outside this
file. -/
theorem process_message_packed_cut (env : lp_callbacks) (c : lp_constants)
    (p : lp_prob) (sender : Int) (cut : cut_data) (tm_ok : Bool) (index : Int)
    (pitnum : Option Int) (desc0 : node_desc) (row : waiting_row) (rest : List waiting_row)
    (hun : env.unpack_cuts_u p
      (if sender = p.cut_pool then c.CUT_FROM_CP else c.CUT_FROM_CG)
      c.UNPACK_CUTS_MULTIPLE [cut] = row :: rest)
    (hadd : ∀ (q : lp_prob) (rows : List waiting_row),
      env.add_new_rows_to_waiting_rows q rows
        = { q with waiting_rows := q.waiting_rows ++ rows }) :
    ((process_message env c p (some ⟨sender, msg_body.PACKED_CUT cut⟩) tm_ok (some index)
          pitnum desc0).p.waiting_rows
        = p.waiting_rows ++
          { row with source_pid :=
              if sender = p.cut_pool then c.EXTERNAL_CUT_POOL else c.EXTERNAL_CUT_GEN }
            :: rest
      ↔ ∀ w ∈ p.waiting_rows, env.same_cuts_u p w
          { row with source_pid :=
              if sender = p.cut_pool then c.EXTERNAL_CUT_POOL else c.EXTERNAL_CUT_GEN }
          = c.DIFFERENT_CUTS) ∧
    (¬ (∀ w ∈ p.waiting_rows, env.same_cuts_u p w
          { row with source_pid :=
              if sender = p.cut_pool then c.EXTERNAL_CUT_POOL else c.EXTERNAL_CUT_GEN }
          = c.DIFFERENT_CUTS) →
      (process_message env c p (some ⟨sender, msg_body.PACKED_CUT cut⟩) tm_ok (some index)
          pitnum desc0).p = p ∧
      (process_message env c p (some ⟨sender, msg_body.PACKED_CUT cut⟩) tm_ok (some index)
          pitnum desc0).p.waiting_row_num = p.waiting_row_num) ∧
    (process_message env c p (some ⟨sender, msg_body.PACKED_CUT cut⟩) tm_ok (some index)
        pitnum desc0).outcome = call_outcome.returned false := by
  have hst := process_message_packed_cut_state env c p sender cut tm_ok index pitnum desc0
    row rest hun
  refine ⟨?_, ?_, ?_⟩
  · by_cases h : ∀ w ∈ p.waiting_rows, env.same_cuts_u p w
        { row with source_pid :=
            if sender = p.cut_pool then c.EXTERNAL_CUT_POOL else c.EXTERNAL_CUT_GEN }
        = c.DIFFERENT_CUTS
    · rw [hst, if_pos h, hadd]
      exact ⟨fun _ => h, fun _ => rfl⟩
    · rw [hst, if_neg h]
      constructor
      · intro e
        have := congrArg List.length e
        simp at this
      · intro h'
        exact absurd h' h
  · intro h
    rw [hst, if_neg h]
    exact ⟨rfl, rfl⟩
  · unfold process_message
    simp only [hun]
    split_ifs <;> rfl

/-- Instance of C11: a cut from the cut generator that differs from the one waiting row
is appended with the tag `EXTERNAL_CUT_GEN`. -/
theorem process_message_packed_cut_witness :
    (process_message sample_callbacks sample_constants
        (sample_lp [{ source_pid := -2, cut := [1] }])
        (some ⟨3, msg_body.PACKED_CUT [2]⟩) true (some 0) (some 0)
        (sample_node [])).p.waiting_rows
      = [{ source_pid := -2, cut := [1] }, { source_pid := -2, cut := [2] }] :=
  ((process_message_packed_cut sample_callbacks sample_constants
      (sample_lp [{ source_pid := -2, cut := [1] }]) 3 [2] true 0 (some 0) (sample_node [])
      { source_pid := 0, cut := [2] } [] rfl (fun _ _ => rfl)).1).mpr (by decide)

/-- C12 as stated fails: outside a collection round (`pindex` null, a cut arriving while
the process waits for a new node) the cut is stored without any comparison, so
delivering the same `PACKED_CUT` twice to a process with no waiting rows leaves one
waiting row after the first delivery and two after the second, although `same_cuts_u`
never reports `DIFFERENT_CUTS` for a row compared with itself. -/
theorem process_message_packed_cut_twice_counterexample :
    (∀ (q : lp_prob) (w : waiting_row),
      sample_callbacks.same_cuts_u q w w ≠ sample_constants.DIFFERENT_CUTS) ∧
    (process_message sample_callbacks sample_constants (sample_lp [])
        (some ⟨3, msg_body.PACKED_CUT [2]⟩) true none none
        (sample_node [])).p.waiting_row_num = 1 ∧
    (process_message sample_callbacks sample_constants
        (process_message sample_callbacks sample_constants (sample_lp [])
          (some ⟨3, msg_body.PACKED_CUT [2]⟩) true none none (sample_node [])).p
        (some ⟨3, msg_body.PACKED_CUT [2]⟩) true none none
        (sample_node [])).p.waiting_row_num = 2 := by
  refine ⟨?_, by decide, by decide⟩
  intro q w
  simp [sample_callbacks, sample_constants]

/-- C12, amended: during a collection round (`pindex` non-null), if `same_cuts_u` never
reports `DIFFERENT_CUTS` for a row compared with itself, `add_new_rows_to_waiting_rows`
appends, and unpacking the cut gives the same rows at both deliveries, then delivering
the same `PACKED_CUT` from the same sender a second time leaves the process state, and
so the waiting rows and their count, as the first delivery left them. -/
theorem process_message_packed_cut_twice (env : lp_callbacks) (c : lp_constants)
    (p : lp_prob) (sender : Int) (cut : cut_data) (tm_ok tm_ok2 : Bool) (index index2 : Int)
    (pitnum pitnum2 : Option Int) (desc0 : node_desc)
    (hsame : ∀ (q : lp_prob) (w : waiting_row), env.same_cuts_u q w w ≠ c.DIFFERENT_CUTS)
    (hadd : ∀ (q : lp_prob) (rows : List waiting_row),
      env.add_new_rows_to_waiting_rows q rows
        = { q with waiting_rows := q.waiting_rows ++ rows })
    (hun : ∀ (q : lp_prob) (from_ty : Int),
      env.unpack_cuts_u q from_ty c.UNPACK_CUTS_MULTIPLE [cut]
        = env.unpack_cuts_u p from_ty c.UNPACK_CUTS_MULTIPLE [cut]) :
    (process_message env c
        (process_message env c p (some ⟨sender, msg_body.PACKED_CUT cut⟩) tm_ok (some index)
          pitnum desc0).p
        (some ⟨sender, msg_body.PACKED_CUT cut⟩) tm_ok2 (some index2) pitnum2 desc0).p
      = (process_message env c p (some ⟨sender, msg_body.PACKED_CUT cut⟩) tm_ok (some index)
          pitnum desc0).p ∧
    (process_message env c
        (process_message env c p (some ⟨sender, msg_body.PACKED_CUT cut⟩) tm_ok (some index)
          pitnum desc0).p
        (some ⟨sender, msg_body.PACKED_CUT cut⟩) tm_ok2 (some index2) pitnum2
        desc0).p.waiting_row_num
      = (process_message env c p (some ⟨sender, msg_body.PACKED_CUT cut⟩) tm_ok (some index)
          pitnum desc0).p.waiting_row_num := by
  have key : (process_message env c
        (process_message env c p (some ⟨sender, msg_body.PACKED_CUT cut⟩) tm_ok (some index)
          pitnum desc0).p
        (some ⟨sender, msg_body.PACKED_CUT cut⟩) tm_ok2 (some index2) pitnum2 desc0).p
      = (process_message env c p (some ⟨sender, msg_body.PACKED_CUT cut⟩) tm_ok (some index)
          pitnum desc0).p := by
    cases hrows : env.unpack_cuts_u p
        (if sender = p.cut_pool then c.CUT_FROM_CP else c.CUT_FROM_CG)
        c.UNPACK_CUTS_MULTIPLE [cut] with
    | nil =>
      have h1 := process_message_packed_cut_no_row env c p sender cut tm_ok index pitnum
        desc0 hrows
      rw [h1]
      exact process_message_packed_cut_no_row env c p sender cut tm_ok2 index2 pitnum2
        desc0 hrows
    | cons row rest =>
      have h1 := process_message_packed_cut_state env c p sender cut tm_ok index pitnum
        desc0 row rest hrows
      by_cases h : ∀ w ∈ p.waiting_rows, env.same_cuts_u p w
          { row with source_pid :=
              if sender = p.cut_pool then c.EXTERNAL_CUT_POOL else c.EXTERNAL_CUT_GEN }
          = c.DIFFERENT_CUTS
      · rw [h1, if_pos h, hadd]
        have hrows2 : env.unpack_cuts_u { p with waiting_rows := p.waiting_rows ++
              { row with source_pid :=
                  if sender = p.cut_pool then c.EXTERNAL_CUT_POOL else c.EXTERNAL_CUT_GEN }
                :: rest }
            (if sender = p.cut_pool then c.CUT_FROM_CP else c.CUT_FROM_CG)
            c.UNPACK_CUTS_MULTIPLE [cut] = row :: rest := by
          rw [hun]
          exact hrows
        have h2 := process_message_packed_cut_state env c
          { p with waiting_rows := p.waiting_rows ++
              { row with source_pid :=
                  if sender = p.cut_pool then c.EXTERNAL_CUT_POOL else c.EXTERNAL_CUT_GEN }
                :: rest }
          sender cut tm_ok2 index2 pitnum2 desc0 row rest hrows2
        rw [h2]
        apply if_neg
        intro hall
        exact hsame _ _ (hall _ (by simp))
      · rw [h1, if_neg h]
        have h2 := process_message_packed_cut_state env c p sender cut tm_ok2 index2 pitnum2
          desc0 row rest hrows
        rw [h2, if_neg h]
  exact ⟨key, by rw [key]⟩

/-- Instance of the amended C12: during a collection round the second delivery of a cut
leaves the single waiting row of the first delivery. -/
theorem process_message_packed_cut_twice_witness :
    (process_message sample_callbacks sample_constants
        (process_message sample_callbacks sample_constants (sample_lp [])
          (some ⟨3, msg_body.PACKED_CUT [2]⟩) true (some 0) (some 0) (sample_node [])).p
        (some ⟨3, msg_body.PACKED_CUT [2]⟩) true (some 0) (some 0)
        (sample_node [])).p.waiting_row_num = 1 :=
  ((process_message_packed_cut_twice sample_callbacks sample_constants (sample_lp []) 3 [2]
      true true 0 0 (some 0) (some 0) (sample_node [])
      (by intro q w; simp [sample_callbacks, sample_constants])
      (fun _ _ => rfl) (fun _ _ => rfl)).2).trans (by decide)

/-! ## Properties of `lp_process_ub_message` and `check_ub` -/

/-- The result of `lp_process_ub_message` in closed form. -/
theorem lp_process_ub_message_eq (env : lp_callbacks) (p : lp_prob) (v : double) :
    lp_process_ub_message env p v
      = if p.has_ub = false ∨ v < p.ub then
          { p with has_ub := true, ub := v,
                   lp_data := if p.par.set_obj_upper_lim = true then
                       set_obj_upper_lim p.lp_data (env.dbl_sub v p.par.granularity)
                     else p.lp_data }
        else p := by
  unfold lp_process_ub_message
  by_cases hb : p.has_ub = true
  · by_cases hv : v < p.ub
    · by_cases hs : p.par.set_obj_upper_lim = true
      · simp [hb, hv, hs]
      · simp [hb, hv, hs]
    · simp [hb, hv]
  · have hb' : p.has_ub = false := by simpa using hb
    by_cases hs : p.par.set_obj_upper_lim = true
    · simp [hb', hs]
    · simp [hb', hs]

/-- C13: `lp_process_ub_message` with the received value `v` installs `v` as the upper
bound exactly when the process had no upper bound or `v` is strictly below the current
one, and then the process has an upper bound; otherwise the state is left as it was.
When the bound is installed and `set_obj_upper_lim` is set, the LP objective limit is
set to the new bound minus the granularity (the `double` this difference evaluates to),
and in no other case is it set. No other
field changes. -/
theorem lp_process_ub_message_spec (env : lp_callbacks) (p : lp_prob) (v : double) :
    ((p.has_ub = false ∨ v < p.ub) →
      (lp_process_ub_message env p v).has_ub = true ∧ (lp_process_ub_message env p v).ub = v) ∧
    (¬ (p.has_ub = false ∨ v < p.ub) → lp_process_ub_message env p v = p) ∧
    (lp_process_ub_message env p v).lp_data
      = (if (p.has_ub = false ∨ v < p.ub) ∧ p.par.set_obj_upper_lim = true then
          set_obj_upper_lim p.lp_data (env.dbl_sub v p.par.granularity)
        else p.lp_data) ∧
    lp_process_ub_message env p v
      = { p with has_ub := (lp_process_ub_message env p v).has_ub,
                 ub := (lp_process_ub_message env p v).ub,
                 lp_data := (lp_process_ub_message env p v).lp_data } := by
  unfold lp_process_ub_message
  by_cases hb : p.has_ub = true
  · by_cases hv : v < p.ub
    · by_cases hs : p.par.set_obj_upper_lim = true
      · simp [hb, hv, hs]
      · simp [hb, hv, hs]
    · cases p
      simp only at hb hv
      subst hb
      simp [hv]
  · have hb' : p.has_ub = false := by simpa using hb
    by_cases hs : p.par.set_obj_upper_lim = true
    · simp [hb', hs]
    · simp [hb', hs]

/-- C14 as stated fails: a process with upper bound `5` finds the bound `7` at the
bounding process. The in-process build of `check_ub` copies it and ends with the bound
`7`, while the message-passing build, handing the same value to
`lp_process_ub_message`, keeps `5`. -/
theorem check_ub_in_process_counterexample :
    (check_ub sample_callbacks true ({ sample_lp [] with ub := 5 })
        (sample_tm true 7 keep_policy.DISCARD) none).ub = 7 ∧
    (check_ub sample_callbacks false ({ sample_lp [] with ub := 5 })
        (sample_tm true 7 keep_policy.DISCARD) (some 7)).ub = 5 := by
  constructor
  · rfl
  · simp [check_ub, lp_process_ub_message, sample_lp, sample_tm]
    norm_num

/-- Instance of C13: a process with upper bound `10` and granularity `1` that receives
`8` ends with the bound `8` and the objective limit `7`; receiving `12` changes
nothing. -/
theorem lp_process_ub_message_spec_witness :
    (sample_lp []).ub = 10 ∧
    (lp_process_ub_message sample_callbacks (sample_lp []) 8).ub = 8 ∧
    (lp_process_ub_message sample_callbacks (sample_lp []) 8).lp_data.obj_upper_lim = [7] ∧
    lp_process_ub_message sample_callbacks (sample_lp []) 12 = sample_lp [] :=
  ⟨rfl,
   ((lp_process_ub_message_spec sample_callbacks (sample_lp []) 8).1
      (Or.inr (by norm_num [sample_lp]))).2,
   by
     rw [(lp_process_ub_message_spec sample_callbacks (sample_lp []) 8).2.2.1]
     norm_num [sample_lp, set_obj_upper_lim, sample_callbacks],
   (lp_process_ub_message_spec sample_callbacks (sample_lp []) 12).2.1 (by norm_num [sample_lp])⟩

/-- C14, amended: when the bounding process has the bound `b`, the in-process build of
`check_ub` always ends with `(has_ub, ub) = (TRUE, b)` and does not touch the LP
objective limit, while the message-passing build, handing `b` to
`lp_process_ub_message`, ends with `b` only if the process had no bound or `b` is
strictly smaller, and keeps its bound otherwise. The two builds therefore end with the
same `(has_ub, ub)` exactly when the process had no bound or `b` is not above its
bound; in particular the in-process build increases the bound when `b` is larger. -/
theorem check_ub_builds_agree_iff (env : lp_callbacks) (p : lp_prob) (tm : tm_prob)
    (r_buf : Option double)
    (h : tm.has_ub = true) :
    (check_ub env true p tm r_buf).has_ub = true ∧
    (check_ub env true p tm r_buf).ub = tm.ub ∧
    (check_ub env true p tm r_buf).lp_data = p.lp_data ∧
    (check_ub env false p tm (some tm.ub)).has_ub = true ∧
    (check_ub env false p tm (some tm.ub)).ub
      = (if p.has_ub = false ∨ tm.ub < p.ub then tm.ub else p.ub) ∧
    (((check_ub env true p tm r_buf).has_ub, (check_ub env true p tm r_buf).ub)
        = ((check_ub env false p tm (some tm.ub)).has_ub, (check_ub env false p tm (some tm.ub)).ub)
      ↔ (p.has_ub = false ∨ tm.ub ≤ p.ub)) := by
  have h1 : check_ub env true p tm r_buf = { p with has_ub := true, ub := tm.ub } := by
    simp [check_ub, h]
  have h2 : check_ub env false p tm (some tm.ub) = lp_process_ub_message env p tm.ub := by
    simp [check_ub]
  rw [h1, h2, lp_process_ub_message_eq]
  by_cases hc : p.has_ub = false ∨ tm.ub < p.ub
  · rw [if_pos hc]
    refine ⟨rfl, rfl, rfl, rfl, (if_pos hc).symm, ?_⟩
    simp only [true_iff]
    rcases hc with hc | hc
    · exact Or.inl hc
    · exact Or.inr (le_of_lt hc)
  · have hb : p.has_ub = true := by
      by_contra hn
      exact hc (Or.inl (by simpa using hn))
    have hv : ¬ tm.ub < p.ub := fun hv => hc (Or.inr hv)
    rw [if_neg hc]
    refine ⟨rfl, rfl, rfl, hb, (if_neg hc).symm, ?_⟩
    rw [hb]
    simp only [Prod.mk.injEq, true_and]
    constructor
    · intro e
      exact Or.inr (le_of_eq e)
    · intro hle
      rcases hle with hle | hle
      · cases hle
      · exact le_antisymm hle (not_lt.mp hv)

/-- Instance of the amended C14: with the bound `7` at the bounding process and a
process that has the bound `10`, both builds end with the bound `7`. -/
theorem check_ub_builds_agree_iff_witness :
    (sample_tm true 7 keep_policy.DISCARD).has_ub = true ∧
    (check_ub sample_callbacks true (sample_lp []) (sample_tm true 7 keep_policy.DISCARD) none).ub = 7 ∧
    (check_ub sample_callbacks false (sample_lp []) (sample_tm true 7 keep_policy.DISCARD) (some 7)).ub
      = 7 :=
  ⟨rfl,
   (check_ub_builds_agree_iff sample_callbacks (sample_lp []) (sample_tm true 7 keep_policy.DISCARD) none
      rfl).2.1,
   ((check_ub_builds_agree_iff sample_callbacks (sample_lp []) (sample_tm true 7 keep_policy.DISCARD) none
      rfl).2.2.2.2.1).trans (by norm_num [sample_lp, sample_tm])⟩

/-! ## Properties of `receive_active_node` and the return value of `process_message` -/

/-- The full decoding makes a call to `unpack_basis`, sends nothing and returns
`TRUE`. -/
theorem receive_active_node_unpack_ret (c : lp_constants) (p : lp_prob) (desc : node_desc)
    (d : active_node_data) :
    (receive_active_node_unpack c p desc d).ret = true ∧
    (receive_active_node_unpack c p desc d).sent = [] ∧
    decoder_call.unpack_basis ∈ (receive_active_node_unpack c p desc d).calls := by
  refine ⟨rfl, rfl, ?_⟩
  unfold receive_active_node_unpack
  simp only
  split_ifs <;> simp

/-- The node is accepted (`TRUE` is returned) exactly when no reply is sent. -/
theorem receive_active_node_ret_iff (env : lp_callbacks) (c : lp_constants) (p : lp_prob)
    (desc0 : node_desc)
    (d : active_node_data) :
    (receive_active_node env c p desc0 d).ret = true ↔
      (receive_active_node env c p desc0 d).sent = [] := by
  unfold receive_active_node
  simp only
  split_ifs <;> simp [(receive_active_node_unpack_ret c _ _ d).1,
    (receive_active_node_unpack_ret c _ _ d).2.1]

/-- The test of lines 238-239 of `receive_active_node` compares with the `double` the
machine computes: where the subtraction gives back the upper bound itself (as it does for `1e16 - 1`), a
node whose objective value is the upper bound, and so exceeds the exact difference
whenever the granularity is positive, is not rejected. -/
theorem receive_active_node_rounded_test (env : lp_callbacks) (c : lp_constants) (p : lp_prob)
    (desc0 : node_desc) (d : active_node_data)
    (hround : env.dbl_sub p.ub p.par.granularity = p.ub) (hobj : d.objval = p.ub) :
    (receive_active_node env c p desc0 d).ret = true ∧
    (receive_active_node env c p desc0 d).sent = [] ∧
    decoder_call.unpack_basis ∈ (receive_active_node env c p desc0 d).calls := by
  unfold receive_active_node
  simp only
  rw [if_neg (by
    rintro ⟨_, _, h3⟩
    rw [hround, hobj] at h3
    exact lt_irrefl _ h3)]
  exact receive_active_node_unpack_ret _ _ _ _

/-- C16 as stated fails: with the `COLGEN_REPRICING` bit set in the column generation
strategy of the message, a node whose objective value `10` exceeds the upper bound
minus the granularity, `10 - 1`, and whose `nf_status` is `NF_CHECK_NOTHING` is not
rejected: `receive_active_node` sends no reply, calls `unpack_basis` and returns
`TRUE`. -/
theorem receive_active_node_repricing_counterexample :
    (sample_node_data 10 16 4).objval > (sample_lp []).ub - (sample_lp []).par.granularity ∧
    (sample_node_data 10 16 4).nf_status = sample_constants.NF_CHECK_NOTHING ∧
    (receive_active_node sample_callbacks sample_constants (sample_lp []) (sample_node [])
        (sample_node_data 10 16 4)).ret = true ∧
    (receive_active_node sample_callbacks sample_constants (sample_lp []) (sample_node [])
        (sample_node_data 10 16 4)).sent = [] ∧
    decoder_call.unpack_basis ∈
      (receive_active_node sample_callbacks sample_constants (sample_lp []) (sample_node [])
        (sample_node_data 10 16 4)).calls := by
  have h : receive_active_node sample_callbacks sample_constants (sample_lp []) (sample_node [])
        (sample_node_data 10 16 4)
      = receive_active_node_unpack sample_constants
          { sample_lp [] with
              desc := some { sample_node [] with nf_status := 4 },
              cut_pool := 2, bc_index := 8, bc_level := 1,
              lp_data := { (sample_lp []).lp_data with objval := 10 },
              colgen_strategy := 16 }
          { sample_node [] with nf_status := 4 } (sample_node_data 10 16 4) := by
    unfold receive_active_node
    simp only [sample_node_data, sample_constants]
    rw [if_neg (by decide)]
  refine ⟨by norm_num [sample_node_data, sample_lp], rfl, ?_⟩
  rw [h]
  exact receive_active_node_unpack_ret _ _ _ _

/-- C16, amended: when the `COLGEN_REPRICING` bit of the column generation strategy in
the message is clear, the process has an upper bound, the objective value in the message
exceeds the `double` that the upper bound minus the granularity evaluates to on the
machine, and the `nf_status` is
`NF_CHECK_NOTHING` or one of the two fathom bits of the strategy is set, then
`receive_active_node` returns `FALSE`, makes no call to `unpack_basis`,
`unpack_array_desc` or `unpack_cut`, and sends the tree manager one reply:
`LP__NODE_DISCARDED` when the status is `NF_CHECK_NOTHING` or the discard bit is set,
`LP__NODE_RESHELVED` otherwise. -/
theorem receive_active_node_cheap_reject (env : lp_callbacks) (c : lp_constants) (p : lp_prob)
    (desc0 : node_desc) (d : active_node_data)
    (hrep : d.colgen_strategy &&& c.COLGEN_REPRICING = 0)
    (hub : p.has_ub = true)
    (hobj : d.objval > env.dbl_sub p.ub p.par.granularity)
    (hcfg : d.nf_status = c.NF_CHECK_NOTHING ∨
      d.colgen_strategy &&& c.FATHOM__DO_NOT_GENERATE_COLS__DISCARD ≠ 0 ∨
      d.colgen_strategy &&& c.FATHOM__DO_NOT_GENERATE_COLS__SEND ≠ 0) :
    (receive_active_node env c p desc0 d).ret = false ∧
    (receive_active_node env c p desc0 d).calls = [] ∧
    (receive_active_node env c p desc0 d).sent
      = [(p.tree_manager,
          if d.nf_status = c.NF_CHECK_NOTHING ∨
              d.colgen_strategy &&& c.FATHOM__DO_NOT_GENERATE_COLS__DISCARD ≠ 0 then
            lp_reply.LP__NODE_DISCARDED
          else lp_reply.LP__NODE_RESHELVED)] := by
  unfold receive_active_node
  simp only
  rw [if_pos ⟨hrep, hub, hobj⟩]
  by_cases h1 : d.nf_status = c.NF_CHECK_NOTHING ∨
      d.colgen_strategy &&& c.FATHOM__DO_NOT_GENERATE_COLS__DISCARD ≠ 0
  · rw [if_pos h1, if_pos h1]
    exact ⟨rfl, rfl, rfl⟩
  · have h2 : d.colgen_strategy &&& c.FATHOM__DO_NOT_GENERATE_COLS__SEND ≠ 0 := by
      rcases hcfg with h | h | h
      · exact absurd (Or.inl h) h1
      · exact absurd (Or.inr h) h1
      · exact h
    rw [if_neg h1, if_pos h2, if_neg h1]
    exact ⟨rfl, rfl, rfl⟩

/-- Instance of the amended C16: objective value equal to the upper bound minus the
granularity plus `1` with `NF_CHECK_NOTHING` gives `LP__NODE_DISCARDED` with no decoder
call. -/
theorem receive_active_node_cheap_reject_witness :
    (sample_node_data 10 0 4).objval
      = (sample_lp []).ub - (sample_lp []).par.granularity + 1 ∧
    (receive_active_node sample_callbacks sample_constants (sample_lp []) (sample_node [])
        (sample_node_data 10 0 4)).ret = false ∧
    (receive_active_node sample_callbacks sample_constants (sample_lp []) (sample_node [])
        (sample_node_data 10 0 4)).calls = [] ∧
    (receive_active_node sample_callbacks sample_constants (sample_lp []) (sample_node [])
        (sample_node_data 10 0 4)).sent = [(1, lp_reply.LP__NODE_DISCARDED)] :=
  ⟨by norm_num [sample_node_data, sample_lp],
   (receive_active_node_cheap_reject sample_callbacks sample_constants (sample_lp [])
      (sample_node [])
      (sample_node_data 10 0 4) (by decide) rfl
      (by norm_num [sample_node_data, sample_lp, sample_callbacks])
      (Or.inl rfl)).1,
   (receive_active_node_cheap_reject sample_callbacks sample_constants (sample_lp [])
      (sample_node [])
      (sample_node_data 10 0 4) (by decide) rfl
      (by norm_num [sample_node_data, sample_lp, sample_callbacks])
      (Or.inl rfl)).2.1,
   ((receive_active_node_cheap_reject sample_callbacks sample_constants (sample_lp [])
      (sample_node [])
      (sample_node_data 10 0 4) (by decide) rfl
      (by norm_num [sample_node_data, sample_lp, sample_callbacks])
      (Or.inl rfl)).2.2).trans (by simp [sample_node_data, sample_constants, sample_lp])⟩

/-- C17: `process_message` returns `TRUE` only if the message is `LP__ACTIVE_NODE_DATA`
and `receive_active_node` accepted the node, which is when it sent neither
`LP__NODE_DISCARDED` nor `LP__NODE_RESHELVED`; for `PACKED_CUT`, `NO_MORE_CUTS`,
`UPPER_BOUND`, `LP__SECOND_PHASE_STARTS`, an unknown tag, and a null buffer while the
tree manager is alive, it returns `FALSE`. -/
theorem process_message_returns_true_only (env : lp_callbacks) (c : lp_constants)
    (p : lp_prob) (r_buf : Option lp_msg) (tm_ok : Bool) (pindex pitnum : Option Int)
    (desc0 : node_desc) :
    ((process_message env c p r_buf tm_ok pindex pitnum desc0).outcome
        = call_outcome.returned true →
      ∃ sender d, r_buf = some ⟨sender, msg_body.LP__ACTIVE_NODE_DATA d⟩ ∧
        (receive_active_node env c p desc0 d).ret = true ∧
        (receive_active_node env c p desc0 d).sent = [] ∧
        (process_message env c p r_buf tm_ok pindex pitnum desc0).sent = []) ∧
    ((r_buf = none ∧ tm_ok = true) ∨
      (∃ sender cut, r_buf = some ⟨sender, msg_body.PACKED_CUT cut⟩) ∨
      (∃ sender n t i k, r_buf = some ⟨sender, msg_body.NO_MORE_CUTS n t i k⟩) ∨
      (∃ sender v, r_buf = some ⟨sender, msg_body.UPPER_BOUND v⟩) ∨
      (∃ sender, r_buf = some ⟨sender, msg_body.LP__SECOND_PHASE_STARTS⟩) ∨
      (∃ sender tag, r_buf = some ⟨sender, msg_body.unknown tag⟩) →
      (process_message env c p r_buf tm_ok pindex pitnum desc0).outcome
        = call_outcome.returned false) := by
  constructor
  · intro h
    cases r_buf with
    | none =>
      unfold process_message at h
      simp only at h
      split_ifs at h
      simp at h
    | some m =>
      obtain ⟨sender, body⟩ := m
      cases body with
      | LP__ACTIVE_NODE_DATA d =>
        have hr : (receive_active_node env c p desc0 d).ret = true := by
          unfold process_message at h
          simpa using h
        have hs := (receive_active_node_ret_iff env c p desc0 d).mp hr
        refine ⟨sender, d, rfl, hr, hs, ?_⟩
        unfold process_message
        exact hs
      | PACKED_CUT cut =>
        exfalso
        unfold process_message at h
        simp only at h
        cases pindex with
        | none => simp at h
        | some i =>
          simp only at h
          split at h
          · simp at h
          · split_ifs at h <;> simp at h
      | NO_MORE_CUTS n t i k =>
        exfalso
        unfold process_message at h
        cases pindex <;> simp at h
      | UPPER_BOUND v =>
        exfalso
        unfold process_message at h
        simp at h
      | LP__SECOND_PHASE_STARTS =>
        exfalso
        unfold process_message at h
        simp at h
      | YOU_CAN_DIE =>
        exfalso
        unfold process_message at h
        simp at h
      | unknown tag =>
        exfalso
        unfold process_message at h
        simp at h
  · intro h
    rcases h with ⟨h, ht⟩ | ⟨s, cut, h⟩ | ⟨s, n, t, i, k, h⟩ | ⟨s, v, h⟩ | ⟨s, h⟩ | ⟨s, tag, h⟩
    · subst h
      unfold process_message
      simp [ht]
    · subst h
      unfold process_message
      simp only
      cases pindex with
      | none => rfl
      | some i =>
        simp only
        split
        · rfl
        · split_ifs <;> rfl
    · subst h
      unfold process_message
      cases pindex <;> rfl
    · subst h
      rfl
    · subst h
      rfl
    · subst h
      rfl

/-- Instance of C17: an `UPPER_BOUND` message makes `process_message` return `FALSE`. -/
theorem process_message_returns_true_only_witness :
    (process_message sample_callbacks sample_constants (sample_lp [])
        (some ⟨1, msg_body.UPPER_BOUND 8⟩) true none none (sample_node [])).outcome
      = call_outcome.returned false :=
  (process_message_returns_true_only sample_callbacks sample_constants (sample_lp [])
      (some ⟨1, msg_body.UPPER_BOUND 8⟩) true none none (sample_node [])).2
    (Or.inr (Or.inr (Or.inr (Or.inl ⟨1, 8, rfl⟩))))

/-! ## Properties of the collection loop of `receive_cuts` -/

/-- How `process_message` ends on a message, by its tag. -/
theorem process_message_outcome (env : lp_callbacks) (c : lp_constants) (p : lp_prob)
    (m : lp_msg) (tm_ok : Bool) (pindex pitnum : Option Int) (desc0 : node_desc) :
    (process_message env c p (some m) tm_ok pindex pitnum desc0).outcome
      = match m.body with
        | msg_body.YOU_CAN_DIE => call_outcome.exited 0
        | msg_body.LP__ACTIVE_NODE_DATA d =>
          call_outcome.returned (receive_active_node env c p desc0 d).ret
        | _ => call_outcome.returned false := by
  obtain ⟨sender, body⟩ := m
  cases body with
  | PACKED_CUT cut =>
    unfold process_message
    simp only
    cases pindex with
    | none => rfl
    | some i =>
      simp only
      split
      · rfl
      · split_ifs <;> rfl
  | NO_MORE_CUTS n t i k =>
    unfold process_message
    cases pindex <;> rfl
  | UPPER_BOUND v => rfl
  | LP__ACTIVE_NODE_DATA d => rfl
  | LP__SECOND_PHASE_STARTS => rfl
  | YOU_CAN_DIE => rfl
  | unknown tag => rfl

/-- The counter after one pass of the collection loop. -/
theorem receive_cuts_pass_count (env : lp_callbacks) (c : lp_constants)
    (first_cut_time_out all_cuts_time_out : double) (old_waiting_row_num : Int)
    (start : double) (desc0 : node_desc) (m : lp_msg) (now : double)
    (st : cuts_loop_state) :
    (receive_cuts_pass env c first_cut_time_out all_cuts_time_out old_waiting_row_num
        start desc0 (recv_event.arrival m now) st).state.no_more_cuts_count
      = if acknowledges st.p m = true then st.no_more_cuts_count - 1
        else st.no_more_cuts_count := by
  unfold receive_cuts_pass
  simp only
  rw [process_message_outcome]
  obtain ⟨sender, body⟩ := m
  cases body with
  | NO_MORE_CUTS n t i k =>
    simp only [acknowledges, msg_body.is_no_more_cuts, process_message, Option.getD,
      decide_eq_true_eq, true_and]
    split_ifs <;> simp_all [pass_result.state]
  | PACKED_CUT cut =>
    simp only [acknowledges, msg_body.is_no_more_cuts, Bool.false_eq_true, false_and,
      if_false]
    split_ifs <;> rfl
  | UPPER_BOUND v =>
    simp only [acknowledges, msg_body.is_no_more_cuts, Bool.false_eq_true, false_and,
      if_false]
    split_ifs <;> rfl
  | LP__ACTIVE_NODE_DATA d =>
    simp only [acknowledges, msg_body.is_no_more_cuts, Bool.false_eq_true, false_and,
      if_false]
    split_ifs <;> rfl
  | LP__SECOND_PHASE_STARTS =>
    simp only [acknowledges, msg_body.is_no_more_cuts, Bool.false_eq_true, false_and,
      if_false]
    split_ifs <;> rfl
  | YOU_CAN_DIE =>
    simp only [acknowledges, Bool.false_eq_true, if_false]
    rfl
  | unknown tag =>
    simp only [acknowledges, msg_body.is_no_more_cuts, Bool.false_eq_true, false_and,
      if_false]
    split_ifs <;> rfl

/-- One pass started with a positive counter either ends the loop with a non-negative
counter, which is zero exactly when the end is the one for enough acknowledgements, or
goes on with a positive counter. -/
theorem receive_cuts_pass_counter_inv (env : lp_callbacks) (c : lp_constants)
    (first_cut_time_out all_cuts_time_out : double) (old_waiting_row_num : Int)
    (start : double) (desc0 : node_desc) (ev : recv_event) (st : cuts_loop_state)
    (h : 0 < st.no_more_cuts_count) :
    match receive_cuts_pass env c first_cut_time_out all_cuts_time_out old_waiting_row_num
        start desc0 ev st with
    | pass_result.stop exit st1 =>
      0 ≤ st1.no_more_cuts_count ∧
        (exit = loop_exit.acknowledged ↔ st1.no_more_cuts_count = 0)
    | pass_result.next st1 => 0 < st1.no_more_cuts_count := by
  have hne : st.no_more_cuts_count ≠ 0 := ne_of_gt h
  cases ev with
  | silence tm_ok =>
    unfold receive_cuts_pass
    simp only
    split_ifs
    · exact ⟨le_of_lt h, by simp [hne]⟩
    · exact ⟨le_of_lt h, by simp [hne]⟩
  | arrival m now =>
    unfold receive_cuts_pass
    simp only
    generalize process_message env c st.p (some m) true (some st.bc_index) (some st.itnum)
      desc0 = r
    cases r.outcome with
    | exited code => exact ⟨le_of_lt h, by simp [hne]⟩
    | returned b =>
      simp only
      by_cases hack : m.body.is_no_more_cuts = true ∧
          r.pindex.getD st.bc_index = r.p.bc_index ∧ r.pitnum.getD st.itnum = r.p.iter_num
      · rw [if_pos hack]
        by_cases h0 : st.no_more_cuts_count - 1 = 0
        · rw [if_pos h0]
          exact ⟨by simp only; omega, by simp only; simp [h0]⟩
        · rw [if_neg h0]
          split_ifs <;>
            first
            | exact ⟨by simp only; omega, by simp only; simp [h0]⟩
            | (simp only; omega)
      · rw [if_neg hack, if_neg hne]
        split_ifs <;>
          first
          | exact ⟨le_of_lt h, by simp [hne]⟩
          | exact h

/-- The collection loop started with a positive counter ends with a non-negative
counter, which is zero exactly when the end is the one for enough acknowledgements. -/
theorem receive_cuts_loop_counter_inv (env : lp_callbacks) (c : lp_constants)
    (first_cut_time_out all_cuts_time_out : double) (old_waiting_row_num : Int)
    (start : double) (desc0 : node_desc) (events : List recv_event) :
    ∀ (st : cuts_loop_state), 0 < st.no_more_cuts_count →
      0 ≤ (receive_cuts_loop env c first_cut_time_out all_cuts_time_out old_waiting_row_num
          start desc0 events st).2.no_more_cuts_count ∧
      ((receive_cuts_loop env c first_cut_time_out all_cuts_time_out old_waiting_row_num
          start desc0 events st).1 = loop_exit.acknowledged ↔
        (receive_cuts_loop env c first_cut_time_out all_cuts_time_out old_waiting_row_num
          start desc0 events st).2.no_more_cuts_count = 0) := by
  induction events with
  | nil =>
    intro st h
    unfold receive_cuts_loop
    exact ⟨le_of_lt h, by simp [ne_of_gt h]⟩
  | cons ev rest ih =>
    intro st h
    have hp := receive_cuts_pass_counter_inv env c first_cut_time_out all_cuts_time_out
      old_waiting_row_num start desc0 ev st h
    unfold receive_cuts_loop
    cases hr : receive_cuts_pass env c first_cut_time_out all_cuts_time_out
        old_waiting_row_num start desc0 ev st with
    | stop exit st1 =>
      rw [hr] at hp
      exact hp
    | next st1 =>
      rw [hr] at hp
      exact ih st1 hp

/-- C15: in the collection loop of `receive_cuts`, a pass that processes a message
decreases `no_more_cuts_count` by exactly one when the message is a `NO_MORE_CUTS`
whose node index and iteration number equal the process's `bc_index` and `iter_num`,
and leaves it unchanged for every other message, a `NO_MORE_CUTS` for another node or
iteration included. Started with a positive counter, a pass leaves the loop by the
`break` for enough acknowledgements exactly when the counter has reached zero, and the
whole loop, on any sequence of events, ends with a counter that is not negative and is
zero exactly when that `break` ended it. -/
theorem receive_cuts_counter (env : lp_callbacks) (c : lp_constants)
    (first_cut_time_out all_cuts_time_out : double) (old_waiting_row_num : Int)
    (start : double) (desc0 : node_desc) (m : lp_msg) (now : double)
    (events : List recv_event) (st : cuts_loop_state)
    (h : 0 < st.no_more_cuts_count) :
    (receive_cuts_pass env c first_cut_time_out all_cuts_time_out old_waiting_row_num
        start desc0 (recv_event.arrival m now) st).state.no_more_cuts_count
      = (if acknowledges st.p m = true then st.no_more_cuts_count - 1
         else st.no_more_cuts_count) ∧
    ((∃ st1, receive_cuts_pass env c first_cut_time_out all_cuts_time_out
          old_waiting_row_num start desc0 (recv_event.arrival m now) st
        = pass_result.stop loop_exit.acknowledged st1) ↔
      (receive_cuts_pass env c first_cut_time_out all_cuts_time_out old_waiting_row_num
        start desc0 (recv_event.arrival m now) st).state.no_more_cuts_count = 0) ∧
    0 ≤ (receive_cuts_loop env c first_cut_time_out all_cuts_time_out old_waiting_row_num
        start desc0 events st).2.no_more_cuts_count ∧
    ((receive_cuts_loop env c first_cut_time_out all_cuts_time_out old_waiting_row_num
        start desc0 events st).1 = loop_exit.acknowledged ↔
      (receive_cuts_loop env c first_cut_time_out all_cuts_time_out old_waiting_row_num
        start desc0 events st).2.no_more_cuts_count = 0) := by
  refine ⟨receive_cuts_pass_count env c first_cut_time_out all_cuts_time_out
      old_waiting_row_num start desc0 m now st, ?_,
    receive_cuts_loop_counter_inv env c first_cut_time_out all_cuts_time_out
      old_waiting_row_num start desc0 events st h⟩
  have hp := receive_cuts_pass_counter_inv env c first_cut_time_out all_cuts_time_out
    old_waiting_row_num start desc0 (recv_event.arrival m now) st h
  cases hr : receive_cuts_pass env c first_cut_time_out all_cuts_time_out
      old_waiting_row_num start desc0 (recv_event.arrival m now) st with
  | stop exit st1 =>
    rw [hr] at hp
    simp only [pass_result.state]
    constructor
    · rintro ⟨st2, e⟩
      cases e
      exact hp.2.mp rfl
    · intro h0
      have := hp.2.mpr h0
      subst this
      exact ⟨st1, rfl⟩
  | next st1 =>
    rw [hr] at hp
    simp only [pass_result.state]
    constructor
    · rintro ⟨st2, e⟩
      cases e
    · intro h0
      omega

/-- Instance of C15: with one acknowledgement outstanding for node `7`, iteration `1`,
a `NO_MORE_CUTS` for node `9` leaves the counter at one and the loop running, and the
`NO_MORE_CUTS` for node `7`, iteration `1` that follows brings it to zero and ends the
loop. -/
theorem receive_cuts_counter_witness :
    (receive_cuts_loop sample_callbacks sample_constants 5 2 0 0 (sample_node [])
        [recv_event.arrival ⟨3, msg_body.NO_MORE_CUTS 0 0 9 1⟩ 1]
        (receive_cuts_enter (sample_lp []) true 1 0 0)).2.no_more_cuts_count = 1 ∧
    (receive_cuts_loop sample_callbacks sample_constants 5 2 0 0 (sample_node [])
        [recv_event.arrival ⟨3, msg_body.NO_MORE_CUTS 0 0 9 1⟩ 1,
         recv_event.arrival ⟨3, msg_body.NO_MORE_CUTS 0 0 7 1⟩ 1]
        (receive_cuts_enter (sample_lp []) true 1 0 0)).1 = loop_exit.acknowledged :=
  ⟨by decide!,
   ((receive_cuts_counter sample_callbacks sample_constants 5 2 0 0 (sample_node [])
      ⟨3, msg_body.NO_MORE_CUTS 0 0 7 1⟩ 1
      [recv_event.arrival ⟨3, msg_body.NO_MORE_CUTS 0 0 9 1⟩ 1,
       recv_event.arrival ⟨3, msg_body.NO_MORE_CUTS 0 0 7 1⟩ 1]
      (receive_cuts_enter (sample_lp []) true 1 0 0) (by decide)).2.2.2).mpr (by decide!)⟩

/-- C19 fails on the first time-out of a round: a process enters the loop with one row
left over in its waiting rows, `first_cut_time_out = 5` and `all_cuts_time_out = 2`.
The time-out selected for the first receive (line 420, which tests the count against
zero) is `all_cuts_time_out`, although no row has been added; after an `UPPER_BOUND`
message, which adds no row either, the time-out selected again (line 468, which tests
the count against its value at entry) is `first_cut_time_out`. -/
theorem receive_cuts_first_time_out_with_leftover_row :
    (sample_lp [{ source_pid := 0, cut := [1] }]).par.first_lp
      = { first_cut_time_out := 5, all_cuts_time_out := 2 } ∧
    (receive_cuts_enter (sample_lp [{ source_pid := 0, cut := [1] }]) true 1 0 0).tvtimeout
      = 2 ∧
    (receive_cuts sample_callbacks sample_constants
        (sample_lp [{ source_pid := 0, cut := [1] }]) true 1 0 0 0 (sample_node [])
        [recv_event.arrival ⟨1, msg_body.UPPER_BOUND 8⟩ 1]).map
      (fun r => (r.1, r.2.p.waiting_rows, r.2.selected, r.2.tvtimeout))
      = some (loop_exit.still_receiving, [{ source_pid := 0, cut := [1] }], [2, 5], 5) := by
  refine ⟨rfl, ?_, ?_⟩
  · decide!
  · decide!

/-! ## Properties of `send_node_desc` -/

/-- The bookkeeping under `KEEP_IN_MEMORY` does not touch the node status. -/
theorem keep_pruned_in_memory_status (cb : tree_callbacks) (p : lp_prob) (n : bc_node)
    (node_type : node_type_t) :
    (keep_pruned_in_memory cb p n node_type).node_status = n.node_status := by
  unfold keep_pruned_in_memory
  simp only
  split_ifs <;> rfl

/-- The handling of a pruned node at the end changes only the recorded calls. -/
theorem purge_at_end_nextphase_cand (tm : tm_prob) (n : bc_node) (node_type : node_type_t) :
    (purge_at_end tm n node_type).nextphase_cand = tm.nextphase_cand := by
  unfold purge_at_end
  split_ifs <;> rfl

/-- The in-process `send_node_desc` without repricing does not return exactly when it
reaches the copy of lines 804-809 (the node is not purged at once and is not an
interrupted one) with a user blob of positive size; otherwise it returns
`send_node_desc_value`. -/
theorem send_node_desc_eq (cb : tree_callbacks) (p : lp_prob) (tm : tm_prob)
    (n : bc_node) (node_type : node_type_t) (new_lp_desc new_tm_desc : node_desc) :
    send_node_desc cb p tm n node_type new_lp_desc new_tm_desc
      = if ¬ ((node_type = node_type_t.INFEASIBLE_PRUNED ∨
              node_type = node_type_t.OVER_UB_PRUNED ∨
              node_type = node_type_t.DISCARDED_NODE ∨
              node_type = node_type_t.FEASIBLE_PRUNED) ∧
            (tm.par.keep_description_of_pruned = keep_policy.DISCARD ∨
              tm.par.keep_description_of_pruned = keep_policy.KEEP_ON_DISK_VBC_TOOL)) ∧
          node_type ≠ node_type_t.INTERRUPTED_NODE ∧ new_lp_desc.desc_size > 0 then none
        else some (send_node_desc_value cb p tm n node_type new_lp_desc new_tm_desc) := by
  unfold send_node_desc send_node_desc_value
  simp only [decide_eq_true_eq]
  by_cases h1 : (node_type = node_type_t.INFEASIBLE_PRUNED ∨
      node_type = node_type_t.OVER_UB_PRUNED ∨ node_type = node_type_t.DISCARDED_NODE ∨
      node_type = node_type_t.FEASIBLE_PRUNED) ∧
      (tm.par.keep_description_of_pruned = keep_policy.DISCARD ∨
        tm.par.keep_description_of_pruned = keep_policy.KEEP_ON_DISK_VBC_TOOL)
  · have hc : ¬ (¬ ((node_type = node_type_t.INFEASIBLE_PRUNED ∨
        node_type = node_type_t.OVER_UB_PRUNED ∨ node_type = node_type_t.DISCARDED_NODE ∨
        node_type = node_type_t.FEASIBLE_PRUNED) ∧
        (tm.par.keep_description_of_pruned = keep_policy.DISCARD ∨
          tm.par.keep_description_of_pruned = keep_policy.KEEP_ON_DISK_VBC_TOOL)) ∧
        node_type ≠ node_type_t.INTERRUPTED_NODE ∧ new_lp_desc.desc_size > 0) :=
      fun h => h.1 h1
    simp only [if_pos h1, if_neg hc]
  · by_cases h2 : node_type = node_type_t.INTERRUPTED_NODE
    · have hc : ¬ (¬ ((node_type = node_type_t.INFEASIBLE_PRUNED ∨
          node_type = node_type_t.OVER_UB_PRUNED ∨ node_type = node_type_t.DISCARDED_NODE ∨
          node_type = node_type_t.FEASIBLE_PRUNED) ∧
          (tm.par.keep_description_of_pruned = keep_policy.DISCARD ∨
            tm.par.keep_description_of_pruned = keep_policy.KEEP_ON_DISK_VBC_TOOL)) ∧
          node_type ≠ node_type_t.INTERRUPTED_NODE ∧ new_lp_desc.desc_size > 0) :=
        fun h => h.2.1 h2
      simp only [if_neg h1, if_pos h2, if_neg hc]
    · by_cases h3 : new_lp_desc.desc_size > 0
      · have hc : ¬ ((node_type = node_type_t.INFEASIBLE_PRUNED ∨
            node_type = node_type_t.OVER_UB_PRUNED ∨ node_type = node_type_t.DISCARDED_NODE ∨
            node_type = node_type_t.FEASIBLE_PRUNED) ∧
            (tm.par.keep_description_of_pruned = keep_policy.DISCARD ∨
              tm.par.keep_description_of_pruned = keep_policy.KEEP_ON_DISK_VBC_TOOL)) ∧
            node_type ≠ node_type_t.INTERRUPTED_NODE ∧ new_lp_desc.desc_size > 0 :=
          ⟨h1, h2, h3⟩
        simp only [if_neg h1, if_neg h2, if_pos h3, if_pos hc]
      · have hc : ¬ (¬ ((node_type = node_type_t.INFEASIBLE_PRUNED ∨
            node_type = node_type_t.OVER_UB_PRUNED ∨ node_type = node_type_t.DISCARDED_NODE ∨
            node_type = node_type_t.FEASIBLE_PRUNED) ∧
            (tm.par.keep_description_of_pruned = keep_policy.DISCARD ∨
              tm.par.keep_description_of_pruned = keep_policy.KEEP_ON_DISK_VBC_TOOL)) ∧
            node_type ≠ node_type_t.INTERRUPTED_NODE ∧ new_lp_desc.desc_size > 0) :=
          fun h => h3 h.2.2
        simp only [if_neg h1, if_neg h2, if_neg h3, if_neg hc]

/-- What the in-process `send_node_desc` without repricing returns is
`send_node_desc_value`. -/
theorem send_node_desc_some (cb : tree_callbacks) (p : lp_prob) (tm : tm_prob)
    (n : bc_node) (node_type : node_type_t) (new_lp_desc new_tm_desc : node_desc)
    (r : send_result)
    (h : send_node_desc cb p tm n node_type new_lp_desc new_tm_desc = some r) :
    r = send_node_desc_value cb p tm n node_type new_lp_desc new_tm_desc := by
  rw [send_node_desc_eq] at h
  split_ifs at h
  exact (Option.some.inj h).symm

/-- The in-process `send_node_desc` without repricing returns unless it reaches the copy
of lines 804-809 with a user blob of positive size: it returns for a pruned node that is
purged at once (line 723), for an interrupted node (line 732), and whenever
`desc_size ≤ 0`. -/
theorem send_node_desc_returns_iff (cb : tree_callbacks) (p : lp_prob) (tm : tm_prob)
    (n : bc_node) (node_type : node_type_t) (new_lp_desc new_tm_desc : node_desc) :
    (∃ r, send_node_desc cb p tm n node_type new_lp_desc new_tm_desc = some r) ↔
      (((node_type = node_type_t.INFEASIBLE_PRUNED ∨
            node_type = node_type_t.OVER_UB_PRUNED ∨ node_type = node_type_t.DISCARDED_NODE ∨
            node_type = node_type_t.FEASIBLE_PRUNED) ∧
          (tm.par.keep_description_of_pruned = keep_policy.DISCARD ∨
            tm.par.keep_description_of_pruned = keep_policy.KEEP_ON_DISK_VBC_TOOL)) ∨
        node_type = node_type_t.INTERRUPTED_NODE ∨ new_lp_desc.desc_size ≤ 0) := by
  rw [send_node_desc_eq]
  split_ifs with hc
  · constructor
    · rintro ⟨r, hr⟩
      cases hr
    · rintro (h | h | h)
      · exact absurd h hc.1
      · exact absurd h hc.2.1
      · exact absurd hc.2.2 (not_lt.mpr h)
  · refine ⟨fun _ => ?_, fun _ => ⟨_, rfl⟩⟩
    by_contra hn
    apply hc
    refine ⟨fun h => hn (Or.inl h), fun h => hn (Or.inr (Or.inl h)), ?_⟩
    by_contra h3
    exact hn (Or.inr (Or.inr (not_lt.mp h3)))

/-- The status and the candidates of the next phase in what `send_node_desc` returns. -/
theorem send_node_desc_value_status (cb : tree_callbacks) (p : lp_prob) (tm : tm_prob)
    (n : bc_node) (node_type : node_type_t) (new_lp_desc new_tm_desc : node_desc) :
    (send_node_desc_value cb p tm n node_type new_lp_desc new_tm_desc).n.node_status
      = (status_for_type node_type).getD n.node_status ∧
    ((node_type = node_type_t.INFEASIBLE_HOLD_FOR_NEXT_PHASE ∨
        node_type = node_type_t.OVER_UB_HOLD_FOR_NEXT_PHASE) →
      (send_node_desc_value cb p tm n node_type new_lp_desc new_tm_desc).tm.nextphase_cand
        = tm.nextphase_cand ++
          [(send_node_desc_value cb p tm n node_type new_lp_desc new_tm_desc).n] ∧
      (send_node_desc_value cb p tm n node_type new_lp_desc new_tm_desc).tm.nextphase_candnum
        = tm.nextphase_candnum + 1) ∧
    (¬ (node_type = node_type_t.INFEASIBLE_HOLD_FOR_NEXT_PHASE ∨
        node_type = node_type_t.OVER_UB_HOLD_FOR_NEXT_PHASE) →
      (send_node_desc_value cb p tm n node_type new_lp_desc new_tm_desc).tm.nextphase_cand
        = tm.nextphase_cand) := by
  cases node_type <;>
    simp [send_node_desc_value, status_for_type, insert_by_type, purge_at_end_nextphase_cand,
      keep_pruned_in_memory_status, tm_prob.nextphase_candnum] <;>
    split_ifs <;>
    simp [keep_pruned_in_memory_status, purge_at_end_nextphase_cand]

/-- C21: for every tree manager state, whatever its policy for pruned nodes,
`send_node_desc` (in-process build, no repricing) with node type `INTERRUPTED_NODE`
returns and changes nothing of the node but its status, which becomes
`NODE_STATUS__INTERRUPTED`, and its lower bound, which becomes the current objective
value; in particular the stored description (`uind`, `cutind`, `not_fixed`, `basis`,
user blob) is exactly as it was. The one call it makes into the tree manager is
`insert_new_node`: the node is not purged and not written out, and the process state is
unchanged. -/
theorem send_node_desc_interrupted (cb : tree_callbacks) (p : lp_prob) (tm : tm_prob)
    (n : bc_node) (new_lp_desc new_tm_desc : node_desc) :
    ∃ r, send_node_desc cb p tm n node_type_t.INTERRUPTED_NODE new_lp_desc new_tm_desc
        = some r ∧
      r.n = { n with node_status := node_status_t.NODE_STATUS__INTERRUPTED,
                     lower_bound := p.lp_data.objval } ∧
      r.n.desc = n.desc ∧
      r.tm = { tm with calls := tm.calls ++ [tm_call.insert_new_node] } ∧
      (∀ reason, tm_call.purge_pruned_nodes reason ∈ r.tm.calls →
        tm_call.purge_pruned_nodes reason ∈ tm.calls) ∧
      r.p = p := by
  have h : send_node_desc cb p tm n node_type_t.INTERRUPTED_NODE new_lp_desc new_tm_desc
      = some { tm := { tm with calls := tm.calls ++ [tm_call.insert_new_node] },
               n := { n with node_status := node_status_t.NODE_STATUS__INTERRUPTED,
                             lower_bound := p.lp_data.objval },
               p := p } := by
    simp [send_node_desc]
  refine ⟨_, h, rfl, rfl, rfl, ?_, rfl⟩
  intro reason hmem
  simpa using hmem

/-- The write of one pass of the merge loop: nothing, or `iadd[k]` with `k < newsize`,
or `isub[l]`, which is cell `newsize + l` with `newsize + l < 2 * newsize`. -/
theorem diff_body_write (A B : List Int) (n : Nat) (s : diff_state)
    (hc : diff_cond (A.length : Int) (n : Int) s) :
    ((diff_body A B (n : Int) s).itmp = s.itmp ∧
        (diff_body A B (n : Int) s).k = s.k ∧ (diff_body A B (n : Int) s).l = s.l) ∨
    ((diff_body A B (n : Int) s).itmp = store s.itmp s.k (B.getD s.j 0) ∧ s.k < n ∧
        (diff_body A B (n : Int) s).k = s.k + 1 ∧ (diff_body A B (n : Int) s).l = s.l) ∨
    ((diff_body A B (n : Int) s).itmp = store s.itmp (n + s.l) (A.getD s.i 0) ∧
        n ≤ n + s.l ∧ n + s.l < 2 * n ∧
        (diff_body A B (n : Int) s).k = s.k ∧ (diff_body A B (n : Int) s).l = s.l + 1) := by
  obtain ⟨_, _, hkl⟩ := hc
  have hkl' : s.k + s.l < n := by exact_mod_cast hkl
  unfold diff_body
  split_ifs
  · right; right
    refine ⟨by simp, by omega, by omega, rfl, rfl⟩
  · left
    exact ⟨rfl, rfl, rfl⟩
  · right; left
    exact ⟨rfl, by omega, rfl, rfl⟩

/-- The merge loop leaves every cell from `2 * newsize` on as it was and keeps
`k + l` within `newsize`, after any number of passes. -/
theorem diff_loop_frame (A B : List Int) (n : Nat) (fuel : Nat) :
    ∀ (s : diff_state), s.k + s.l ≤ n →
      (diff_loop A B A.length n fuel s).k + (diff_loop A B A.length n fuel s).l ≤ n ∧
      ∀ a, 2 * n ≤ a → (diff_loop A B A.length n fuel s).itmp a = s.itmp a := by
  induction fuel with
  | zero =>
    intro s h
    exact ⟨h, fun a _ => rfl⟩
  | succ fuel ih =>
    intro s h
    unfold diff_loop
    by_cases hc : diff_cond (A.length : Int) (n : Int) s
    · rw [if_pos hc]
      have hw := diff_body_write A B n s hc
      have hkl : (diff_body A B (n : Int) s).k + (diff_body A B (n : Int) s).l ≤ n := by
        obtain ⟨_, _, hkl⟩ := hc
        have hkl' : s.k + s.l < n := by exact_mod_cast hkl
        rcases hw with ⟨_, h1, h2⟩ | ⟨_, _, h1, h2⟩ | ⟨_, _, _, h1, h2⟩ <;> omega
      obtain ⟨ih1, ih2⟩ := ih (diff_body A B (n : Int) s) hkl
      refine ⟨ih1, ?_⟩
      intro a ha
      rw [ih2 a ha]
      rcases hw with ⟨h0, _, _⟩ | ⟨h0, hk, _, _⟩ | ⟨h0, _, hl, _, _⟩
      · rw [h0]
      · rw [h0]
        have : a ≠ s.k := by omega
        simp [store, this]
      · rw [h0]
        have : a ≠ n + s.l := by omega
        simp [store, this]
    · rw [if_neg hc]
      exact ⟨h, fun a _ => rfl⟩

theorem memcpy_in_outside (m : Nat → Int) (dst : Nat) (src : List Int) (off len a : Nat)
    (h : a < dst ∨ dst + len ≤ a) : memcpy_in m dst src off len a = m a := by
  have : ¬ (dst ≤ a ∧ a < dst + len) := by omega
  simp [memcpy_in, this]

theorem memcpy_within_outside (m : Nat → Int) (dst src len a : Nat)
    (h : a < dst ∨ dst + len ≤ a) : memcpy_within m dst src len a = m a := by
  have : ¬ (dst ≤ a ∧ a < dst + len) := by omega
  simp [memcpy_within, this]

theorem store_outside (m : Nat → Int) (b : Nat) (v : Int) (a : Nat) (h : a ≠ b) :
    store m b v a = m a := by
  simp [store, h]

/-- A call of `pack_array_desc_diff` with a non-empty new list of `n` entries leaves
every cell of the scratch area from `2 * n` on as it was. -/
theorem pack_array_desc_diff_frame (compile_in_lp : Bool)
    (pack_array_desc : array_desc → List wire_val) (ad new_ad : array_desc) (itmp : Nat → Int)
    (hA : ad.size = ad.list.length) (hB : new_ad.size = new_ad.list.length)
    (hn : 0 < new_ad.list.length) (a : Nat) (ha : 2 * new_ad.list.length ≤ a) :
    (pack_array_desc_diff compile_in_lp pack_array_desc ad new_ad itmp).itmp a = itmp a := by
  obtain ⟨tyA, sizeA, addedA, A⟩ := ad
  obtain ⟨ty, sizeB, addedB, B⟩ := new_ad
  simp only at hA hB hn ha
  subst hA hB
  have hne : a ≠ 0 := by omega
  have h0 : (if compile_in_lp = true then store itmp 0 (-1) else itmp) a = itmp a := by
    split_ifs
    · exact store_outside _ _ _ _ hne
    · rfl
  unfold pack_array_desc_diff
  simp only
  generalize (if compile_in_lp = true then store itmp 0 (-1) else itmp) = itmp0 at h0 ⊢
  have hfr := diff_loop_frame A B B.length ((A.length : Int).toNat + (B.length : Int).toNat)
    ⟨0, 0, 0, 0, itmp0⟩ (by simp)
  have hinv := diff_loop_inv A B ((A.length : Int).toNat + (B.length : Int).toNat)
    ⟨0, 0, 0, 0, itmp0⟩ (by simp) (by simp) (by simp) (by simp)
  generalize diff_loop A B (A.length : Int) (B.length : Int)
    ((A.length : Int).toNat + (B.length : Int).toNat) ⟨0, 0, 0, 0, itmp0⟩ = s at hfr hinv ⊢
  obtain ⟨hkl, hfr⟩ := hfr
  obtain ⟨hi, hj, _, _, _, _⟩ := hinv
  have hs : s.itmp a = itmp a := (hfr a ha).trans h0
  have t1 : ((B.length : Int) - s.j).toNat = B.length - s.j := by omega
  have t2 : ((B.length : Int) - s.j + s.k).toNat = B.length - s.j + s.k := by omega
  have t3 : ((A.length : Int) - s.i).toNat = A.length - s.i := by omega
  rw [t1, t2, t3, Int.toNat_ofNat]
  by_cases henter : (if compile_in_lp = true
      then decide (ty ≠ NO_DATA_STORED ∧ (B.length : Int) > 0)
      else decide (¬ ty = NO_DATA_STORED ∧ ¬ (B.length : Int) = 0)) = true
  · rw [if_pos henter]
    by_cases hcond : (A.length : Int) - s.i - s.j + s.k + s.l ≥ 0
    · rw [if_pos hcond]
      simp only
      split_ifs
      · exact (store_outside _ _ _ _ hne).trans hs
      · exact hs
    · rw [if_neg hcond]
      simp only
      have e1 : (if (B.length : Int) > s.j then memcpy_in s.itmp s.k B s.j (B.length - s.j)
          else s.itmp) a = itmp a := by
        split_ifs
        · exact (memcpy_in_outside _ _ _ _ _ _ (by omega)).trans hs
        · exact hs
      generalize (if (B.length : Int) > s.j then memcpy_in s.itmp s.k B s.j (B.length - s.j)
          else s.itmp) = m1 at e1 ⊢
      have e2 : (if s.l > 0 then memcpy_within m1 (B.length - s.j + s.k) B.length s.l
          else m1) a = itmp a := by
        split_ifs
        · exact (memcpy_within_outside _ _ _ _ _ (by omega)).trans e1
        · exact e1
      generalize (if s.l > 0 then memcpy_within m1 (B.length - s.j + s.k) B.length s.l
          else m1) = m2 at e2 ⊢
      split_ifs
      · exact (memcpy_in_outside _ _ _ _ _ _ (by omega)).trans e2
      · exact e2
  · rw [if_neg henter]
    exact h0

/-- C26: `pack_array_desc_diff` stays inside a scratch area of `2 * n` cells and falls
back to the explicit description instead of overflowing it. For strictly ascending
lists `A` (old) and `B` (new, explicit) with `|B| = n > 0`, in both builds: every cell
of the scratch area from `2 * n` on is left as it was, whatever it held; each pass of
the merge loop writes nothing, or an added entry to `iadd[k]` with `k < n`, or a
removed entry to `isub[l]`, which is cell `n + l` of `[n, 2 * n)`; after any number of
passes `k + l ≤ n`; when the full difference has `n` or more entries the result is the
explicit new description; and a `WRT_PARENT` result has `size < n`. -/
theorem pack_array_desc_diff_scratch_bounds (compile_in_lp : Bool)
    (pack_array_desc : array_desc → List wire_val) (ad new_ad : array_desc) (itmp : Nat → Int)
    (hA : ad.size = ad.list.length) (hB : new_ad.size = new_ad.list.length)
    (hn : 0 < new_ad.list.length) (hty : new_ad.type = EXPLICIT_LIST)
    (sA : List.Pairwise (· < ·) ad.list) (sB : List.Pairwise (· < ·) new_ad.list) :
    (∀ a, 2 * new_ad.list.length ≤ a →
      (pack_array_desc_diff compile_in_lp pack_array_desc ad new_ad itmp).itmp a = itmp a) ∧
    (∀ s, diff_cond ad.size new_ad.size s →
      ((diff_body ad.list new_ad.list new_ad.size s).itmp = s.itmp ∧
        (diff_body ad.list new_ad.list new_ad.size s).k = s.k ∧
        (diff_body ad.list new_ad.list new_ad.size s).l = s.l) ∨
      ((diff_body ad.list new_ad.list new_ad.size s).itmp
          = store s.itmp s.k (new_ad.list.getD s.j 0) ∧
        s.k < new_ad.list.length ∧
        (diff_body ad.list new_ad.list new_ad.size s).k = s.k + 1 ∧
        (diff_body ad.list new_ad.list new_ad.size s).l = s.l) ∨
      ((diff_body ad.list new_ad.list new_ad.size s).itmp
          = store s.itmp (new_ad.list.length + s.l) (ad.list.getD s.i 0) ∧
        new_ad.list.length ≤ new_ad.list.length + s.l ∧
        new_ad.list.length + s.l < 2 * new_ad.list.length ∧
        (diff_body ad.list new_ad.list new_ad.size s).k = s.k ∧
        (diff_body ad.list new_ad.list new_ad.size s).l = s.l + 1)) ∧
    (∀ fuel m0,
      (diff_loop ad.list new_ad.list ad.size new_ad.size fuel ⟨0, 0, 0, 0, m0⟩).k
        + (diff_loop ad.list new_ad.list ad.size new_ad.size fuel ⟨0, 0, 0, 0, m0⟩).l
        ≤ new_ad.list.length) ∧
    (new_ad.list.length
        ≤ (list_minus ad.list new_ad.list).length + (list_minus new_ad.list ad.list).length →
      (pack_array_desc_diff compile_in_lp pack_array_desc ad new_ad itmp).desc = new_ad) ∧
    ((pack_array_desc_diff compile_in_lp pack_array_desc ad new_ad itmp).desc.type
        = WRT_PARENT →
      (pack_array_desc_diff compile_in_lp pack_array_desc ad new_ad itmp).desc.size
        < new_ad.list.length) := by
  have hnd : new_ad.type ≠ NO_DATA_STORED := by rw [hty]; decide
  have hnw : new_ad.type ≠ WRT_PARENT := by rw [hty]; decide
  have hdesc := pack_array_desc_diff_desc compile_in_lp pack_array_desc ad new_ad itmp
    hA hB hnd
  rw [merge_diff_sorted _ _ sA sB] at hdesc
  simp only at hdesc
  refine ⟨fun a ha => pack_array_desc_diff_frame compile_in_lp pack_array_desc ad new_ad
      itmp hA hB hn a ha, ?_, ?_, ?_, ?_⟩
  · intro s hc
    rw [hA, hB] at hc
    rw [hB]
    exact diff_body_write ad.list new_ad.list new_ad.list.length s hc
  · intro fuel m0
    rw [hA, hB]
    exact (diff_loop_frame ad.list new_ad.list new_ad.list.length fuel ⟨0, 0, 0, 0, m0⟩
      (by simp)).1
  · intro hge
    rw [hdesc, if_neg (by omega)]
  · intro hw
    rw [hdesc] at hw ⊢
    split_ifs at hw ⊢ with hD
    · simp only
      exact_mod_cast hD
    · exact absurd hw hnw

/-- Instance of C26 at old `[1, 2, 3, 4, 5]`, new `[2, 3, 4, 5]`: the removed entry `1`
is the whole difference, the result is `WRT_PARENT` of size `1`, and cell `8` of the
scratch area keeps its content. -/
theorem pack_array_desc_diff_scratch_bounds_witness :
    (pack_array_desc_diff true (fun _ => []) ⟨EXPLICIT_LIST, 5, 5, [1, 2, 3, 4, 5]⟩
        ⟨EXPLICIT_LIST, 4, 4, [2, 3, 4, 5]⟩ (fun _ => 7)).desc = ⟨WRT_PARENT, 1, 0, [1]⟩ ∧
    (pack_array_desc_diff true (fun _ => []) ⟨EXPLICIT_LIST, 5, 5, [1, 2, 3, 4, 5]⟩
        ⟨EXPLICIT_LIST, 4, 4, [2, 3, 4, 5]⟩ (fun _ => 7)).itmp 8 = 7 :=
  ⟨by decide,
   (pack_array_desc_diff_scratch_bounds true (fun _ => []) ⟨EXPLICIT_LIST, 5, 5, [1, 2, 3, 4, 5]⟩
      ⟨EXPLICIT_LIST, 4, 4, [2, 3, 4, 5]⟩ (fun _ => 7) (by decide) (by decide) (by decide)
      (by decide) (by decide) (by decide)).1 8 (by decide)⟩

/-! ## Properties of the repricing path of `send_node_desc` -/

/-- Before the repricing branch only the call log of the tree manager changes. -/
theorem repricing_prepare_tm (cb : tree_callbacks) (p : lp_prob) (tm : tm_prob)
    (n : bc_node) (node_type : node_type_t) (new_tm_desc : node_desc) (desc_size : Int) :
    (repricing_prepare_value cb p tm n node_type new_tm_desc desc_size).1
      = { tm with calls :=
            (repricing_prepare_value cb p tm n node_type new_tm_desc desc_size).1.calls } := by
  unfold repricing_prepare_value
  simp only
  split_ifs <;> rfl

/-- A node of one of the four pruned types comes out of the first part with the status
`NODE_STATUS__PRUNED`. -/
theorem repricing_prepare_pruned (cb : tree_callbacks) (p : lp_prob) (tm : tm_prob)
    (n : bc_node) (node_type : node_type_t) (new_tm_desc : node_desc) (desc_size : Int)
    (hp : node_type = node_type_t.INFEASIBLE_PRUNED ∨
      node_type = node_type_t.OVER_UB_PRUNED ∨ node_type = node_type_t.DISCARDED_NODE ∨
      node_type = node_type_t.FEASIBLE_PRUNED) :
    (repricing_prepare_value cb p tm n node_type new_tm_desc desc_size).2.node_status
      = node_status_t.NODE_STATUS__PRUNED := by
  have hi : node_type ≠ node_type_t.INTERRUPTED_NODE := by
    rcases hp with h | h | h | h <;> rw [h] <;> decide
  unfold repricing_prepare_value
  simp only [hp, decide_True, if_true, hi, if_false]
  by_cases hk : tm.par.keep_description_of_pruned = keep_policy.KEEP_IN_MEMORY
  · simp [hk, keep_pruned_in_memory_status]
  · simp [hk]

/-- When the node does not come out of the first part with the status
`NODE_STATUS__PRUNED`, the only call made there is the `insert_new_node` of an
`INTERRUPTED_NODE`. -/
theorem repricing_prepare_calls (cb : tree_callbacks) (p : lp_prob) (tm : tm_prob)
    (n : bc_node) (node_type : node_type_t) (new_tm_desc : node_desc) (desc_size : Int)
    (h : (repricing_prepare_value cb p tm n node_type new_tm_desc desc_size).2.node_status
      ≠ node_status_t.NODE_STATUS__PRUNED) :
    (repricing_prepare_value cb p tm n node_type new_tm_desc desc_size).1.calls
      = tm.calls ++ (if node_type = node_type_t.INTERRUPTED_NODE then
          [tm_call.insert_new_node] else []) := by
  have hp : ¬ (node_type = node_type_t.INFEASIBLE_PRUNED ∨
      node_type = node_type_t.OVER_UB_PRUNED ∨ node_type = node_type_t.DISCARDED_NODE ∨
      node_type = node_type_t.FEASIBLE_PRUNED) := fun hp =>
    h (repricing_prepare_pruned cb p tm n node_type new_tm_desc desc_size hp)
  unfold repricing_prepare_value
  simp only [hp, decide_False, Bool.false_eq_true, false_and, if_false]
  split_ifs <;> simp

/-- The first part of the repricing path does not return exactly when the node is not
pruned, so that lines 735-842 are run, and the new user blob has a positive size;
otherwise it hands on `repricing_prepare_value`. -/
theorem repricing_prepare_eq (cb : tree_callbacks) (p : lp_prob) (tm : tm_prob)
    (n : bc_node) (node_type : node_type_t) (new_lp_desc new_tm_desc : node_desc) :
    repricing_prepare cb p tm n node_type new_lp_desc new_tm_desc
      = if (repricing_prepare_value cb p tm n node_type new_tm_desc
              new_lp_desc.desc_size).2.node_status ≠ node_status_t.NODE_STATUS__PRUNED ∧
            new_lp_desc.desc_size > 0 then none
        else some (repricing_prepare_value cb p tm n node_type new_tm_desc
          new_lp_desc.desc_size) := by
  unfold repricing_prepare repricing_prepare_value
  simp only
  split_ifs <;> simp_all

/-- What the repricing path of `send_node_desc` returns is what `repricing_finish` makes
of `repricing_prepare_value`, and the call has then not stopped at lines 804-809. -/
theorem send_node_desc_repricing_some (c : lp_constants) (cb : tree_callbacks)
    (p : lp_prob) (tm : tm_prob) (n : bc_node) (node_type : node_type_t)
    (new_lp_desc new_tm_desc : node_desc) (r : send_result)
    (h : send_node_desc_repricing c cb p tm n node_type new_lp_desc new_tm_desc = some r) :
    repricing_prepare cb p tm n node_type new_lp_desc new_tm_desc
      = some (repricing_prepare_value cb p tm n node_type new_tm_desc
          new_lp_desc.desc_size) ∧
    repricing_finish c p
      (repricing_prepare_value cb p tm n node_type new_tm_desc new_lp_desc.desc_size).1
      (repricing_prepare_value cb p tm n node_type new_tm_desc new_lp_desc.desc_size).2
      node_type new_lp_desc = some r := by
  unfold send_node_desc_repricing at h
  rw [repricing_prepare_eq] at h ⊢
  by_cases hc : (repricing_prepare_value cb p tm n node_type new_tm_desc
      new_lp_desc.desc_size).2.node_status ≠ node_status_t.NODE_STATUS__PRUNED ∧
      new_lp_desc.desc_size > 0
  · rw [if_pos hc] at h
    simp only at h
    cases h
  · rw [if_neg hc] at h ⊢
    exact ⟨rfl, h⟩

/-- The end of the repricing path when the node is not pruned and its recomputed
`not_fixed` is empty. -/
theorem repricing_finish_empty (c : lp_constants) (p : lp_prob) (tm : tm_prob) (n : bc_node)
    (node_type : node_type_t) (new_lp_desc : node_desc) (r : send_result)
    (h : repricing_finish c p tm n node_type new_lp_desc = some r)
    (hst : r.n.node_status ≠ node_status_t.NODE_STATUS__PRUNED)
    (hnf : r.n.desc.not_fixed.size = 0) :
    r.tm = { tm with stat := { tm.stat with root_lb := n.lower_bound },
                     calls := tm.calls ++ [tm_call.free_tree_node],
                     samephase_candnum := 0, nextphase_cand := [] } ∧
    r.p = p := by
  unfold repricing_finish at h
  simp only at h
  by_cases hp : n.node_status = node_status_t.NODE_STATUS__PRUNED
  · rw [if_pos hp] at h
    cases h
    exact absurd hp hst
  · rw [if_neg hp] at h
    split at h
    · cases h
    · rename_i n5 hn5
      by_cases h0 : n5.desc.not_fixed.size = 0
      · rw [if_pos h0] at h
        cases h
        exact ⟨rfl, rfl⟩
      · rw [if_neg h0] at h
        split at h
        · cases h
        · cases h
          exact absurd hnf h0

/-- With a root in the tree the repricing path of `send_node_desc` runs to its end,
unless it stops at lines 804-809: it returns for the four pruned types and whenever the
new user blob is empty. -/
theorem send_node_desc_repricing_returns (c : lp_constants) (cb : tree_callbacks)
    (p : lp_prob) (tm : tm_prob) (n : bc_node) (node_type : node_type_t)
    (new_lp_desc new_tm_desc : node_desc) (root : bc_node) (hroot : tm.rootnode = some root)
    (hsize : (node_type = node_type_t.INFEASIBLE_PRUNED ∨
        node_type = node_type_t.OVER_UB_PRUNED ∨ node_type = node_type_t.DISCARDED_NODE ∨
        node_type = node_type_t.FEASIBLE_PRUNED) ∨ new_lp_desc.desc_size ≤ 0) :
    ∃ r, send_node_desc_repricing c cb p tm n node_type new_lp_desc new_tm_desc = some r := by
  have htm := repricing_prepare_tm cb p tm n node_type new_tm_desc new_lp_desc.desc_size
  have hnc : ¬ ((repricing_prepare_value cb p tm n node_type new_tm_desc
      new_lp_desc.desc_size).2.node_status ≠ node_status_t.NODE_STATUS__PRUNED ∧
      new_lp_desc.desc_size > 0) := by
    rintro ⟨h1, h2⟩
    rcases hsize with hp | hs
    · exact h1 (repricing_prepare_pruned cb p tm n node_type new_tm_desc _ hp)
    · exact absurd h2 (not_lt.mpr hs)
  unfold send_node_desc_repricing
  rw [repricing_prepare_eq, if_neg hnc]
  simp only
  unfold repricing_finish
  generalize (repricing_prepare_value cb p tm n node_type new_tm_desc
    new_lp_desc.desc_size).1 = tm3 at htm ⊢
  generalize (repricing_prepare_value cb p tm n node_type new_tm_desc
    new_lp_desc.desc_size).2 = n3
  have hr : tm3.rootnode = some root := by rw [htm]; exact hroot
  simp only [hr]
  by_cases hp : n3.node_status = node_status_t.NODE_STATUS__PRUNED
  · rw [if_pos hp]
    exact ⟨_, rfl⟩
  · rw [if_neg hp]
    by_cases hu : n3.desc.uind.size > 0
    · rw [if_pos hu]
      simp only
      split_ifs <;> exact ⟨_, rfl⟩
    · rw [if_neg hu]
      simp only
      split_ifs <;> exact ⟨_, rfl⟩

/-- The repricing path of `send_node_desc` does not return when a node that is not of a
pruned type and did not have the status `NODE_STATUS__PRUNED` comes with a user blob of
positive size: the copy of lines 804-809 writes through the null pointer of the node
just allocated. -/
theorem send_node_desc_repricing_blob (c : lp_constants) (cb : tree_callbacks)
    (p : lp_prob) (tm : tm_prob) (n : bc_node) (node_type : node_type_t)
    (new_lp_desc new_tm_desc : node_desc)
    (hst : (repricing_prepare_value cb p tm n node_type new_tm_desc
      new_lp_desc.desc_size).2.node_status ≠ node_status_t.NODE_STATUS__PRUNED)
    (hsize : new_lp_desc.desc_size > 0) :
    send_node_desc_repricing c cb p tm n node_type new_lp_desc new_tm_desc = none := by
  unfold send_node_desc_repricing
  rw [repricing_prepare_eq, if_pos ⟨hst, hsize⟩]

/-- C23: in the repricing branch of `send_node_desc`, when the node does not end as
pruned and its recomputed `not_fixed` has size `0`, the call ends there: both
candidate counts are `0`; the last call into the tree manager is `free_tree_node` on
the working node, preceded at most by the `insert_new_node` of an `INTERRUPTED_NODE`,
and `propagate_nf_status` is not called; the root node with its `not_fixed`
description, `tm->stat.nf_status` and `tm->stat.vars_not_priced` are as they were; and
the description of the process is not replaced. This holds of every call that returns;
a call whose new description has a user blob of positive size does not get this far, for
it stops at the copy of lines 804-809. -/
theorem send_node_desc_repricing_empty_not_fixed (c : lp_constants) (cb : tree_callbacks)
    (p : lp_prob) (tm : tm_prob) (n : bc_node) (node_type : node_type_t)
    (new_lp_desc new_tm_desc : node_desc) (r : send_result)
    (h : send_node_desc_repricing c cb p tm n node_type new_lp_desc new_tm_desc = some r)
    (hst : r.n.node_status ≠ node_status_t.NODE_STATUS__PRUNED)
    (hnf : r.n.desc.not_fixed.size = 0) :
    new_lp_desc.desc_size ≤ 0 ∧
    r.tm.samephase_candnum = 0 ∧ r.tm.nextphase_candnum = 0 ∧
    r.tm.calls = tm.calls ++
      (if node_type = node_type_t.INTERRUPTED_NODE then [tm_call.insert_new_node] else [])
      ++ [tm_call.free_tree_node] ∧
    (∀ s, tm_call.propagate_nf_status s ∈ r.tm.calls →
      tm_call.propagate_nf_status s ∈ tm.calls) ∧
    r.tm.rootnode = tm.rootnode ∧
    r.tm.stat.nf_status = tm.stat.nf_status ∧
    r.tm.stat.vars_not_priced = tm.stat.vars_not_priced ∧
    r.p = p := by
  have htm := repricing_prepare_tm cb p tm n node_type new_tm_desc new_lp_desc.desc_size
  obtain ⟨hq, hfin⟩ := send_node_desc_repricing_some c cb p tm n node_type new_lp_desc
    new_tm_desc r h
  have hnp : (repricing_prepare_value cb p tm n node_type new_tm_desc
      new_lp_desc.desc_size).2.node_status ≠ node_status_t.NODE_STATUS__PRUNED := by
    intro hp
    unfold repricing_finish at hfin
    simp only [hp, if_true] at hfin
    cases hfin
    exact hst hp
  have hsz : new_lp_desc.desc_size ≤ 0 := by
    by_contra hc
    rw [repricing_prepare_eq, if_pos ⟨hnp, not_le.mp hc⟩] at hq
    cases hq
  have hcalls := repricing_prepare_calls cb p tm n node_type new_tm_desc
    new_lp_desc.desc_size hnp
  obtain ⟨e1, e2⟩ := repricing_finish_empty c p _ _ node_type new_lp_desc r hfin hst hnf
  rw [htm, hcalls] at e1
  rw [e1]
  refine ⟨hsz, rfl, rfl, rfl, ?_, rfl, rfl, rfl, e2⟩
  intro s hs
  simp only [List.mem_append, List.mem_singleton] at hs
  rcases hs with (hs | hs) | hs
  · exact hs
  · split_ifs at hs <;> simp at hs
  · cases hs

/-- Instance of C23: a repriced node whose variables `3` and `5` are all in the root's
`uind` and which has no `not_fixed` entries ends the call with both candidate counts at
`0` and `free_tree_node` as the one call made. -/
theorem send_node_desc_repricing_empty_not_fixed_witness :
    (send_node_desc_repricing sample_constants sample_tree_callbacks (sample_lp [])
        sample_repricing_tm (sample_bc_node []) (node_type_t.other 0) (sample_node [])
        sample_repriced_desc).map (fun r => (r.tm.samephase_candnum, r.tm.calls))
      = some (0, [tm_call.free_tree_node]) := by
  have h : send_node_desc_repricing sample_constants sample_tree_callbacks (sample_lp [])
      sample_repricing_tm (sample_bc_node []) (node_type_t.other 0) (sample_node [])
      sample_repriced_desc
      = some ((send_node_desc_repricing sample_constants sample_tree_callbacks (sample_lp [])
          sample_repricing_tm (sample_bc_node []) (node_type_t.other 0) (sample_node [])
          sample_repriced_desc).get (by decide!)) := (Option.some_get _).symm
  have hc := send_node_desc_repricing_empty_not_fixed sample_constants sample_tree_callbacks
    (sample_lp []) sample_repricing_tm (sample_bc_node []) (node_type_t.other 0)
    (sample_node []) sample_repriced_desc _ h (by decide!) (by decide!)
  rw [h, Option.map_some', hc.2.1, hc.2.2.2.1]
  rfl

/-! ## Properties of `send_branching_info` -/

/-- C24: `send_branching_info` changes `p->bc_index` only when diving. In the in-process
build it becomes the index of the kept child when `*keep ≥ 0` after
`generate_children`, the process proposed `DO_DIVE` or `CHECK_BEFORE_DIVE`, and the
decision returned by `generate_children` is `DO_DIVE` or `CHECK_BEFORE_DIVE`; in the
message-passing build it becomes the index received in the reply under the same three
conditions, with the decision read from the reply; in every other case, also when the
call ends without a reply, it is unchanged. -/
theorem send_branching_info_bc_index (bc : branching_constants)
    (generate_children : tm_branching → branch_obj → List double → List Int → List Int →
      Int → Int → Int → children_result)
    (p : lp_branching) (tm : tm_branching) (can : branch_obj) (action : List Int)
    (keep : Int) (events : List diving_event) :
    (send_branching_info bc generate_children p tm can action keep).p.bc_index
      = (if (branching_children bc generate_children p tm can action keep).keep ≥ 0 ∧
            (p.dive = bc.CHECK_BEFORE_DIVE ∨ p.dive = bc.DO_DIVE) ∧
            ((branching_children bc generate_children p tm can action keep).dive = bc.DO_DIVE ∨
              (branching_children bc generate_children p tm can action keep).dive
                = bc.CHECK_BEFORE_DIVE) then
          (branching_children bc generate_children p tm can action keep).children.getD
            (branching_children bc generate_children p tm can action keep).keep.toNat 0
        else p.bc_index) ∧
    (send_branching_info_message bc p can action keep events).p.bc_index
      = (match await_diving_info events with
        | diving_wait.reply rdive rindex _ =>
          if keep ≥ 0 ∧ (p.dive = bc.CHECK_BEFORE_DIVE ∨ p.dive = bc.DO_DIVE) ∧
              (rdive = bc.DO_DIVE ∨ rdive = bc.CHECK_BEFORE_DIVE) then rindex
          else p.bc_index
        | _ => p.bc_index) := by
  constructor
  · have hp : ∀ (d : branching_result),
        (if d.keep < 0 then { d with can := { d.can with child_num := 0 } } else d).p
          = d.p := by
      intro d
      split_ifs <;> rfl
    unfold send_branching_info
    simp only
    rw [hp]
    generalize branching_children bc generate_children p tm can action keep = g
    by_cases h1 : g.keep ≥ 0 ∧ (p.dive = bc.CHECK_BEFORE_DIVE ∨ p.dive = bc.DO_DIVE)
    · by_cases h2 : g.dive = bc.DO_DIVE ∨ g.dive = bc.CHECK_BEFORE_DIVE
      · have h3 : g.keep ≥ 0 ∧ (p.dive = bc.CHECK_BEFORE_DIVE ∨ p.dive = bc.DO_DIVE) ∧
            (g.dive = bc.DO_DIVE ∨ g.dive = bc.CHECK_BEFORE_DIVE) := ⟨h1.1, h1.2, h2⟩
        rw [if_pos h1, if_pos h2, if_pos h3]
        split_ifs <;> rfl
      · have h3 : ¬ (g.keep ≥ 0 ∧ (p.dive = bc.CHECK_BEFORE_DIVE ∨ p.dive = bc.DO_DIVE) ∧
            (g.dive = bc.DO_DIVE ∨ g.dive = bc.CHECK_BEFORE_DIVE)) := fun h => h2 h.2.2
        rw [if_pos h1, if_neg h2, if_neg h3]
    · have h3 : ¬ (g.keep ≥ 0 ∧ (p.dive = bc.CHECK_BEFORE_DIVE ∨ p.dive = bc.DO_DIVE) ∧
          (g.dive = bc.DO_DIVE ∨ g.dive = bc.CHECK_BEFORE_DIVE)) :=
        fun h => h1 ⟨h.1, h.2.1⟩
      rw [if_neg h1, if_neg h3]
  · unfold send_branching_info_message
    simp only
    by_cases h1 : keep ≥ 0 ∧ (p.dive = bc.CHECK_BEFORE_DIVE ∨ p.dive = bc.DO_DIVE)
    · rw [if_pos h1]
      cases await_diving_info events with
      | waiting => rfl
      | tm_died => rfl
      | reply rdive rindex rname =>
        simp only
        by_cases h2 : rdive = bc.DO_DIVE ∨ rdive = bc.CHECK_BEFORE_DIVE
        · have h3 : keep ≥ 0 ∧ (p.dive = bc.CHECK_BEFORE_DIVE ∨ p.dive = bc.DO_DIVE) ∧
              (rdive = bc.DO_DIVE ∨ rdive = bc.CHECK_BEFORE_DIVE) := ⟨h1.1, h1.2, h2⟩
          rw [if_pos h2, if_pos h3]
          split_ifs <;> rfl
        · have h3 : ¬ (keep ≥ 0 ∧ (p.dive = bc.CHECK_BEFORE_DIVE ∨ p.dive = bc.DO_DIVE) ∧
              (rdive = bc.DO_DIVE ∨ rdive = bc.CHECK_BEFORE_DIVE)) := fun h => h2 h.2.2
          rw [if_neg h2, if_neg h3]
    · rw [if_neg h1]
      cases await_diving_info events with
      | waiting => rfl
      | tm_died => rfl
      | reply rdive rindex rname =>
        have h3 : ¬ (keep ≥ 0 ∧ (p.dive = bc.CHECK_BEFORE_DIVE ∨ p.dive = bc.DO_DIVE) ∧
            (rdive = bc.DO_DIVE ∨ rdive = bc.CHECK_BEFORE_DIVE)) :=
          fun h => h1 ⟨h.1, h.2.1⟩
        simp only
        rw [if_neg h3]

/-- Instance of C24: a process on node `7` that proposes `DO_DIVE` and keeps child `0`
moves to node `8` when the decision is `DO_DIVE`, in both builds. -/
theorem send_branching_info_bc_index_witness :
    (send_branching_info sample_branching_constants (sample_generate_children 1)
        (sample_branching_lp 1) sample_tm_branching (sample_can 1) [0, 1] 0).p.bc_index = 8 ∧
    (send_branching_info_message sample_branching_constants (sample_branching_lp 1)
        (sample_can 1) [0, 1] 0
        [diving_event.silence true, diving_event.reply 1 8 5]).p.bc_index = 8 :=
  ⟨((send_branching_info_bc_index sample_branching_constants (sample_generate_children 1)
      (sample_branching_lp 1) sample_tm_branching (sample_can 1) [0, 1] 0 []).1).trans
      (by decide),
   ((send_branching_info_bc_index sample_branching_constants (sample_generate_children 1)
      (sample_branching_lp 1) sample_tm_branching (sample_can 1) [0, 1] 0
      [diving_event.silence true, diving_event.reply 1 8 5]).2).trans (by decide)⟩

/-- The naming of a candidate that is a non-base cut of the matrix without a name, when
the tree manager and the process agree on the number of base cuts: the cut is handed to
`add_cut_to_list`. -/
theorem name_branching_object_unnamed (bc : branching_constants) (p : lp_branching)
    (tm : tm_branching) (can : branch_obj)
    (hne : bc.CANDIDATE_VARIABLE ≠ bc.CANDIDATE_CUT_IN_MATRIX)
    (hty : can.type = bc.CANDIDATE_CUT_IN_MATRIX)
    (hbase : p.base_cutnum ≤ can.position)
    (hname : (p.rows.getD can.position.toNat ⟨0, 0, []⟩).name < 0)
    (hcut : tm.bcutnum = p.base_cutnum) :
    (name_branching_object bc p tm can).2.1
      = p.rows.set can.position.toNat
          (add_cut_to_list tm (p.rows.getD can.position.toNat ⟨0, 0, []⟩)).2.1 ∧
    (name_branching_object bc p tm can).1.bobj.name
      = (add_cut_to_list tm (p.rows.getD can.position.toNat ⟨0, 0, []⟩)).2.2 := by
  have h1 : ¬ bc.CANDIDATE_CUT_IN_MATRIX = bc.CANDIDATE_VARIABLE := fun h => hne h.symm
  have h2 : ¬ can.position < p.base_cutnum := by omega
  unfold name_branching_object
  simp only [hty, h1, if_false, if_true, h2, hname, hcut]
  exact ⟨rfl, rfl⟩

/-- The name of the cut in row `pos` after `rows[pos].cut->name = v`. -/
theorem set_cut_name_getD (rows : List row_cut) (pos : Int) (v : Int)
    (h : pos.toNat < rows.length) :
    ((set_cut_name rows pos v).getD pos.toNat ⟨0, 0, []⟩).name = v := by
  unfold set_cut_name
  rw [List.getD_eq_getElem _ _ (by simpa using h)]
  simp

/-- C25: when the candidate is a cut of the matrix that is not a base cut and has no
name yet, so that it is reported under the sentinel `-base.cutnum - 1`, the name of the
cut in the process's LP after `send_branching_info` is the durable name given by the
tree manager. In the in-process build, with the tree manager and the process agreeing
on the number of base cuts and `generate_children` leaving the name of the branching
object alone, it is the value returned by `add_cut_to_list`; in the message-passing
build, when the process dives (`*keep ≥ 0`, it proposed `DO_DIVE` or
`CHECK_BEFORE_DIVE`, and the reply decides `DO_DIVE` or `CHECK_BEFORE_DIVE`), it is the
name received in the reply. -/
theorem send_branching_info_cut_name (bc : branching_constants)
    (generate_children : tm_branching → branch_obj → List double → List Int → List Int →
      Int → Int → Int → children_result)
    (p : lp_branching) (tm : tm_branching) (can : branch_obj) (action : List Int)
    (keep : Int) (events : List diving_event) (rdive rindex rname : Int)
    (hne : bc.CANDIDATE_VARIABLE ≠ bc.CANDIDATE_CUT_IN_MATRIX)
    (hty : can.type = bc.CANDIDATE_CUT_IN_MATRIX)
    (hpos : can.position.toNat < p.rows.length)
    (hbase : p.base_cutnum ≤ can.position)
    (hname : (p.rows.getD can.position.toNat ⟨0, 0, []⟩).name < 0) :
    (tm.bcutnum = p.base_cutnum →
      (∀ t b o f a d k i, (generate_children t b o f a d k i).tm.bobj.name = t.bobj.name) →
      ((send_branching_info bc generate_children p tm can action keep).p.rows.getD
          can.position.toNat ⟨0, 0, []⟩).name
        = (add_cut_to_list tm (p.rows.getD can.position.toNat ⟨0, 0, []⟩)).2.2) ∧
    (keep ≥ 0 → (p.dive = bc.DO_DIVE ∨ p.dive = bc.CHECK_BEFORE_DIVE) →
      await_diving_info events = diving_wait.reply rdive rindex rname →
      (rdive = bc.DO_DIVE ∨ rdive = bc.CHECK_BEFORE_DIVE) →
      ((send_branching_info_message bc p can action keep events).p.rows.getD
          can.position.toNat ⟨0, 0, []⟩).name = rname) := by
  constructor
  · intro hcut hgen
    obtain ⟨e1, e2⟩ := name_branching_object_unnamed bc p tm can hne hty hbase hname hcut
    have hp : ∀ (d : branching_result),
        (if d.keep < 0 then { d with can := { d.can with child_num := 0 } } else d).p
          = d.p := by
      intro d
      split_ifs <;> rfl
    have hg : (branching_children bc generate_children p tm can action keep).tm.bobj.name
        = (add_cut_to_list tm (p.rows.getD can.position.toNat ⟨0, 0, []⟩)).2.2 := by
      unfold branching_children
      rw [hgen, e2]
    have hrow : ((p.rows.set can.position.toNat
          (add_cut_to_list tm (p.rows.getD can.position.toNat ⟨0, 0, []⟩)).2.1).getD
          can.position.toNat ⟨0, 0, []⟩).name
        = (add_cut_to_list tm (p.rows.getD can.position.toNat ⟨0, 0, []⟩)).2.2 := by
      rw [List.getD_eq_getElem _ _ (by simpa using hpos)]
      simp [add_cut_to_list]
    unfold send_branching_info
    simp only
    rw [hp, e1]
    generalize branching_children bc generate_children p tm can action keep = g at hg ⊢
    split_ifs
    · simp only
      rw [set_cut_name_getD _ _ _ (by simpa using hpos), hg]
    · exact hrow
    · exact hrow
    · exact hrow
  · intro hk hd hev hr
    have hd' : p.dive = bc.CHECK_BEFORE_DIVE ∨ p.dive = bc.DO_DIVE := hd.symm
    have h1 : ¬ bc.CANDIDATE_CUT_IN_MATRIX = bc.CANDIDATE_VARIABLE := fun h => hne h.symm
    have h2 : ¬ can.position < p.base_cutnum := by omega
    have hn : branching_name bc p can = some (- p.base_cutnum - 1) := by
      unfold branching_name
      simp only [hty, h1, if_false, if_true, h2, hname]
    unfold send_branching_info_message
    simp only
    rw [if_pos ⟨hk, hd'⟩, hev]
    simp only
    rw [if_pos hr, if_pos ⟨hty, hn⟩]
    exact set_cut_name_getD _ _ _ hpos

/-- Instance of C25: the cut in row `1` has no name; the in-process build names it `5`,
the place it gets in the tree manager's list, and the message-passing build names it
`9`, the name in the reply. -/
theorem send_branching_info_cut_name_witness :
    ((send_branching_info sample_branching_constants (sample_generate_children 1)
        (sample_branching_lp 1) sample_tm_branching (sample_can 1) [0, 1] 0).p.rows.getD 1
        ⟨0, 0, []⟩).name = 5 ∧
    ((send_branching_info_message sample_branching_constants (sample_branching_lp 1)
        (sample_can 1) [0, 1] 0 [diving_event.reply 1 8 9]).p.rows.getD 1
        ⟨0, 0, []⟩).name = 9 :=
  ⟨(send_branching_info_cut_name sample_branching_constants (sample_generate_children 1)
      (sample_branching_lp 1) sample_tm_branching (sample_can 1) [0, 1] 0
      [diving_event.reply 1 8 9] 1 8 9 (by decide) rfl (by decide) (by decide)
      (by decide)).1 rfl (fun _ _ _ _ _ _ _ _ => rfl),
   (send_branching_info_cut_name sample_branching_constants (sample_generate_children 1)
      (sample_branching_lp 1) sample_tm_branching (sample_can 1) [0, 1] 0
      [diving_event.reply 1 8 9] 1 8 9 (by decide) rfl (by decide) (by decide)
      (by decide)).2 (by decide) (Or.inl rfl) rfl (Or.inl rfl)⟩

/-! ## OGDF: the induced subgraph -/

namespace ogdf

/-- One pass of the `forall_adj` loop keeps the invariant and never removes a mark; it
marks the edge of the entry when both ends of the edge have copies. -/
theorem induced_adj_step_inv (G : Graph) (P : List node) (st : induced_state)
    (a : adjEntry) (ha : a.theEdge ∈ G.edges) (h : induced_inv G P st) :
    induced_inv G P (induced_adj_step G st a) ∧
    (∀ e, st.mark e = true → (induced_adj_step G st a).mark e = true) ∧
    (G.source a.theEdge ∈ P → G.target a.theEdge ∈ P →
      (induced_adj_step G st a).mark a.theEdge = true) := by
  obtain ⟨hn, hnt, he, hm, het, hsur, hinj⟩ := h
  unfold induced_adj_step
  simp only
  cases hs : st.nodeTableOrig2New (G.source a.theEdge) with
  | none =>
    simp only
    refine ⟨⟨hn, hnt, he, hm, het, hsur, hinj⟩, fun e h => h, ?_⟩
    intro h1 _
    rw [hnt, if_pos h1] at hs
    cases hs
  | some x =>
    cases ht : st.nodeTableOrig2New (G.target a.theEdge) with
    | none =>
      simp only
      refine ⟨⟨hn, hnt, he, hm, het, hsur, hinj⟩, fun e h => h, ?_⟩
      intro _ h2
      rw [hnt, if_pos h2] at ht
      cases ht
    | some y =>
      simp only
      by_cases hmk : st.mark a.theEdge = false
      · rw [if_pos hmk]
        have hnone : st.edgeTableOrig2New a.theEdge = none := by
          cases hq : st.edgeTableOrig2New a.theEdge with
          | none => rfl
          | some q =>
            have := (hm a.theEdge).mpr ⟨q, hq⟩
            rw [hmk] at this
            cases this
        have hsP : G.source a.theEdge ∈ P := by
          by_contra hc
          rw [hnt, if_neg hc] at hs
          cases hs
        have htP : G.target a.theEdge ∈ P := by
          by_contra hc
          rw [hnt, if_neg hc] at ht
          cases ht
        refine ⟨⟨hn, hnt, ?_, ?_, ?_, ?_, ?_⟩, ?_, ?_⟩
        · simp only [Graph.newEdge, List.length_append, List.length_singleton]
          rw [List.range_succ, ← he]
        · intro e
          by_cases hea : e = a.theEdge
          · subst hea
            simp [Graph.newEdge]
          · simp only [Function.update_noteq hea]
            exact hm e
        · intro e e' hee
          by_cases hea : e = a.theEdge
          · subst hea
            simp only [Function.update_same, Option.some.injEq] at hee
            subst hee
            simp only [Graph.newEdge, List.length_append, List.length_singleton,
              Function.update_same]
            exact ⟨by omega, ha, hsP, htP, hs.symm, ht.symm⟩
          · simp only [Function.update_noteq hea] at hee
            obtain ⟨h1, h2, h3, h4, h5, h6⟩ := het e e' hee
            have hne : e' ≠ st.subGraph.edges.length := by omega
            simp only [Graph.newEdge, List.length_append, List.length_singleton,
              Function.update_noteq hne]
            exact ⟨by omega, h2, h3, h4, h5, h6⟩
        · intro e' hlt
          simp only [Graph.newEdge, List.length_append, List.length_singleton] at hlt
          by_cases hlast : e' = st.subGraph.edges.length
          · exact ⟨a.theEdge, by simp [Graph.newEdge, hlast]⟩
          · obtain ⟨e, hee⟩ := hsur e' (by omega)
            have hea : e ≠ a.theEdge := by
              intro hc
              rw [hc, hnone] at hee
              cases hee
            exact ⟨e, by simp only [Function.update_noteq hea]; exact hee⟩
        · intro e1 e2 e' h1 h2
          by_cases h1a : e1 = a.theEdge
          · by_cases h2a : e2 = a.theEdge
            · rw [h1a, h2a]
            · exfalso
              rw [h1a] at h1
              simp only [Function.update_same, Option.some.injEq, Graph.newEdge] at h1
              simp only [Function.update_noteq h2a] at h2
              have h3 := (het e2 e' h2).1
              have h4 : st.subGraph.edges.length = e' := h1
              omega
          · by_cases h2a : e2 = a.theEdge
            · exfalso
              rw [h2a] at h2
              simp only [Function.update_same, Option.some.injEq, Graph.newEdge] at h2
              simp only [Function.update_noteq h1a] at h1
              have h3 := (het e1 e' h1).1
              have h4 : st.subGraph.edges.length = e' := h2
              omega
            · simp only [Function.update_noteq h1a] at h1
              simp only [Function.update_noteq h2a] at h2
              exact hinj e1 e2 e' h1 h2
        · intro e hme
          by_cases hea : e = a.theEdge
          · subst hea
            exact Function.update_same _ _ _
          · simp only [Function.update_noteq hea]
            exact hme
        · intro _ _
          simp
      · rw [if_neg hmk]
        have hmk' : st.mark a.theEdge = true := by simpa using hmk
        exact ⟨⟨hn, hnt, he, hm, het, hsur, hinj⟩, fun e h => h, fun _ _ => hmk'⟩

/-- The `forall_adj` loop over a list of entries keeps the invariant and the marks, and
marks the edge of every entry whose ends both have copies. -/
theorem induced_adj_fold_inv (G : Graph) (P : List node) (A : List adjEntry) :
    ∀ (st : induced_state), (∀ a ∈ A, a.theEdge ∈ G.edges) → induced_inv G P st →
      induced_inv G P (A.foldl (induced_adj_step G) st) ∧
      (∀ e, st.mark e = true → (A.foldl (induced_adj_step G) st).mark e = true) ∧
      (∀ a ∈ A, G.source a.theEdge ∈ P → G.target a.theEdge ∈ P →
        (A.foldl (induced_adj_step G) st).mark a.theEdge = true) := by
  induction A with
  | nil =>
    intro st _ h
    exact ⟨h, fun e he => he, fun a ha => absurd ha (List.not_mem_nil a)⟩
  | cons a A ih =>
    intro st hA h
    obtain ⟨h1, h2, h3⟩ := induced_adj_step_inv G P st a (hA a (List.mem_cons_self a A)) h
    obtain ⟨i1, i2, i3⟩ := ih (induced_adj_step G st a)
      (fun b hb => hA b (List.mem_cons_of_mem a hb)) h1
    simp only [List.foldl_cons]
    refine ⟨i1, fun e he => i2 e (h2 e he), ?_⟩
    intro b hb hs ht
    rcases List.mem_cons.mp hb with hb | hb
    · subst hb
      exact i2 _ (h3 hs ht)
    · exact i3 b hb hs ht

/-- One pass of the loop over the node list takes the invariant from `P` to `P ++ [w]`
and leaves every edge of `G` with both ends in `P ++ [w]` marked. -/
theorem induced_node_step_inv (G : Graph) (hwf : G.wf) (P : List node) (w : node)
    (st : induced_state) (hw : w ∈ G.nodes) (hwP : w ∉ P) (h : induced_inv G P st)
    (hc : ∀ e ∈ G.edges, G.source e ∈ P → G.target e ∈ P → st.mark e = true) :
    induced_inv G (P ++ [w]) (induced_node_step G st w) ∧
    (∀ e ∈ G.edges, G.source e ∈ P ++ [w] → G.target e ∈ P ++ [w] →
      (induced_node_step G st w).mark e = true) := by
  obtain ⟨hn, hnt, he, hm, het, hsur, hinj⟩ := h
  have hnt1 : ∀ v : Nat, Function.update st.nodeTableOrig2New w (some P.length) v
      = if v ∈ P ++ [w] then some ((P ++ [w]).indexOf v) else none := by
    intro v
    by_cases hvw : v = w
    · subst hvw
      rw [Function.update_same, if_pos (by simp),
        List.indexOf_append_of_not_mem hwP]
      simp
    · rw [Function.update_noteq hvw, hnt v]
      by_cases hvP : v ∈ P
      · rw [if_pos hvP, if_pos (by simp [hvP]), List.indexOf_append_of_mem hvP]
      · rw [if_neg hvP, if_neg (by simp [hvP, hvw])]
  have hupd : ∀ v : Nat, v ∈ P →
      Function.update st.nodeTableOrig2New w (some P.length) v = st.nodeTableOrig2New v := by
    intro v hv
    have : v ≠ w := fun hc => hwP (hc ▸ hv)
    rw [Function.update_noteq this]
  have h1 : induced_inv G (P ++ [w])
      { st with subGraph := st.subGraph.newNode.1,
                nodeTableOrig2New :=
                  Function.update st.nodeTableOrig2New w (some st.subGraph.newNode.2) } := by
    have hlen : st.subGraph.nodes.length = P.length := by rw [hn, List.length_range]
    refine ⟨?_, ?_, he, hm, ?_, hsur, hinj⟩
    · simp only [Graph.newNode, List.length_append, List.length_singleton]
      rw [hlen, List.range_succ, hn]
    · simp only [Graph.newNode]
      rw [hlen]
      exact hnt1
    · intro e e' hee
      obtain ⟨a1, a2, a3, a4, a5, a6⟩ := het e e' hee
      simp only [Graph.newNode]
      rw [hlen, hupd _ a3, hupd _ a4]
      exact ⟨a1, a2, by simp [a3], by simp [a4], a5, a6⟩
  have hadj : ∀ a ∈ G.adj w, a.theEdge ∈ G.edges := fun a ha =>
    ((hwf.adj_iff w hw a).mp ha).1
  obtain ⟨i1, i2, i3⟩ := induced_adj_fold_inv G (P ++ [w]) (G.adj w) _ hadj h1
  unfold induced_node_step
  refine ⟨i1, ?_⟩
  intro e heE hs ht
  by_cases hsw : G.source e = w
  · have ha : (⟨e, true⟩ : adjEntry) ∈ G.adj w :=
      (hwf.adj_iff w hw ⟨e, true⟩).mpr ⟨heE, by simp [Graph.theNode, hsw]⟩
    exact i3 ⟨e, true⟩ ha hs ht
  · by_cases htw : G.target e = w
    · have ha : (⟨e, false⟩ : adjEntry) ∈ G.adj w :=
        (hwf.adj_iff w hw ⟨e, false⟩).mpr ⟨heE, by simp [Graph.theNode, htw]⟩
      exact i3 ⟨e, false⟩ ha hs ht
    · have hs' : G.source e ∈ P := by
        rcases List.mem_append.mp hs with h | h
        · exact h
        · exact absurd (List.mem_singleton.mp h) hsw
      have ht' : G.target e ∈ P := by
        rcases List.mem_append.mp ht with h | h
        · exact h
        · exact absurd (List.mem_singleton.mp h) htw
      exact i2 e (hc e heE hs' ht')

/-- The loop over the node list, started with the invariant for `P`, ends with the
invariant for `P ++ L` and every edge of `G` with both ends in `P ++ L` marked. -/
theorem induced_fold_inv (G : Graph) (hwf : G.wf) (L : List node) :
    ∀ (P : List node) (st : induced_state), (P ++ L).Nodup → (∀ v ∈ L, v ∈ G.nodes) →
      induced_inv G P st →
      (∀ e ∈ G.edges, G.source e ∈ P → G.target e ∈ P → st.mark e = true) →
      induced_inv G (P ++ L) (L.foldl (induced_node_step G) st) ∧
      (∀ e ∈ G.edges, G.source e ∈ P ++ L → G.target e ∈ P ++ L →
        (L.foldl (induced_node_step G) st).mark e = true) := by
  induction L with
  | nil =>
    intro P st _ _ h hc
    simpa using ⟨h, hc⟩
  | cons w L ih =>
    intro P st hnd hL h hc
    have hwP : w ∉ P := by
      intro hw
      have := List.nodup_append.mp hnd
      exact this.2.2 hw (List.mem_cons_self w L)
    obtain ⟨h1, h2⟩ := induced_node_step_inv G hwf P w st (hL w (List.mem_cons_self w L))
      hwP h hc
    have hnd' : ((P ++ [w]) ++ L).Nodup := by simpa using hnd
    have := ih (P ++ [w]) (induced_node_step G st w) hnd'
      (fun v hv => hL v (List.mem_cons_of_mem w hv)) h1 h2
    simpa using this

end ogdf

namespace ogdf

/-- The state before the loop satisfies the invariant for the empty list. -/
theorem induced_inv_init (G : Graph) :
    induced_inv G []
      { subGraph := Graph.empty, nodeTableOrig2New := fun _ => none,
        edgeTableOrig2New := fun _ => none, mark := fun _ => false } := by
  refine ⟨rfl, fun v => by simp, rfl, fun e => by simp, fun e e' h => by simp at h,
    fun e' h => ?_, fun e1 e2 e' h => by simp at h⟩
  simp [Graph.empty] at h

/-- C30: for a well-formed graph `G` and a duplicate-free list `L` of its nodes,
`inducedSubGraph` builds the subgraph induced by `L`. The nodes of `subGraph` are one
fresh node per element of `L` (the `i`-th element is copied to node `i`), the node table
sends each node of `L` to its copy and every other node to null; every edge of `G` with
both ends in `L` (self-loops and parallel edges alike) has a copy in `subGraph` running
from the copy of its source to the copy of its target, every other edge is sent to null,
and the copies are pairwise distinct and make up all edges of `subGraph`. -/
theorem inducedSubGraph_spec (G : Graph) (L : List node) (hwf : G.wf) (hL : L.Nodup)
    (hsub : ∀ v ∈ L, v ∈ G.nodes) :
    (inducedSubGraph G L).subGraph.nodes = List.range L.length ∧
    (∀ v, v ∈ L → (inducedSubGraph G L).nodeTableOrig2New v = some (L.indexOf v) ∧
      L.indexOf v ∈ (inducedSubGraph G L).subGraph.nodes) ∧
    (∀ v, v ∉ L → (inducedSubGraph G L).nodeTableOrig2New v = none) ∧
    (∀ e ∈ G.edges, G.source e ∈ L → G.target e ∈ L →
      ∃ e' ∈ (inducedSubGraph G L).subGraph.edges,
        (inducedSubGraph G L).edgeTableOrig2New e = some e' ∧
        some ((inducedSubGraph G L).subGraph.source e')
          = (inducedSubGraph G L).nodeTableOrig2New (G.source e) ∧
        some ((inducedSubGraph G L).subGraph.target e')
          = (inducedSubGraph G L).nodeTableOrig2New (G.target e)) ∧
    (∀ e, ¬ (e ∈ G.edges ∧ G.source e ∈ L ∧ G.target e ∈ L) →
      (inducedSubGraph G L).edgeTableOrig2New e = none) ∧
    (inducedSubGraph G L).subGraph.edges.Nodup ∧
    (∀ e' ∈ (inducedSubGraph G L).subGraph.edges,
      ∃ e, (inducedSubGraph G L).edgeTableOrig2New e = some e' ∧
        ∀ e2, (inducedSubGraph G L).edgeTableOrig2New e2 = some e' → e2 = e) := by
  have hnd : (([] : List node) ++ L).Nodup := by simpa using hL
  obtain ⟨hinv, hc⟩ := induced_fold_inv G hwf L [] _ hnd hsub (induced_inv_init G)
    (fun e _ hs => absurd hs (List.not_mem_nil _))
  rw [List.nil_append] at hinv hc
  change induced_inv G L (inducedSubGraph G L) at hinv
  change ∀ e ∈ G.edges, G.source e ∈ L → G.target e ∈ L →
    (inducedSubGraph G L).mark e = true at hc
  obtain ⟨hn, hnt, he, hm, het, hsur, hinj⟩ := hinv
  refine ⟨hn, ?_, ?_, ?_, ?_, ?_, ?_⟩
  · intro v hv
    refine ⟨by rw [hnt v, if_pos hv], ?_⟩
    rw [hn, List.mem_range]
    exact List.indexOf_lt_length.mpr hv
  · intro v hv
    rw [hnt v, if_neg hv]
  · intro e heE hs ht
    obtain ⟨e', hee⟩ := (hm e).mp (hc e heE hs ht)
    obtain ⟨a1, _, _, _, a5, a6⟩ := het e e' hee
    refine ⟨e', ?_, hee, a5, a6⟩
    rw [he, List.mem_range]
    exact a1
  · intro e hne
    cases hee : (inducedSubGraph G L).edgeTableOrig2New e with
    | none => rfl
    | some e' =>
      obtain ⟨_, a2, a3, a4, _, _⟩ := het e e' hee
      exact absurd ⟨a2, a3, a4⟩ hne
  · rw [he]
    exact List.nodup_range _
  · intro e' hmem
    rw [he, List.mem_range] at hmem
    obtain ⟨e, hee⟩ := hsur e' hmem
    exact ⟨e, hee, fun e2 h2 => hinj e2 e e' h2 hee⟩

/-- The sample graph is well formed. -/
theorem sample_graph_wf : sample_graph.wf := by
  refine ⟨by decide, by decide, by decide, by decide, ?_⟩
  intro v hv a
  rcases a with ⟨e, b⟩
  have hv' : v = 0 ∨ v = 1 ∨ v = 2 := by simpa [sample_graph] using hv
  rcases e with _ | _ | _ | _ | e <;> rcases hv' with h | h | h <;> subst h <;> cases b <;>
    simp [sample_graph, Graph.theNode]

/-- An instance of `inducedSubGraph_spec`: the nodes `1, 0` of the sample graph. -/
theorem inducedSubGraph_spec_witness :
    (inducedSubGraph sample_graph [1, 0]).subGraph.nodes = List.range 2 ∧
    (inducedSubGraph sample_graph [1, 0]).subGraph.edges.Nodup :=
  have h := inducedSubGraph_spec sample_graph [1, 0] sample_graph_wf (by decide)
    (by decide)
  ⟨h.1, h.2.2.2.2.2.1⟩

end ogdf

/-! ## OGDF: paths and lightest spanning forests -/

namespace ogdf

theorem joins_symm {G : Graph} {e : edge} {a b : node} (h : joins G e a b) :
    joins G e b a := by
  rcases h with h | h
  · exact Or.inr h
  · exact Or.inl h

theorem joins_ends (G : Graph) (e : edge) : joins G e (G.source e) (G.target e) :=
  Or.inl ⟨rfl, rfl⟩

theorem reach_refl (G : Graph) (T : Finset edge) (a : node) : reach G T a a :=
  Relation.ReflTransGen.refl

theorem reach_trans {G : Graph} {T : Finset edge} {a b c : node}
    (h1 : reach G T a b) (h2 : reach G T b c) : reach G T a c :=
  Relation.ReflTransGen.trans h1 h2

theorem reach_edge {G : Graph} {T : Finset edge} {e : edge} {a b : node}
    (he : e ∈ T) (h : joins G e a b) : reach G T a b :=
  Relation.ReflTransGen.single ⟨e, he, h⟩

theorem reach_symm {G : Graph} {T : Finset edge} {a b : node}
    (h : reach G T a b) : reach G T b a := by
  induction h with
  | refl => exact reach_refl G T a
  | tail _ hstep ih =>
    obtain ⟨e, he, hj⟩ := hstep
    exact reach_trans (reach_edge he (joins_symm hj)) ih

theorem reach_mono {G : Graph} {T U : Finset edge} (hTU : T ⊆ U) {a b : node}
    (h : reach G T a b) : reach G U a b :=
  Relation.ReflTransGen.mono (fun _ _ ⟨e, he, hj⟩ => ⟨e, hTU he, hj⟩) h

/-- A walk that may use one more edge `g` either avoids `g` or passes through it. -/
theorem reach_insert {G : Graph} {T : Finset edge} {g : edge} {a b : node}
    (h : reach G (insert g T) a b) :
    reach G T a b ∨
    (reach G T a (G.source g) ∧ reach G T (G.target g) b) ∨
    (reach G T a (G.target g) ∧ reach G T (G.source g) b) := by
  induction h with
  | refl => exact Or.inl (reach_refl G T a)
  | tail _ hstep ih =>
    obtain ⟨e, he, hj⟩ := hstep
    rcases Finset.mem_insert.mp he with heg | heT
    · subst heg
      rcases hj with ⟨h1, h2⟩ | ⟨h1, h2⟩
      · subst h1
        subst h2
        rcases ih with ih | ⟨i1, _⟩ | ⟨i1, _⟩
        · exact Or.inr (Or.inl ⟨ih, reach_refl G T _⟩)
        · exact Or.inr (Or.inl ⟨i1, reach_refl G T _⟩)
        · exact Or.inl i1
      · subst h1
        subst h2
        rcases ih with ih | ⟨i1, _⟩ | ⟨i1, _⟩
        · exact Or.inr (Or.inr ⟨ih, reach_refl G T _⟩)
        · exact Or.inl i1
        · exact Or.inr (Or.inr ⟨i1, reach_refl G T _⟩)
    · have hs := reach_edge heT hj
      rcases ih with ih | ⟨i1, i2⟩ | ⟨i1, i2⟩
      · exact Or.inl (reach_trans ih hs)
      · exact Or.inr (Or.inl ⟨i1, reach_trans i2 hs⟩)
      · exact Or.inr (Or.inr ⟨i1, reach_trans i2 hs⟩)

/-- A walk from inside a node set to outside of it uses an edge that crosses the set. -/
theorem reach_crosses {G : Graph} {T : Finset edge} (S : node → Prop) {a b : node}
    (h : reach G T a b) (ha : S a) (hb : ¬ S b) : ∃ g ∈ T, crosses G S g := by
  induction h with
  | refl => exact absurd ha hb
  | @tail c d _ hstep ih =>
    obtain ⟨e, he, hj⟩ := hstep
    by_cases hc : S c
    · refine ⟨e, he, ?_⟩
      rcases hj with ⟨h1, h2⟩ | ⟨h1, h2⟩
      · exact Or.inl ⟨h1 ▸ hc, h2 ▸ hb⟩
      · exact Or.inr ⟨h2 ▸ hc, h1 ▸ hb⟩
    · exact ih hc

theorem acyclic_subset {G : Graph} {T U : Finset edge} (hTU : T ⊆ U) (h : acyclic G U) :
    acyclic G T := fun e he hr =>
  h e (hTU he) (reach_mono (Finset.erase_subset_erase e hTU) hr)

/-- Adding an edge between two components keeps an edge set free of cycles. -/
theorem acyclic_insert {G : Graph} {T : Finset edge} {e : edge} (h : acyclic G T)
    (he : e ∉ T) (hr : ¬ reach G T (G.source e) (G.target e)) :
    acyclic G (insert e T) := by
  intro g hg hgr
  rcases Finset.mem_insert.mp hg with hge | hgT
  · subst hge
    rw [Finset.erase_insert he] at hgr
    exact hr hgr
  · have hne : g ≠ e := fun hc => he (hc ▸ hgT)
    have heq : (insert e T).erase g = insert e (T.erase g) := by
      rw [Finset.erase_insert_of_ne (Ne.symm hne)]
    rw [heq] at hgr
    have hsub : T.erase g ⊆ T := Finset.erase_subset g T
    have hstep : reach G T (G.source g) (G.target g) := reach_edge hgT (joins_ends G g)
    rcases reach_insert hgr with h1 | ⟨h1, h2⟩ | ⟨h1, h2⟩
    · exact h g hgT h1
    · exact hr (reach_trans (reach_symm (reach_mono hsub h1))
        (reach_trans hstep (reach_symm (reach_mono hsub h2))))
    · exact hr (reach_symm (reach_trans (reach_symm (reach_mono hsub h1))
        (reach_trans hstep (reach_symm (reach_mono hsub h2)))))

/-- The exchange step. In an edge set without cycles that joins `u` inside a node set to
`v` outside of it, some edge crossing the set lies on every walk from `u` to `v`. -/
theorem exchange_edge {G : Graph} (S : node → Prop) {u v : node} (hu : S u) (hv : ¬ S v) :
    ∀ (n : Nat) (T : Finset edge), T.card = n → acyclic G T → reach G T u v →
      ∃ f ∈ T, crosses G S f ∧ ¬ reach G (T.erase f) u v := by
  intro n
  induction n with
  | zero =>
    intro T hT _ hr
    obtain ⟨g, hg, _⟩ := reach_crosses S hr hu hv
    rw [Finset.card_eq_zero.mp hT] at hg
    exact absurd hg (Finset.not_mem_empty g)
  | succ n ih =>
    intro T hT hac hr
    obtain ⟨g, hg, hgc⟩ := reach_crosses S hr hu hv
    by_cases hgr : reach G (T.erase g) u v
    · have hcard : (T.erase g).card = n := by
        rw [Finset.card_erase_of_mem hg, hT]
        rfl
      obtain ⟨f, hf, hfc, hfr⟩ := ih (T.erase g) hcard
        (acyclic_subset (Finset.erase_subset g T) hac) hgr
      refine ⟨f, Finset.mem_of_mem_erase hf, hfc, ?_⟩
      intro hr2
      have hfg : f ≠ g := Finset.ne_of_mem_erase hf
      have heq : T.erase f = insert g ((T.erase g).erase f) := by
        ext x
        simp only [Finset.mem_erase, Finset.mem_insert]
        constructor
        · rintro ⟨h1, h2⟩
          by_cases hxg : x = g
          · exact Or.inl hxg
          · exact Or.inr ⟨h1, hxg, h2⟩
        · rintro (h1 | ⟨h1, _, h3⟩)
          · subst h1
            exact ⟨Ne.symm hfg, hg⟩
          · exact ⟨h1, h3⟩
      rw [heq] at hr2
      have hsub : (T.erase g).erase f ⊆ T.erase g := Finset.erase_subset f _
      rcases reach_insert hr2 with h1 | ⟨h1, h2⟩ | ⟨h1, h2⟩
      · exact hfr h1
      · exact hac g hg (reach_trans (reach_symm (reach_mono hsub h1))
          (reach_trans hgr (reach_symm (reach_mono hsub h2))))
      · exact hac g hg (reach_symm (reach_trans (reach_symm (reach_mono hsub h1))
          (reach_trans hgr (reach_symm (reach_mono hsub h2)))))
    · exact ⟨g, hg, hgc, hgr⟩

/-- Edges named by `crosses` have an end inside and an end outside of the set. -/
theorem crosses_ends {G : Graph} {S : node → Prop} {e : edge} (h : crosses G S e) :
    ∃ u v, joins G e u v ∧ S u ∧ ¬ S v := by
  rcases h with ⟨h1, h2⟩ | ⟨h1, h2⟩
  · exact ⟨_, _, Or.inl ⟨rfl, rfl⟩, h1, h2⟩
  · exact ⟨_, _, Or.inr ⟨rfl, rfl⟩, h1, h2⟩

theorem reach_of_joins_not {G : Graph} {T : Finset edge} {e : edge} {u v : node}
    (hj : joins G e u v) (h : ¬ reach G T u v) :
    ¬ reach G T (G.source e) (G.target e) := by
  rcases hj with ⟨h1, h2⟩ | ⟨h1, h2⟩
  · rw [h1, h2]
    exact h
  · rw [h1, h2]
    exact fun hc => h (reach_symm hc)

/-- A spanning forest that misses a lightest edge `e` across a cut can trade one of its
edges across the cut for `e` without getting heavier. -/
theorem exchange_forest {G : Graph} {weight : edge → Int} {T : Finset edge} {e : edge}
    (S : node → Prop) (hT : spanning_forest G T) (heE : e ∈ G.edges) (heT : e ∉ T)
    (hc : crosses G S e) (hmin : ∀ f ∈ G.edges, crosses G S f → weight e ≤ weight f) :
    ∃ f ∈ T, crosses G S f ∧ spanning_forest G (insert e (T.erase f)) ∧
      total_weight weight (insert e (T.erase f)) ≤ total_weight weight T := by
  obtain ⟨hsub, hsp, hac⟩ := hT
  obtain ⟨u, v, hj, hu, hv⟩ := crosses_ends hc
  have huvE : reach G G.edges.toFinset u v := reach_edge (List.mem_toFinset.mpr heE) hj
  obtain ⟨f, hf, hfc, hfr⟩ := exchange_edge S hu hv T.card T rfl hac (hsp u v huvE)
  have heX : e ∉ T.erase f := fun hc => heT (Finset.mem_of_mem_erase hc)
  have hXsub : T.erase f ⊆ insert e (T.erase f) := Finset.subset_insert e _
  have hTeq : insert f (T.erase f) = T := Finset.insert_erase hf
  have huv : reach G (insert e (T.erase f)) u v := reach_edge (Finset.mem_insert_self e _) hj
  have hends : reach G (insert e (T.erase f)) (G.source f) (G.target f) := by
    have h0 := hsp u v huvE
    rw [← hTeq] at h0
    rcases reach_insert h0 with h1 | ⟨h1, h2⟩ | ⟨h1, h2⟩
    · exact absurd h1 hfr
    · exact reach_trans (reach_symm (reach_mono hXsub h1))
        (reach_trans huv (reach_symm (reach_mono hXsub h2)))
    · exact reach_symm (reach_trans (reach_symm (reach_mono hXsub h1))
        (reach_trans huv (reach_symm (reach_mono hXsub h2))))
  refine ⟨f, hf, hfc, ⟨?_, ?_, ?_⟩, ?_⟩
  · intro x hx
    rcases Finset.mem_insert.mp hx with h | h
    · exact h ▸ List.mem_toFinset.mpr heE
    · exact hsub (Finset.mem_of_mem_erase h)
  · intro a b hab
    have h0 := hsp a b hab
    rw [← hTeq] at h0
    rcases reach_insert h0 with h1 | ⟨h1, h2⟩ | ⟨h1, h2⟩
    · exact reach_mono hXsub h1
    · exact reach_trans (reach_mono hXsub h1) (reach_trans hends (reach_mono hXsub h2))
    · exact reach_trans (reach_mono hXsub h1)
        (reach_trans (reach_symm hends) (reach_mono hXsub h2))
  · exact acyclic_insert (acyclic_subset (Finset.erase_subset f T) hac) heX
      (reach_of_joins_not hj hfr)
  · have hwf : weight e ≤ weight f := hmin f (List.mem_toFinset.mp (hsub hf)) hfc
    unfold total_weight
    rw [Finset.sum_insert heX, ← Finset.add_sum_erase T weight hf]
    omega

/-- The edges of a greedy list are edges of `G`. -/
theorem greedy_seq_mem {G : Graph} {weight : edge → Int} {K : List edge}
    (h : greedy_seq G weight K) : ∀ e ∈ K, e ∈ G.edges := by
  induction h with
  | nil => exact fun e he => absurd he (List.not_mem_nil e)
  | snoc K e S _ heE _ _ _ ih =>
    intro x hx
    rcases List.mem_append.mp hx with h | h
    · exact ih x h
    · exact (List.mem_singleton.mp h) ▸ heE

/-- Every spanning forest can be turned, without getting heavier, into one that holds
all edges of a greedy list. -/
theorem greedy_ext {G : Graph} {weight : edge → Int} {K : List edge}
    (h : greedy_seq G weight K) (T : Finset edge) (hT : spanning_forest G T) :
    ∃ U, spanning_forest G U ∧ (∀ e ∈ K, e ∈ U) ∧
      total_weight weight U ≤ total_weight weight T := by
  induction h with
  | nil => exact ⟨T, hT, fun e he => absurd he (List.not_mem_nil e), le_refl _⟩
  | snoc K e S _ heE hc hK hmin ih =>
    obtain ⟨U, hU, hKU, hw⟩ := ih
    by_cases heU : e ∈ U
    · refine ⟨U, hU, ?_, hw⟩
      intro x hx
      rcases List.mem_append.mp hx with h | h
      · exact hKU x h
      · exact (List.mem_singleton.mp h) ▸ heU
    · obtain ⟨f, _, hfc, hV, hwV⟩ := exchange_forest S hU heE heU hc hmin
      refine ⟨insert e (U.erase f), hV, ?_, le_trans hwV hw⟩
      intro x hx
      rcases List.mem_append.mp hx with h | h
      · have hxf : x ≠ f := fun hxf => hK x h (hxf ▸ hfc)
        exact Finset.mem_insert_of_mem (Finset.mem_erase.mpr ⟨hxf, hKU x h⟩)
      · rw [List.mem_singleton.mp h]
        exact Finset.mem_insert_self e _

/-- A greedy list has no edge twice and no cycle. -/
theorem greedy_acyclic {G : Graph} {weight : edge → Int} {K : List edge}
    (h : greedy_seq G weight K) : K.Nodup ∧ acyclic G K.toFinset := by
  induction h with
  | nil => exact ⟨List.nodup_nil, fun e he => absurd he (Finset.not_mem_empty e)⟩
  | snoc K e S _ _ hc hK _ ih =>
    have heK : e ∉ K := fun he => hK e he hc
    refine ⟨?_, ?_⟩
    · rw [List.nodup_append]
      refine ⟨ih.1, List.nodup_singleton e, ?_⟩
      intro x hx hx2
      exact heK ((List.mem_singleton.mp hx2) ▸ hx)
    · have heq : (K ++ [e]).toFinset = insert e K.toFinset := by
        ext x
        simp only [List.mem_toFinset, List.mem_append, List.mem_singleton,
          Finset.mem_insert]
        exact Or.comm
      rw [heq]
      obtain ⟨u, v, hj, hu, hv⟩ := crosses_ends hc
      refine acyclic_insert ih.2 (fun he => heK (List.mem_toFinset.mp he))
        (reach_of_joins_not hj ?_)
      intro hr
      obtain ⟨g, hg, hgc⟩ := reach_crosses S hr hu hv
      exact hK g (List.mem_toFinset.mp hg) hgc

/-- A greedy list that connects whatever `G` connects is a spanning forest of `G`. -/
theorem greedy_forest {G : Graph} {weight : edge → Int} {K : List edge}
    (h : greedy_seq G weight K) (hsp : spans G K.toFinset) :
    spanning_forest G K.toFinset :=
  ⟨fun e he => List.mem_toFinset.mpr (greedy_seq_mem h e (List.mem_toFinset.mp he)), hsp,
    (greedy_acyclic h).2⟩

/-- A greedy list that connects whatever `G` connects is a lightest spanning forest. -/
theorem greedy_min {G : Graph} {weight : edge → Int} {K : List edge}
    (h : greedy_seq G weight K) (hsp : spans G K.toFinset)
    (T : Finset edge) (hT : spanning_forest G T) :
    (K.map weight).sum ≤ total_weight weight T := by
  obtain ⟨U, ⟨hUsub, _, hUac⟩, hKU, hw⟩ := greedy_ext h T hT
  have hUK : U = K.toFinset := by
    ext f
    constructor
    · intro hf
      by_contra hfK
      have hsubK : K.toFinset ⊆ U.erase f := by
        intro x hx
        refine Finset.mem_erase.mpr ⟨?_, hKU x (List.mem_toFinset.mp hx)⟩
        intro hxf
        exact hfK (hxf ▸ hx)
      exact hUac f hf (reach_mono hsubK
        (hsp _ _ (reach_edge (hUsub hf) (joins_ends G f))))
    · intro hf
      exact hKU f (List.mem_toFinset.mp hf)
  have hsum : total_weight weight K.toFinset = (K.map weight).sum :=
    List.sum_toFinset weight (greedy_acyclic h).1
  rw [← hsum, ← hUK]
  exact hw

end ogdf

/-! ## OGDF: the loop of `computeMinST` -/

namespace ogdf

theorem twinNode_mem {G : Graph} (hwf : G.wf) (a : adjEntry) (ha : a.theEdge ∈ G.edges) :
    G.twinNode a ∈ G.nodes := by
  unfold Graph.twinNode
  split_ifs
  · exact hwf.target_mem _ ha
  · exact hwf.source_mem _ ha

theorem twinNode_inc (G : Graph) (a : adjEntry) :
    G.source a.theEdge = G.twinNode a ∨ G.target a.theEdge = G.twinNode a := by
  unfold Graph.twinNode
  split_ifs
  · exact Or.inr rfl
  · exact Or.inl rfl

theorem adj_joins (G : Graph) (a : adjEntry) :
    joins G a.theEdge (G.theNode a) (G.twinNode a) := by
  unfold Graph.twinNode Graph.theNode joins
  split_ifs
  · exact Or.inl ⟨rfl, rfl⟩
  · exact Or.inr ⟨rfl, rfl⟩

/-- One pass of the inner loop of `computeMinST` keeps the invariant. -/
theorem prim_adj_step_inv {G : Graph} {weight : edge → Int} {s : node} {st : prim_state}
    {O : List node} {K : List edge} {Sc : List adjEntry} (hwf : G.wf)
    (h : prim_inv G weight s st O K Sc) (hs : s ∈ O) (a : adjEntry)
    (haE : a.theEdge ∈ G.edges) (haO : G.theNode a ∈ O) :
    prim_inv G weight s (prim_adj_step G weight st a) O K (Sc ++ [a]) := by
  have hxn := twinNode_mem hwf a haE
  have hsc : ∀ b ∈ Sc ++ [a], b.theEdge ∈ G.edges ∧ G.theNode b ∈ O := by
    intro b hb
    rcases List.mem_append.mp hb with hb | hb
    · exact h.sc_sound b hb
    · rw [List.mem_singleton.mp hb]
      exact ⟨haE, haO⟩
  have hspq : s ∉ st.pq := h.disj s hs
  by_cases h1 : st.pqpos (G.twinNode a) = -1
  · -- the node is inserted
    have hx : G.twinNode a ∉ O ∧ G.twinNode a ∉ st.pq := by
      have := (h.pqpos_iff (G.twinNode a)).not.mp (by simpa using h1)
      exact ⟨fun hc => this (Or.inl hc), fun hc => this (Or.inr hc)⟩
    have hpredO : ∀ v ∈ O, Function.update st.pred (G.twinNode a) (some a.theEdge) v
        = st.pred v := by
      intro v hv
      exact Function.update_noteq (fun hc : v = G.twinNode a => hx.1 (hc ▸ hv)) _ _
    unfold prim_adj_step
    simp only [h1, if_true]
    refine ⟨h.O_nodup, ?_, ?_, h.O_nodes, ?_, h.processed_iff, ?_, ?_, ?_, ?_, hsc, ?_, ?_,
      ?_, h.tree_ends, h.tree_greedy, h.tree_reach, ?_⟩
    all_goals try dsimp only
    · exact List.Nodup.append h.pq_nodup (List.nodup_singleton _)
        (by simpa using hx.2)
    · intro v hv hc
      rcases List.mem_append.mp hc with hc | hc
      · exact h.disj v hv hc
      · exact hx.1 ((List.mem_singleton.mp hc) ▸ hv)
    · intro v hv
      rcases List.mem_append.mp hv with hv | hv
      · exact h.pq_nodes v hv
      · exact (List.mem_singleton.mp hv) ▸ hxn
    · intro v
      by_cases hvx : v = G.twinNode a
      · subst hvx
        simp only [Function.update_same, List.mem_append, List.mem_singleton, or_true,
          iff_true]
        omega
      · rw [Function.update_noteq hvx, h.pqpos_iff v]
        simp [hvx]
    · rcases h.start with ⟨h0, _⟩ | h0
      · rw [h0] at hs
        exact absurd hs (List.not_mem_nil s)
      · exact Or.inr h0
    · rw [hpredO s hs]
      exact h.pred_s
    · intro v e hve
      by_cases hvx : v = G.twinNode a
      · subst hvx
        rw [Function.update_same] at hve
        cases hve
        exact ⟨haE, twinNode_inc G a⟩
      · rw [Function.update_noteq hvx] at hve
        exact h.pred_inc v e hve
    · intro x hx2 hxs
      rcases List.mem_append.mp hx2 with hx2 | hx2
      · have hne : x ≠ G.twinNode a := fun hc => hx.2 (hc ▸ hx2)
        obtain ⟨a0, ha0, e1, e2, e3, e4⟩ := h.front x hx2 hxs
        refine ⟨a0, List.mem_append_left _ ha0, e1, ?_, ?_, ?_⟩
        · rw [Function.update_noteq hne]
          exact e2
        · rw [Function.update_noteq hne]
          exact e3
        · intro b hb hbx
          rcases List.mem_append.mp hb with hb | hb
          · exact e4 b hb hbx
          · rw [List.mem_singleton.mp hb] at hbx
            exact absurd hbx.symm hne
      · have hxe : x = G.twinNode a := List.mem_singleton.mp hx2
        subst hxe
        refine ⟨a, List.mem_append_right _ (List.mem_singleton_self a), rfl, ?_, ?_, ?_⟩
        · rw [Function.update_same]
        · rw [Function.update_same]
        · intro b hb hbx
          rcases List.mem_append.mp hb with hb | hb
          · exact absurd hbx ((h.unseen _ h1).2 b hb)
          · rw [List.mem_singleton.mp hb]
    · intro x hx2
      have hne : x ≠ G.twinNode a := by
        intro hc
        subst hc
        rw [Function.update_same] at hx2
        omega
      rw [Function.update_noteq hne] at hx2
      rw [Function.update_noteq hne]
      refine ⟨(h.unseen x hx2).1, ?_⟩
      intro b hb
      rcases List.mem_append.mp hb with hb | hb
      · exact (h.unseen x hx2).2 b hb
      · rw [List.mem_singleton.mp hb]
        exact fun hc => hne hc.symm
    · rw [← h.tree_pred]
      exact List.map_congr_left (fun v hv => hpredO v (List.mem_of_mem_tail hv))
    · intro v hv
      refine Relation.ReflTransGen.mono ?_ (h.rooted v hv)
      rintro x y ⟨hxO, e, he, hj⟩
      exact ⟨hxO, e, by rw [hpredO x hxO]; exact he, hj⟩
  · by_cases h2 : st.processed (G.twinNode a) = false ∧ weight a.theEdge < st.prio (G.twinNode a)
    · -- the priority of the node is lowered
      have hxO : G.twinNode a ∉ O := by
        intro hc
        have := (h.processed_iff _).mpr hc
        rw [h2.1] at this
        exact Bool.false_ne_true this
      have hxpq : G.twinNode a ∈ st.pq := by
        rcases (h.pqpos_iff _).mp h1 with hc | hc
        · exact absurd hc hxO
        · exact hc
      have hpredO : ∀ v ∈ O, Function.update st.pred (G.twinNode a) (some a.theEdge) v
          = st.pred v := by
        intro v hv
        exact Function.update_noteq (fun hc : v = G.twinNode a => hxO (hc ▸ hv)) _ _
      unfold prim_adj_step
      simp only [h1, h2, if_false, and_self, if_true]
      refine ⟨h.O_nodup, h.pq_nodup, h.disj, h.O_nodes, h.pq_nodes, h.processed_iff,
        h.pqpos_iff, h.start, ?_, ?_, hsc, ?_, ?_, ?_, h.tree_ends, h.tree_greedy,
        h.tree_reach, ?_⟩
      all_goals try dsimp only
      · rw [hpredO s hs]
        exact h.pred_s
      · intro v e hve
        by_cases hvx : v = G.twinNode a
        · subst hvx
          rw [Function.update_same] at hve
          cases hve
          exact ⟨haE, twinNode_inc G a⟩
        · rw [Function.update_noteq hvx] at hve
          exact h.pred_inc v e hve
      · intro x hx2 hxs
        obtain ⟨a0, ha0, e1, e2, e3, e4⟩ := h.front x hx2 hxs
        by_cases hxe : x = G.twinNode a
        · subst hxe
          refine ⟨a, List.mem_append_right _ (List.mem_singleton_self a), rfl, ?_, ?_, ?_⟩
          · rw [Function.update_same]
          · rw [Function.update_same]
          · intro b hb hbx
            rcases List.mem_append.mp hb with hb | hb
            · have := e4 b hb hbx
              have := h2.2
              omega
            · rw [List.mem_singleton.mp hb]
        · refine ⟨a0, List.mem_append_left _ ha0, e1, ?_, ?_, ?_⟩
          · rw [Function.update_noteq hxe]
            exact e2
          · rw [Function.update_noteq hxe]
            exact e3
          · intro b hb hbx
            rcases List.mem_append.mp hb with hb | hb
            · exact e4 b hb hbx
            · rw [List.mem_singleton.mp hb] at hbx
              exact absurd hbx.symm hxe
      · intro x hx2
        have hne : x ≠ G.twinNode a := fun hc => h1 (hc ▸ hx2)
        rw [Function.update_noteq hne]
        refine ⟨(h.unseen x hx2).1, ?_⟩
        intro b hb
        rcases List.mem_append.mp hb with hb | hb
        · exact (h.unseen x hx2).2 b hb
        · rw [List.mem_singleton.mp hb]
          exact fun hc => hne hc.symm
      · rw [← h.tree_pred]
        exact List.map_congr_left (fun v hv => hpredO v (List.mem_of_mem_tail hv))
      · intro v hv
        refine Relation.ReflTransGen.mono ?_ (h.rooted v hv)
        rintro x y ⟨hxO, e, he, hj⟩
        exact ⟨hxO, e, by rw [hpredO x hxO]; exact he, hj⟩
    · -- nothing changes
      have hst : prim_adj_step G weight st a = st := by
        unfold prim_adj_step
        simp only [h1, h2, if_false]
      rw [hst]
      refine ⟨h.O_nodup, h.pq_nodup, h.disj, h.O_nodes, h.pq_nodes, h.processed_iff,
        h.pqpos_iff, h.start, h.pred_s, h.pred_inc, hsc, ?_, ?_, h.tree_pred, h.tree_ends,
        h.tree_greedy, h.tree_reach, h.rooted⟩
      · intro x hx2 hxs
        obtain ⟨a0, ha0, e1, e2, e3, e4⟩ := h.front x hx2 hxs
        refine ⟨a0, List.mem_append_left _ ha0, e1, e2, e3, ?_⟩
        intro b hb hbx
        rcases List.mem_append.mp hb with hb | hb
        · exact e4 b hb hbx
        · rw [List.mem_singleton.mp hb] at hbx ⊢
          subst hbx
          have hxO : G.twinNode a ∉ O := fun hc => h.disj _ hc hx2
          have hp : st.processed (G.twinNode a) = false := by
            cases hpc : st.processed (G.twinNode a) with
            | false => rfl
            | true => exact absurd ((h.processed_iff _).mp hpc) hxO
          have : ¬ weight a.theEdge < st.prio (G.twinNode a) := fun hc => h2 ⟨hp, hc⟩
          omega
      · intro x hx2
        refine ⟨(h.unseen x hx2).1, ?_⟩
        intro b hb
        rcases List.mem_append.mp hb with hb | hb
        · exact (h.unseen x hx2).2 b hb
        · rw [List.mem_singleton.mp hb]
          exact fun hc => h1 (hc ▸ hx2)

/-- The inner loop of `computeMinST` over a list of adjacency entries of extracted nodes
keeps the invariant. -/
theorem prim_adj_fold_inv {G : Graph} {weight : edge → Int} {s : node}
    {O : List node} {K : List edge} (hwf : G.wf) (hs : s ∈ O) (A : List adjEntry) :
    ∀ (st : prim_state) (Sc : List adjEntry), prim_inv G weight s st O K Sc →
      (∀ a ∈ A, a.theEdge ∈ G.edges ∧ G.theNode a ∈ O) →
      prim_inv G weight s (A.foldl (prim_adj_step G weight) st) O K (Sc ++ A) := by
  induction A with
  | nil =>
    intro st Sc h _
    simpa using h
  | cons a A ih =>
    intro st Sc h hA
    have h1 := prim_adj_step_inv hwf h hs a (hA a (List.mem_cons_self a A)).1
      (hA a (List.mem_cons_self a A)).2
    have h2 := ih _ _ h1 (fun b hb => hA b (List.mem_cons_of_mem a hb))
    simpa using h2

theorem crosses_of_joins {G : Graph} {S : node → Prop} {e : edge} {u v : node}
    (hj : joins G e u v) (hu : S u) (hv : ¬ S v) : crosses G S e := by
  rcases hj with ⟨h1, h2⟩ | ⟨h1, h2⟩
  · exact Or.inl ⟨h1 ▸ hu, h2 ▸ hv⟩
  · exact Or.inr ⟨h2 ▸ hu, h1 ▸ hv⟩

/-- An edge across a node set has an adjacency entry at its end inside the set. -/
theorem crosses_entry {G : Graph} {S : node → Prop} {f : edge} (h : crosses G S f) :
    ∃ b : adjEntry, b.theEdge = f ∧ S (G.theNode b) ∧ ¬ S (G.twinNode b) := by
  rcases h with ⟨h1, h2⟩ | ⟨h1, h2⟩
  · exact ⟨⟨f, true⟩, rfl, by simpa [Graph.theNode] using h1,
      by simpa [Graph.twinNode] using h2⟩
  · exact ⟨⟨f, false⟩, rfl, by simpa [Graph.theNode] using h1,
      by simpa [Graph.twinNode] using h2⟩

/-- The node the heap hands out next hangs on a lightest edge of `G` that leaves the
set of the nodes extracted so far. -/
theorem prim_extract_lightest {G : Graph} {weight : edge → Int} {s : node}
    {st : prim_state} {O : List node} {K : List edge} {Sc : List adjEntry}
    {extractMin : List node → (node → Int) → node} (hheap : heap_min extractMin)
    (h : prim_inv G weight s st O K Sc) (hc : sc_complete G O Sc) (hs : s ∈ O)
    (hpq : st.pq ≠ []) :
    ∃ a ∈ Sc, G.twinNode a = extractMin st.pq st.prio ∧
      st.pred (extractMin st.pq st.prio) = some a.theEdge ∧
      ∀ f ∈ G.edges, crosses G (fun x => x ∈ O) f → weight a.theEdge ≤ weight f := by
  obtain ⟨hv, hmin⟩ := hheap st.pq st.prio hpq
  have hvs : extractMin st.pq st.prio ≠ s := fun hc2 => h.disj s hs (hc2 ▸ hv)
  obtain ⟨a, ha, e1, e2, e3, _⟩ := h.front _ hv hvs
  refine ⟨a, ha, e1, e2, ?_⟩
  intro f hf hfc
  obtain ⟨b, hb1, hb2, hb3⟩ := crosses_entry hfc
  have hbSc : b ∈ Sc := hc b (hb1 ▸ hf) hb2
  have hxpos : st.pqpos (G.twinNode b) ≠ -1 := fun hc2 => (h.unseen _ hc2).2 b hbSc rfl
  have hxpq : G.twinNode b ∈ st.pq := by
    rcases (h.pqpos_iff _).mp hxpos with h0 | h0
    · exact absurd h0 hb3
    · exact h0
  have hxs : G.twinNode b ≠ s := fun hc2 => hb3 (hc2 ▸ hs)
  obtain ⟨a1, _, _, _, f3, f4⟩ := h.front _ hxpq hxs
  have m1 := hmin _ hxpq
  have m2 := f4 b hbSc rfl
  rw [hb1] at m2
  omega

/-- Taking a node out of the heap keeps the part of the invariant that is about the
heap and the arrays; the part about the tree edges is handed in. -/
theorem prim_extract_inv_aux {G : Graph} {weight : edge → Int} {s : node}
    {st : prim_state} {O : List node} {K : List edge} {Sc : List adjEntry}
    (h : prim_inv G weight s st O K Sc) (v : node) (hv : v ∈ st.pq) (K' : List edge)
    (htp : (O ++ [v]).tail.map st.pred = K'.map some)
    (hte : ∀ e ∈ K', G.source e ∈ O ++ [v] ∧ G.target e ∈ O ++ [v])
    (htg : greedy_seq G weight K')
    (htr : ∀ u ∈ O ++ [v], reach G K'.toFinset s u)
    (hro : ∀ u ∈ O ++ [v], Relation.ReflTransGen (pred_step G st.pred (O ++ [v])) u s) :
    prim_inv G weight s
      { st with pq := st.pq.erase v, processed := Function.update st.processed v true }
      (O ++ [v]) K' Sc := by
  have hvO : v ∉ O := fun hc => h.disj v hc hv
  refine ⟨?_, ?_, ?_, ?_, ?_, ?_, ?_, ?_, h.pred_s, h.pred_inc, ?_, ?_, h.unseen, htp, hte,
    htg, htr, hro⟩
  all_goals try dsimp only
  · exact List.Nodup.append h.O_nodup (List.nodup_singleton v) (by simpa using hvO)
  · exact h.pq_nodup.erase v
  · intro u hu hc
    rcases List.mem_append.mp hu with hu | hu
    · exact h.disj u hu (List.mem_of_mem_erase hc)
    · rw [List.mem_singleton.mp hu] at hc
      exact (h.pq_nodup.mem_erase_iff.mp hc).1 rfl
  · intro u hu
    rcases List.mem_append.mp hu with hu | hu
    · exact h.O_nodes u hu
    · rw [List.mem_singleton.mp hu]
      exact h.pq_nodes v hv
  · intro u hu
    exact h.pq_nodes u (List.mem_of_mem_erase hu)
  · intro u
    by_cases huv : u = v
    · subst huv
      simp
    · rw [Function.update_noteq huv, h.processed_iff u]
      simp [huv]
  · intro u
    rw [h.pqpos_iff u, h.pq_nodup.mem_erase_iff]
    by_cases huv : u = v
    · subst huv
      simp [hv]
    · simp [huv]
  · rcases h.start with ⟨h0, h1⟩ | ⟨O', h0⟩
    · rw [h1] at hv
      rw [h0, List.mem_singleton.mp hv]
      exact Or.inr ⟨[], rfl⟩
    · rw [h0]
      exact Or.inr ⟨O' ++ [v], rfl⟩
  · intro a ha
    exact ⟨(h.sc_sound a ha).1, List.mem_append_left _ (h.sc_sound a ha).2⟩
  · intro x hx hxs
    exact h.front x (List.mem_of_mem_erase hx) hxs

/-- Taking a node out of the heap keeps the invariant, with the node added to the
extracted ones and its `pred` edge, if it has one, added to the tree edges. -/
theorem prim_extract_inv {G : Graph} {weight : edge → Int} {s : node}
    {st : prim_state} {O : List node} {K : List edge} {Sc : List adjEntry}
    {extractMin : List node → (node → Int) → node} (hheap : heap_min extractMin)
    (h : prim_inv G weight s st O K Sc) (hc : sc_complete G O Sc) (hpq : st.pq ≠ []) :
    ∃ K', prim_inv G weight s
      { st with pq := st.pq.erase (extractMin st.pq st.prio),
                processed := Function.update st.processed (extractMin st.pq st.prio) true }
      (O ++ [extractMin st.pq st.prio]) K' Sc := by
  have hv := (hheap st.pq st.prio hpq).1
  rcases h.start with ⟨h0, h1⟩ | ⟨O', h0⟩
  · have hvs : extractMin st.pq st.prio = s := by
      rw [h1] at hv ⊢
      exact List.mem_singleton.mp hv
    have hK : K = [] := by
      have := h.tree_pred
      rw [h0] at this
      exact List.map_eq_nil_iff.mp this.symm
    refine ⟨K, prim_extract_inv_aux h _ hv K ?_ ?_ h.tree_greedy ?_ ?_⟩
    · rw [h0, hK]
      rfl
    · rw [hK]
      exact fun e he => absurd he (List.not_mem_nil e)
    · intro u hu
      rw [h0, hvs] at hu
      rw [List.mem_singleton.mp hu]
      exact reach_refl G _ s
    · intro u hu
      rw [h0, hvs] at hu
      rw [List.mem_singleton.mp hu]
  · have hs : s ∈ O := by
      rw [h0]
      exact List.mem_cons_self s O'
    have hvO : extractMin st.pq st.prio ∉ O := fun hc2 => h.disj _ hc2 hv
    obtain ⟨a, ha, e1, e2, e3⟩ := prim_extract_lightest hheap h hc hs hpq
    obtain ⟨haE, haO⟩ := h.sc_sound a ha
    have hj := adj_joins G a
    rw [e1] at hj
    have hKsub : K.toFinset ⊆ (K ++ [a.theEdge]).toFinset := by
      intro x hx
      exact List.mem_toFinset.mpr (List.mem_append_left _ (List.mem_toFinset.mp hx))
    refine ⟨K ++ [a.theEdge], prim_extract_inv_aux h _ hv _ ?_ ?_ ?_ ?_ ?_⟩
    · rw [h0, List.cons_append, List.tail_cons, List.map_append, List.map_append]
      have := h.tree_pred
      rw [h0, List.tail_cons] at this
      rw [this, List.map_singleton, List.map_singleton, e2]
    · intro e he
      rcases List.mem_append.mp he with he | he
      · exact ⟨List.mem_append_left _ (h.tree_ends e he).1,
          List.mem_append_left _ (h.tree_ends e he).2⟩
      · rw [List.mem_singleton.mp he]
        rcases hj with ⟨j1, j2⟩ | ⟨j1, j2⟩
        · rw [j1, j2]
          exact ⟨List.mem_append_left _ haO,
            List.mem_append_right _ (List.mem_singleton_self _)⟩
        · rw [j1, j2]
          exact ⟨List.mem_append_right _ (List.mem_singleton_self _),
            List.mem_append_left _ haO⟩
    · refine greedy_seq.snoc K a.theEdge (fun x => x ∈ O) h.tree_greedy haE
        (crosses_of_joins hj haO hvO) ?_ e3
      intro g hg hgc
      rcases hgc with ⟨_, c2⟩ | ⟨_, c2⟩
      · exact c2 (h.tree_ends g hg).2
      · exact c2 (h.tree_ends g hg).1
    · intro u hu
      rcases List.mem_append.mp hu with hu | hu
      · exact reach_mono hKsub (h.tree_reach u hu)
      · rw [List.mem_singleton.mp hu]
        exact reach_trans (reach_mono hKsub (h.tree_reach _ haO))
          (reach_edge (List.mem_toFinset.mpr
            (List.mem_append_right _ (List.mem_singleton_self _))) hj)
    · intro u hu
      have hmono : ∀ x, x ∈ O → Relation.ReflTransGen
          (pred_step G st.pred (O ++ [extractMin st.pq st.prio])) x s := by
        intro x hx
        refine Relation.ReflTransGen.mono ?_ (h.rooted x hx)
        rintro p q ⟨hp, hq⟩
        exact ⟨List.mem_append_left _ hp, hq⟩
      rcases List.mem_append.mp hu with hu | hu
      · exact hmono u hu
      · rw [List.mem_singleton.mp hu]
        exact Relation.ReflTransGen.head
          ⟨List.mem_append_right _ (List.mem_singleton_self _), a.theEdge, e2, joins_symm hj⟩
          (hmono _ haO)

/-- One pass of the main loop of `computeMinST` keeps the invariant and leaves every
adjacency entry of every extracted node gone through. -/
theorem prim_node_step_inv {G : Graph} {weight : edge → Int} {s : node}
    {st : prim_state} {O : List node} {K : List edge} {Sc : List adjEntry}
    {extractMin : List node → (node → Int) → node} (hwf : G.wf)
    (hheap : heap_min extractMin)
    (h : prim_inv G weight s st O K Sc) (hc : sc_complete G O Sc) (hpq : st.pq ≠ []) :
    ∃ K' Sc', prim_inv G weight s (prim_node_step extractMin G weight st)
        (O ++ [extractMin st.pq st.prio]) K' Sc' ∧
      sc_complete G (O ++ [extractMin st.pq st.prio]) Sc' := by
  obtain ⟨K', h1⟩ := prim_extract_inv hheap h hc hpq
  have hv := (hheap st.pq st.prio hpq).1
  have hvn := h.pq_nodes _ hv
  have hs : s ∈ O ++ [extractMin st.pq st.prio] := by
    rcases h1.start with ⟨h0, _⟩ | ⟨O', h0⟩
    · exact absurd h0 (by simp)
    · rw [h0]
      exact List.mem_cons_self s O'
  have hA : ∀ a ∈ G.adj (extractMin st.pq st.prio),
      a.theEdge ∈ G.edges ∧ G.theNode a ∈ O ++ [extractMin st.pq st.prio] := by
    intro a ha
    obtain ⟨a1, a2⟩ := (hwf.adj_iff _ hvn a).mp ha
    exact ⟨a1, List.mem_append_right _ (List.mem_singleton.mpr a2)⟩
  refine ⟨K', Sc ++ G.adj (extractMin st.pq st.prio),
    prim_adj_fold_inv hwf hs _ _ _ h1 hA, ?_⟩
  intro a haE haO
  rcases List.mem_append.mp haO with h2 | h2
  · exact List.mem_append_left _ (hc a haE h2)
  · exact List.mem_append_right _
      ((hwf.adj_iff _ hvn a).mpr ⟨haE, List.mem_singleton.mp h2⟩)

/-- The state before the main loop of `computeMinST` satisfies the invariant. -/
theorem prim_init_inv (G : Graph) (weight : edge → Int) (s : node) (hs : s ∈ G.nodes) :
    prim_inv G weight s
      { pq := [s], prio := fun _ => 0, pqpos := Function.update (fun _ => -1) s 1,
        processed := fun _ => false, pred := fun _ => none } [] [] [] := by
  refine ⟨List.nodup_nil, List.nodup_singleton s, ?_, ?_, ?_, ?_, ?_, Or.inl ⟨rfl, rfl⟩, rfl,
    ?_, ?_, ?_, ?_, rfl, ?_, greedy_seq.nil, ?_, ?_⟩
  all_goals try dsimp only
  · exact fun v hv => absurd hv (List.not_mem_nil v)
  · exact fun v hv => absurd hv (List.not_mem_nil v)
  · intro v hv
    rw [List.mem_singleton.mp hv]
    exact hs
  · intro v
    simp
  · intro v
    by_cases hvs : v = s
    · subst hvs
      simp
    · rw [Function.update_noteq hvs]
      simp [hvs]
  · intro v e hve
    simp at hve
  · exact fun a ha => absurd ha (List.not_mem_nil a)
  · intro x hx hxs
    exact absurd (List.mem_singleton.mp hx) hxs
  · intro x _
    exact ⟨rfl, fun a ha => absurd ha (List.not_mem_nil a)⟩
  · exact fun e he => absurd he (List.not_mem_nil e)
  · exact fun v hv => absurd hv (List.not_mem_nil v)
  · exact fun v hv => absurd hv (List.not_mem_nil v)

/-- With one pass for every node not yet extracted, the main loop of `computeMinST`
ends with an empty heap, and the invariant holds at the end. -/
theorem prim_loop_inv {G : Graph} {weight : edge → Int} {s : node}
    {extractMin : List node → (node → Int) → node} (hwf : G.wf)
    (hheap : heap_min extractMin) :
    ∀ (fuel : Nat) (st : prim_state) (O : List node) (K : List edge) (Sc : List adjEntry),
      prim_inv G weight s st O K Sc → sc_complete G O Sc →
      G.nodes.length ≤ fuel + O.length →
      ∃ st' O' K' Sc', prim_loop extractMin G weight fuel st = some st' ∧
        prim_inv G weight s st' O' K' Sc' ∧ sc_complete G O' Sc' ∧ st'.pq = [] := by
  have hroom : ∀ (st : prim_state) (O : List node) (K : List edge) (Sc : List adjEntry),
      prim_inv G weight s st O K Sc → st.pq ≠ [] → O.length + 1 ≤ G.nodes.length := by
    intro st O K Sc h hpq
    obtain ⟨v, hv⟩ := List.exists_mem_of_ne_nil _ hpq
    have hnd : (v :: O).Nodup := List.nodup_cons.mpr ⟨fun hc => h.disj v hc hv, h.O_nodup⟩
    have hsub : v :: O ⊆ G.nodes := by
      intro x hx
      rcases List.mem_cons.mp hx with hx | hx
      · rw [hx]
        exact h.pq_nodes v hv
      · exact h.O_nodes x hx
    have := (hnd.subperm hsub).length_le
    simpa using this
  intro fuel
  induction fuel with
  | zero =>
    intro st O K Sc h hc hlen
    by_cases hpq : st.pq = []
    · refine ⟨st, O, K, Sc, ?_, h, hc, hpq⟩
      simp [prim_loop, hpq]
    · have := hroom st O K Sc h hpq
      omega
  | succ n ih =>
    intro st O K Sc h hc hlen
    by_cases hpq : st.pq = []
    · refine ⟨st, O, K, Sc, ?_, h, hc, hpq⟩
      simp [prim_loop, hpq]
    · obtain ⟨K', Sc', h1, hc1⟩ := prim_node_step_inv hwf hheap h hc hpq
      have hlen1 : G.nodes.length ≤ n + (O ++ [extractMin st.pq st.prio]).length := by
        rw [List.length_append, List.length_singleton]
        omega
      obtain ⟨st', O', K2, Sc2, e1, e2, e3, e4⟩ := ih _ _ _ _ h1 hc1 hlen1
      refine ⟨st', O', K2, Sc2, ?_, e2, e3, e4⟩
      rw [← e1]
      simp [prim_loop, hpq]

/-- What the final loop of `computeMinST` computes from the array `pred`. -/
theorem minst_fold (weight : edge → Int) (pred : node → Option edge) (L : List node) :
    ∀ acc : Int × Int × (edge → Bool),
      (L.foldl (minst_step weight pred) acc).1
        = acc.1 + (L.countP (fun v => (pred v).isNone) : Nat) ∧
      (L.foldl (minst_step weight pred) acc).2.1
        = ((L.filterMap pred).map weight).foldl (fun a x => wrap_int (a + x)) acc.2.1 ∧
      ∀ e, (L.foldl (minst_step weight pred) acc).2.2 e = true ↔
        (acc.2.2 e = true ∨ ∃ v ∈ L, pred v = some e) := by
  induction L with
  | nil =>
    intro acc
    simp
  | cons v L ih =>
    intro acc
    obtain ⟨i1, i2, i3⟩ := ih (minst_step weight pred acc v)
    simp only [List.foldl_cons]
    rw [i1, i2]
    cases hp : pred v with
    | none =>
      refine ⟨?_, ?_, ?_⟩
      · simp only [minst_step, hp, List.countP_cons, Option.isNone_none, if_true]
        push_cast
        omega
      · simp only [minst_step, hp, List.filterMap_cons]
      · intro e
        rw [i3 e]
        simp only [minst_step, hp, List.mem_cons]
        constructor
        · rintro (h | ⟨u, hu, hue⟩)
          · exact Or.inl h
          · exact Or.inr ⟨u, Or.inr hu, hue⟩
        · rintro (h | ⟨u, hu | hu, hue⟩)
          · exact Or.inl h
          · rw [hu, hp] at hue
            cases hue
          · exact Or.inr ⟨u, hu, hue⟩
    | some e0 =>
      refine ⟨?_, ?_, ?_⟩
      · simp [minst_step, hp, List.countP_cons]
      · simp only [minst_step, hp, List.filterMap_cons, List.map_cons, List.foldl_cons]
      · intro e
        rw [i3 e]
        simp only [minst_step, hp, List.mem_cons]
        by_cases hee : e = e0
        · subst hee
          simp only [Function.update_same, true_or, true_iff]
          exact Or.inr ⟨v, Or.inl rfl, hp⟩
        · rw [Function.update_noteq hee]
          constructor
          · rintro (h | ⟨u, hu, hue⟩)
            · exact Or.inl h
            · exact Or.inr ⟨u, Or.inr hu, hue⟩
          · rintro (h | ⟨u, hu | hu, hue⟩)
            · exact Or.inl h
            · rw [hu, hp] at hue
              cases hue
              exact absurd rfl hee
            · exact Or.inr ⟨u, hu, hue⟩

end ogdf

/-! ## OGDF: the result of `computeMinST` -/

namespace ogdf

/-- Two nodes joined by a walk are equal or are both nodes of the graph. -/
theorem reach_nodes {G : Graph} (hwf : G.wf) {a b : node}
    (h : reach G G.edges.toFinset a b) : a = b ∨ (a ∈ G.nodes ∧ b ∈ G.nodes) := by
  have hstep : ∀ x y, (∃ e ∈ G.edges.toFinset, joins G e x y) →
      x ∈ G.nodes ∧ y ∈ G.nodes := by
    rintro x y ⟨e, he, hj⟩
    have heE := List.mem_toFinset.mp he
    rcases hj with ⟨h1, h2⟩ | ⟨h1, h2⟩
    · exact ⟨h1 ▸ hwf.source_mem e heE, h2 ▸ hwf.target_mem e heE⟩
    · exact ⟨h2 ▸ hwf.target_mem e heE, h1 ▸ hwf.source_mem e heE⟩
  induction h with
  | refl => exact Or.inl rfl
  | @tail c d _ hcd ih =>
    have h2 := hstep c d hcd
    rcases ih with ih | ih
    · exact Or.inr ⟨ih ▸ h2.1, h2.2⟩
    · exact Or.inr ⟨ih.1, h2.2⟩

theorem filterMap_of_map_some {α β : Type} (f : α → Option β) :
    ∀ (L : List α) (K : List β), L.map f = K.map some → L.filterMap f = K := by
  intro L
  induction L with
  | nil =>
    intro K h
    cases K with
    | nil => rfl
    | cons k K => simp at h
  | cons x L ih =>
    intro K h
    cases K with
    | nil => simp at h
    | cons k K =>
      simp only [List.map_cons, List.cons.injEq] at h
      rw [List.filterMap_cons, h.1, ih K h.2]

/-- At the end of the main loop of `computeMinST` on a connected graph every node has
been extracted. -/
theorem prim_final_all {G : Graph} {weight : edge → Int} {s : node} {st : prim_state}
    {O : List node} {K : List edge} {Sc : List adjEntry} (hconn : connected G)
    (hs : s ∈ G.nodes) (h : prim_inv G weight s st O K Sc) (hc : sc_complete G O Sc)
    (hpq : st.pq = []) : ∃ O', O = s :: O' ∧ ∀ x ∈ G.nodes, x ∈ O := by
  rcases h.start with ⟨_, h1⟩ | ⟨O', h0⟩
  · rw [hpq] at h1
    cases h1
  · refine ⟨O', h0, ?_⟩
    have hsO : s ∈ O := by
      rw [h0]
      exact List.mem_cons_self s O'
    intro x hx
    by_contra hxO
    obtain ⟨g, hg, hgc⟩ := reach_crosses (fun y => y ∈ O) (hconn s hs x hx) hsO hxO
    obtain ⟨b, hb1, hb2, hb3⟩ := crosses_entry hgc
    have hbSc : b ∈ Sc := hc b (hb1 ▸ List.mem_toFinset.mp hg) hb2
    have hpos : st.pqpos (G.twinNode b) ≠ -1 := fun hc2 => (h.unseen _ hc2).2 b hbSc rfl
    rcases (h.pqpos_iff _).mp hpos with h2 | h2
    · exact hb3 h2
    · rw [hpq] at h2
      exact absurd h2 (List.not_mem_nil _)

/-- The run of `computeMinST` on a connected graph: the call returns, the extracted
nodes `s :: O'` are all nodes of `G`, and the `pred` edges `K` of the nodes `O'` were
added greedily and connect `G`. -/
theorem computeMinST_run {G : Graph} {weight : edge → Int} {s : node}
    {extractMin : List node → (node → Int) → node} (hwf : G.wf)
    (hheap : heap_min extractMin) (hs : s ∈ G.nodes) (hconn : connected G) :
    ∃ (r : minst_result) (K : List edge) (O' : List node),
      computeMinST extractMin s G weight = some r ∧
      List.Perm (s :: O') G.nodes ∧
      O'.map r.pred = K.map some ∧
      r.pred s = none ∧
      (∀ v e, r.pred v = some e → e ∈ G.edges ∧ (G.source e = v ∨ G.target e = v)) ∧
      greedy_seq G weight K ∧
      spans G K.toFinset ∧
      (∀ v ∈ G.nodes, Relation.ReflTransGen (pred_step G r.pred G.nodes) v s) ∧
      r.rootcount = 1 ∧
      (weights_fit G weight → r.treeWeight = (K.map weight).sum) ∧
      (∀ e, r.isInTree e = true ↔ ∃ v ∈ G.nodes, r.pred v = some e) := by
  obtain ⟨st, O, K, Sc, hloop, h, hc, hpq⟩ :=
    prim_loop_inv hwf hheap G.nodes.length _ [] [] [] (prim_init_inv G weight s hs)
      (fun a _ ha => absurd ha (List.not_mem_nil _)) (by simp)
  obtain ⟨O', hO, hall⟩ := prim_final_all hconn hs h hc hpq
  have hperm : List.Perm (s :: O') G.nodes := by
    rw [← hO]
    refine (List.perm_ext_iff_of_nodup h.O_nodup hwf.nodes_nodup).mpr ?_
    exact fun x => ⟨h.O_nodes x, hall x⟩
  have htp : O'.map st.pred = K.map some := by
    have := h.tree_pred
    rw [hO, List.tail_cons] at this
    exact this
  obtain ⟨f1, f2, f3⟩ := minst_fold weight st.pred G.nodes (0, 0, fun _ => false)
  refine ⟨⟨st.pred, (G.nodes.foldl (minst_step weight st.pred) (0, 0, fun _ => false)).2.2,
    (G.nodes.foldl (minst_step weight st.pred) (0, 0, fun _ => false)).1,
    (G.nodes.foldl (minst_step weight st.pred) (0, 0, fun _ => false)).2.1⟩, K, O', ?_,
    hperm, htp, h.pred_s, h.pred_inc, h.tree_greedy, ?_, ?_, ?_, ?_, ?_⟩
  · unfold computeMinST
    rw [hloop]
  · intro a b hab
    rcases reach_nodes hwf hab with h1 | ⟨h1, h2⟩
    · rw [h1]
      exact reach_refl G _ b
    · exact reach_trans (reach_symm (h.tree_reach a (hall a h1))) (h.tree_reach b (hall b h2))
  · intro v hv
    refine Relation.ReflTransGen.mono ?_ (h.rooted v (hall v hv))
    rintro p q ⟨hp, hq⟩
    exact ⟨h.O_nodes p hp, hq⟩
  · show (G.nodes.foldl (minst_step weight st.pred) (0, 0, fun _ => false)).1 = 1
    rw [f1, ← hperm.countP_eq, List.countP_cons]
    have h0 : O'.countP (fun v => (st.pred v).isNone) = 0 := by
      rw [List.countP_eq_zero]
      intro v hv
      have hm : st.pred v ∈ K.map some := htp ▸ List.mem_map_of_mem st.pred hv
      obtain ⟨e, _, he⟩ := List.mem_map.mp hm
      rw [← he]
      simp
    rw [h0, h.pred_s]
    simp
  · intro hfit
    show (G.nodes.foldl (minst_step weight st.pred) (0, 0, fun _ => false)).2.1 = _
    rw [f2]
    have hK : (s :: O').filterMap st.pred = K := by
      rw [List.filterMap_cons, h.pred_s, filterMap_of_map_some st.pred O' K htp]
    have hp1 : List.Perm K (G.nodes.filterMap st.pred) := by
      rw [← hK]
      exact hperm.filterMap st.pred
    have hb : (K.map (fun e => |weight e|)).sum ≤ (G.edges.map (fun e => |weight e|)).sum :=
      sum_abs_le_of_subset weight (greedy_acyclic h.tree_greedy).1 hwf.edges_nodup
        (fun e he => greedy_seq_mem h.tree_greedy e he)
    have hb2 : (((G.nodes.filterMap st.pred).map weight).map (fun x => |x|)).sum
        = (K.map (fun e => |weight e|)).sum := by
      rw [List.map_map]
      exact ((hp1.map (fun e => |weight e|)).sum_eq).symm
    unfold weights_fit at hfit
    rw [foldl_wrap_eq_sum _ 0 (by rw [hb2, abs_zero]; omega), zero_add]
    exact ((hp1.map weight).sum_eq).symm
  · intro e
    show (G.nodes.foldl (minst_step weight st.pred) (0, 0, fun _ => false)).2.2 e = true ↔ _
    rw [f3 e]
    simp

/-- The edges marked in `isInTree` are the `pred` edges listed in `K`. -/
theorem minst_tree_eq {G : Graph} {weight : edge → Int} {s : node} {r : minst_result}
    {K : List edge} {O' : List node} (hperm : List.Perm (s :: O') G.nodes)
    (htp : O'.map r.pred = K.map some) (hps : r.pred s = none)
    (hg : greedy_seq G weight K)
    (hin : ∀ e, r.isInTree e = true ↔ ∃ v ∈ G.nodes, r.pred v = some e) :
    r.tree G = K.toFinset := by
  ext e
  simp only [minst_result.tree, List.mem_toFinset, List.mem_filter]
  constructor
  · rintro ⟨_, h2⟩
    obtain ⟨v, hv, hve⟩ := (hin e).mp h2
    have hv2 : v ∈ s :: O' := hperm.mem_iff.mpr hv
    rcases List.mem_cons.mp hv2 with h3 | h3
    · rw [h3, hps] at hve
      cases hve
    · have hm : r.pred v ∈ K.map some := htp ▸ List.mem_map_of_mem r.pred h3
      obtain ⟨e2, he2, he3⟩ := List.mem_map.mp hm
      rw [hve] at he3
      cases he3
      exact he2
  · intro he
    refine ⟨greedy_seq_mem hg e he, (hin e).mpr ?_⟩
    have hm : some e ∈ O'.map r.pred := htp ▸ List.mem_map_of_mem some he
    obtain ⟨v, hv, hve⟩ := List.mem_map.mp hm
    exact ⟨v, hperm.mem_iff.mp (List.mem_cons_of_mem s hv), hve⟩

/-- The method `first_min` takes a node of least priority out of the heap. -/
theorem first_min_heap : heap_min first_min := by
  have key : ∀ (prio : node → Int) (L : List node) (b : node),
      (L.foldl (fun b x => if prio x < prio b then x else b) b ∈ b :: L) ∧
      prio (L.foldl (fun b x => if prio x < prio b then x else b) b) ≤ prio b ∧
      ∀ x ∈ L, prio (L.foldl (fun b x => if prio x < prio b then x else b) b) ≤ prio x := by
    intro prio L
    induction L with
    | nil =>
      intro b
      simp
    | cons y L ih =>
      intro b
      simp only [List.foldl_cons]
      by_cases hc : prio y < prio b
      · rw [if_pos hc]
        obtain ⟨i1, i2, i3⟩ := ih y
        refine ⟨?_, by omega, ?_⟩
        · rcases List.mem_cons.mp i1 with h | h
          · rw [h]
            exact List.mem_cons_of_mem b (List.mem_cons_self y L)
          · exact List.mem_cons_of_mem b (List.mem_cons_of_mem y h)
        · intro x hx
          rcases List.mem_cons.mp hx with h | h
          · rw [h]
            exact i2
          · exact i3 x h
      · rw [if_neg hc]
        obtain ⟨i1, i2, i3⟩ := ih b
        refine ⟨?_, i2, ?_⟩
        · rcases List.mem_cons.mp i1 with h | h
          · rw [h]
            exact List.mem_cons_self b _
          · exact List.mem_cons_of_mem b (List.mem_cons_of_mem y h)
        · intro x hx
          rcases List.mem_cons.mp hx with h | h
          · rw [h]
            omega
          · exact i3 x h
  intro pq prio hpq
  cases pq with
  | nil => exact absurd rfl hpq
  | cons b L =>
    obtain ⟨k1, _, k3⟩ := key prio (b :: L) b
    have hd : (b :: L).headD 0 = b := rfl
    unfold first_min
    rw [hd]
    refine ⟨?_, k3⟩
    rcases List.mem_cons.mp k1 with h | h
    · rw [h]
      exact List.mem_cons_self b L
    · exact h

/-- The graph `sample_net` is well formed. -/
theorem sample_net_wf : sample_net.wf := by
  refine ⟨by decide, by decide, by decide, by decide, ?_⟩
  intro v hv a
  rcases a with ⟨e, b⟩
  have hv' : v = 0 ∨ v = 1 ∨ v = 2 ∨ v = 3 := by simpa [sample_net] using hv
  rcases e with _ | _ | _ | _ | _ | e <;> rcases hv' with h | h | h | h <;> subst h <;>
    cases b <;> simp [sample_net, Graph.theNode]

/-- The graph `sample_net` is connected. -/
theorem sample_net_connected : connected sample_net := by
  have h01 : reach sample_net sample_net.edges.toFinset 0 1 :=
    reach_edge (e := 0) (by decide) (Or.inl ⟨rfl, rfl⟩)
  have h02 : reach sample_net sample_net.edges.toFinset 0 2 :=
    reach_edge (e := 2) (by decide) (Or.inl ⟨rfl, rfl⟩)
  have h23 : reach sample_net sample_net.edges.toFinset 2 3 :=
    reach_edge (e := 3) (by decide) (Or.inl ⟨rfl, rfl⟩)
  have h0 : ∀ x ∈ sample_net.nodes, reach sample_net sample_net.edges.toFinset 0 x := by
    intro x hx
    have hx' : x = 0 ∨ x = 1 ∨ x = 2 ∨ x = 3 := by simpa [sample_net] using hx
    rcases hx' with h | h | h | h <;> subst h
    · exact reach_refl _ _ _
    · exact h01
    · exact h02
    · exact reach_trans h02 h23
  intro a ha b hb
  exact reach_trans (reach_symm (h0 a ha)) (h0 b hb)

/-- The edges `0, 1, 3` of `sample_net`, a path through all four nodes, form a spanning
tree. -/
theorem sample_path_forest : spanning_forest sample_net {0, 1, 3} := by
  have hcut : ∀ (S : node → Prop) (T : Finset edge) (a b : node), S a → ¬ S b →
      (∀ g ∈ T, ¬ crosses sample_net S g) → ¬ reach sample_net T a b := by
    intro S T a b ha hb hno hr
    obtain ⟨g, hg, hgc⟩ := reach_crosses S hr ha hb
    exact hno g hg hgc
  have h01 : reach sample_net {0, 1, 3} 0 1 :=
    reach_edge (e := 0) (by decide) (Or.inl ⟨rfl, rfl⟩)
  have h12 : reach sample_net {0, 1, 3} 1 2 :=
    reach_edge (e := 1) (by decide) (Or.inl ⟨rfl, rfl⟩)
  have h23 : reach sample_net {0, 1, 3} 2 3 :=
    reach_edge (e := 3) (by decide) (Or.inl ⟨rfl, rfl⟩)
  have h0 : ∀ x ∈ sample_net.nodes, reach sample_net {0, 1, 3} 0 x := by
    intro x hx
    have hx' : x = 0 ∨ x = 1 ∨ x = 2 ∨ x = 3 := by simpa [sample_net] using hx
    rcases hx' with h | h | h | h <;> subst h
    · exact reach_refl _ _ _
    · exact h01
    · exact reach_trans h01 h12
    · exact reach_trans h01 (reach_trans h12 h23)
  refine ⟨by decide, ?_, ?_⟩
  · intro a b hab
    rcases reach_nodes sample_net_wf hab with h | ⟨h1, h2⟩
    · rw [h]
      exact reach_refl _ _ b
    · exact reach_trans (reach_symm (h0 a h1)) (h0 b h2)
  · intro e he
    have he' : e = 0 ∨ e = 1 ∨ e = 3 := by simpa using he
    rcases he' with h | h | h <;> subst h
    · refine hcut (fun x => x = 0) _ _ _ (by decide) (by decide) ?_
      intro g hg
      have hg' : g = 1 ∨ g = 3 := by
        have : g ∈ ({1, 3} : Finset edge) := hg
        simpa using this
      rcases hg' with h | h <;> subst h <;> simp [crosses, sample_net]
    · refine hcut (fun x => x = 0 ∨ x = 1) _ _ _ (by decide) (by decide) ?_
      intro g hg
      have hg' : g = 0 ∨ g = 3 := by
        have : g ∈ ({0, 3} : Finset edge) := hg
        simpa using this
      rcases hg' with h | h <;> subst h <;> simp [crosses, sample_net]
    · refine hcut (fun x => x ≠ 3) _ _ _ (by decide) (by decide) ?_
      intro g hg
      have hg' : g = 0 ∨ g = 1 := by
        have : g ∈ ({0, 1} : Finset edge) := hg
        simpa using this
      rcases hg' with h | h <;> subst h <;> simp [crosses, sample_net]

end ogdf

namespace ogdf

/-- C27: on a well-formed connected graph `G` with start node `s`, `int` weights and a
heap that hands out a node of least priority, `computeMinST` returns; `pred[s]` is null
and every other node has a `pred` edge of `G` incident to it, so that `rootcount` is `1`;
`isInTree[e]` is true exactly for the `pred` edges; these edges form a spanning tree of
`G` (they connect all nodes, none of them lies on a cycle, and there is one less of them
than there are nodes) in which the `pred` edges lead from every node to `s`; and if the
absolute values of the weights add up to less than `2^31`, the returned value is the sum
of the weights of the edges with `isInTree[e]` true. -/
theorem computeMinST_tree (extractMin : List node → (node → Int) → node) (s : node)
    (G : Graph) (weight : edge → Int) (hwf : G.wf) (hheap : heap_min extractMin)
    (hs : s ∈ G.nodes) (hconn : connected G) :
    ∃ r, computeMinST extractMin s G weight = some r ∧
      r.pred s = none ∧
      (∀ v ∈ G.nodes, v ≠ s →
        ∃ e ∈ G.edges, r.pred v = some e ∧ (G.source e = v ∨ G.target e = v)) ∧
      r.rootcount = 1 ∧
      (∀ e, r.isInTree e = true ↔ ∃ v ∈ G.nodes, r.pred v = some e) ∧
      spanning_forest G (r.tree G) ∧
      (∀ a ∈ G.nodes, ∀ b ∈ G.nodes, reach G (r.tree G) a b) ∧
      (r.tree G).card + 1 = G.nodes.length ∧
      (∀ v ∈ G.nodes, Relation.ReflTransGen (pred_step G r.pred G.nodes) v s) ∧
      (weights_fit G weight → r.treeWeight = total_weight weight (r.tree G)) := by
  obtain ⟨r, K, O', h1, hperm, htp, hps, hinc, hg, hsp, hroot, hrc, htw, hin⟩ :=
    @computeMinST_run G weight s extractMin hwf hheap hs hconn
  have hT : r.tree G = K.toFinset := minst_tree_eq hperm htp hps hg hin
  refine ⟨r, h1, hps, ?_, hrc, hin, ?_, ?_, ?_, hroot, ?_⟩
  · intro v hv hvs
    have hv2 : v ∈ s :: O' := hperm.mem_iff.mpr hv
    rcases List.mem_cons.mp hv2 with h3 | h3
    · exact absurd h3 hvs
    · have hm : r.pred v ∈ K.map some := htp ▸ List.mem_map_of_mem r.pred h3
      obtain ⟨e, _, he⟩ := List.mem_map.mp hm
      exact ⟨e, (hinc v e he.symm).1, he.symm, (hinc v e he.symm).2⟩
  · rw [hT]
    exact greedy_forest hg hsp
  · intro a ha b hb
    rw [hT]
    exact hsp a b (hconn a ha b hb)
  · rw [hT, List.toFinset_card_of_nodup (greedy_acyclic hg).1]
    have hl1 : O'.length = K.length := by
      have := congrArg List.length htp
      simpa using this
    have hl2 := hperm.length_eq
    rw [List.length_cons] at hl2
    omega
  · intro hfit
    rw [htw hfit, hT]
    exact (List.sum_toFinset weight (greedy_acyclic hg).1).symm

/-- An instance of `computeMinST_tree`: the graph `sample_net`, whose weights add up to
`15`, from the start node `0`. -/
theorem computeMinST_tree_witness :
    weights_fit sample_net sample_weight ∧
    ∃ r, computeMinST first_min 0 sample_net sample_weight = some r ∧
      r.pred 0 = none ∧ r.rootcount = 1 ∧ spanning_forest sample_net (r.tree sample_net) ∧
      r.treeWeight = total_weight sample_weight (r.tree sample_net) := by
  obtain ⟨r, h1, h2, _, h4, _, h6, _, _, _, h10⟩ :=
    computeMinST_tree first_min 0 sample_net sample_weight sample_net_wf first_min_heap
      (by decide) sample_net_connected
  exact ⟨by decide, r, h1, h2, h4, h6, h10 (by decide)⟩

/-- C27, the returned value: on `sample_net`, a well-formed connected graph, with every
edge weighing `2000000000` the three edges of the tree weigh `6000000000` together, and
the sum kept in an `int` comes back as `1705032704`. -/
theorem computeMinST_sum_counterexample :
    sample_net.wf ∧ connected sample_net ∧ heap_min first_min ∧
    ∃ r, computeMinST first_min 0 sample_net sample_heavy = some r ∧
      total_weight sample_heavy (r.tree sample_net) = 6000000000 ∧
      r.treeWeight = 1705032704 := by
  refine ⟨sample_net_wf, sample_net_connected, first_min_heap, ?_⟩
  obtain ⟨r, h1, _, _, _, _, _, _, h8, _, _⟩ :=
    computeMinST_tree first_min 0 sample_net sample_heavy sample_net_wf first_min_heap
      (by decide) sample_net_connected
  have h3 : (computeMinST first_min 0 sample_net sample_heavy).map
      (fun r => r.treeWeight) = some 1705032704 := by decide
  rw [h1] at h3
  refine ⟨r, h1, ?_, by simpa using h3⟩
  have hc : (r.tree sample_net).card = 3 := by
    have : sample_net.nodes.length = 4 := rfl
    omega
  unfold total_weight sample_heavy
  rw [Finset.sum_const, hc]
  rfl

/-- C28: on a well-formed connected graph `G` with `int` weights and a heap that hands
out a node of least priority, `computeMinST` returns, and no spanning tree of `G` weighs
less than the tree it computes; if the absolute values of the weights add up to less than
`2^31`, no spanning tree of `G` weighs less than the value it returns. -/
theorem computeMinST_minimum (extractMin : List node → (node → Int) → node) (s : node)
    (G : Graph) (weight : edge → Int) (hwf : G.wf) (hheap : heap_min extractMin)
    (hs : s ∈ G.nodes) (hconn : connected G) :
    ∃ r, computeMinST extractMin s G weight = some r ∧
      (∀ T, spanning_forest G T →
        total_weight weight (r.tree G) ≤ total_weight weight T) ∧
      (weights_fit G weight →
        ∀ T, spanning_forest G T → r.treeWeight ≤ total_weight weight T) := by
  obtain ⟨r, K, O', h1, hperm, htp, hps, _, hg, hsp, _, _, htw, hin⟩ :=
    @computeMinST_run G weight s extractMin hwf hheap hs hconn
  have hT : r.tree G = K.toFinset := minst_tree_eq hperm htp hps hg hin
  refine ⟨r, h1, ?_, ?_⟩
  · intro T hF
    rw [hT]
    unfold total_weight
    rw [List.sum_toFinset weight (greedy_acyclic hg).1]
    exact greedy_min hg hsp T hF
  · intro hfit T hF
    rw [htw hfit]
    exact greedy_min hg hsp T hF

/-- An instance of `computeMinST_minimum`: on `sample_net`, whose weights add up to `15`,
the call returns `6`, which is not more than the weight of the spanning tree with the
edges `0, 1, 3`, and the tree it computes is not heavier either. -/
theorem computeMinST_minimum_witness :
    weights_fit sample_net sample_weight ∧
    ∃ r, computeMinST first_min 0 sample_net sample_weight = some r ∧ r.treeWeight = 6 ∧
      total_weight sample_weight (r.tree sample_net) ≤ total_weight sample_weight {0, 1, 3} ∧
      r.treeWeight ≤ total_weight sample_weight {0, 1, 3} := by
  obtain ⟨r, h1, h2, h4⟩ :=
    computeMinST_minimum first_min 0 sample_net sample_weight sample_net_wf first_min_heap
      (by decide) sample_net_connected
  have h3 : (computeMinST first_min 0 sample_net sample_weight).map
      (fun r => r.treeWeight) = some 6 := by decide
  rw [h1] at h3
  exact ⟨by decide, r, h1, by simpa using h3, h2 _ sample_path_forest,
    h4 (by decide) _ sample_path_forest⟩

/-- C28, the returned value: on `sample_net`, a well-formed connected graph, with every
edge weighing `-2000000000` the spanning tree with the edges `0, 1, 3` weighs
`-6000000000`, which is less than the value `-1705032704` the call returns. -/
theorem computeMinST_minimum_counterexample :
    sample_net.wf ∧ connected sample_net ∧ heap_min first_min ∧
    spanning_forest sample_net {0, 1, 3} ∧
    ∃ r, computeMinST first_min 0 sample_net sample_deep = some r ∧
      r.treeWeight = -1705032704 ∧
      total_weight sample_deep {0, 1, 3} < r.treeWeight := by
  refine ⟨sample_net_wf, sample_net_connected, first_min_heap, sample_path_forest, ?_⟩
  have h3 : (computeMinST first_min 0 sample_net sample_deep).map
      (fun r => r.treeWeight) = some (-1705032704) := by decide
  cases hr : computeMinST first_min 0 sample_net sample_deep with
  | none =>
    rw [hr] at h3
    cases h3
  | some r =>
    rw [hr] at h3
    have h4 : r.treeWeight = -1705032704 := by simpa using h3
    refine ⟨r, rfl, h4, ?_⟩
    rw [h4]
    decide

end ogdf

/-! ## OGDF: the loop of `makeMinimumSpanningTree` -/

namespace ogdf

theorem toFinset_snoc (K : List edge) (e : edge) :
    (K ++ [e]).toFinset = insert e K.toFinset := by
  ext x
  simp only [List.mem_toFinset, List.mem_append, List.mem_singleton, Finset.mem_insert]
  exact Or.comm

/-- The history part of the invariant of `makeMinimumSpanningTree` after one more
edge. -/
theorem kruskal_history {G0 : Graph} {D K K' : List edge} {e0 : edge}
    (hKD : ∀ e ∈ K, e ∈ D)
    (hold : ∀ (i : Nat) (e : Nat), D[i]? = some e →
      (e ∈ K ↔ ¬ reach G0 ((D.take i).filter (fun x => decide (x ∈ K))).toFinset
        (G0.source e) (G0.target e)))
    (hsame : ∀ x ∈ D, (x ∈ K' ↔ x ∈ K))
    (hnew : e0 ∈ K' ↔ ¬ reach G0 K.toFinset (G0.source e0) (G0.target e0)) :
    ∀ (i : Nat) (e : Nat), (D ++ [e0])[i]? = some e →
      (e ∈ K' ↔ ¬ reach G0 (((D ++ [e0]).take i).filter (fun x => decide (x ∈ K'))).toFinset
        (G0.source e) (G0.target e)) := by
  intro i e hie
  by_cases hi : i < D.length
  · rw [List.getElem?_append_left hi] at hie
    have heD : e ∈ D := List.getElem?_mem hie
    have htake : (D ++ [e0]).take i = D.take i :=
      List.take_append_of_le_length (Nat.le_of_lt hi)
    have hfil : (D.take i).filter (fun x => decide (x ∈ K'))
        = (D.take i).filter (fun x => decide (x ∈ K)) := by
      apply List.filter_congr
      intro x hx
      have := hsame x (List.mem_of_mem_take hx)
      simp only [this]
    rw [htake, hfil, hsame e heD]
    exact hold i e hie
  · have hi2 : D.length ≤ i := Nat.le_of_not_lt hi
    rw [List.getElem?_append_right hi2] at hie
    have hi3 : i - D.length = 0 := by
      by_contra hc
      have : 1 ≤ i - D.length := Nat.one_le_iff_ne_zero.mpr hc
      rw [List.getElem?_eq_none (by simpa using this)] at hie
      cases hie
    rw [hi3] at hie
    have hee : e = e0 := by
      simp at hie
      exact hie.symm
    have hi4 : i = D.length := by omega
    have htake : (D ++ [e0]).take i = D := by
      rw [hi4]
      exact List.take_left' rfl
    have hfin : ((D.filter (fun x => decide (x ∈ K')))).toFinset = K.toFinset := by
      ext x
      simp only [List.mem_toFinset, List.mem_filter, decide_eq_true_eq]
      constructor
      · rintro ⟨h1, h2⟩
        exact (hsame x h1).mp h2
      · intro h
        exact ⟨hKD x h, (hsame x (hKD x h)).mpr h⟩
    rw [htake, hfin, hee]
    exact hnew

/-- One pass of the loop over the sorted edges keeps the invariant, provided the edge is
new and no edge still to come is lighter. -/
theorem kruskal_step_inv {G0 : Graph} {weight : edge → Int} {st : kruskal_state}
    {D K : List edge} (hwf : G0.wf) (h : kruskal_inv G0 weight st D K) (e0 : edge)
    (w0 : Int) (he0 : e0 ∈ G0.edges) (hD : e0 ∉ D)
    (hlight : ∀ f ∈ G0.edges, f ∉ D → weight e0 ≤ weight f) :
    ∃ K', kruskal_inv G0 weight
      (kruskal_step (fun v => G0.nodes.indexOf v) weight st (e0, w0)) (D ++ [e0]) K' := by
  have hu0 := hwf.source_mem e0 he0
  have hv0 := hwf.target_mem e0 he0
  have he0K : e0 ∉ K := fun hc => hD (h.kept_sub e0 hc)
  by_cases hc : st.uf (G0.nodes.indexOf (G0.source e0))
      = st.uf (G0.nodes.indexOf (G0.target e0))
  · -- the ends are connected already: the edge is deleted
    have hr : reach G0 K.toFinset (G0.source e0) (G0.target e0) :=
      (h.uf_iff _ hu0 _ hv0).mp hc
    have hst : kruskal_step (fun v => G0.nodes.indexOf v) weight st (e0, w0)
        = { st with G := st.G.delEdge e0 } := by
      unfold kruskal_step
      simp only [h.source_eq, h.target_eq, hc, ne_eq, not_true_eq_false, if_false]
    rw [hst]
    refine ⟨K, h.nodes_eq, h.source_eq, h.target_eq, ?_, ?_, ?_, h.greedy, h.total_eq,
      h.uf_iff, ?_, ?_⟩
    · exact h.edges_nodup.erase e0
    · intro e
      show e ∈ st.G.edges.erase e0 ↔ _
      rw [h.edges_nodup.mem_erase_iff, h.edges_iff e]
      constructor
      · rintro ⟨h1, h2, h3⟩
        refine ⟨h2, ?_⟩
        intro h4
        rcases List.mem_append.mp h4 with h5 | h5
        · exact h3 h5
        · exact absurd (List.mem_singleton.mp h5) h1
      · rintro ⟨h1, h2⟩
        refine ⟨?_, h1, fun h3 => h2 (List.mem_append_left _ h3)⟩
        intro h3
        exact he0K (h3 ▸ h2 (List.mem_append_right _ (List.mem_singleton.mpr h3)))
    · exact fun e he => List.mem_append_left _ (h.kept_sub e he)
    · intro e he heK
      rcases List.mem_append.mp he with h1 | h1
      · exact h.dropped e h1 heK
      · rw [List.mem_singleton.mp h1]
        exact hr
    · exact kruskal_history h.kept_sub h.history (fun x _ => Iff.rfl)
        ⟨fun h1 => absurd h1 he0K, fun h1 => absurd hr h1⟩
  · -- the ends lie in two components: the edge is kept
    have hr : ¬ reach G0 K.toFinset (G0.source e0) (G0.target e0) :=
      fun h1 => hc ((h.uf_iff _ hu0 _ hv0).mpr h1)
    have hst : kruskal_step (fun v => G0.nodes.indexOf v) weight st (e0, w0)
        = { st with
            uf := link st.uf (st.uf (G0.nodes.indexOf (G0.source e0)))
              (st.uf (G0.nodes.indexOf (G0.target e0))),
            total := wrap_int (st.total + weight e0) } := by
      unfold kruskal_step
      simp only [h.source_eq, h.target_eq, hc, ne_eq, not_false_eq_true, if_true]
    rw [hst]
    have hKsub : K.toFinset ⊆ (K ++ [e0]).toFinset := by
      rw [toFinset_snoc]
      exact Finset.subset_insert e0 _
    have hclosed : ∀ g ∈ K, ¬ crosses G0
        (fun x => reach G0 K.toFinset (G0.source e0) x) g := by
      intro g hg hgc
      have hgr : reach G0 K.toFinset (G0.source g) (G0.target g) :=
        reach_edge (List.mem_toFinset.mpr hg) (joins_ends G0 g)
      rcases hgc with ⟨c1, c2⟩ | ⟨c1, c2⟩
      · exact c2 (reach_trans c1 hgr)
      · exact c2 (reach_trans c1 (reach_symm hgr))
    refine ⟨K ++ [e0], h.nodes_eq, h.source_eq, h.target_eq, h.edges_nodup, ?_, ?_, ?_, ?_,
      ?_, ?_, ?_⟩
    · intro e
      show e ∈ st.G.edges ↔ _
      rw [h.edges_iff e]
      constructor
      · rintro ⟨h1, h2⟩
        refine ⟨h1, ?_⟩
        intro h3
        rcases List.mem_append.mp h3 with h4 | h4
        · exact List.mem_append_left _ (h2 h4)
        · exact List.mem_append_right _ h4
      · rintro ⟨h1, h2⟩
        refine ⟨h1, ?_⟩
        intro h3
        rcases List.mem_append.mp (h2 (List.mem_append_left _ h3)) with h4 | h4
        · exact h4
        · rw [List.mem_singleton.mp h4] at h3
          exact absurd h3 hD
    · intro e he
      rcases List.mem_append.mp he with h1 | h1
      · exact List.mem_append_left _ (h.kept_sub e h1)
      · exact List.mem_append_right _ h1
    · refine greedy_seq.snoc K e0 (fun x => reach G0 K.toFinset (G0.source e0) x) h.greedy
        he0 (Or.inl ⟨reach_refl G0 _ _, hr⟩) hclosed ?_
      intro f hf hfc
      apply hlight f hf
      intro hfD
      by_cases hfK : f ∈ K
      · exact hclosed f hfK hfc
      · have hfr := h.dropped f hfD hfK
        rcases hfc with ⟨c1, c2⟩ | ⟨c1, c2⟩
        · exact c2 (reach_trans c1 hfr)
        · exact c2 (reach_trans c1 (reach_symm hfr))
    · show wrap_int (st.total + weight e0) = _
      rw [h.total_eq, List.map_append, List.foldl_append]
      rfl
    · intro u hu v hv
      show link st.uf _ _ (G0.nodes.indexOf u) = link st.uf _ _ (G0.nodes.indexOf v) ↔ _
      have ha : ∀ x ∈ G0.nodes, (st.uf (G0.nodes.indexOf x)
          = st.uf (G0.nodes.indexOf (G0.source e0)) ↔
          reach G0 K.toFinset x (G0.source e0)) := fun x hx => h.uf_iff x hx _ hu0
      have hb : ∀ x ∈ G0.nodes, (st.uf (G0.nodes.indexOf x)
          = st.uf (G0.nodes.indexOf (G0.target e0)) ↔
          reach G0 K.toFinset x (G0.target e0)) := fun x hx => h.uf_iff x hx _ hv0
      have hedge : reach G0 (K ++ [e0]).toFinset (G0.source e0) (G0.target e0) :=
        reach_edge (List.mem_toFinset.mpr (List.mem_append_right _
          (List.mem_singleton_self e0))) (joins_ends G0 e0)
      unfold link
      constructor
      · intro heq
        by_cases hxa : st.uf (G0.nodes.indexOf u)
            = st.uf (G0.nodes.indexOf (G0.source e0))
        · by_cases hya : st.uf (G0.nodes.indexOf v)
              = st.uf (G0.nodes.indexOf (G0.source e0))
          · exact reach_mono hKsub
              (reach_trans ((ha u hu).mp hxa) (reach_symm ((ha v hv).mp hya)))
          · rw [if_pos hxa, if_neg hya] at heq
            exact reach_trans (reach_mono hKsub ((ha u hu).mp hxa))
              (reach_trans hedge (reach_symm (reach_mono hKsub ((hb v hv).mp heq.symm))))
        · by_cases hya : st.uf (G0.nodes.indexOf v)
              = st.uf (G0.nodes.indexOf (G0.source e0))
          · rw [if_neg hxa, if_pos hya] at heq
            exact reach_trans (reach_mono hKsub ((hb u hu).mp heq))
              (reach_trans (reach_symm hedge)
                (reach_symm (reach_mono hKsub ((ha v hv).mp hya))))
          · rw [if_neg hxa, if_neg hya] at heq
            exact reach_mono hKsub ((h.uf_iff u hu v hv).mp heq)
      · intro hreach
        rw [toFinset_snoc] at hreach
        rcases reach_insert hreach with h1 | ⟨h1, h2⟩ | ⟨h1, h2⟩
        · rw [(h.uf_iff u hu v hv).mpr h1]
        · have e1 := (ha u hu).mpr h1
          have e2 := (hb v hv).mpr (reach_symm h2)
          rw [if_pos e1, e2]
          split_ifs <;> rfl
        · have e1 := (hb u hu).mpr h1
          have e2 := (ha v hv).mpr (reach_symm h2)
          rw [if_pos e2, e1]
          split_ifs <;> rfl
    · intro e he heK
      rcases List.mem_append.mp he with h1 | h1
      · exact reach_mono hKsub
          (h.dropped e h1 (fun h2 => heK (List.mem_append_left _ h2)))
      · exact absurd (List.mem_append_right _ h1) heK
    · refine kruskal_history h.kept_sub h.history ?_
        ⟨fun _ => hr, fun _ => List.mem_append_right _ (List.mem_singleton_self e0)⟩
      intro x hx
      constructor
      · intro h1
        rcases List.mem_append.mp h1 with h2 | h2
        · exact h2
        · rw [List.mem_singleton.mp h2] at hx
          exact absurd hx hD
      · exact fun h1 => List.mem_append_left _ h1

end ogdf

namespace ogdf

theorem reach_empty {G : Graph} {a b : node} (h : reach G ∅ a b) : a = b := by
  induction h with
  | refl => rfl
  | tail _ hstep _ =>
    obtain ⟨e, he, _⟩ := hstep
    exact absurd he (Finset.not_mem_empty e)

/-- Walks depend on the graph only through the ends of its edges. -/
theorem reach_congr {G1 G2 : Graph} (hs : G1.source = G2.source)
    (ht : G1.target = G2.target) (T : Finset edge) (a b : node) :
    reach G1 T a b ↔ reach G2 T a b := by
  have key : ∀ (H1 H2 : Graph), H1.source = H2.source → H1.target = H2.target →
      ∀ x y, reach H1 T x y → reach H2 T x y := by
    intro H1 H2 h1 h2 x y hxy
    refine Relation.ReflTransGen.mono ?_ hxy
    rintro p q ⟨e, he, hj⟩
    refine ⟨e, he, ?_⟩
    unfold joins at hj ⊢
    rw [← h1, ← h2]
    exact hj
  exact ⟨key G1 G2 hs ht a b, key G2 G1 hs.symm ht.symm a b⟩

/-- The state before the loop over the sorted edges satisfies the invariant. -/
theorem kruskal_init_inv (G : Graph) (weight : edge → Int) (hwf : G.wf) :
    kruskal_inv G weight { G := G, uf := fun i => i, total := 0 } [] [] := by
  refine ⟨rfl, rfl, rfl, hwf.edges_nodup, ?_, ?_, greedy_seq.nil, rfl, ?_, ?_, ?_⟩
  · intro e
    simp
  · exact fun e he => absurd he (List.not_mem_nil e)
  · intro u hu v hv
    constructor
    · intro h
      have huv : u = v := (List.indexOf_inj hu hv).mp h
      rw [huv]
      exact reach_refl G _ v
    · intro h
      have huv : u = v := reach_empty h
      rw [huv]
  · exact fun e he => absurd he (List.not_mem_nil e)
  · intro i e hie
    simp at hie

/-- The loop over the sorted edges keeps the invariant when the list holds every edge of
the graph once, in ascending order of weight. -/
theorem kruskal_fold_inv {G0 : Graph} {weight : edge → Int} (hwf : G0.wf) :
    ∀ (Ps : List (edge × Int)) (st : kruskal_state) (D K : List edge),
      kruskal_inv G0 weight st D K →
      (D ++ Ps.map Prod.fst).Nodup →
      (∀ e ∈ G0.edges, e ∈ D ++ Ps.map Prod.fst) →
      (∀ p ∈ Ps, p.1 ∈ G0.edges) →
      (Ps.map Prod.fst).Pairwise (fun a b => weight a ≤ weight b) →
      ∃ K', kruskal_inv G0 weight
        (Ps.foldl (kruskal_step (fun v => G0.nodes.indexOf v) weight) st)
        (D ++ Ps.map Prod.fst) K' := by
  intro Ps
  induction Ps with
  | nil =>
    intro st D K h _ _ _ _
    exact ⟨K, by simpa using h⟩
  | cons p Ps ih =>
    intro st D K h hnd hall hmem hsorted
    obtain ⟨e0, w0⟩ := p
    simp only [List.map_cons] at hnd hall hsorted
    have hD : e0 ∉ D := by
      intro hc
      exact (List.nodup_append.mp hnd).2.2 hc (List.mem_cons_self e0 _)
    have hlight : ∀ f ∈ G0.edges, f ∉ D → weight e0 ≤ weight f := by
      intro f hf hfD
      rcases List.mem_append.mp (hall f hf) with h1 | h1
      · exact absurd h1 hfD
      · rcases List.mem_cons.mp h1 with h2 | h2
        · rw [h2]
        · exact (List.pairwise_cons.mp hsorted).1 f h2
    obtain ⟨K1, h1⟩ := kruskal_step_inv hwf h e0 w0
      (hmem (e0, w0) (List.mem_cons_self _ _)) hD hlight
    have hassoc : (D ++ [e0]) ++ Ps.map Prod.fst = D ++ e0 :: Ps.map Prod.fst := by
      simp
    obtain ⟨K2, h2⟩ := ih _ (D ++ [e0]) K1 h1 (hassoc ▸ hnd) (fun e he => hassoc ▸ hall e he)
      (fun q hq => hmem q (List.mem_cons_of_mem _ hq)) (List.pairwise_cons.mp hsorted).2
    refine ⟨K2, ?_⟩
    simp only [List.foldl_cons, List.map_cons]
    rw [← hassoc]
    exact h2

/-- The order in which the edges are gone through holds every edge of the graph once,
in ascending order of weight. -/
theorem sorted_edges_ok {quicksort : List (edge × Int) → List (edge × Int)}
    (hsort : sort_ok quicksort) (G : Graph) (weight : edge → Int) :
    List.Perm (sorted_edges quicksort G weight) G.edges ∧
    (sorted_edges quicksort G weight).Pairwise (fun a b => weight a ≤ weight b) := by
  obtain ⟨hp, hs⟩ := hsort (G.edges.map (fun e => (e, weight e)))
  have hmap : (G.edges.map (fun e => (e, weight e))).map Prod.fst = G.edges := by
    rw [List.map_map]
    exact List.map_id G.edges
  have hw : ∀ p ∈ quicksort (G.edges.map (fun e => (e, weight e))), p.2 = weight p.1 := by
    intro p hpm
    obtain ⟨e, _, he⟩ := List.mem_map.mp (hp.mem_iff.mp hpm)
    rw [← he]
  refine ⟨?_, ?_⟩
  · have := hp.map Prod.fst
    rw [hmap] at this
    exact this
  · unfold sorted_edges
    rw [List.pairwise_map]
    refine hs.imp_of_mem ?_
    intro a b ha hb hab
    rw [← hw a ha, ← hw b hb]
    exact hab

end ogdf

namespace ogdf

/-- The run of `makeMinimumSpanningTree`: the invariant holds at the end, with all edges
of the graph gone through. -/
theorem makeMinimumSpanningTree_run {quicksort : List (edge × Int) → List (edge × Int)}
    {G : Graph} {weight : edge → Int} (hwf : G.wf) (hsort : sort_ok quicksort) :
    ∃ (st : kruskal_state) (K : List edge),
      makeMinimumSpanningTree quicksort G weight = (st.G, st.total) ∧
      kruskal_inv G weight st (sorted_edges quicksort G weight) K := by
  obtain ⟨hperm, hsorted⟩ := sorted_edges_ok hsort G weight
  have hnd : ([] ++ (quicksort (G.edges.map (fun e => (e, weight e)))).map Prod.fst).Nodup := by
    rw [List.nil_append]
    exact hperm.nodup_iff.mpr hwf.edges_nodup
  obtain ⟨K, h⟩ := kruskal_fold_inv hwf (quicksort (G.edges.map (fun e => (e, weight e))))
    _ [] [] (kruskal_init_inv G weight hwf) hnd
    (fun e he => by
      rw [List.nil_append]
      exact hperm.mem_iff.mpr he)
    (fun p hp => hperm.mem_iff.mp (List.mem_map_of_mem Prod.fst hp))
    hsorted
  rw [List.nil_append] at h
  exact ⟨_, K, rfl, h⟩

/-- At the end of `makeMinimumSpanningTree` the edges left in the graph are the kept
ones, and they connect whatever the graph connected at the start. -/
theorem kruskal_final {quicksort : List (edge × Int) → List (edge × Int)}
    {G : Graph} {weight : edge → Int} {st : kruskal_state} {K : List edge}
    (hsort : sort_ok quicksort)
    (h : kruskal_inv G weight st (sorted_edges quicksort G weight) K) :
    (∀ e, e ∈ st.G.edges ↔ e ∈ K) ∧ spans G K.toFinset := by
  obtain ⟨hperm, _⟩ := sorted_edges_ok hsort G weight
  have hmem : ∀ e, e ∈ st.G.edges ↔ e ∈ K := by
    intro e
    rw [h.edges_iff e]
    constructor
    · rintro ⟨h1, h2⟩
      exact h2 (hperm.mem_iff.mpr h1)
    · intro h1
      exact ⟨hperm.mem_iff.mp (h.kept_sub e h1), fun _ => h1⟩
  refine ⟨hmem, ?_⟩
  intro a b hab
  induction hab with
  | refl => exact reach_refl G _ a
  | tail _ hstep ih =>
    obtain ⟨f, hf, hj⟩ := hstep
    have hfr : reach G K.toFinset (G.source f) (G.target f) := by
      by_cases hfK : f ∈ K
      · exact reach_edge (List.mem_toFinset.mpr hfK) (joins_ends G f)
      · exact h.dropped f (hperm.mem_iff.mpr (List.mem_toFinset.mp hf)) hfK
    rcases hj with ⟨j1, j2⟩ | ⟨j1, j2⟩
    · rw [j1, j2] at hfr
      exact reach_trans ih hfr
    · rw [j1, j2] at hfr
      exact reach_trans ih (reach_symm hfr)

/-- C29: on a well-formed graph `G` with `int` weights and a `quicksort` that sorts by
priority, `makeMinimumSpanningTree` goes through the edges in ascending order of weight
and deletes exactly those whose ends are already joined by the edges kept before them.
The graph it leaves has the nodes of `G` and a part of its edges, with their ends
unchanged; it has no cycle and the connected components of `G`; it is a spanning forest
of `G`, and no spanning forest of `G` weighs less than it. If the absolute values of the
weights add up to less than `2^31`, the returned value is the sum of the weights of the
edges left, and no spanning forest of `G` weighs less than the returned value. -/
theorem makeMinimumSpanningTree_spec (quicksort : List (edge × Int) → List (edge × Int))
    (G : Graph) (weight : edge → Int) (hwf : G.wf) (hsort : sort_ok quicksort) :
    (makeMinimumSpanningTree quicksort G weight).1.nodes = G.nodes ∧
    (makeMinimumSpanningTree quicksort G weight).1.source = G.source ∧
    (makeMinimumSpanningTree quicksort G weight).1.target = G.target ∧
    List.Perm (sorted_edges quicksort G weight) G.edges ∧
    (sorted_edges quicksort G weight).Pairwise (fun a b => weight a ≤ weight b) ∧
    (∀ e ∈ (makeMinimumSpanningTree quicksort G weight).1.edges, e ∈ G.edges) ∧
    (∀ (i : Nat) (e : Nat), (sorted_edges quicksort G weight)[i]? = some e →
      (e ∉ (makeMinimumSpanningTree quicksort G weight).1.edges ↔
        reach G (((sorted_edges quicksort G weight).take i).filter
          (fun x => decide (x ∈ (makeMinimumSpanningTree quicksort G weight).1.edges))).toFinset
          (G.source e) (G.target e))) ∧
    acyclic (makeMinimumSpanningTree quicksort G weight).1
      (makeMinimumSpanningTree quicksort G weight).1.edges.toFinset ∧
    (∀ a b, reach G G.edges.toFinset a b ↔
      reach (makeMinimumSpanningTree quicksort G weight).1
        (makeMinimumSpanningTree quicksort G weight).1.edges.toFinset a b) ∧
    spanning_forest G (makeMinimumSpanningTree quicksort G weight).1.edges.toFinset ∧
    (∀ F, spanning_forest G F →
      total_weight weight (makeMinimumSpanningTree quicksort G weight).1.edges.toFinset
        ≤ total_weight weight F) ∧
    (weights_fit G weight →
      (makeMinimumSpanningTree quicksort G weight).2
        = ((makeMinimumSpanningTree quicksort G weight).1.edges.map weight).sum ∧
      ∀ F, spanning_forest G F →
        (makeMinimumSpanningTree quicksort G weight).2 ≤ total_weight weight F) := by
  obtain ⟨st, K, hrun, h⟩ := @makeMinimumSpanningTree_run quicksort G weight hwf hsort
  obtain ⟨hmem, hsp⟩ := kruskal_final hsort h
  obtain ⟨hperm, hsorted⟩ := sorted_edges_ok hsort G weight
  rw [hrun]
  have hfin : st.G.edges.toFinset = K.toFinset := by
    ext e
    simp only [List.mem_toFinset]
    exact hmem e
  have hforest : spanning_forest G K.toFinset := greedy_forest h.greedy hsp
  have hrc : ∀ T a b, reach st.G T a b ↔ reach G T a b :=
    fun T a b => reach_congr h.source_eq h.target_eq T a b
  refine ⟨h.nodes_eq, h.source_eq, h.target_eq, hperm, hsorted, ?_, ?_, ?_, ?_, ?_, ?_, ?_⟩
  · intro e he
    exact ((h.edges_iff e).mp he).1
  · intro i e hie
    have hfil : ((sorted_edges quicksort G weight).take i).filter
        (fun x => decide (x ∈ st.G.edges))
        = ((sorted_edges quicksort G weight).take i).filter (fun x => decide (x ∈ K)) := by
      apply List.filter_congr
      intro x _
      simp only [hmem x]
    show e ∉ st.G.edges ↔ _
    rw [hfil, hmem e, h.history i e hie]
    exact not_not
  · intro e he hr
    rw [hfin] at he hr
    rw [hrc, h.source_eq, h.target_eq] at hr
    exact hforest.2.2 e he hr
  · intro a b
    show _ ↔ reach st.G st.G.edges.toFinset a b
    rw [hrc, hfin]
    exact ⟨hsp a b, reach_mono hforest.1⟩
  · show spanning_forest G st.G.edges.toFinset
    rw [hfin]
    exact hforest
  · intro F hF
    show total_weight weight st.G.edges.toFinset ≤ _
    rw [hfin]
    unfold total_weight
    rw [List.sum_toFinset weight (greedy_acyclic h.greedy).1]
    exact greedy_min h.greedy hsp F hF
  · intro hfit
    have hb : (K.map (fun e => |weight e|)).sum ≤ (G.edges.map (fun e => |weight e|)).sum :=
      sum_abs_le_of_subset weight (greedy_acyclic h.greedy).1 hwf.edges_nodup
        (fun e he => greedy_seq_mem h.greedy e he)
    unfold weights_fit at hfit
    have htot : st.total = (K.map weight).sum := by
      rw [h.total_eq, foldl_wrap_eq_sum _ 0 (by rw [List.map_map, abs_zero]; exact (by
        have : (K.map ((fun x => |x|) ∘ weight)).sum = (K.map (fun e => |weight e|)).sum := rfl
        omega)), zero_add]
    refine ⟨?_, ?_⟩
    · show st.total = (st.G.edges.map weight).sum
      have hp : List.Perm st.G.edges K :=
        (List.perm_ext_iff_of_nodup h.edges_nodup (greedy_acyclic h.greedy).1).mpr hmem
      rw [htot, (hp.map weight).sum_eq]
    · intro F hF
      show st.total ≤ _
      rw [htot]
      exact greedy_min h.greedy hsp F hF

/-- Sorting by insertion sorts by priority. -/
theorem sample_sort_ok : sort_ok sample_sort := by
  intro L
  haveI : IsTotal (edge × Int) (fun a b => a.2 ≤ b.2) := ⟨fun a b => le_total a.2 b.2⟩
  haveI : IsTrans (edge × Int) (fun a b => a.2 ≤ b.2) := ⟨fun a b c h1 h2 => le_trans h1 h2⟩
  exact ⟨List.perm_insertionSort _ L, List.sorted_insertionSort _ L⟩

/-- An instance of `makeMinimumSpanningTree_spec`: the graph `sample_net`, whose weights
add up to `15`, is left with the edges `1, 2, 3` of total weight `6`, a spanning forest
that is not heavier than the one with the edges `0, 1, 3`; the returned value is `6`. -/
theorem makeMinimumSpanningTree_spec_witness :
    weights_fit sample_net sample_weight ∧
    (makeMinimumSpanningTree sample_sort sample_net sample_weight).1.edges = [1, 2, 3] ∧
    (makeMinimumSpanningTree sample_sort sample_net sample_weight).2 = 6 ∧
    spanning_forest sample_net
      (makeMinimumSpanningTree sample_sort sample_net sample_weight).1.edges.toFinset ∧
    total_weight sample_weight
      (makeMinimumSpanningTree sample_sort sample_net sample_weight).1.edges.toFinset
      ≤ total_weight sample_weight {0, 1, 3} ∧
    (makeMinimumSpanningTree sample_sort sample_net sample_weight).2
      = ((makeMinimumSpanningTree sample_sort sample_net sample_weight).1.edges.map
          sample_weight).sum ∧
    (makeMinimumSpanningTree sample_sort sample_net sample_weight).2
      ≤ total_weight sample_weight {0, 1, 3} :=
  have h := makeMinimumSpanningTree_spec sample_sort sample_net sample_weight sample_net_wf
    sample_sort_ok
  have hfit : weights_fit sample_net sample_weight := by decide
  ⟨hfit, by decide, by decide, h.2.2.2.2.2.2.2.2.2.1,
    h.2.2.2.2.2.2.2.2.2.2.1 _ sample_path_forest,
    (h.2.2.2.2.2.2.2.2.2.2.2 hfit).1,
    (h.2.2.2.2.2.2.2.2.2.2.2 hfit).2 _ sample_path_forest⟩

/-- C29, the returned value: on `sample_net`, a well-formed graph, with every edge
weighing `2000000000` the three edges left weigh `6000000000` together, and the sum kept
in an `int` comes back as `1705032704`. -/
theorem makeMinimumSpanningTree_sum_counterexample :
    sample_net.wf ∧ sort_ok sample_sort ∧
    (makeMinimumSpanningTree sample_sort sample_net sample_heavy).1.edges = [0, 1, 3] ∧
    ((makeMinimumSpanningTree sample_sort sample_net sample_heavy).1.edges.map
      sample_heavy).sum = 6000000000 ∧
    (makeMinimumSpanningTree sample_sort sample_net sample_heavy).2 = 1705032704 :=
  ⟨sample_net_wf, sample_sort_ok, by decide, by decide, by decide⟩

end ogdf

/-! ## `send_node_desc`: the feasibility status kept in memory -/

/-- What `keep_pruned_in_memory` leaves in `feasibility_status` for a node reported as
over the bound, infeasible or discarded. -/
theorem keep_pruned_in_memory_feasibility (cb : tree_callbacks) (p : lp_prob) (n : bc_node) :
    (keep_pruned_in_memory cb p n node_type_t.OVER_UB_PRUNED).feasibility_status
      = node_type_t.OVER_UB_PRUNED ∧
    ∀ node_type, node_type = node_type_t.INFEASIBLE_PRUNED ∨
        node_type = node_type_t.DISCARDED_NODE →
      (keep_pruned_in_memory cb p n node_type).feasibility_status
        = (if n.feasibility_status = node_type_t.NOT_PRUNED_HAS_CAN_SOLUTION then
            node_type_t.NOT_PRUNED_HAS_CAN_SOLUTION
          else node_type_t.INFEASIBLE_PRUNED) := by
  constructor
  · simp [keep_pruned_in_memory]
  · intro node_type ht
    by_cases hf : n.feasibility_status = node_type_t.NOT_PRUNED_HAS_CAN_SOLUTION
    · rcases ht with ht | ht <;> subst ht <;> simp [keep_pruned_in_memory, hf]
    · rcases ht with ht | ht <;> subst ht <;> simp [keep_pruned_in_memory, hf]

/-- C37: in `send_node_desc` (in-process build) under `KEEP_IN_MEMORY`, with or without
repricing, a node reported as `OVER_UB_PRUNED` ends with the feasibility status
`OVER_UB_PRUNED` whatever its status was before, `NOT_PRUNED_HAS_CAN_SOLUTION`
included; a node reported as `INFEASIBLE_PRUNED` or `DISCARDED_NODE` keeps the status
`NOT_PRUNED_HAS_CAN_SOLUTION` if it had it and gets `INFEASIBLE_PRUNED` otherwise. This
is what lines 640-670 leave in the node (`keep_pruned_in_memory`) and what every call
that returns hands back. With repricing the call returns for these node types; without
repricing it returns whenever the new description has no user blob (`desc_size ≤ 0`). -/
theorem send_node_desc_keep_in_memory_feasibility (c : lp_constants) (cb : tree_callbacks)
    (p : lp_prob) (tm : tm_prob) (n : bc_node) (new_lp_desc new_tm_desc : node_desc)
    (hk : tm.par.keep_description_of_pruned = keep_policy.KEEP_IN_MEMORY) :
    (keep_pruned_in_memory cb p { n with node_status := node_status_t.NODE_STATUS__PRUNED }
        node_type_t.OVER_UB_PRUNED).feasibility_status = node_type_t.OVER_UB_PRUNED ∧
    (∀ r, send_node_desc cb p tm n node_type_t.OVER_UB_PRUNED new_lp_desc new_tm_desc
        = some r → r.n.feasibility_status = node_type_t.OVER_UB_PRUNED) ∧
    (send_node_desc_repricing c cb p tm n node_type_t.OVER_UB_PRUNED new_lp_desc
        new_tm_desc).map (fun r => r.n.feasibility_status)
      = some node_type_t.OVER_UB_PRUNED ∧
    (new_lp_desc.desc_size ≤ 0 →
      ∃ r, send_node_desc cb p tm n node_type_t.OVER_UB_PRUNED new_lp_desc new_tm_desc
        = some r) ∧
    ∀ node_type, node_type = node_type_t.INFEASIBLE_PRUNED ∨
        node_type = node_type_t.DISCARDED_NODE →
      (new_lp_desc.desc_size ≤ 0 →
        ∃ r, send_node_desc cb p tm n node_type new_lp_desc new_tm_desc = some r) ∧
      (keep_pruned_in_memory cb p { n with node_status := node_status_t.NODE_STATUS__PRUNED }
          node_type).feasibility_status
        = (if n.feasibility_status = node_type_t.NOT_PRUNED_HAS_CAN_SOLUTION then
            node_type_t.NOT_PRUNED_HAS_CAN_SOLUTION
          else node_type_t.INFEASIBLE_PRUNED) ∧
      (∀ r, send_node_desc cb p tm n node_type new_lp_desc new_tm_desc = some r →
        r.n.feasibility_status
          = (if n.feasibility_status = node_type_t.NOT_PRUNED_HAS_CAN_SOLUTION then
              node_type_t.NOT_PRUNED_HAS_CAN_SOLUTION
            else node_type_t.INFEASIBLE_PRUNED)) ∧
      (send_node_desc_repricing c cb p tm n node_type new_lp_desc
          new_tm_desc).map (fun r => r.n.feasibility_status)
        = some (if n.feasibility_status = node_type_t.NOT_PRUNED_HAS_CAN_SOLUTION then
            node_type_t.NOT_PRUNED_HAS_CAN_SOLUTION
          else node_type_t.INFEASIBLE_PRUNED) := by
  have hn : ∀ node_type, (keep_pruned_in_memory cb p
      { n with node_status := node_status_t.NODE_STATUS__PRUNED } node_type).node_status
      = node_status_t.NODE_STATUS__PRUNED := by
    intro node_type
    unfold keep_pruned_in_memory
    simp only
    split_ifs <;> rfl
  have h1 := keep_pruned_in_memory_feasibility cb p
    { n with node_status := node_status_t.NODE_STATUS__PRUNED }
  have hrep : ∀ node_type, (node_type = node_type_t.INFEASIBLE_PRUNED ∨
      node_type = node_type_t.OVER_UB_PRUNED ∨ node_type = node_type_t.DISCARDED_NODE ∨
      node_type = node_type_t.FEASIBLE_PRUNED) →
      send_node_desc_repricing c cb p tm n node_type new_lp_desc new_tm_desc
        = repricing_finish c p
          (repricing_prepare_value cb p tm n node_type new_tm_desc new_lp_desc.desc_size).1
          (repricing_prepare_value cb p tm n node_type new_tm_desc new_lp_desc.desc_size).2
          node_type new_lp_desc := by
    intro node_type hp
    unfold send_node_desc_repricing
    rw [repricing_prepare_eq, if_neg (fun hc =>
      hc.1 (repricing_prepare_pruned cb p tm n node_type new_tm_desc _ hp))]
  refine ⟨h1.1, ?_, ?_, ?_, ?_⟩
  · intro r hr
    rw [send_node_desc_some cb p tm n _ new_lp_desc new_tm_desc r hr]
    simp only [send_node_desc_value, hk]
    simp [insert_by_type, h1.1]
  · rw [hrep _ (Or.inr (Or.inl rfl))]
    simp only [repricing_prepare_value, hk]
    simp [repricing_finish, hn, h1.1]
  · exact fun hs => (send_node_desc_returns_iff cb p tm n _ new_lp_desc new_tm_desc).mpr
      (Or.inr (Or.inr hs))
  · intro node_type ht
    have h2 := h1.2 node_type ht
    simp only at h2
    refine ⟨fun hs => ?_, h2, ?_, ?_⟩
    · exact (send_node_desc_returns_iff cb p tm n _ new_lp_desc new_tm_desc).mpr
        (Or.inr (Or.inr hs))
    · intro r hr
      rw [send_node_desc_some cb p tm n _ new_lp_desc new_tm_desc r hr]
      rcases ht with ht | ht <;> subst ht
      · simp only [send_node_desc_value, hk]
        simp [insert_by_type, h2]
      · simp only [send_node_desc_value, hk]
        simp [insert_by_type, h2]
    · have hp : node_type = node_type_t.INFEASIBLE_PRUNED ∨
          node_type = node_type_t.OVER_UB_PRUNED ∨ node_type = node_type_t.DISCARDED_NODE ∨
          node_type = node_type_t.FEASIBLE_PRUNED := by
        rcases ht with ht | ht
        · exact Or.inl ht
        · exact Or.inr (Or.inr (Or.inl ht))
      rw [hrep _ hp]
      rcases ht with ht | ht <;> subst ht
      · simp only [repricing_prepare_value, hk]
        simp [repricing_finish, hn, h2]
      · simp only [repricing_prepare_value, hk]
        simp [repricing_finish, hn, h2]

/-- An instance of `send_node_desc_keep_in_memory_feasibility`: a node that holds a
candidate solution and is reported as over the bound ends as `OVER_UB_PRUNED`. -/
theorem send_node_desc_keep_in_memory_feasibility_witness :
    ∃ r, send_node_desc sample_tree_callbacks (sample_lp [])
        (sample_tm true 10 keep_policy.KEEP_IN_MEMORY)
        { sample_bc_node [] with
            feasibility_status := node_type_t.NOT_PRUNED_HAS_CAN_SOLUTION }
        node_type_t.OVER_UB_PRUNED (sample_node []) (sample_node []) = some r ∧
      r.n.feasibility_status = node_type_t.OVER_UB_PRUNED := by
  have h := send_node_desc_keep_in_memory_feasibility sample_constants sample_tree_callbacks
    (sample_lp []) (sample_tm true 10 keep_policy.KEEP_IN_MEMORY)
    { sample_bc_node [] with feasibility_status := node_type_t.NOT_PRUNED_HAS_CAN_SOLUTION }
    (sample_node []) (sample_node []) rfl
  obtain ⟨r, hr⟩ := h.2.2.2.1 (by decide)
  exact ⟨r, hr, h.2.1 r hr⟩

/-! ## `send_node_desc`: the repricing that leaves variables to price -/

/-- The end of the repricing path when the node is not pruned and its recomputed
`not_fixed` is not empty: the list goes to the root, cut to the storage size, and the
status that tells which of the two sizes was taken is propagated and recorded. -/
theorem repricing_finish_install (c : lp_constants) (p : lp_prob) (tm : tm_prob)
    (n : bc_node) (node_type : node_type_t) (new_lp_desc : node_desc) (r : send_result)
    (h : repricing_finish c p tm n node_type new_lp_desc = some r)
    (hst : r.n.node_status ≠ node_status_t.NODE_STATUS__PRUNED)
    (hnf : r.n.desc.not_fixed.size ≠ 0) :
    ∃ root, tm.rootnode = some root ∧
      r.tm.rootnode = some { root with desc := { root.desc with
        not_fixed := { root.desc.not_fixed with
          list := (if n.desc.uind.size > 0 then
              reprice_not_fixed n.desc root.desc.uind.list root.desc.uind.size
            else n.desc).not_fixed.list,
          size := min r.n.desc.not_fixed.size tm.par.not_fixed_storage_size } } } ∧
      r.n.desc.not_fixed.size = (if n.desc.uind.size > 0 then
          reprice_not_fixed n.desc root.desc.uind.list root.desc.uind.size
        else n.desc).not_fixed.size ∧
      r.tm.stat.nf_status = (if r.n.desc.not_fixed.size > tm.par.not_fixed_storage_size then
          c.NF_CHECK_AFTER_LAST else c.NF_CHECK_UNTIL_LAST) ∧
      r.tm.stat.vars_not_priced = min r.n.desc.not_fixed.size tm.par.not_fixed_storage_size ∧
      r.tm.calls = tm.calls ++
        [tm_call.propagate_nf_status
          (if r.n.desc.not_fixed.size > tm.par.not_fixed_storage_size then
            c.NF_CHECK_AFTER_LAST else c.NF_CHECK_UNTIL_LAST),
         tm_call.free_tree_node] ∧
      r.n.desc.not_fixed.list = [] := by
  have hmin : ∀ a b : Int, (if a > b then b else a) = min a b := by
    intro a b
    split_ifs with hab
    · exact (min_eq_right (le_of_lt hab)).symm
    · exact (min_eq_left (not_lt.mp hab)).symm
  unfold repricing_finish at h
  simp only at h
  by_cases hp : n.node_status = node_status_t.NODE_STATUS__PRUNED
  · rw [if_pos hp] at h
    cases h
    exact absurd hp hst
  · rw [if_neg hp] at h
    cases hroot : tm.rootnode with
    | none =>
      rw [hroot] at h
      by_cases hu : n.desc.uind.size > 0
      · simp [hu] at h
      · simp only [hu, if_false] at h
        by_cases h0 : n.desc.not_fixed.size = 0
        · rw [if_pos h0] at h
          cases h
          exact absurd h0 hnf
        · rw [if_neg h0] at h
          cases h
    | some root =>
      rw [hroot] at h
      refine ⟨root, rfl, ?_⟩
      by_cases hu : n.desc.uind.size > 0
      · simp only [hu, if_true] at h ⊢
        by_cases h0 : (reprice_not_fixed n.desc root.desc.uind.list
            root.desc.uind.size).not_fixed.size = 0
        · rw [if_pos h0] at h
          cases h
          exact absurd h0 hnf
        · rw [if_neg h0] at h
          cases h
          simp only [purge_at_end, hp, if_false, decide_eq_true_eq, hmin, and_self]
      · simp only [hu, if_false] at h ⊢
        by_cases h0 : n.desc.not_fixed.size = 0
        · rw [if_pos h0] at h
          cases h
          exact absurd h0 hnf
        · rw [if_neg h0] at h
          cases h
          simp only [purge_at_end, hp, if_false, decide_eq_true_eq, hmin, and_self]

/-- C34: in the repricing branch of `send_node_desc`, when the node does not end as
pruned and its recomputed `not_fixed` has a size `nsize` other than `0`, the list is
installed in the root with the size `min(nsize, not_fixed_storage_size)`; the status
propagated from the root is `NF_CHECK_AFTER_LAST` if `nsize > not_fixed_storage_size`
and `NF_CHECK_UNTIL_LAST` otherwise; that status and that size are recorded in
`tm->stat.nf_status` and `tm->stat.vars_not_priced`; and the node gives its list
away. -/
theorem send_node_desc_repricing_installs_not_fixed (c : lp_constants)
    (cb : tree_callbacks) (p : lp_prob) (tm : tm_prob) (n : bc_node)
    (node_type : node_type_t) (new_lp_desc new_tm_desc : node_desc) (r : send_result)
    (h : send_node_desc_repricing c cb p tm n node_type new_lp_desc new_tm_desc = some r)
    (hst : r.n.node_status ≠ node_status_t.NODE_STATUS__PRUNED)
    (hnf : r.n.desc.not_fixed.size ≠ 0) :
    new_lp_desc.desc_size ≤ 0 ∧
    ∃ q root root', repricing_prepare cb p tm n node_type new_lp_desc new_tm_desc = some q ∧
      tm.rootnode = some root ∧ r.tm.rootnode = some root' ∧
      root'.desc.not_fixed.size
        = min r.n.desc.not_fixed.size tm.par.not_fixed_storage_size ∧
      root'.desc.not_fixed.list
        = (if q.2.desc.uind.size > 0 then
            reprice_not_fixed q.2.desc root.desc.uind.list root.desc.uind.size
          else q.2.desc).not_fixed.list ∧
      r.n.desc.not_fixed.size
        = (if q.2.desc.uind.size > 0 then
            reprice_not_fixed q.2.desc root.desc.uind.list root.desc.uind.size
          else q.2.desc).not_fixed.size ∧
      r.tm.stat.nf_status
        = (if r.n.desc.not_fixed.size > tm.par.not_fixed_storage_size then
            c.NF_CHECK_AFTER_LAST else c.NF_CHECK_UNTIL_LAST) ∧
      r.tm.stat.vars_not_priced
        = min r.n.desc.not_fixed.size tm.par.not_fixed_storage_size ∧
      r.tm.calls = tm.calls ++
        (if node_type = node_type_t.INTERRUPTED_NODE then [tm_call.insert_new_node] else [])
        ++ [tm_call.propagate_nf_status r.tm.stat.nf_status, tm_call.free_tree_node] ∧
      r.n.desc.not_fixed.list = [] := by
  have htm := repricing_prepare_tm cb p tm n node_type new_tm_desc new_lp_desc.desc_size
  obtain ⟨hq, hfin⟩ := send_node_desc_repricing_some c cb p tm n node_type new_lp_desc
    new_tm_desc r h
  have hnp : (repricing_prepare_value cb p tm n node_type new_tm_desc
      new_lp_desc.desc_size).2.node_status ≠ node_status_t.NODE_STATUS__PRUNED := by
    intro hp
    unfold repricing_finish at hfin
    simp only [hp, if_true] at hfin
    cases hfin
    exact hst hp
  have hsz : new_lp_desc.desc_size ≤ 0 := by
    by_contra hc
    rw [repricing_prepare_eq, if_pos ⟨hnp, not_le.mp hc⟩] at hq
    cases hq
  have hcalls := repricing_prepare_calls cb p tm n node_type new_tm_desc
    new_lp_desc.desc_size hnp
  obtain ⟨root, e1, e2, e3, e4, e5, e6, e7⟩ :=
    repricing_finish_install c p _ _ node_type new_lp_desc r hfin hst hnf
  have hroot : tm.rootnode = some root := by
    rw [htm] at e1
    exact e1
  have hpar : (repricing_prepare_value cb p tm n node_type new_tm_desc
      new_lp_desc.desc_size).1.par = tm.par := by
    rw [htm]
  rw [hpar] at e2 e4 e5 e6
  refine ⟨hsz, _, root, _, hq, hroot, e2, rfl, rfl, e3, e4, e5, ?_, e7⟩
  rw [e6, hcalls, e4]

/-- Instance of C34: a repriced node with the three new variables `0, 1, 2`, more than
the storage size `2`, leaves the root with a `not_fixed` of size `2` and the status
`NF_CHECK_AFTER_LAST` recorded. -/
theorem send_node_desc_repricing_installs_not_fixed_witness :
    (send_node_desc_repricing sample_constants sample_tree_callbacks (sample_lp [])
        sample_repricing_tm (sample_bc_node []) (node_type_t.other 0) (sample_node [])
        sample_new_vars_desc).map
        (fun r => (r.n.desc.not_fixed.size, r.tm.stat.nf_status, r.tm.stat.vars_not_priced))
      = some (3, sample_constants.NF_CHECK_AFTER_LAST, 2) := by
  have h : send_node_desc_repricing sample_constants sample_tree_callbacks (sample_lp [])
      sample_repricing_tm (sample_bc_node []) (node_type_t.other 0) (sample_node [])
      sample_new_vars_desc
      = some ((send_node_desc_repricing sample_constants sample_tree_callbacks (sample_lp [])
          sample_repricing_tm (sample_bc_node []) (node_type_t.other 0) (sample_node [])
          sample_new_vars_desc).get (by decide!)) := (Option.some_get _).symm
  obtain ⟨_, _, root, root', _, _, _, _, _, _, h6, h7, _⟩ :=
    send_node_desc_repricing_installs_not_fixed sample_constants sample_tree_callbacks
      (sample_lp []) sample_repricing_tm (sample_bc_node []) (node_type_t.other 0)
      (sample_node []) sample_new_vars_desc _ h (by decide!) (by decide!)
  have hs : ((send_node_desc_repricing sample_constants sample_tree_callbacks (sample_lp [])
      sample_repricing_tm (sample_bc_node []) (node_type_t.other 0) (sample_node [])
      sample_new_vars_desc).get (by decide!)).n.desc.not_fixed.size = 3 := by decide!
  rw [h, Option.map_some', h6, h7, hs]
  rfl

/-! ## `send_node_desc`: the two loops of the repricing branch -/

/-- C32 at the failing input: the node's `uind` is `[5]` and the root's `uind` is `[3]`.
The variable `5` is not in the root's list, so the set difference is `[5]`; the loops of
lines 986-1014 end with `k = 0`, and the node is left without variables to price. -/
theorem kick_out_drops_larger_entry :
    (kick_rest 1 1 (kick_loop [3] 1 1 2 { i := 0, j := 0, k := 0, ulist := [5] })).k = 0 ∧
    list_minus [5] [3] = [5] ∧
    (reprice_not_fixed { sample_node [] with uind := ⟨EXPLICIT_LIST, 1, 1, [5]⟩ }
      [3] 1).not_fixed.size = 0 := by
  decide

/-- C33 at the failing input: one entry `1` is left of the node's `uind` and its
`not_fixed` is `[2]`. The array written at lines 1026-1054 holds the merge `[1, 2]`, but
the stored `not_fixed.size` is `1`, the number of passes of the loop, not `2`. -/
theorem nf_merge_size_misses_tail :
    nf_merge [1] [2] 1 1 = (1, [1, 2]) ∧
    (reprice_not_fixed
      { sample_node [] with uind := ⟨EXPLICIT_LIST, 1, 1, [1]⟩,
                            not_fixed := ⟨EXPLICIT_LIST, 1, 1, [2]⟩ }
      [3] 1).not_fixed = ⟨EXPLICIT_LIST, 1, 1, [1, 2]⟩ := by
  decide

/-! ## OGDF: the edge list of an induced subgraph -/

namespace ogdf

/-- The graph `sample_pair` is well formed. -/
theorem sample_pair_wf : sample_pair.wf := by
  refine ⟨by decide, by decide, by decide, by decide, ?_⟩
  intro v hv a
  rcases a with ⟨e, b⟩
  have hv' : v = 0 ∨ v = 1 := by simpa [sample_pair] using hv
  rcases e with _ | e <;> rcases hv' with h | h <;> subst h <;> cases b <;>
    simp [sample_pair, Graph.theNode]

/-- C31 at the failing input: the graph with the nodes `0, 1` and the edge `0: 0 → 1`,
the node list `[0, 1]` and an empty edge list. The edge has both ends in the list, and
`inducedSubgraph` leaves it in `E` twice, once for each of its two adjacency entries;
`inducedSubGraph` on the same input makes one copy of it. -/
theorem inducedSubgraph_lists_edge_twice :
    inducedSubgraph sample_pair [0, 1] [] = [0, 0] ∧
    (inducedSubgraph sample_pair [0, 1] []).count 0 = 2 ∧
    (inducedSubGraph sample_pair [0, 1]).subGraph.edges = [0] := by
  decide

end ogdf

/-! ## `send_node_desc`: the description that is stored or sent -/

/-- C36 at the failing input: at a level above `0` the old description has the variables
`10, 11, 12` and the not yet fixed variables `1, ..., 6`, the new one the not yet fixed
variables `1, ..., 5, 7`. The description `pack_array_desc_diff` returns for `not_fixed`
is the difference with the entries `7, 6`, written to `lp_data->tmp.iv`. What is stored
has its tag and sizes but other entries, which depend on the difference of `uind`:
`1, 2`, the first cells of the new list, when `uind` is unchanged, and `13, 12`, the
difference of `uind` left in `lp_data->tmp.i1`, when the variable `12` is replaced by
`13`. The stored `uind` is the description returned for `uind`. -/
theorem build_tm_desc_not_fixed_from_uind_scratch :
    (pack_array_desc_diff true (fun _ => []) sample_nf_old.not_fixed
        (sample_nf_new 12).not_fixed (fun _ => 0)).desc = ⟨WRT_PARENT, 2, 1, [7, 6]⟩ ∧
    (build_tm_desc sample_constants 1 sample_nf_old (sample_nf_new 12) (fun _ => 0)
        (fun _ => 0) zero_basis 0).new_tm_desc.not_fixed = ⟨WRT_PARENT, 2, 1, [1, 2]⟩ ∧
    (build_tm_desc sample_constants 1 sample_nf_old (sample_nf_new 13) (fun _ => 0)
        (fun _ => 0) zero_basis 0).new_tm_desc.not_fixed = ⟨WRT_PARENT, 2, 1, [13, 12]⟩ ∧
    (build_tm_desc sample_constants 1 sample_nf_old (sample_nf_new 13) (fun _ => 0)
        (fun _ => 0) zero_basis 0).new_tm_desc.uind
      = (pack_array_desc_diff true (fun _ => []) sample_nf_old.uind
          (sample_nf_new 13).uind (fun _ => 0)).desc := by
  decide

/-- Copying the first `n` cells twice gives what copying them once gives. -/
theorem cells_cells (p : List Int) (n : Nat) : cells (cells p 0 n) 0 n = cells p 0 n := by
  unfold cells
  apply List.map_congr_left
  intro t ht
  have htn : t < n := List.mem_range.mp ht
  simp [List.getD_eq_getElem?_getD, List.getElem?_map, List.getElem?_range htn]

theorem COPY_ARRAY_DESC_same (a : array_desc) : array_same (COPY_ARRAY_DESC a) a := by
  unfold COPY_ARRAY_DESC array_same
  split_ifs
  · exact ⟨rfl, rfl, rfl, cells_cells _ _⟩
  · exact ⟨rfl, rfl, rfl, rfl⟩

theorem COPY_STAT_same (b : double_array_desc) : block_same (COPY_STAT b b) b := by
  unfold COPY_STAT block_same
  split_ifs
  · exact ⟨rfl, rfl, rfl, cells_cells _ _⟩
  · exact ⟨rfl, rfl, rfl, rfl⟩

theorem copy_basis_same (b : basis_desc) : basis_same (copy_basis b) b :=
  ⟨rfl, COPY_STAT_same _, COPY_STAT_same _, COPY_STAT_same _, COPY_STAT_same _⟩

/-- At level `0` the in-process build of the description calls no difference encoder and
leaves the scratch areas alone. -/
theorem build_tm_desc_level_zero (c : lp_constants) (lp_desc new_lp_desc : node_desc)
    (i1 iv : Nat → Int) (basis0 : basis_desc) (size0 : Int) :
    build_tm_desc c 0 lp_desc new_lp_desc i1 iv basis0 size0
      = { new_tm_desc :=
            { zero_node_desc with
              uind := COPY_ARRAY_DESC new_lp_desc.uind,
              cutind := COPY_ARRAY_DESC new_lp_desc.cutind,
              nf_status := new_lp_desc.nf_status,
              not_fixed := if deal_with_nf c new_lp_desc then
                  COPY_ARRAY_DESC new_lp_desc.not_fixed
                else zero_array_desc,
              basis := copy_basis new_lp_desc.basis },
          i1 := i1, iv := iv, calls := [] } := by
  unfold build_tm_desc
  rw [if_pos rfl]

/-- Above level `0` the in-process build of the description calls `pack_basis_diff`
exactly when both descriptions have a basis, and takes the basis over otherwise. -/
theorem build_tm_desc_deeper_basis (c : lp_constants) (bc_level : Int)
    (lp_desc new_lp_desc : node_desc) (i1 iv : Nat → Int) (basis0 : basis_desc)
    (size0 : Int) (hl : bc_level ≠ 0) :
    (codec_call.pack_basis_diff ∈
        (build_tm_desc c bc_level lp_desc new_lp_desc i1 iv basis0 size0).calls ↔
      (new_lp_desc.basis.basis_exists = true ∧ lp_desc.basis.basis_exists = true)) ∧
    (¬ (new_lp_desc.basis.basis_exists = true ∧ lp_desc.basis.basis_exists = true) →
      (build_tm_desc c bc_level lp_desc new_lp_desc i1 iv basis0 size0).new_tm_desc.basis
        = copy_basis new_lp_desc.basis) ∧
    ((new_lp_desc.basis.basis_exists = true ∧ lp_desc.basis.basis_exists = true) →
      ∃ (ut ct : desc_type) (m : Nat → Int),
        (build_tm_desc c bc_level lp_desc new_lp_desc i1 iv basis0 size0).new_tm_desc.basis
          = { (pack_basis_diff true basis0 size0 lp_desc new_lp_desc ut ct m).basis with
              basis_exists := new_lp_desc.basis.basis_exists }) := by
  unfold build_tm_desc
  rw [if_neg hl]
  simp only
  by_cases hb : ¬ new_lp_desc.basis.basis_exists = true ∨ ¬ lp_desc.basis.basis_exists = true
  · have hnb : ¬ (new_lp_desc.basis.basis_exists = true ∧
        lp_desc.basis.basis_exists = true) := by
      rintro ⟨h1, h2⟩
      rcases hb with h | h
      · exact h h1
      · exact h h2
    rw [if_pos hb]
    refine ⟨⟨?_, fun h => absurd h hnb⟩, fun _ => rfl, fun h => absurd h hnb⟩
    intro hmem
    exfalso
    simp only [List.mem_append, List.mem_singleton] at hmem
    rcases hmem with hmem | hmem
    · split_ifs at hmem <;> simp at hmem
    · cases hmem
  · have hboth : new_lp_desc.basis.basis_exists = true ∧
        lp_desc.basis.basis_exists = true := by
      constructor
      · by_contra h
        exact hb (Or.inl h)
      · by_contra h
        exact hb (Or.inr h)
    rw [if_neg hb]
    refine ⟨⟨fun _ => hboth, fun _ => ?_⟩, fun h => absurd hboth h, fun _ => ⟨_, _, _, rfl⟩⟩
    exact List.mem_append_right _ (List.mem_singleton_self _)

/-- At level `0` the message-passing build calls no difference encoder and leaves the
scratch areas alone; when it sends a description, it packs the new explicit one. -/
theorem send_node_desc_message_level_zero (c : lp_constants)
    (pack_array_desc : array_desc → List wire_val)
    (pack_basis : basis_desc → Bool → List wire_val) (p : lp_prob)
    (keep_description_of_pruned sensitivity_analysis : Int) (x : List double)
    (node_type : node_type_t) (lp_desc new_lp_desc : node_desc) (i1 iv : Nat → Int)
    (basis0 : basis_desc) (size0 : Int) (hl : p.bc_level = 0) :
    (send_node_desc_message c pack_array_desc pack_basis p keep_description_of_pruned
      sensitivity_analysis x node_type lp_desc new_lp_desc i1 iv basis0 size0).calls = [] ∧
    (send_node_desc_message c pack_array_desc pack_basis p keep_description_of_pruned
      sensitivity_analysis x node_type lp_desc new_lp_desc i1 iv basis0 size0).i1 = i1 ∧
    (send_node_desc_message c pack_array_desc pack_basis p keep_description_of_pruned
      sensitivity_analysis x node_type lp_desc new_lp_desc i1 iv basis0 size0).iv = iv ∧
    (¬ ((node_type = node_type_t.INFEASIBLE_PRUNED ∨
          node_type = node_type_t.OVER_UB_PRUNED ∨ node_type = node_type_t.DISCARDED_NODE ∨
          node_type = node_type_t.FEASIBLE_PRUNED) ∧ keep_description_of_pruned = 0) →
      node_type ≠ node_type_t.INTERRUPTED_NODE →
      (send_node_desc_message c pack_array_desc pack_basis p keep_description_of_pruned
        sensitivity_analysis x node_type lp_desc new_lp_desc i1 iv basis0 size0).sent
        = [node_msg_val.repricing (decide (p.colgen_strategy &&& c.COLGEN_REPRICING ≠ 0)),
           node_msg_val.node_type node_type, node_msg_val.dbl p.lp_data.objval,
           node_msg_val.int new_lp_desc.nf_status] ++
          (pack_array_desc new_lp_desc.uind ++
            (if deal_with_nf c new_lp_desc then pack_array_desc new_lp_desc.not_fixed
             else []) ++
            pack_array_desc new_lp_desc.cutind ++
            pack_basis new_lp_desc.basis false).map node_msg_val.codec ++
          blob_items new_lp_desc ∧
      (send_node_desc_message c pack_array_desc pack_basis p keep_description_of_pruned
        sensitivity_analysis x node_type lp_desc new_lp_desc i1 iv basis0 size0).desc
        = new_lp_desc) := by
  unfold send_node_desc_message
  simp only [hl, if_true]
  refine ⟨?_, ?_, ?_, ?_⟩
  · split_ifs <;> rfl
  · split_ifs <;> rfl
  · split_ifs <;> rfl
  · intro hsend hint
    have hs : ¬ (decide (node_type = node_type_t.INFEASIBLE_PRUNED ∨
        node_type = node_type_t.OVER_UB_PRUNED ∨ node_type = node_type_t.DISCARDED_NODE ∨
        node_type = node_type_t.FEASIBLE_PRUNED) = true ∧ keep_description_of_pruned = 0) := by
      rintro ⟨h1, h2⟩
      exact hsend ⟨of_decide_eq_true h1, h2⟩
    rw [if_neg hs, if_neg hint]
    exact ⟨rfl, rfl⟩

/-- Above level `0` the message-passing build, when it sends a description, calls
`pack_basis_diff` exactly when both descriptions have a basis, and packs the new basis
as it is otherwise. -/
theorem send_node_desc_message_deeper_basis (c : lp_constants)
    (pack_array_desc : array_desc → List wire_val)
    (pack_basis : basis_desc → Bool → List wire_val) (p : lp_prob)
    (keep_description_of_pruned sensitivity_analysis : Int) (x : List double)
    (node_type : node_type_t) (lp_desc new_lp_desc : node_desc) (i1 iv : Nat → Int)
    (basis0 : basis_desc) (size0 : Int) (hl : p.bc_level ≠ 0)
    (hsend : ¬ ((node_type = node_type_t.INFEASIBLE_PRUNED ∨
      node_type = node_type_t.OVER_UB_PRUNED ∨ node_type = node_type_t.DISCARDED_NODE ∨
      node_type = node_type_t.FEASIBLE_PRUNED) ∧ keep_description_of_pruned = 0))
    (hint : node_type ≠ node_type_t.INTERRUPTED_NODE) :
    (codec_call.pack_basis_diff ∈
        (send_node_desc_message c pack_array_desc pack_basis p keep_description_of_pruned
          sensitivity_analysis x node_type lp_desc new_lp_desc i1 iv basis0 size0).calls ↔
      (new_lp_desc.basis.basis_exists = true ∧ lp_desc.basis.basis_exists = true)) ∧
    (¬ (new_lp_desc.basis.basis_exists = true ∧ lp_desc.basis.basis_exists = true) →
      ∃ before : List wire_val,
        (send_node_desc_message c pack_array_desc pack_basis p keep_description_of_pruned
          sensitivity_analysis x node_type lp_desc new_lp_desc i1 iv basis0 size0).sent
          = [node_msg_val.repricing (decide (p.colgen_strategy &&& c.COLGEN_REPRICING ≠ 0)),
             node_msg_val.node_type node_type, node_msg_val.dbl p.lp_data.objval,
             node_msg_val.int new_lp_desc.nf_status] ++
            (before ++ pack_basis new_lp_desc.basis false).map node_msg_val.codec ++
            blob_items new_lp_desc) ∧
    ((new_lp_desc.basis.basis_exists = true ∧ lp_desc.basis.basis_exists = true) →
      ∃ (before : List wire_val) (ut ct : desc_type) (m : Nat → Int),
        (send_node_desc_message c pack_array_desc pack_basis p keep_description_of_pruned
          sensitivity_analysis x node_type lp_desc new_lp_desc i1 iv basis0 size0).sent
          = [node_msg_val.repricing (decide (p.colgen_strategy &&& c.COLGEN_REPRICING ≠ 0)),
             node_msg_val.node_type node_type, node_msg_val.dbl p.lp_data.objval,
             node_msg_val.int new_lp_desc.nf_status] ++
            (before ++ (pack_basis_diff false basis0 size0 lp_desc new_lp_desc ut ct
              m).sent).map node_msg_val.codec ++
            blob_items (pack_basis_diff false basis0 size0 lp_desc new_lp_desc ut ct
              m).newnode) := by
  have hs : ¬ (decide (node_type = node_type_t.INFEASIBLE_PRUNED ∨
      node_type = node_type_t.OVER_UB_PRUNED ∨ node_type = node_type_t.DISCARDED_NODE ∨
      node_type = node_type_t.FEASIBLE_PRUNED) = true ∧ keep_description_of_pruned = 0) := by
    rintro ⟨h1, h2⟩
    exact hsend ⟨of_decide_eq_true h1, h2⟩
  unfold send_node_desc_message
  simp only
  rw [if_neg hs, if_neg hint, if_neg hl]
  by_cases hb : ¬ new_lp_desc.basis.basis_exists = true ∨ ¬ lp_desc.basis.basis_exists = true
  · have hnb : ¬ (new_lp_desc.basis.basis_exists = true ∧
        lp_desc.basis.basis_exists = true) := by
      rintro ⟨h1, h2⟩
      rcases hb with h | h
      · exact h h1
      · exact h h2
    rw [if_pos hb]
    refine ⟨⟨?_, fun h => absurd h hnb⟩, fun _ => ⟨_, rfl⟩, fun h => absurd h hnb⟩
    intro hmem
    exfalso
    simp only [List.mem_append, List.mem_singleton] at hmem
    rcases hmem with hmem | hmem
    · split_ifs at hmem <;> simp at hmem
    · cases hmem
  · have hboth : new_lp_desc.basis.basis_exists = true ∧
        lp_desc.basis.basis_exists = true := by
      constructor
      · by_contra h
        exact hb (Or.inl h)
      · by_contra h
        exact hb (Or.inr h)
    rw [if_neg hb]
    refine ⟨⟨fun _ => hboth, fun _ => ?_⟩, fun h => absurd hboth h,
      fun _ => ⟨_, _, _, _, rfl⟩⟩
    exact List.mem_append_right _ (List.mem_singleton_self _)

/-- C35: at level `0` `send_node_desc` encodes no difference. In the in-process build
the description that is stored says what the new explicit description of the process
says in `uind`, in `cutind`, in `not_fixed` when `nf_status` asks for it, and in the
flag and the four status blocks of the basis; neither `pack_array_desc_diff` nor
`pack_basis_diff` is called and the scratch areas are not written. In the
message-passing build no difference encoder is called either, and a description that is
sent is packed by `pack_array_desc` and `pack_basis` from the new explicit description.
Above level `0`, in both builds, `pack_basis_diff` is called exactly when the old and
the new description both have a basis; otherwise the new basis is stored, or packed by
`pack_basis`, as it is. -/
theorem send_node_desc_level_zero_explicit (c : lp_constants)
    (pack_array_desc : array_desc → List wire_val)
    (pack_basis : basis_desc → Bool → List wire_val) (p : lp_prob)
    (keep_description_of_pruned sensitivity_analysis : Int) (x : List double)
    (node_type : node_type_t) (lp_desc new_lp_desc : node_desc) (i1 iv : Nat → Int)
    (basis0 : basis_desc) (size0 : Int) (bc_level : Int) :
    ((build_tm_desc c 0 lp_desc new_lp_desc i1 iv basis0 size0).calls = [] ∧
      (build_tm_desc c 0 lp_desc new_lp_desc i1 iv basis0 size0).i1 = i1 ∧
      (build_tm_desc c 0 lp_desc new_lp_desc i1 iv basis0 size0).iv = iv ∧
      array_same (build_tm_desc c 0 lp_desc new_lp_desc i1 iv basis0 size0).new_tm_desc.uind
        new_lp_desc.uind ∧
      array_same (build_tm_desc c 0 lp_desc new_lp_desc i1 iv basis0 size0).new_tm_desc.cutind
        new_lp_desc.cutind ∧
      (deal_with_nf c new_lp_desc = true →
        array_same
          (build_tm_desc c 0 lp_desc new_lp_desc i1 iv basis0 size0).new_tm_desc.not_fixed
          new_lp_desc.not_fixed) ∧
      (build_tm_desc c 0 lp_desc new_lp_desc i1 iv basis0 size0).new_tm_desc.nf_status
        = new_lp_desc.nf_status ∧
      basis_same (build_tm_desc c 0 lp_desc new_lp_desc i1 iv basis0 size0).new_tm_desc.basis
        new_lp_desc.basis) ∧
    (p.bc_level = 0 →
      (send_node_desc_message c pack_array_desc pack_basis p keep_description_of_pruned
        sensitivity_analysis x node_type lp_desc new_lp_desc i1 iv basis0 size0).calls = [] ∧
      (send_node_desc_message c pack_array_desc pack_basis p keep_description_of_pruned
        sensitivity_analysis x node_type lp_desc new_lp_desc i1 iv basis0 size0).i1 = i1 ∧
      (send_node_desc_message c pack_array_desc pack_basis p keep_description_of_pruned
        sensitivity_analysis x node_type lp_desc new_lp_desc i1 iv basis0 size0).iv = iv ∧
      (¬ ((node_type = node_type_t.INFEASIBLE_PRUNED ∨
            node_type = node_type_t.OVER_UB_PRUNED ∨
            node_type = node_type_t.DISCARDED_NODE ∨
            node_type = node_type_t.FEASIBLE_PRUNED) ∧ keep_description_of_pruned = 0) →
        node_type ≠ node_type_t.INTERRUPTED_NODE →
        (send_node_desc_message c pack_array_desc pack_basis p keep_description_of_pruned
          sensitivity_analysis x node_type lp_desc new_lp_desc i1 iv basis0 size0).sent
          = [node_msg_val.repricing (decide (p.colgen_strategy &&& c.COLGEN_REPRICING ≠ 0)),
             node_msg_val.node_type node_type, node_msg_val.dbl p.lp_data.objval,
             node_msg_val.int new_lp_desc.nf_status] ++
            (pack_array_desc new_lp_desc.uind ++
              (if deal_with_nf c new_lp_desc then pack_array_desc new_lp_desc.not_fixed
               else []) ++
              pack_array_desc new_lp_desc.cutind ++
              pack_basis new_lp_desc.basis false).map node_msg_val.codec ++
            blob_items new_lp_desc)) ∧
    (bc_level ≠ 0 →
      (codec_call.pack_basis_diff ∈
          (build_tm_desc c bc_level lp_desc new_lp_desc i1 iv basis0 size0).calls ↔
        (new_lp_desc.basis.basis_exists = true ∧ lp_desc.basis.basis_exists = true)) ∧
      (¬ (new_lp_desc.basis.basis_exists = true ∧ lp_desc.basis.basis_exists = true) →
        basis_same
          (build_tm_desc c bc_level lp_desc new_lp_desc i1 iv basis0 size0).new_tm_desc.basis
          new_lp_desc.basis) ∧
      ((new_lp_desc.basis.basis_exists = true ∧ lp_desc.basis.basis_exists = true) →
        ∃ (ut ct : desc_type) (m : Nat → Int),
          (build_tm_desc c bc_level lp_desc new_lp_desc i1 iv basis0
              size0).new_tm_desc.basis
            = { (pack_basis_diff true basis0 size0 lp_desc new_lp_desc ut ct m).basis with
                basis_exists := new_lp_desc.basis.basis_exists })) ∧
    (p.bc_level ≠ 0 →
      ¬ ((node_type = node_type_t.INFEASIBLE_PRUNED ∨
          node_type = node_type_t.OVER_UB_PRUNED ∨ node_type = node_type_t.DISCARDED_NODE ∨
          node_type = node_type_t.FEASIBLE_PRUNED) ∧ keep_description_of_pruned = 0) →
      node_type ≠ node_type_t.INTERRUPTED_NODE →
      (codec_call.pack_basis_diff ∈
          (send_node_desc_message c pack_array_desc pack_basis p keep_description_of_pruned
            sensitivity_analysis x node_type lp_desc new_lp_desc i1 iv basis0 size0).calls ↔
        (new_lp_desc.basis.basis_exists = true ∧ lp_desc.basis.basis_exists = true)) ∧
      (¬ (new_lp_desc.basis.basis_exists = true ∧ lp_desc.basis.basis_exists = true) →
        ∃ before : List wire_val,
          (send_node_desc_message c pack_array_desc pack_basis p keep_description_of_pruned
            sensitivity_analysis x node_type lp_desc new_lp_desc i1 iv basis0 size0).sent
            = [node_msg_val.repricing
                 (decide (p.colgen_strategy &&& c.COLGEN_REPRICING ≠ 0)),
               node_msg_val.node_type node_type, node_msg_val.dbl p.lp_data.objval,
               node_msg_val.int new_lp_desc.nf_status] ++
              (before ++ pack_basis new_lp_desc.basis false).map node_msg_val.codec ++
              blob_items new_lp_desc)) := by
  refine ⟨?_, ?_, ?_, ?_⟩
  · rw [build_tm_desc_level_zero]
    refine ⟨rfl, rfl, rfl, COPY_ARRAY_DESC_same _, COPY_ARRAY_DESC_same _, ?_, rfl,
      copy_basis_same _⟩
    intro hd
    simp only [hd, if_true]
    exact COPY_ARRAY_DESC_same _
  · intro hl
    obtain ⟨h1, h2, h3, h4⟩ := send_node_desc_message_level_zero c pack_array_desc
      pack_basis p keep_description_of_pruned sensitivity_analysis x node_type lp_desc
      new_lp_desc i1 iv basis0 size0 hl
    exact ⟨h1, h2, h3, fun hs hi => (h4 hs hi).1⟩
  · intro hl
    obtain ⟨h1, h2, h3⟩ := build_tm_desc_deeper_basis c bc_level lp_desc new_lp_desc i1 iv
      basis0 size0 hl
    refine ⟨h1, ?_, h3⟩
    intro hnb
    rw [h2 hnb]
    exact copy_basis_same _
  · intro hl hs hi
    obtain ⟨h1, h2, _⟩ := send_node_desc_message_deeper_basis c pack_array_desc pack_basis
      p keep_description_of_pruned sensitivity_analysis x node_type lp_desc new_lp_desc i1
      iv basis0 size0 hl hs hi
    exact ⟨h1, h2⟩

/-- An instance of `send_node_desc_level_zero_explicit`: at level `0` the not yet fixed
variables `1, ..., 5, 7` are stored as they are, with no call of a difference encoder,
and at level `1` the two sample descriptions, which both have a basis, lead to a call of
`pack_basis_diff`. -/
theorem send_node_desc_level_zero_explicit_witness :
    (build_tm_desc sample_constants 0 sample_nf_old (sample_nf_new 13) (fun _ => 0)
      (fun _ => 0) zero_basis 0).calls = [] ∧
    array_same
      (build_tm_desc sample_constants 0 sample_nf_old (sample_nf_new 13) (fun _ => 0)
        (fun _ => 0) zero_basis 0).new_tm_desc.not_fixed
      (sample_nf_new 13).not_fixed ∧
    codec_call.pack_basis_diff ∈
      (build_tm_desc sample_constants 1 sample_nf_old (sample_nf_new 13) (fun _ => 0)
        (fun _ => 0) zero_basis 0).calls :=
  have h := send_node_desc_level_zero_explicit sample_constants (fun _ => []) (fun _ _ => [])
    (sample_lp []) 0 0 [] (node_type_t.other 0) sample_nf_old (sample_nf_new 13)
    (fun _ => 0) (fun _ => 0) zero_basis 0 1
  ⟨h.1.1, h.1.2.2.2.2.2.1 (by decide),
    (h.2.2.1 (by decide)).1.mpr ⟨by decide, by decide⟩⟩

/-! ## `send_node_desc`: the description built for the tree manager decodes -/

/-- The scratch area after the in-process `pack_array_desc_diff`: a difference of
positive size lies at its start, and its first cell holds `-1` when the result is not a
difference. -/
theorem pack_array_desc_diff_scratch_head (pack_array_desc : array_desc → List wire_val)
    (ad new_ad : array_desc) (itmp : Nat → Int) (hty : new_ad.type ≠ WRT_PARENT) :
    ((pack_array_desc_diff true pack_array_desc ad new_ad itmp).desc.type = WRT_PARENT →
      (pack_array_desc_diff true pack_array_desc ad new_ad itmp).desc.size > 0 →
      rd (pack_array_desc_diff true pack_array_desc ad new_ad itmp).itmp 0
          (pack_array_desc_diff true pack_array_desc ad new_ad itmp).desc.size.toNat
        = (pack_array_desc_diff true pack_array_desc ad new_ad itmp).desc.list) ∧
    ((pack_array_desc_diff true pack_array_desc ad new_ad itmp).desc.type ≠ WRT_PARENT →
      (pack_array_desc_diff true pack_array_desc ad new_ad itmp).itmp 0 = -1) := by
  unfold pack_array_desc_diff
  simp only [if_true]
  generalize diff_loop ad.list new_ad.list ad.size new_ad.size
    (ad.size.toNat + new_ad.size.toNat) _ = s
  by_cases h1 : decide (new_ad.type ≠ NO_DATA_STORED ∧ new_ad.size > 0) = true
  · rw [if_pos h1]
    by_cases h2 : ad.size - s.i - s.j + s.k + s.l ≥ 0
    · rw [if_pos h2]
      refine ⟨fun h => absurd h hty, fun _ => ?_⟩
      simp [store]
    · rw [if_neg h2]
      refine ⟨fun _ hs => ?_, fun h => absurd rfl h⟩
      simp only at hs ⊢
      rw [if_pos hs]
  · rw [if_neg h1]
    refine ⟨fun h => absurd h hty, fun _ => ?_⟩
    simp [store]

/-- The first cell read is a member of what is read. -/
theorem rd_head_mem (m : Nat → Int) (n : Nat) (h : 0 < n) : m 0 ∈ rd m 0 n := by
  unfold rd
  exact List.mem_map.mpr ⟨0, List.mem_range.mpr h, rfl⟩

/-- The result of `pack_array_desc_diff` for ascending lists: either the difference of the
two lists, added entries first, or the new description. -/
theorem pack_array_desc_diff_cases (compile_in_lp : Bool)
    (pack_array_desc : array_desc → List wire_val) (ad new_ad : array_desc) (itmp : Nat → Int)
    (hA : ad.size = ad.list.length) (hB : new_ad.size = new_ad.list.length)
    (sA : List.Pairwise (· < ·) ad.list) (sB : List.Pairwise (· < ·) new_ad.list) :
    ((pack_array_desc_diff compile_in_lp pack_array_desc ad new_ad itmp).desc.type
        = WRT_PARENT ∧
      (pack_array_desc_diff compile_in_lp pack_array_desc ad new_ad itmp).desc.added
        = ((list_minus new_ad.list ad.list).length : Int) ∧
      (pack_array_desc_diff compile_in_lp pack_array_desc ad new_ad itmp).desc.list
        = list_minus new_ad.list ad.list ++ list_minus ad.list new_ad.list) ∨
    (pack_array_desc_diff compile_in_lp pack_array_desc ad new_ad itmp).desc = new_ad := by
  by_cases hnd : new_ad.type = NO_DATA_STORED
  · exact Or.inr (pack_array_desc_diff_no_data _ _ _ _ _ (Or.inr hnd))
  · rw [pack_array_desc_diff_desc _ _ _ _ _ hA hB hnd, merge_diff_sorted _ _ sA sB]
    simp only
    split_ifs
    · exact Or.inl ⟨rfl, rfl, rfl⟩
    · exact Or.inr rfl

/-- The index list description `send_node_desc` stores at a level below the root: what
`MAKE_TM_ARRAY_DESC` makes of the result of the in-process `pack_array_desc_diff` has the
type of that result and decodes, against the old list, to the new list. -/
theorem MAKE_TM_ARRAY_DESC_decodes (pack_array_desc : array_desc → List wire_val)
    (ad new_ad : array_desc) (itmp : Nat → Int)
    (hA : ad.size = ad.list.length) (hB : new_ad.size = new_ad.list.length)
    (hty : new_ad.type ≠ WRT_PARENT)
    (sA : List.Pairwise (· < ·) ad.list) (sB : List.Pairwise (· < ·) new_ad.list)
    (rA : ∀ x ∈ ad.list, 0 ≤ x) (rB : ∀ x ∈ new_ad.list, 0 ≤ x) :
    (MAKE_TM_ARRAY_DESC (pack_array_desc_diff true pack_array_desc ad new_ad itmp).desc new_ad
        (pack_array_desc_diff true pack_array_desc ad new_ad itmp).itmp).type
      = (pack_array_desc_diff true pack_array_desc ad new_ad itmp).desc.type ∧
    decode_array ad.list
        (MAKE_TM_ARRAY_DESC (pack_array_desc_diff true pack_array_desc ad new_ad itmp).desc
          new_ad (pack_array_desc_diff true pack_array_desc ad new_ad itmp).itmp)
      = new_ad.list := by
  obtain ⟨s1, s2⟩ := pack_array_desc_diff_scratch_head pack_array_desc ad new_ad itmp hty
  have hcases := pack_array_desc_diff_cases true pack_array_desc ad new_ad itmp hA hB sA sB
  generalize pack_array_desc_diff true pack_array_desc ad new_ad itmp = r at s1 s2 hcases ⊢
  by_cases hw : r.desc.type = WRT_PARENT
  · have hboth : r.desc.added = ((list_minus new_ad.list ad.list).length : Int) ∧
        r.desc.list = list_minus new_ad.list ad.list ++ list_minus ad.list new_ad.list := by
      rcases hcases with ⟨_, h⟩ | h
      · exact h
      · rw [h] at hw
        exact absurd hw hty
    obtain ⟨hadd, hlist⟩ := hboth
    have hne : r.desc.type ≠ EXPLICIT_LIST := by
      rw [hw]
      decide
    have hmk : MAKE_TM_ARRAY_DESC r.desc new_ad r.itmp = r.desc := by
      unfold MAKE_TM_ARRAY_DESC
      by_cases hs : r.desc.size > 0
      · have hrd := s1 hw hs
        have hpos : 0 < r.desc.size.toNat := by omega
        have hm : r.itmp 0 ∈ r.desc.list := by
          rw [← hrd]
          exact rd_head_mem r.itmp _ hpos
        have h0 : r.itmp 0 ≥ 0 := by
          rw [hlist] at hm
          rcases List.mem_append.mp hm with h | h
          · exact rB _ ((mem_list_minus _ _ _).mp h).1
          · exact rA _ ((mem_list_minus _ _ _).mp h).1
        simp only [if_pos hs, if_pos h0, if_neg hne, hrd]
      · simp only [if_neg hs]
    rw [hmk]
    refine ⟨rfl, ?_⟩
    unfold decode_array
    rw [if_pos hw, hadd, hlist]
    simp only [Int.toNat_ofNat, List.take_left', List.drop_left']
    exact merge_restores _ _ sA sB
  · have hr : r.desc = new_ad := by
      rcases hcases with ⟨h, _⟩ | h
      · exact absurd h hw
      · exact h
    have hneg : ¬ r.itmp 0 ≥ 0 := by
      rw [s2 hw]
      decide
    have hcells : cells new_ad.list 0 new_ad.size.toNat = new_ad.list := by
      rw [hB, Int.toNat_ofNat]
      exact cells_all _
    unfold MAKE_TM_ARRAY_DESC decode_array
    rw [hr]
    by_cases hs : new_ad.size > 0
    · simp only [if_pos hs, if_neg hneg, hcells]
      split_ifs <;> simp_all
    · simp only [if_neg hs, if_neg hty, and_self]

/-- A difference built by `pack_base_diff`, written over the old statuses, gives the new
statuses. -/
theorem pack_base_diff_overwrite (compile_in_lp : Bool) (oldstat newstat : List Int)
    (itmp : Nat → Int) (ho : oldstat.length = newstat.length)
    (hw : (pack_base_diff compile_in_lp (newstat.length : Int) oldstat newstat itmp).type
      = WRT_PARENT) :
    overwrite_stat oldstat
        (rd (pack_base_diff compile_in_lp (newstat.length : Int) oldstat newstat itmp).itmp 0
          (pack_base_diff compile_in_lp (newstat.length : Int) oldstat newstat
            itmp).size.toNat)
        (rd (pack_base_diff compile_in_lp (newstat.length : Int) oldstat newstat itmp).itmp
          newstat.length
          (pack_base_diff compile_in_lp (newstat.length : Int) oldstat newstat
            itmp).size.toNat)
      = newstat := by
  obtain ⟨hiff, hrec⟩ := base_loop_final oldstat newstat newstat.length itmp
  unfold pack_base_diff at hw ⊢
  simp only [Int.toNat_ofNat] at hw ⊢
  by_cases h : 2 * (mismatches oldstat newstat newstat.length).length < newstat.length
  · obtain ⟨hk, h1, h2⟩ := hrec h
    rw [if_pos (hiff.mpr h)]
    simp only [Int.toNat_ofNat, hk, h1, h2]
    exact overwrite_mismatches oldstat newstat newstat.length ho rfl
  · rw [if_neg (fun h' => h (hiff.mp h'))] at hw
    cases hw

/-- The status block of base slots that the in-process `pack_basis_diff` stores decodes,
against the old statuses, to the new statuses. -/
theorem PACK_BASE_DIFF_decodes (newb oldb : double_array_desc) (itmp : Nat → Int)
    (hs : newb.size = (newb.stat.length : Int))
    (hl : oldb.stat.length = newb.stat.length) :
    decode_base oldb.stat (PACK_BASE_DIFF newb oldb zero_block itmp).1 = newb.stat := by
  have hW := pack_base_diff_overwrite true oldb.stat newb.stat itmp hl
  unfold PACK_BASE_DIFF decode_base
  simp only
  rw [hs]
  generalize pack_base_diff true (newb.stat.length : Int) oldb.stat newb.stat itmp = r at hW ⊢
  by_cases hw : r.type = WRT_PARENT
  · have h6 := hW hw
    rw [if_pos hw]
    by_cases hp : r.size > 0
    · rw [if_pos hp]
      simp only [if_pos hw]
      rw [Int.toNat_ofNat]
      exact h6
    · rw [if_neg hp]
      simp only [if_pos hw, zero_block]
      have h0 : r.size.toNat = 0 := by omega
      rw [h0, rd_zero, rd_zero] at h6
      exact h6
  · rw [if_neg hw]
    by_cases hp : (newb.stat.length : Int) > 0
    · rw [if_pos hp]
      simp only [if_neg hw]
      rw [Int.toNat_ofNat]
      exact cells_all _
    · rw [if_neg hp]
      simp only [if_neg hw, zero_block]
      have h0 : newb.stat.length = 0 := by omega
      exact (List.length_eq_zero.mp h0).symm

/-- The pairs picked by the two-pointer comparison reconstruct the new statuses: an index
of the new list has its new status in the picked pairs, or is not among them and has its
new status at its place in the old list. -/
theorem extra_ref_decodes (oldlist oldstat newlist newstat : List Int)
    (hns : newstat.length = newlist.length)
    (sO : List.Pairwise (· < ·) oldlist) (sN : List.Pairwise (· < ·) newlist)
    (iO : ∀ x ∈ oldlist, is_int x) (iN : ∀ x ∈ newlist, is_int x) :
    newlist.map (fun x =>
      match List.lookup x (extra_ref (pairs oldlist oldstat oldlist.length)
          (pairs newlist newstat newlist.length)) with
      | some st => st
      | none => oldstat.getD (oldlist.indexOf x) 0) = newstat := by
  have hN := pairs_sorted newlist newstat newlist.length rfl sN
  have hsub := extra_ref_sublist (pairs oldlist oldstat oldlist.length)
    (pairs newlist newstat newlist.length)
  have hsorted := List.Pairwise.sublist hsub hN
  have hz : ∀ o ∈ pairs oldlist oldstat oldlist.length,
      ∀ n ∈ pairs newlist newstat newlist.length,
      wrap_int (o.1 - n.1) = 0 → o.1 = n.1 := by
    intro o ho n hn h0
    have i1 := iO o.1 (pairs_fst_mem _ _ _ rfl o ho)
    have i2 := iN n.1 (pairs_fst_mem _ _ _ rfl n hn)
    unfold is_int at i1 i2
    unfold wrap_int at h0
    omega
  generalize hE : extra_ref (pairs oldlist oldstat oldlist.length)
    (pairs newlist newstat newlist.length) = E at hsub hsorted
  apply List.ext_getElem
  · rw [List.length_map, hns]
  · intro j h1 h2
    rw [List.length_map] at h1
    rw [List.getElem_map]
    have hgN : newlist[j] = newlist.getD j 0 := (List.getD_eq_getElem _ _ h1).symm
    have hgS : newstat[j] = newstat.getD j 0 := (List.getD_eq_getElem _ _ h2).symm
    have hpN : (newlist.getD j 0, newstat.getD j 0)
        ∈ pairs newlist newstat newlist.length :=
      (mem_pairs _ _ _ _).mpr ⟨j, h1, rfl, rfl⟩
    rw [hgN, hgS]
    by_cases hm : (newlist.getD j 0, newstat.getD j 0) ∈ E
    · have hl := lookup_of_mem_sorted E hsorted _ hm
      simp only at hl
      rw [hl]
    · have hnone : List.lookup (newlist.getD j 0) E = none := by
        rw [List.lookup_eq_none_iff]
        intro q hq
        have hqN : q ∈ pairs newlist newstat newlist.length := hsub.subset hq
        obtain ⟨i, hi, e1, e2⟩ := (mem_pairs _ _ _ q).mp hqN
        simp only [bne_iff_ne, ne_eq]
        intro heq
        have hij : i = j := getD_inj_of_sorted newlist sN i j hi h1 (by rw [e1, heq])
        subst hij
        apply hm
        have hqe : q = (newlist.getD i 0, newstat.getD i 0) := Prod.ext e1.symm e2.symm
        rw [← hqe]
        exact hq
      rw [hnone]
      have hin : (newlist.getD j 0, newstat.getD j 0)
          ∈ pairs oldlist oldstat oldlist.length := by
        apply extra_ref_missing _ _ hz _ hpN
        rw [hE]
        exact hm
      obtain ⟨i, hi, e1, e2⟩ := (mem_pairs _ _ _ _).mp hin
      simp only at e1 e2 ⊢
      rw [← e1, List.getD_eq_getElem _ _ hi, List.indexOf_getElem sO.nodup i hi]
      exact e2

/-- The status block of extra slots that the in-process `pack_basis_diff` stores decodes,
against the old indices and statuses, to the new statuses. -/
theorem PACK_EXTRA_DIFF_decodes (newad oldad : array_desc) (newb oldb : double_array_desc)
    (var : desc_type) (itmp : Nat → Int) (size : Int)
    (hno : oldad.size = (oldad.list.length : Int))
    (hnn : newad.size = (newad.list.length : Int))
    (hns : newb.stat.length = newad.list.length)
    (hbs : newb.size = (newb.stat.length : Int))
    (sO : List.Pairwise (· < ·) oldad.list) (sN : List.Pairwise (· < ·) newad.list)
    (iO : ∀ x ∈ oldad.list, is_int x) (iN : ∀ x ∈ newad.list, is_int x) :
    decode_extra oldad.list oldb.stat newad.list
        (PACK_EXTRA_DIFF newad oldad newb oldb zero_block var itmp size).1 = newb.stat := by
  have hdec := extra_ref_decodes oldad.list oldb.stat newad.list newb.stat hns sO sN iO iN
  unfold PACK_EXTRA_DIFF decode_extra
  simp only
  by_cases hf : var = EXPLICIT_LIST ∨ oldb.type = EXPLICIT_LIST
  · have hr : pack_extra_diff true oldad oldb.stat newad newb.stat oldb.type var itmp size
        = { type := EXPLICIT_LIST, size := size, itmp := itmp, sent := [] } := by
      unfold pack_extra_diff
      simp only [if_pos hf, if_true]
    rw [hr]
    simp only
    have hne : ¬ (EXPLICIT_LIST = WRT_PARENT) := by decide
    rw [if_neg hne]
    by_cases hp : newb.size > 0
    · rw [if_pos hp]
      simp only [if_neg hne]
      rw [hbs, Int.toNat_ofNat]
      exact cells_all _
    · rw [if_neg hp]
      simp only [if_neg hne, zero_block]
      have h0 : newb.stat.length = 0 := by omega
      exact (List.length_eq_zero.mp h0).symm
  · have h1 : var ≠ EXPLICIT_LIST := fun h => hf (Or.inl h)
    have h2 : oldb.type ≠ EXPLICIT_LIST := fun h => hf (Or.inr h)
    obtain ⟨ty, hrec⟩ := pack_extra_diff_spec true oldad oldb.stat newad newb.stat oldb.type
      var itmp size oldad.list.length newad.list.length hno hnn h1 h2
    generalize pack_extra_diff true oldad oldb.stat newad newb.stat oldb.type var itmp size
      = r at ty hrec ⊢
    generalize hE : extra_ref (pairs oldad.list oldb.stat oldad.list.length)
      (pairs newad.list newb.stat newad.list.length) = E at ty hrec hdec
    by_cases hD : 2 * E.length < newad.list.length
    · rw [if_pos hD] at ty
      obtain ⟨hsz, hmem, _⟩ := hrec hD
      obtain ⟨eidx, estat⟩ := hmem rfl
      rw [if_pos ty]
      have hzip : List.zip (E.map Prod.fst) (E.map Prod.snd) = E :=
        (List.zip_of_prod rfl rfl).symm
      by_cases hp : r.size > 0
      · rw [if_pos hp]
        simp only [if_pos ty]
        rw [hsz, Int.toNat_ofNat, eidx, hnn]
        have hoff : ((newad.list.length : Int).tdiv 2 + 1).toNat
            = newad.list.length / 2 + 1 := modstat_off_cast newad.list.length
        rw [hoff, estat, hzip]
        exact hdec
      · rw [if_neg hp]
        simp only [if_pos ty, zero_block]
        have h0 : E = [] := List.length_eq_zero.mp (by omega)
        rw [h0] at hdec
        exact hdec
    · rw [if_neg hD] at ty
      have hne : ¬ (r.type = WRT_PARENT) := by
        rw [ty]
        decide
      rw [if_neg hne]
      by_cases hp : newb.size > 0
      · rw [if_pos hp]
        simp only [if_neg hne]
        rw [hbs, Int.toNat_ofNat]
        exact cells_all _
      · rw [if_neg hp]
        simp only [if_neg hne, zero_block]
        have h0 : newb.stat.length = 0 := by omega
        exact (List.length_eq_zero.mp h0).symm

/-- A copied index list that is not a difference decodes to the list. -/
theorem COPY_ARRAY_DESC_decodes (parent : List Int) (ad : array_desc)
    (hty : ad.type ≠ WRT_PARENT) (hs : ad.size = (ad.list.length : Int)) :
    decode_array parent (COPY_ARRAY_DESC ad) = ad.list := by
  unfold COPY_ARRAY_DESC decode_array
  by_cases hp : ad.size > 0
  · simp only [if_pos hp, if_neg hty]
    rw [hs, Int.toNat_ofNat]
    exact cells_all _
  · simp only [if_neg hp, if_neg hty]

/-- A copied status block that is not a difference holds the statuses. -/
theorem COPY_STAT_stat (b : double_array_desc) (hs : b.size = (b.stat.length : Int)) :
    (COPY_STAT b b).type = b.type ∧ (COPY_STAT b b).stat = b.stat := by
  unfold COPY_STAT
  by_cases hp : b.size > 0
  · simp only [if_pos hp, true_and]
    rw [hs, Int.toNat_ofNat]
    exact cells_all _
  · simp only [if_neg hp, and_self]

/-- A copied status block of base slots that is not a difference decodes to the
statuses. -/
theorem COPY_STAT_decodes_base (parent : List Int) (b : double_array_desc)
    (hty : b.type ≠ WRT_PARENT) (hs : b.size = (b.stat.length : Int)) :
    decode_base parent (COPY_STAT b b) = b.stat := by
  obtain ⟨h1, h2⟩ := COPY_STAT_stat b hs
  unfold decode_base
  rw [h1, if_neg hty, h2]

/-- A copied status block of extra slots that is not a difference decodes to the
statuses. -/
theorem COPY_STAT_decodes_extra (pl ps nl : List Int) (b : double_array_desc)
    (hty : b.type ≠ WRT_PARENT) (hs : b.size = (b.stat.length : Int)) :
    decode_extra pl ps nl (COPY_STAT b b) = b.stat := by
  obtain ⟨h1, h2⟩ := COPY_STAT_stat b hs
  unfold decode_extra
  rw [h1, if_neg hty, h2]

/-- An entry of a list in order is an `int`. -/
theorem is_int_of_bounds (l : List Int) (h : ∀ x ∈ l, 0 ≤ x ∧ x < 2147483648) :
    ∀ x ∈ l, is_int x := by
  intro x hx
  have := h x hx
  unfold is_int
  omega

/-- The description `send_node_desc` builds for the tree manager in the in-process build
(lines 739-802) decodes, against the description the process started from, to the new
description of the node: in `uind`, `cutind`, `nf_status` and the basis. -/
theorem build_tm_desc_decodes (c : lp_constants) (bc_level : Int)
    (lp_desc new_lp_desc : node_desc) (i1 iv : Nat → Int) (basis0 : basis_desc) (size0 : Int)
    (hO : lists_ok lp_desc) (hN : lists_ok new_lp_desc) (hE : types_explicit new_lp_desc)
    (hbv : lp_desc.basis.basevars.stat.length = new_lp_desc.basis.basevars.stat.length)
    (hbr : lp_desc.basis.baserows.stat.length = new_lp_desc.basis.baserows.stat.length) :
    desc_decodes lp_desc
      (build_tm_desc c bc_level lp_desc new_lp_desc i1 iv basis0 size0).new_tm_desc
      new_lp_desc := by
  obtain ⟨ou1, ou2, ou3, oc1, oc2, oc3, _, _, _, oev, _, oer⟩ := hO
  obtain ⟨nu1, nu2, nu3, nc1, nc2, nc3, nbv, nbr, nev1, nev2, ner1, ner2⟩ := hN
  obtain ⟨eu, ec, ebv, ebr, eev, eer⟩ := hE
  have hcopy : ∀ parent : node_desc,
      new_lp_desc.basis.basis_exists = true →
      decode_base parent.basis.basevars.stat (copy_basis new_lp_desc.basis).basevars
        = new_lp_desc.basis.basevars.stat ∧
      decode_base parent.basis.baserows.stat (copy_basis new_lp_desc.basis).baserows
        = new_lp_desc.basis.baserows.stat ∧
      decode_extra parent.uind.list parent.basis.extravars.stat new_lp_desc.uind.list
        (copy_basis new_lp_desc.basis).extravars = new_lp_desc.basis.extravars.stat ∧
      decode_extra parent.cutind.list parent.basis.extrarows.stat new_lp_desc.cutind.list
        (copy_basis new_lp_desc.basis).extrarows = new_lp_desc.basis.extrarows.stat := by
    intro parent _
    unfold copy_basis
    exact ⟨COPY_STAT_decodes_base _ _ ebv nbv, COPY_STAT_decodes_base _ _ ebr nbr,
      COPY_STAT_decodes_extra _ _ _ _ eev nev1, COPY_STAT_decodes_extra _ _ _ _ eer ner1⟩
  unfold build_tm_desc
  by_cases h0 : bc_level = 0
  · rw [if_pos h0]
    unfold desc_decodes
    exact ⟨COPY_ARRAY_DESC_decodes _ _ eu nu1, COPY_ARRAY_DESC_decodes _ _ ec nc1, rfl, rfl,
      hcopy lp_desc⟩
  · rw [if_neg h0]
    have hu := MAKE_TM_ARRAY_DESC_decodes (fun _ => []) lp_desc.uind new_lp_desc.uind i1
      ou1 nu1 eu ou2 nu2 (fun x hx => (ou3 x hx).1) (fun x hx => (nu3 x hx).1)
    have hc := MAKE_TM_ARRAY_DESC_decodes (fun _ => []) lp_desc.cutind new_lp_desc.cutind
      (pack_array_desc_diff true (fun _ => []) lp_desc.uind new_lp_desc.uind i1).itmp
      oc1 nc1 ec oc2 nc2 (fun x hx => (oc3 x hx).1) (fun x hx => (nc3 x hx).1)
    simp only
    by_cases hb : ¬ new_lp_desc.basis.basis_exists = true ∨ ¬ lp_desc.basis.basis_exists = true
    · rw [if_pos hb]
      unfold desc_decodes
      exact ⟨hu.2, hc.2, rfl, rfl, hcopy lp_desc⟩
    · rw [if_neg hb]
      have hex : new_lp_desc.basis.basis_exists = true := by
        by_contra h
        exact hb (Or.inl h)
      unfold desc_decodes
      refine ⟨hu.2, hc.2, rfl, rfl, fun _ => ?_⟩
      unfold pack_basis_diff
      simp only [hex, not_true_eq_false, if_false, if_true, zero_basis]
      exact ⟨PACK_BASE_DIFF_decodes _ _ _ nbv hbv, PACK_BASE_DIFF_decodes _ _ _ nbr hbr,
        PACK_EXTRA_DIFF_decodes _ _ _ _ _ _ _ ou1 nu1 nev2 nev1 ou2 nu2
          (is_int_of_bounds _ ou3) (is_int_of_bounds _ nu3),
        PACK_EXTRA_DIFF_decodes _ _ _ _ _ _ _ oc1 nc1 ner2 ner1 oc2 nc2
          (is_int_of_bounds _ oc3) (is_int_of_bounds _ nc3)⟩

/-- Whether a description decodes does not depend on the user blob in it. -/
theorem desc_decodes_blob (parent stored full : node_desc) (size : Int) (blob : List Int) :
    desc_decodes parent { stored with desc_size := size, desc := blob } full
      ↔ desc_decodes parent stored full := Iff.rfl

/-- The sample `merge_descriptions` composes: what it makes of a stored description and of
a description that decodes against the stored lists decodes to the same against every
parent. -/
theorem sample_merging_callbacks_composes (q : lp_prob) (stored d full : node_desc)
    (hd : desc_decodes stored d full) (parent : node_desc) :
    desc_decodes parent
      (sample_merging_callbacks.add_bound_changes_to_desc
        (sample_merging_callbacks.merge_descriptions stored d) q) full := by
  obtain ⟨h1, h2, h3, h4, h5⟩ := hd
  have hne : ¬ (EXPLICIT_LIST = WRT_PARENT) := by decide
  unfold desc_decodes decode_array decode_base decode_extra
  simp only [sample_merging_callbacks, explicit_array, explicit_block, if_neg hne]
  refine ⟨h1, h2, h3, h4, fun hx => ?_⟩
  obtain ⟨h6, h7, h8, h9⟩ := h5 hx
  rw [h1, h2]
  exact ⟨h6, h7, h8, h9⟩

